import Mathlib

/-! # Red-black tree set (`bulumutka::Set<T>`) over an explicit node heap

The C++ container stores its nodes on the free store and links them with raw
`parent` / `left` / `right` pointers.  The embedding keeps that shape: a heap is a
list of cells addressed by position, a pointer is `Option Nat` (`none` is
`nullptr`), and every function of `RedBlackTree.h` becomes a function that threads
the heap (and, for the members that assign `root_`, the whole set record).

A run either returns a result or stops with a `Fault`: `undefined` when the C++
program would dereference `nullptr` or a deleted node, `fuel` when a loop did not
finish within its fuel.
-/

namespace bulumutka

/-! ## Data model -/

/-- A pointer to a node: an address into the heap, or `none` for `nullptr`. -/
abbrev Ptr := Option Nat

/-- The record `Node<T>`: payload, three links and the colour bit
(`false` is black, `true` is red). -/
structure Node (α : Type) where
  value : α
  parent : Ptr
  left : Ptr
  right : Ptr
  color : Bool
deriving DecidableEq, Repr

/-- The free store: cell `a` holds `some n` while the node at address `a` is alive
and `none` once it has been deleted. -/
abbrev Heap (α : Type) := List (Option (Node α))

/-- The members of `Set<T>`: the owned nodes, `root_` and `size_`. -/
structure Set (α : Type) where
  heap : Heap α
  root_ : Ptr
  size_ : Nat
deriving DecidableEq, Repr

/-- Why a run of the program yields no result. -/
inductive Fault where
  | undefined
  | fuel
deriving DecidableEq, Repr

/-- A run of a piece of the program: its result, or the fault that stopped it. -/
abbrev Run := Except Fault

/-- The colour constant `BLACK`. -/
abbrev BLACK : Bool := false

/-- The colour constant `RED`. -/
abbrev RED : Bool := true

section Model

variable {α : Type}

/-! ## Heap primitives -/

/-- Content of the cell at address `a`, if the node is alive. -/
def Heap.read (h : Heap α) (a : Nat) : Option (Node α) := (h.get? a).join

/-- Apply `f` to the live node at address `a`; other cells are untouched. -/
def Heap.update : Heap α → Nat → (Node α → Node α) → Heap α
  | [], _, _ => []
  | c :: h, 0, f => c.map f :: h
  | c :: h, a + 1, f => c :: Heap.update h a f

/-- Mark the cell at address `a` as deleted. -/
def Heap.clear : Heap α → Nat → Heap α
  | [], _ => []
  | _ :: h, 0 => none :: h
  | c :: h, a + 1 => c :: Heap.clear h a

/-- The expression `new Node<T>(...)`: the node is placed in a fresh cell. -/
def Heap.alloc (h : Heap α) (n : Node α) : Heap α × Ptr := (h ++ [some n], some h.length)

/-- A lookup that found nothing is undefined behaviour of the program. -/
def Run.ofOption {β : Type} : Option β → Run β
  | none => throw Fault.undefined
  | some v => pure v

/-- Dereference `p`: undefined on `nullptr` and on a deleted node. -/
def deref (h : Heap α) (p : Ptr) : Run (Node α) := Run.ofOption (p.bind h.read)

/-- The statement `delete p`; deleting `nullptr` does nothing. -/
def Heap.free (h : Heap α) (p : Ptr) : Run (Heap α) :=
  match p with
  | none => pure h
  | some a => do
    let _ ← deref h p
    pure (h.clear a)

/-- Read `p->value`. -/
def getValue (h : Heap α) (p : Ptr) : Run α := do pure (← deref h p).value

/-- Read `p->parent`. -/
def getParent (h : Heap α) (p : Ptr) : Run Ptr := do pure (← deref h p).parent

/-- Read `p->left`. -/
def getLeft (h : Heap α) (p : Ptr) : Run Ptr := do pure (← deref h p).left

/-- Read `p->right`. -/
def getRight (h : Heap α) (p : Ptr) : Run Ptr := do pure (← deref h p).right

/-- Read `p->color`. -/
def getColor (h : Heap α) (p : Ptr) : Run Bool := do pure (← deref h p).color

/-- Assign through `p`: undefined unless `p` points to a live node. -/
def assign (h : Heap α) (p : Ptr) (f : Node α → Node α) : Run (Heap α) :=
  Run.ofOption (p.bind fun a => (h.read a).map fun _ => h.update a f)

/-- The assignment `p->parent = x`. -/
def setParent (h : Heap α) (p x : Ptr) : Run (Heap α) :=
  assign h p fun n => { n with parent := x }

/-- The assignment `p->left = x`. -/
def setLeft (h : Heap α) (p x : Ptr) : Run (Heap α) :=
  assign h p fun n => { n with left := x }

/-- The assignment `p->right = x`. -/
def setRight (h : Heap α) (p x : Ptr) : Run (Heap α) :=
  assign h p fun n => { n with right := x }

/-- The assignment `p->color = c`. -/
def setColor (h : Heap α) (p : Ptr) (c : Bool) : Run (Heap α) :=
  assign h p fun n => { n with color := c }

/-- Short-circuit conjunction `x && y`: `y` is evaluated only when `x` is true. -/
def andThen (x y : Run Bool) : Run Bool := do
  if (← x) then y else pure false

/-- Short-circuit disjunction `x || y`: `y` is evaluated only when `x` is false. -/
def orElse (x y : Run Bool) : Run Bool := do
  if (← x) then pure true else y

/-- The test `!p || p->color == BLACK`. -/
def nullOrBlack (h : Heap α) (p : Ptr) : Run Bool :=
  orElse (pure (p = none)) (do pure ((← getColor h p) = BLACK))

/-! ## Free helper functions -/

/-- Equality derived from the ordering: neither value is less than the other. -/
def equals [LinearOrder α] (first second : α) : Bool :=
  !decide (first < second) && !decide (second < first)

/-- Put `node` in the place of `target`: copy colour and links, then redirect the
parent's child link and the children's parent links. -/
def change_node (h : Heap α) (node target : Ptr) : Run (Heap α) := do
  let h ← setColor h node (← getColor h target)
  let h ← setParent h node (← getParent h target)
  let h ← setLeft h node (← getLeft h target)
  let h ← setRight h node (← getRight h target)
  let np ← getParent h node
  let h ← if np ≠ none then do
      if (← getLeft h np) = target then setLeft h np node else setRight h np node
    else pure h
  let nl ← getLeft h node
  let h ← if nl ≠ none then setParent h nl node else pure h
  let nr ← getRight h node
  if nr ≠ none then setParent h nr node else pure h

/-- The grandparent of `node`, or `nullptr`. -/
def getGrandparent (h : Heap α) (node : Ptr) : Run Ptr :=
  if node ≠ none then do
    let p ← getParent h node
    if p ≠ none then getParent h p else pure none
  else pure none

/-- The sibling of the parent of `node`, or `nullptr`. -/
def getUncle (h : Heap α) (node : Ptr) : Run Ptr := do
  let grand ← getGrandparent h node
  if grand = none then pure none
  else if (← getParent h node) = (← getLeft h grand) then getRight h grand
  else getLeft h grand

/-- The other child of the parent of `node`, or `nullptr` at the root. -/
def subling (h : Heap α) (node : Ptr) : Run Ptr := do
  let p ← getParent h node
  if p = none then pure none
  else if (← getLeft h p) = node then getRight h p
  else getLeft h p

/-- The loop `while (p->right != nullptr) p = p->right`. -/
def descend_right : Nat → Heap α → Ptr → Run Ptr
  | 0, _, _ => throw Fault.fuel
  | fuel + 1, h, p => do
    let r ← getRight h p
    if r ≠ none then descend_right fuel h r else pure p

/-- The loop `while (p->left) p = p->left`. -/
def descend_left : Nat → Heap α → Ptr → Run Ptr
  | 0, _, _ => throw Fault.fuel
  | fuel + 1, h, p => do
    let l ← getLeft h p
    if l ≠ none then descend_left fuel h l else pure p

/-- The upward loop of `previous`: the first ancestor reached from its right child. -/
def previous_up : Nat → Heap α → Ptr → Run Ptr
  | 0, _, _ => throw Fault.fuel
  | fuel + 1, h, prev => do
    let p ← getParent h prev
    if p ≠ none then do
      if (← getRight h p) = prev then pure p else previous_up fuel h p
    else pure none

/-- The upward loop of `next`: the first ancestor reached from its left child. -/
def next_up : Nat → Heap α → Ptr → Run Ptr
  | 0, _, _ => throw Fault.fuel
  | fuel + 1, h, nx => do
    let p ← getParent h nx
    if p ≠ none then do
      if (← getLeft h p) = nx then pure p else next_up fuel h p
    else pure none

/-- In-order predecessor of `node`, or `nullptr`. -/
def previous (fuel : Nat) (h : Heap α) (node : Ptr) : Run Ptr :=
  if node = none then pure none
  else do
    let l ← getLeft h node
    if l ≠ none then descend_right fuel h l else previous_up fuel h node

/-- In-order successor of `node`, or `nullptr`. -/
def next (fuel : Nat) (h : Heap α) (node : Ptr) : Run Ptr :=
  if node = none then pure none
  else do
    let r ← getRight h node
    if r ≠ none then descend_left fuel h r else next_up fuel h node

/-- Leftmost node below `root`, or `nullptr` for the empty tree. -/
def begin_node (fuel : Nat) (h : Heap α) (root : Ptr) : Run Ptr :=
  if root ≠ none then descend_left fuel h root else pure root

/-- Rightmost node below `root`, or `nullptr` for the empty tree. -/
def end_node (fuel : Nat) (h : Heap α) (root : Ptr) : Run Ptr :=
  if root ≠ none then descend_right fuel h root else pure root

/-! ## Search -/

/-- The loop of `Set<T>::find_`, started at `node`. -/
def find_loop [LinearOrder α] : Nat → Heap α → α → Ptr → Run Ptr
  | 0, _, _, _ => throw Fault.fuel
  | fuel + 1, h, key, node =>
    if node = none then pure node
    else do
      let v ← getValue h node
      if equals key v then pure node
      else if key < v then find_loop fuel h key (← getLeft h node)
      else find_loop fuel h key (← getRight h node)

/-- The member `Set<T>::find_`: the node holding a value equal to `key`, or `nullptr`. -/
def Set.find_ [LinearOrder α] (s : Set α) (key : α) : Run Ptr :=
  find_loop (s.heap.length + 1) s.heap key s.root_

/-- The loop of `Set<T>::lower_bound_` with the running `answer`. -/
def lower_bound_loop [LinearOrder α] : Nat → Heap α → α → Ptr → Ptr → Run Ptr
  | 0, _, _, _, _ => throw Fault.fuel
  | fuel + 1, h, key, node, answer =>
    if node = none then pure answer
    else do
      let v ← getValue h node
      if key < v then do
        let answer ← if answer ≠ none then do
            let av ← getValue h answer
            if decide (v < av) || equals v av then pure node else pure answer
          else pure node
        lower_bound_loop fuel h key (← getLeft h node) answer
      else if v < key then lower_bound_loop fuel h key (← getRight h node) answer
      else pure node

/-- The member `Set<T>::lower_bound_`. -/
def Set.lower_bound_ [LinearOrder α] (s : Set α) (key : α) : Run Ptr :=
  lower_bound_loop (s.heap.length + 1) s.heap key s.root_ none

/-- The member `Set<T>::size`. -/
def Set.size (s : Set α) : Nat := s.size_

/-- The member `Set<T>::empty`. -/
def Set.empty (s : Set α) : Bool := s.size_ == 0

/-- The default constructor `Set<T>::Set()`. -/
def Set.new : Set α := { heap := [], root_ := none, size_ := 0 }

/-! ## Rotations -/

/-- The member `rotate_left_`: the right child of `grand` takes the place of `grand`. -/
def rotate_left_ (h : Heap α) (grand : Ptr) : Run (Heap α) := do
  let alter ← getParent h grand
  let past ← getRight h grand
  let child ← getLeft h past
  let h ← setParent h past alter
  let h ← if alter ≠ none then do
      if (← getLeft h alter) = grand then setLeft h alter past else setRight h alter past
    else pure h
  let h ← setParent h grand past
  let h ← setLeft h past grand
  let h ← setRight h grand child
  if child ≠ none then setParent h child grand else pure h

/-- The member `rotate_right_`: the left child of `grand` takes the place of `grand`. -/
def rotate_right_ (h : Heap α) (grand : Ptr) : Run (Heap α) := do
  let alter ← getParent h grand
  let past ← getLeft h grand
  let child ← getRight h past
  let h ← setParent h past alter
  let h ← setParent h grand past
  let h ← setRight h past grand
  let h ← if alter ≠ none then do
      if (← getLeft h alter) = grand then setLeft h alter past else setRight h alter past
    else pure h
  let h ← setLeft h grand child
  if child ≠ none then setParent h child grand else pure h

/-- The member `small_left_rotate_`: `node`, a right child whose parent is a left
child, is lifted above its parent. -/
def small_left_rotate_ (h : Heap α) (node : Ptr) : Run (Heap α) := do
  let parent ← getParent h node
  let grand ← getGrandparent h node
  let h ← setParent h node grand
  let h ← setLeft h grand node
  let h ← setParent h parent node
  let h ← setRight h parent (← getLeft h node)
  let pr ← getRight h parent
  let h ← if pr ≠ none then setParent h pr parent else pure h
  setLeft h node parent

/-- The member `small_right_rotate_`: the mirror image of `small_left_rotate_`. -/
def small_right_rotate_ (h : Heap α) (node : Ptr) : Run (Heap α) := do
  let parent ← getParent h node
  let grand ← getGrandparent h node
  let h ← setParent h node grand
  let h ← setRight h grand node
  let h ← setParent h parent node
  let h ← setLeft h parent (← getRight h node)
  let pl ← getLeft h parent
  let h ← if pl ≠ none then setParent h pl parent else pure h
  setRight h node parent

/-! ## Insertion -/

/-- The member `insert_5_case_`; `case1` is the call back into `insert_1_case_`. -/
def insert_5_case_ (case1 : Set α → Ptr → Run (Set α)) (s : Set α) (node : Ptr) :
    Run (Set α) := do
  let grand ← getGrandparent s.heap node
  let h ← setColor s.heap (← getParent s.heap node) BLACK
  let h ← setColor h grand RED
  let straight ← andThen (do pure (node = (← getLeft h (← getParent h node))))
    (do pure ((← getParent h node) = (← getLeft h grand)))
  let h ← if straight then rotate_right_ h grand else rotate_left_ h grand
  case1 { s with heap := h } (← getParent h node)

/-- The member `insert_4_case_`. -/
def insert_4_case_ (case1 : Set α → Ptr → Run (Set α)) (s : Set α) (node : Ptr) :
    Run (Set α) := do
  let h := s.heap
  let grand ← getGrandparent h node
  let zigLeft ← andThen (do pure (node = (← getRight h (← getParent h node))))
    (do pure ((← getParent h node) = (← getLeft h grand)))
  if zigLeft then do
    let h ← small_left_rotate_ h node
    insert_5_case_ case1 { s with heap := h } (← getLeft h node)
  else do
    let zigRight ← andThen (do pure (node = (← getLeft h (← getParent h node))))
      (do pure ((← getParent h node) = (← getRight h grand)))
    if zigRight then do
      let h ← small_right_rotate_ h node
      insert_5_case_ case1 { s with heap := h } (← getRight h node)
    else insert_5_case_ case1 s node

/-- The member `insert_3_case_`. -/
def insert_3_case_ (case1 : Set α → Ptr → Run (Set α)) (s : Set α) (node : Ptr) :
    Run (Set α) := do
  let grand ← getGrandparent s.heap node
  let uncle ← getUncle s.heap node
  let uncleRed ← andThen (pure (uncle ≠ none)) (do pure ((← getColor s.heap uncle) = RED))
  if uncleRed then do
    let h ← setColor s.heap (← getParent s.heap node) BLACK
    let h ← setColor h uncle BLACK
    let h ← setColor h grand RED
    case1 { s with heap := h } grand
  else insert_4_case_ case1 s node

/-- The member `insert_2_case_`. -/
def insert_2_case_ (case1 : Set α → Ptr → Run (Set α)) (s : Set α) (node : Ptr) :
    Run (Set α) := do
  if (← getColor s.heap (← getParent s.heap node)) = RED then insert_3_case_ case1 s node
  else pure s

/-- The member `insert_1_case_`; one unit of fuel is spent per call. -/
def insert_1_case_ : Nat → Set α → Ptr → Run (Set α)
  | 0, _, _ => throw Fault.fuel
  | fuel + 1, s, node => do
    if (← getParent s.heap node) = none then do
      let h ← setColor s.heap node BLACK
      pure { s with heap := h, root_ := node }
    else if (← getColor s.heap node) = RED then insert_2_case_ (insert_1_case_ fuel) s node
    else pure s

/-- The descent loop of `insert`: `none` when a value equal to `key` is met (the
early `return`), otherwise the last node visited, which becomes the parent. -/
def insert_loop [LinearOrder α] : Nat → Heap α → α → Ptr → Run (Option Ptr)
  | 0, _, _, _ => throw Fault.fuel
  | fuel + 1, h, key, node => do
    let v ← getValue h node
    if equals key v then pure none
    else do
      let parent := node
      let node ← if key < v then getLeft h node else getRight h node
      if node ≠ none then insert_loop fuel h key node else pure (some parent)

/-- The member `Set<T>::insert`. -/
def Set.insert [LinearOrder α] (s : Set α) (key : α) : Run (Set α) :=
  if s.root_ = none then
    let (h, node) := s.heap.alloc ⟨key, none, none, none, BLACK⟩
    pure { heap := h, root_ := node, size_ := s.size_ + 1 }
  else do
    match ← insert_loop (s.heap.length + 1) s.heap key s.root_ with
    | none => pure s
    | some parent =>
      let (h, node) := s.heap.alloc ⟨key, none, none, none, RED⟩
      let h ← setParent h node parent
      let h ← if key < (← getValue h parent) then setLeft h (← getParent h node) node
        else setRight h (← getParent h node) node
      let s ← insert_1_case_ (s.heap.length + 1) { s with heap := h } node
      pure { s with size_ := s.size_ + 1 }

/-- The range constructor: insert the values in sequence order into an empty set. -/
def Set.ofList [LinearOrder α] (l : List α) : Run (Set α) :=
  l.foldlM Set.insert Set.new

/-! ## Deletion -/

/-- The member `replace_node_`: hang `child` where `node` hangs. -/
def replace_node_ (h : Heap α) (node child : Ptr) : Run (Heap α) := do
  let h ← setParent h child (← getParent h node)
  let np ← getParent h node
  if np ≠ none then do
    if node = (← getLeft h np) then setLeft h np child else setRight h np child
  else pure h

/-- The member `delete_6_case_`. -/
def delete_6_case_ (s : Set α) (node : Ptr) : Run (Set α) := do
  let sub ← subling s.heap node
  let h ← setColor s.heap sub (← getColor s.heap (← getParent s.heap node))
  let h ← setColor h (← getParent h node) BLACK
  let h ← if node = (← getLeft h (← getParent h node)) then do
      let h ← setColor h (← getRight h sub) BLACK
      rotate_left_ h (← getParent h node)
    else do
      let h ← setColor h (← getLeft h sub) BLACK
      rotate_right_ h (← getParent h node)
  if (← getParent h sub) = none then pure { s with heap := h, root_ := sub }
  else pure { s with heap := h }

/-- The test of `delete_5_case_` for a red near nephew on the left:
`node == node->parent->left && (!sub->right || sub->right->color == BLACK) &&
sub->left->color == RED`. -/
def nearLeftRed (h : Heap α) (node sub : Ptr) : Run Bool :=
  andThen (do pure (node = (← getLeft h (← getParent h node))))
    (andThen (do nullOrBlack h (← getRight h sub))
      (do pure ((← getColor h (← getLeft h sub)) = RED)))

/-- The mirrored test of `delete_5_case_` for a red near nephew on the right. -/
def nearRightRed (h : Heap α) (node sub : Ptr) : Run Bool :=
  andThen (do pure (node = (← getRight h (← getParent h node))))
    (andThen (do nullOrBlack h (← getLeft h sub))
      (do pure ((← getColor h (← getRight h sub)) = RED)))

/-- The member `delete_5_case_`. -/
def delete_5_case_ (s : Set α) (node : Ptr) : Run (Set α) := do
  let sub ← subling s.heap node
  if (← getColor s.heap sub) = BLACK then do
    if (← nearLeftRed s.heap node sub) then do
      let h ← setColor s.heap sub RED
      let h ← setColor h (← getLeft h sub) BLACK
      let h ← rotate_right_ h sub
      delete_6_case_ { s with heap := h } node
    else if (← nearRightRed s.heap node sub) then do
      let h ← setColor s.heap sub RED
      let h ← setColor h (← getRight h sub) BLACK
      let h ← rotate_left_ h sub
      delete_6_case_ { s with heap := h } node
    else delete_6_case_ s node
  else delete_6_case_ s node

/-- The member `delete_4_case_`. -/
def delete_4_case_ (s : Set α) (node : Ptr) : Run (Set α) := do
  let h := s.heap
  let sub ← subling h node
  let quiet ← andThen (do pure ((← getColor h (← getParent h node)) = RED))
    (andThen (do pure ((← getColor h sub) = BLACK))
      (andThen (do nullOrBlack h (← getLeft h sub)) (do nullOrBlack h (← getRight h sub))))
  if quiet then do
    let h ← setColor h sub RED
    let h ← setColor h (← getParent h node) BLACK
    pure { s with heap := h }
  else delete_5_case_ s node

/-- The member `delete_3_case_`; `case1` is the call back into `delete_1_case_`. -/
def delete_3_case_ (case1 : Set α → Ptr → Run (Set α)) (s : Set α) (node : Ptr) :
    Run (Set α) := do
  let h := s.heap
  let sub ← subling h node
  let quiet ← andThen (do pure ((← getColor h (← getParent h node)) = BLACK))
    (andThen (do pure ((← getColor h sub) = BLACK))
      (andThen (do nullOrBlack h (← getLeft h sub)) (do nullOrBlack h (← getRight h sub))))
  if quiet then do
    let h ← setColor h sub RED
    case1 { s with heap := h } (← getParent h node)
  else delete_4_case_ s node

/-- The member `delete_2_case_`. -/
def delete_2_case_ (case1 : Set α → Ptr → Run (Set α)) (s : Set α) (node : Ptr) :
    Run (Set α) := do
  let sub ← subling s.heap node
  let h ← if (← getColor s.heap sub) = RED then do
      let h ← setColor s.heap (← getParent s.heap node) RED
      let h ← setColor h sub BLACK
      if node = (← getLeft h (← getParent h node)) then rotate_left_ h (← getParent h node)
      else rotate_right_ h (← getParent h node)
    else pure s.heap
  let s := if (← getParent h sub) = none then { s with heap := h, root_ := sub }
    else { s with heap := h }
  delete_3_case_ case1 s node

/-- The member `delete_1_case_`; one unit of fuel is spent per call. -/
def delete_1_case_ : Nat → Set α → Ptr → Run (Set α)
  | 0, _, _ => throw Fault.fuel
  | fuel + 1, s, node => do
    if (← getParent s.heap node) ≠ none then delete_2_case_ (delete_1_case_ fuel) s node
    else do
      let h ← setColor s.heap node BLACK
      pure { s with heap := h, root_ := node }

/-- The member `erase_one_child_`. -/
def erase_one_child_ (fuel : Nat) (s : Set α) (node : Ptr) : Run (Set α) := do
  let nl ← getLeft s.heap node
  let child ← if nl ≠ none then pure nl else getRight s.heap node
  if child ≠ none then do
    let h ← replace_node_ s.heap node child
    let s := { s with heap := h }
    let s ← if (← getColor s.heap node) = BLACK then do
        if (← getColor s.heap child) = RED then do
          pure { s with heap := (← setColor s.heap child BLACK) }
        else delete_1_case_ fuel s child
      else pure s
    if (← getParent s.heap child) = none then pure { s with root_ := child }
    else pure s
  else do
    if (← getColor s.heap node) = BLACK then delete_1_case_ fuel s node
    else pure s

/-- The member `erase_no_children_`. -/
def erase_no_children_ (fuel : Nat) (s : Set α) (node : Ptr) : Run (Set α) := do
  let s ← erase_one_child_ fuel s node
  let np ← getParent s.heap node
  if np = none then pure { s with root_ := none }
  else if (← getLeft s.heap np) = node then pure { s with heap := (← setLeft s.heap np none) }
  else pure { s with heap := (← setRight s.heap np none) }

/-- The member `erase_two_children_`; `byPointer` is the call back into
`erase_by_pointer_`. -/
def erase_two_children_ (fuel : Nat) (byPointer : Set α → Ptr → Run (Set α))
    (s : Set α) (node : Ptr) : Run (Set α) := do
  let prev ← previous fuel s.heap node
  let (h, tmp) := s.heap.alloc (← deref s.heap prev)
  let h ← change_node h tmp prev
  let h ← change_node h prev node
  let s := if (← getParent h prev) = none then { s with heap := h, root_ := prev }
    else { s with heap := h }
  byPointer s tmp

/-- The member `erase_by_pointer_`; `depth` bounds the nesting of the calls made
through `erase_two_children_`, `fuel` the loops below them. -/
def erase_by_pointer_ (fuel : Nat) : Nat → Set α → Ptr → Run (Set α)
  | 0, _, _ => throw Fault.fuel
  | depth + 1, s, node => do
    let nl ← getLeft s.heap node
    let nr ← getRight s.heap node
    let s ← if nl = none ∧ nr = none then erase_no_children_ fuel s node
      else if nl ≠ none ∧ nr ≠ none then
        erase_two_children_ fuel (erase_by_pointer_ fuel depth) s node
      else erase_one_child_ fuel s node
    pure { s with heap := (← s.heap.free node) }

/-- The member `Set<T>::erase`. -/
def Set.erase [LinearOrder α] (s : Set α) (key : α) : Run (Set α) := do
  let node ← s.find_ key
  if node ≠ none then do
    let s ← erase_by_pointer_ (s.heap.length + 2) (s.heap.length + 2) s node
    pure { s with size_ := s.size_ - 1 }
  else pure s

/-! ## Iterators -/

/-- The class `Set<T>::iterator`: the current node and the root captured at creation. -/
structure Iterator where
  current_ : Ptr
  root_ : Ptr
deriving DecidableEq, Repr

/-- The member `operator==` of the iterator: only the current nodes are compared. -/
def Iterator.equal (x y : Iterator) : Bool := x.current_ == y.current_

/-- The member `operator*` of the iterator. -/
def Iterator.star (h : Heap α) (it : Iterator) : Run α := getValue h it.current_

/-- The member `operator++` of the iterator. -/
def Iterator.increment (h : Heap α) (it : Iterator) : Run Iterator := do
  pure { it with current_ := (← next (h.length + 1) h it.current_) }

/-- The member `operator--` of the iterator. -/
def Iterator.decrement (h : Heap α) (it : Iterator) : Run Iterator := do
  if it.current_ = none then
    pure { it with current_ := (← end_node (h.length + 1) h it.root_) }
  else pure { it with current_ := (← previous (h.length + 1) h it.current_) }

/-- The member `Set<T>::find`. -/
def Set.find [LinearOrder α] (s : Set α) (key : α) : Run Iterator := do
  pure ⟨← s.find_ key, s.root_⟩

/-- The member `Set<T>::lower_bound`. -/
def Set.lower_bound [LinearOrder α] (s : Set α) (key : α) : Run Iterator := do
  pure ⟨← s.lower_bound_ key, s.root_⟩

/-- The member `Set<T>::begin`. -/
def Set.begin (s : Set α) : Run Iterator := do
  pure ⟨← begin_node (s.heap.length + 1) s.heap s.root_, s.root_⟩

/-- The member `Set<T>::end`. -/
def Set.end_ (s : Set α) : Iterator := ⟨none, s.root_⟩

/-- The loop `for (it = first; !(it == end()); ++it)`, collecting `*it`. -/
def iterate : Nat → Heap α → Iterator → Iterator → Run (List α)
  | 0, _, _, _ => throw Fault.fuel
  | fuel + 1, h, it, last =>
    if it.equal last then pure []
    else do
      let v ← it.star h
      let rest ← iterate fuel h (← it.increment h) last
      pure (v :: rest)

/-- The values met when walking from `begin()` to `end()` by `operator++`. -/
def Set.toList (s : Set α) : Run (List α) := do
  iterate (s.heap.length + 1) s.heap (← s.begin) s.end_

/-! ## Abstract shape of the node graph

The invariants of the container are stated on the tree that the links of the heap
draw: `Lay h par t` says that the nodes of `t` sit in `h` at their addresses with
exactly the child links of `t` and with parent links pointing back (`par` for the
root of `t`). -/

/-- A binary tree of nodes, each with its address, colour and value. -/
inductive Tree (α : Type) where
  | nil : Tree α
  | node (a : Nat) (c : Bool) (l : Tree α) (v : α) (r : Tree α) : Tree α
deriving DecidableEq, Repr

/-- The pointer to the root node of a tree (`nullptr` for the empty tree). -/
def Tree.ptr : Tree α → Ptr
  | .nil => none
  | .node a _ _ _ _ => some a

/-- The addresses of the nodes, in in-order. -/
def Tree.addrs : Tree α → List Nat
  | .nil => []
  | .node a _ l _ r => l.addrs ++ a :: r.addrs

/-- The values of the nodes, in in-order. -/
def Tree.values : Tree α → List α
  | .nil => []
  | .node _ _ l v r => l.values ++ v :: r.values

/-- The number of nodes. -/
def Tree.size : Tree α → Nat
  | .nil => 0
  | .node _ _ l _ r => l.size + 1 + r.size

/-- The number of nodes on the longest path from the root to a null link. -/
def Tree.height : Tree α → Nat
  | .nil => 0
  | .node _ _ l _ r => max l.height r.height + 1

/-- Whether the root is a red node. -/
def Tree.isRed : Tree α → Bool
  | .nil => false
  | .node _ c _ _ _ => c

/-- Every value of the tree satisfies `p`. -/
def Tree.All (p : α → Prop) : Tree α → Prop
  | .nil => True
  | .node _ _ l v r => p v ∧ l.All p ∧ r.All p

/-- Strict binary-search order: at every node the values of the left subtree are
less than the node's value and those of the right subtree are greater. -/
def Tree.Ordered [LT α] : Tree α → Prop
  | .nil => True
  | .node _ _ l v r => l.All (· < v) ∧ r.All (v < ·) ∧ l.Ordered ∧ r.Ordered

/-- No red node has a red child. -/
def Tree.NoRedRed : Tree α → Prop
  | .nil => True
  | .node _ c l _ r => (c = RED → l.isRed = false ∧ r.isRed = false) ∧ l.NoRedRed ∧ r.NoRedRed

/-- The number of black nodes on the leftmost path from the root to a null link. -/
def Tree.blackCount : Tree α → Nat
  | .nil => 0
  | .node _ c l _ _ => l.blackCount + if c = BLACK then 1 else 0

/-- Every path from the root to a null link passes the same number of black nodes. -/
def Tree.Uniform : Tree α → Prop
  | .nil => True
  | .node _ _ l _ r => l.blackCount = r.blackCount ∧ l.Uniform ∧ r.Uniform

/-- The heap holds the nodes of `t` with the links of `t`; `par` is the parent link
of the root of `t`. -/
def Lay (h : Heap α) : Ptr → Tree α → Prop
  | _, .nil => True
  | par, .node a c l v r =>
    h.read a = some ⟨v, par, l.ptr, r.ptr, c⟩ ∧ Lay h (some a) l ∧ Lay h (some a) r

/-- The set's `root_` points to the root of `t` and its heap holds `t`, with no
parent above the root. -/
def Set.Models (s : Set α) (t : Tree α) : Prop := s.root_ = t.ptr ∧ Lay s.heap none t

/-- The red-black invariants of a tree: strict search order, black root, no red node
with a red child, equal black count on every path. -/
def Tree.RedBlack [LT α] (t : Tree α) : Prop :=
  t.Ordered ∧ t.isRed = false ∧ t.NoRedRed ∧ t.Uniform

/-- A well-formed set: its links draw a tree, with consistent parent links, that
satisfies the red-black invariants. -/
def Set.WellFormed [LT α] (s : Set α) : Prop := ∃ t, s.Models t ∧ t.RedBlack

/-! ## Paths: a tree with one subtree taken out

The fix-up procedures walk from a node towards the root.  A `Path` lists, innermost
first, the nodes on the way up together with the subtree hanging off the other side
of each. -/

/-- One step of a path: the hole is the left (`inL`) or right (`inR`) child of the
node at address `a`; the other child is kept. -/
inductive Frame (α : Type) where
  | inL (a : Nat) (c : Bool) (v : α) (r : Tree α) : Frame α
  | inR (a : Nat) (c : Bool) (l : Tree α) (v : α) : Frame α
deriving DecidableEq, Repr

/-- The nodes above a position, innermost first. -/
abbrev Path (α : Type) := List (Frame α)

/-- The address of the node of a frame. -/
def Frame.addr : Frame α → Nat
  | .inL a _ _ _ => a
  | .inR a _ _ _ => a

/-- The colour of the node of a frame. -/
def Frame.color : Frame α → Bool
  | .inL _ c _ _ => c
  | .inR _ c _ _ => c

/-- The value of the node of a frame. -/
def Frame.value : Frame α → α
  | .inL _ _ v _ => v
  | .inR _ _ _ v => v

/-- The subtree on the other side of the hole. -/
def Frame.sibling : Frame α → Tree α
  | .inL _ _ _ r => r
  | .inR _ _ l _ => l

/-- Put `t` into the hole of a frame. -/
def Frame.fill : Frame α → Tree α → Tree α
  | .inL a c v r, t => .node a c t v r
  | .inR a c l v, t => .node a c l v t

/-- Put `t` into the hole of a path. -/
def Path.fill : Path α → Tree α → Tree α
  | [], t => t
  | f :: p, t => Path.fill p (f.fill t)

/-- The pointer to the innermost node of a path (`nullptr` at the root). -/
def Path.ptr : Path α → Ptr
  | [] => none
  | f :: _ => some f.addr

/-- The addresses of the nodes on a path and in the subtrees hanging off it. -/
def Path.addrs : Path α → List Nat
  | [] => []
  | f :: p => f.addr :: (f.sibling.addrs ++ Path.addrs p)

/-- The heap holds the nodes of the path with their links, `q` being the link to the
hole of the innermost node. -/
def LayPath (h : Heap α) : Ptr → Path α → Prop
  | _, [] => True
  | q, .inL a c v r :: p =>
    h.read a = some ⟨v, Path.ptr p, q, r.ptr, c⟩ ∧ Lay h (some a) r ∧ LayPath h (some a) p
  | q, .inR a c l v :: p =>
    h.read a = some ⟨v, Path.ptr p, l.ptr, q, c⟩ ∧ Lay h (some a) l ∧ LayPath h (some a) p

/-- The address of the topmost node of a path, or `q` for the empty path. -/
def Path.rootPtr : Path α → Ptr → Ptr
  | [], q => q
  | f :: p, _ => Path.rootPtr p (some f.addr)

/-! ## What the insertion fix-up computes

The fix-up is followed on the tree itself: `insFix p t` is the whole tree after
`insert_1_case_` has run on the root node of `t`, where `t` hangs in the hole of `p`. -/

/-- Set the colour of the root node. -/
def Tree.paint (c : Bool) : Tree α → Tree α
  | .nil => .nil
  | .node a _ l v r => .node a c l v r

/-- Set the colour of the node of a frame. -/
def Frame.paint (c : Bool) : Frame α → Frame α
  | .inL a _ v r => .inL a c v r
  | .inR a _ l v => .inR a c l v

/-- Set the colour of the root of the subtree hanging off a frame. -/
def Frame.paintSibling (c : Bool) : Frame α → Frame α
  | .inL a k v r => .inL a k v (r.paint c)
  | .inR a k l v => .inR a k (l.paint c) v

/-- Cases 4 and 5 of the insertion fix-up: the subtree that takes the place of the
grandparent's subtree, for parent frame `f` and grandparent frame `g`. -/
def insRotate : Frame α → Frame α → Tree α → Tree α
  | _, _, .nil => .nil
  | .inL pa _ pv pr, .inL ga _ gv gr, .node n c l v r =>
    .node pa BLACK (.node n c l v r) pv (.node ga RED pr gv gr)
  | .inR pa pc pl pv, .inL ga _ gv gr, .node n _ l v r =>
    .node n BLACK (.node pa pc pl pv l) v (.node ga RED r gv gr)
  | .inL pa pc pv pr, .inR ga _ gl gv, .node n _ l v r =>
    .node n BLACK (.node ga RED gl gv l) v (.node pa pc r pv pr)
  | .inR pa _ pl pv, .inR ga _ gl gv, .node n c l v r =>
    .node pa BLACK (.node ga RED gl gv pl) pv (.node n c l v r)

/-- The whole tree after the insertion fix-up started at the root of `t`. -/
def insFix : Path α → Tree α → Tree α
  | [], t => t.paint BLACK
  | [f], t => f.fill t
  | f :: g :: rest, t =>
    if t.isRed = true ∧ f.color = RED then
      if g.sibling.isRed = true then
        insFix rest (((g.paint RED).paintSibling BLACK).fill ((f.paint BLACK).fill t))
      else Path.fill rest (insRotate f g t)
    else Path.fill (f :: g :: rest) t

/-- The node at the top of the path (the root of the whole tree) is black. -/
def Path.rootBlack : Path α → Prop
  | [] => True
  | [f] => f.color = BLACK
  | _ :: g :: rest => Path.rootBlack (g :: rest)

/-- The path from the root of `t` down to the null link where `key` belongs, put on
top of the path `p` that leads to `t`. -/
def Tree.zoom [LinearOrder α] (key : α) : Tree α → Path α → Path α
  | .nil, p => p
  | .node a c l v r, p =>
    if key < v then l.zoom key (.inL a c v r :: p) else r.zoom key (.inR a c l v :: p)

/-- The tree after inserting the absent value `key` in a node at the fresh address
`a`. -/
def Tree.insertAt [LinearOrder α] (key : α) (a : Nat) : Tree α → Tree α
  | .nil => .node a BLACK .nil key .nil
  | .node b c l v r => insFix ((Tree.node b c l v r).zoom key []) (.node a RED .nil key .nil)

/-- Hang `x` at the null link where `key` belongs. -/
def Tree.plant [LinearOrder α] (key : α) (x : Tree α) : Tree α → Tree α
  | .nil => x
  | .node a c l v r =>
    if key < v then .node a c (Tree.plant key x l) v r else .node a c l v (Tree.plant key x r)

/-- The parent frame of the hole is a black node. -/
def Path.headBlack : Path α → Prop
  | [] => False
  | f :: _ => f.color = BLACK

/-- A subtree with no red node above a red child and `n` black nodes on every path
from its root to a null link. -/
def Tree.Balanced (t : Tree α) (n : Nat) : Prop := t.NoRedRed ∧ t.Uniform ∧ t.blackCount = n

/-- The path keeps the colour invariants around a hole that takes a subtree with `n`
black nodes on every path: every subtree hanging off it is balanced with the matching
black count, and a red node of the path has a black parent and a black other child. -/
def Path.Balanced : Path α → Nat → Prop
  | [], _ => True
  | f :: p, n =>
    f.sibling.Balanced n ∧ (f.color = RED → f.sibling.isRed = false ∧ Path.headBlack p) ∧
      Path.Balanced p (n + if f.color = BLACK then 1 else 0)

/-- The nodes as pairs of address and value, in in-order. -/
def Tree.cells : Tree α → List (Nat × α)
  | .nil => []
  | .node a _ l v r => l.cells ++ (a, v) :: r.cells

/-- The heap `h'` has the contents of `h` in every cell whose address is not in `S`. -/
def Heap.AgreeOff (S : List Nat) (h h' : Heap α) : Prop := ∀ b, b ∉ S → h'.read b = h.read b

/-- The nodes that come before the hole of a path in in-order. -/
def Path.before : Path α → List (Nat × α)
  | [] => []
  | .inL _ _ _ _ :: p => Path.before p
  | .inR a _ l v :: p => Path.before p ++ l.cells ++ [(a, v)]

/-- The nodes that come after the hole of a path in in-order. -/
def Path.after : Path α → List (Nat × α)
  | [] => []
  | .inL a _ v r :: p => (a, v) :: r.cells ++ Path.after p
  | .inR _ _ _ _ :: p => Path.after p

/-! ## A small concrete set -/

/-- The set obtained by inserting 2, 1, 3: a black root with two red children. -/
def demoSet : Set Nat :=
  { heap := [some ⟨2, none, some 1, some 2, BLACK⟩, some ⟨1, some 0, none, none, RED⟩,
      some ⟨3, some 0, none, none, RED⟩],
    root_ := some 0,
    size_ := 3 }

/-- The tree drawn by the links of `demoSet`. -/
def demoTree : Tree Nat :=
  .node 0 BLACK (.node 1 RED .nil 1 .nil) 2 (.node 2 RED .nil 3 .nil)

/-! ## The deletion fix-up on paths

The deletion fix-up is run at a black node whose subtree is about to lose one black node
on every path.  The subtree itself is left alone; the fix-up recolours and rotates the
nodes of the path above it.  `delFix p` is the path that leads to the subtree after the
fix-up was started with the path `p`. -/

/-- Case 2 of the deletion fix-up: a red sibling is rotated above the parent, which
becomes red.  The result is the new parent frame and the path above it. -/
def delCase2 : Frame α → Path α → Frame α × Path α
  | .inL pa pc pv (.node s sc sl sv sr), rest =>
    if sc = RED then (.inL pa RED pv sl, .inL s BLACK sv sr :: rest)
    else (.inL pa pc pv (.node s sc sl sv sr), rest)
  | .inR pa pc (.node s sc sl sv sr) pv, rest =>
    if sc = RED then (.inR pa RED sr pv, .inR s BLACK sl sv :: rest)
    else (.inR pa pc (.node s sc sl sv sr) pv, rest)
  | f, rest => (f, rest)

/-- The test shared by cases 3 and 4: the sibling is black and has no red child. -/
def Frame.quiet : Frame α → Bool
  | .inL _ _ _ (.node _ sc sl _ sr) => sc == BLACK && !sl.isRed && !sr.isRed
  | .inR _ _ (.node _ sc sl _ sr) _ => sc == BLACK && !sl.isRed && !sr.isRed
  | _ => false

/-- Case 5 of the deletion fix-up: with a black sibling whose far child is not red and
whose near child is red, the near child is rotated above the sibling. -/
def delCase5 : Frame α → Frame α
  | .inL pa pc pv (.node s sc (.node t tc tl tv tr) sv sr) =>
    if sc = BLACK ∧ sr.isRed = false ∧ tc = RED then
      .inL pa pc pv (.node t BLACK tl tv (.node s RED tr sv sr))
    else .inL pa pc pv (.node s sc (.node t tc tl tv tr) sv sr)
  | .inR pa pc (.node s sc sl sv (.node t tc tl tv tr)) pv =>
    if sc = BLACK ∧ sl.isRed = false ∧ tc = RED then
      .inR pa pc (.node t BLACK (.node s RED sl sv tl) tv tr) pv
    else .inR pa pc (.node s sc sl sv (.node t tc tl tv tr)) pv
  | f => f

/-- Case 6 of the deletion fix-up: the sibling takes the colour of the parent, the
parent and the far child of the sibling become black, and the sibling is rotated above
the parent.  The result is the two frames above the subtree. -/
def delCase6 : Frame α → Path α
  | .inL pa pc pv (.node s _ sl sv sr) => [.inL pa BLACK pv sl, .inL s pc sv (sr.paint BLACK)]
  | .inR pa pc (.node s _ sl sv sr) pv => [.inR pa BLACK sr pv, .inR s pc (sl.paint BLACK) sv]
  | f => [f]

/-- Cases 3 to 6 of the deletion fix-up for the parent frame `f` below the path `rest`;
`up` is the result of the fix-up continued at the parent. -/
def delStep (f : Frame α) (rest up : Path α) : Path α :=
  if f.color = BLACK ∧ f.quiet = true then f.paintSibling RED :: up
  else if f.color = RED ∧ f.quiet = true then (f.paint BLACK).paintSibling RED :: rest
  else delCase6 (delCase5 f) ++ rest

/-- The deletion fix-up on the path to the deficient subtree. -/
def delFix : Path α → Path α
  | [] => []
  | f :: rest => delStep (delCase2 f rest).1 (delCase2 f rest).2 (delFix rest)

/-- The shape the deletion fix-up relies on at a frame: the sibling exists, and a red
sibling has a black node as child next to the deficient subtree. -/
def Frame.DelOK : Frame α → Prop
  | .inL _ _ _ (.node _ sc sl _ _) => sc = RED → ∃ t tl tv tr, sl = .node t BLACK tl tv tr
  | .inR _ _ (.node _ sc _ _ sr) _ => sc = RED → ∃ t tl tv tr, sr = .node t BLACK tl tv tr
  | _ => False

/-- The shape case 6 of the deletion fix-up relies on: the sibling has a child on the
side away from the deficient subtree. -/
def Frame.FarNode : Frame α → Prop
  | .inL _ _ _ (.node _ _ _ _ (.node _ _ _ _ _)) => True
  | .inR _ _ (.node _ _ (.node _ _ _ _ _) _ _) _ => True
  | _ => False

/-! ## Erasing a node of the tree -/

/-- The path from the root of `t` down to its last node in in-order, on top of `q`,
and the subtree at that node. -/
def Tree.maxZip : Tree α → Path α → Path α × Tree α
  | .nil, q => (q, .nil)
  | .node a c l v .nil, q => (q, .node a c l v .nil)
  | .node a c l v (.node b cb bl vb br), q =>
    (Tree.node b cb bl vb br).maxZip (.inR a c l v :: q)

/-- What `erase_by_pointer_` leaves of a red-black tree when it is called at the root of
the subtree in the hole of `p` and that node has at most one child: a leaf is taken out,
after the fix-up when it is black; an only child, which is red, becomes black and takes
the place of the node. -/
def eraseSimple (p : Path α) : Tree α → Tree α
  | .node _ c .nil _ .nil => Path.fill (if c = BLACK then delFix p else p) .nil
  | .node _ _ (.node ch _ cl cv cr) _ .nil => Path.fill p (.node ch BLACK cl cv cr)
  | .node _ _ .nil _ (.node ch _ cl cv cr) => Path.fill p (.node ch BLACK cl cv cr)
  | t => Path.fill p t

/-- What `erase_by_pointer_` leaves of a red-black tree when it is called at the root of
the subtree in the hole of `p`.  A node with two children is replaced by its in-order
predecessor, whose old place is then erased. -/
def eraseZip (p : Path α) : Tree α → Tree α
  | .node n c (.node a ca al av ar) v (.node b cb bl vb br) =>
    match (Tree.node a ca al av ar).maxZip [] with
    | (q, .node pr cp pl pv _) =>
      eraseSimple (q ++ .inL pr c pv (.node b cb bl vb br) :: p) (.node pr cp pl pv .nil)
    | (_, .nil) => Path.fill p (.node n c (.node a ca al av ar) v (.node b cb bl vb br))
  | t => eraseSimple p t

/-- A set in the zig-zag shape of insertion case 4: the red node 2 is the right child of
the red node 1, which is the left child of the black root 3. -/
def zigSet : Set Nat :=
  { heap := [some ⟨3, none, some 1, none, BLACK⟩, some ⟨1, some 0, none, some 2, RED⟩,
      some ⟨2, some 1, none, none, RED⟩],
    root_ := some 0,
    size_ := 3 }

/-- The tree drawn by the links of `zigSet`. -/
def zigTree : Tree Nat :=
  .node 0 BLACK (.node 1 RED .nil 1 (.node 2 RED .nil 2 .nil)) 3 .nil

/-- The mirror image of `zigSet`. -/
def zagSet : Set Nat :=
  { heap := [some ⟨1, none, none, some 1, BLACK⟩, some ⟨3, some 0, some 2, none, RED⟩,
      some ⟨2, some 1, none, none, RED⟩],
    root_ := some 0,
    size_ := 3 }

/-- The tree drawn by the links of `zagSet`. -/
def zagTree : Tree Nat :=
  .node 0 BLACK .nil 1 (.node 1 RED (.node 2 RED .nil 2 .nil) 3 .nil)

/-! ## Sequences of calls -/

/-- A call of one of the two mutating members. -/
inductive Op (α : Type) where
  | insert (key : α) : Op α
  | erase (key : α) : Op α
deriving DecidableEq, Repr

/-- Perform one call on the set. -/
def Set.apply [LinearOrder α] (s : Set α) : Op α → Run (Set α)
  | .insert key => s.insert key
  | .erase key => s.erase key

/-- Perform the calls one after the other. -/
def Set.applyAll [LinearOrder α] (s : Set α) (ops : List (Op α)) : Run (Set α) :=
  ops.foldlM Set.apply s

/-- The parent links of the nodes `nodes`, read in the heap `h`, are consistent: every
node of the list is live; its parent link is absent exactly when it is the node `root`
points to; a present parent link points to a node of the list that has the node as left
or right child; every node of the list that has the node as a child is the one its
parent link points to; and every child link points to a node of the list whose parent
link points back. -/
def Heap.ParentLinksOK (h : Heap α) (root : Ptr) (nodes : List Nat) : Prop :=
  ∀ a ∈ nodes, ∃ n, h.read a = some n ∧
    (n.parent = none ↔ root = some a) ∧
    (∀ q, n.parent = some q →
      q ∈ nodes ∧ ∃ m, h.read q = some m ∧ (m.left = some a ∨ m.right = some a)) ∧
    (∀ q ∈ nodes, ∀ m, h.read q = some m → (m.left = some a ∨ m.right = some a) →
      n.parent = some q) ∧
    (∀ c, n.left = some c ∨ n.right = some c →
      c ∈ nodes ∧ ∃ m, h.read c = some m ∧ m.parent = some a)

/-! ## Copying -/

/-- The function `recursionClone`: a copy of the subtree at `root`, built of new nodes;
the parent link of the copy of `root` is left null. -/
def recursionClone : Nat → Heap α → Ptr → Run (Heap α × Ptr)
  | 0, _, _ => throw Fault.fuel
  | fuel + 1, h, root =>
    if root = none then pure (h, none)
    else do
      let v ← getValue h root
      let c ← getColor h root
      let (h, node) := h.alloc ⟨v, none, none, none, c⟩
      let rl ← getLeft h root
      let (h, left) ← (if rl ≠ none then do
          let (h, left) ← recursionClone fuel h rl
          let h ← setParent h left node
          pure (h, left)
        else pure (h, none))
      let rr ← getRight h root
      let (h, right) ← (if rr ≠ none then do
          let (h, right) ← recursionClone fuel h rr
          let h ← setParent h right node
          pure (h, right)
        else pure (h, none))
      let h ← setLeft h node left
      let h ← setRight h node right
      pure (h, node)

/-- The function `recursionDelete`: delete the nodes of the subtree at `node`. -/
def recursionDelete : Nat → Heap α → Ptr → Run (Heap α)
  | 0, _, _ => throw Fault.fuel
  | fuel + 1, h, node =>
    if node = none then pure h
    else do
      let h ← recursionDelete fuel h (← getLeft h node)
      let h ← recursionDelete fuel h (← getRight h node)
      h.free node

/-- The copy constructor `Set(const Set &other)`.  The new set lives in the same store
as `other`: its heap is the heap of `other` with the new nodes added. -/
def Set.copy (other : Set α) : Run (Set α) := do
  if other.root_ ≠ none then
    let (h, root) ← recursionClone (other.heap.length + 1) other.heap other.root_
    pure ⟨h, root, other.size⟩
  else pure ⟨other.heap, none, 0⟩

/-- The member `operator=`.  Both sets live in one store, the heap of `s`; of `other`
the members `root_` and `size_` are read. -/
def Set.assign (s other : Set α) : Run (Set α) := do
  if s.root_ ≠ other.root_ then
    let h ← recursionDelete (s.heap.length + 1) s.heap s.root_
    let (h, root) ← recursionClone (h.length + 1) h other.root_
    pure ⟨h, root, other.size⟩
  else pure s

/-- The set `s` as it is found in a later state `h` of the store: its members `root_`
and `size_` are its own, the nodes are read in `h`. -/
def Set.seenIn (s : Set α) (h : Heap α) : Set α := { s with heap := h }

/-- The tree with its nodes placed at consecutive addresses from `a` on, in the order in
which `recursionClone` allocates them: a node, then its left subtree, then its right
subtree. -/
def Tree.relabel : Nat → Tree α → Tree α
  | _, .nil => .nil
  | a, .node _ c l v r => .node a c (Tree.relabel (a + 1) l) v (Tree.relabel (a + 1 + l.size) r)

/-- The tree without the addresses (all set to 0): what is left is the shape, the
colours and the values. -/
def Tree.strip : Tree α → Tree α
  | .nil => .nil
  | .node _ c l v r => .node 0 c (Tree.strip l) v (Tree.strip r)

/-- The set `b` is a fresh copy of the set `a`, whose links draw `t`: the links of `b`
draw the tree `t` with its nodes at new addresses, and the nodes of `a` are as they
were. -/
def FreshCopy (a b : Set α) (t : Tree α) : Prop :=
  b.root_ = (t.relabel a.heap.length).ptr ∧ Lay b.heap none (t.relabel a.heap.length) ∧
    b.size_ = a.size_ ∧ ∀ x ∈ t.addrs, b.heap.read x = a.heap.read x

/-- Two sets in one store: the nodes of `demoSet` and, in cell 3, a single black node
holding 7. -/
def duoHeap : Heap Nat := demoSet.heap ++ [some ⟨7, none, none, none, BLACK⟩]

/-- The set of 1, 2, 3 in `duoHeap`. -/
def duoA : Set Nat := { heap := duoHeap, root_ := some 0, size_ := 3 }

/-- The set of 7 in `duoHeap`. -/
def duoB : Set Nat := { heap := duoHeap, root_ := some 3, size_ := 1 }

/-- The tree drawn by the links of `duoB`. -/
def duoTree : Tree Nat := .node 3 BLACK .nil 7 .nil

end Model

end bulumutka

namespace bulumutka

section Basics

variable {α : Type}

/-! ## Running a block -/

@[simp] theorem run_pure {β : Type} (a : β) : (pure a : Run β) = Except.ok a := rfl

@[simp] theorem run_throw {β : Type} (e : Fault) : (throw e : Run β) = Except.error e := rfl

@[simp] theorem ok_bind {β γ : Type} (a : β) (f : β → Run γ) :
    ((Except.ok a : Run β) >>= f) = f a := rfl

@[simp] theorem error_bind {β γ : Type} (e : Fault) (f : β → Run γ) :
    ((Except.error e : Run β) >>= f) = Except.error e := rfl

theorem bind_eq_ok {β γ : Type} (x : Run β) (f : β → Run γ) (c : γ) :
    (x >>= f) = Except.ok c ↔ ∃ a, x = Except.ok a ∧ f a = Except.ok c := by
  cases x with
  | error e => simp
  | ok a => simp

@[simp] theorem ofOption_some {β : Type} (a : β) : Run.ofOption (some a) = Except.ok a := rfl

@[simp] theorem ofOption_none {β : Type} :
    (Run.ofOption none : Run β) = Except.error Fault.undefined := rfl

/-! ## Heap cells -/

@[simp] theorem read_nil (a : Nat) : Heap.read ([] : Heap α) a = none := by
  simp [Heap.read]

@[simp] theorem read_cons_zero (c : Option (Node α)) (h : Heap α) :
    Heap.read (c :: h) 0 = c := by
  simp [Heap.read]

@[simp] theorem read_cons_succ (c : Option (Node α)) (h : Heap α) (a : Nat) :
    Heap.read (c :: h) (a + 1) = Heap.read h a := by
  simp [Heap.read]

theorem read_lt {h : Heap α} {a : Nat} {n : Node α} (hr : h.read a = some n) :
    a < h.length := by
  induction h generalizing a with
  | nil => simp at hr
  | cons c h ih =>
    cases a with
    | zero => simp
    | succ a => simp at hr; have := ih hr; simp; omega

theorem read_update (h : Heap α) (a b : Nat) (f : Node α → Node α) :
    (h.update a f).read b = if b = a then (h.read b).map f else h.read b := by
  induction h generalizing a b with
  | nil => simp [Heap.update]
  | cons c h ih =>
    cases a with
    | zero =>
      cases b with
      | zero => simp [Heap.update]
      | succ b => simp [Heap.update]
    | succ a =>
      cases b with
      | zero => simp [Heap.update]
      | succ b => simp [Heap.update, ih]

@[simp] theorem length_update (h : Heap α) (a : Nat) (f : Node α → Node α) :
    (h.update a f).length = h.length := by
  induction h generalizing a with
  | nil => simp [Heap.update]
  | cons c h ih => cases a <;> simp [Heap.update, ih]

theorem read_clear (h : Heap α) (a b : Nat) :
    (h.clear a).read b = if b = a then none else h.read b := by
  induction h generalizing a b with
  | nil => simp [Heap.clear]
  | cons c h ih =>
    cases a with
    | zero =>
      cases b with
      | zero => simp [Heap.clear]
      | succ b => simp [Heap.clear]
    | succ a =>
      cases b with
      | zero => simp [Heap.clear]
      | succ b => simp [Heap.clear, ih]

@[simp] theorem length_clear (h : Heap α) (a : Nat) : (h.clear a).length = h.length := by
  induction h generalizing a with
  | nil => simp [Heap.clear]
  | cons c h ih => cases a <;> simp [Heap.clear, ih]

theorem read_append_single (h : Heap α) (n : Node α) (b : Nat) :
    Heap.read (h ++ [some n]) b = if b = h.length then some n else h.read b := by
  induction h generalizing b with
  | nil =>
    cases b with
    | zero => simp
    | succ b => simp
  | cons c h ih =>
    cases b with
    | zero => simp
    | succ b => simp [ih]

theorem read_ge {h : Heap α} {a : Nat} (ha : h.length ≤ a) : h.read a = none := by
  cases hr : h.read a with
  | none => rfl
  | some n => have := read_lt hr; omega

/-! ## Field access through a pointer -/

@[simp] theorem deref_some (h : Heap α) (a : Nat) :
    deref h (some a) = Run.ofOption (h.read a) := rfl

@[simp] theorem deref_none (h : Heap α) :
    deref h none = Except.error Fault.undefined := rfl

theorem ofOption_bind_pure {β γ : Type} (x : Option β) (f : β → γ) :
    (Run.ofOption x >>= fun n => (pure (f n) : Run γ)) = Run.ofOption (x.map f) := by
  cases x <;> rfl

@[simp] theorem getValue_some (h : Heap α) (a : Nat) :
    getValue h (some a) = Run.ofOption ((h.read a).map Node.value) := by
  simp only [getValue, deref_some]; exact ofOption_bind_pure _ _

@[simp] theorem getParent_some (h : Heap α) (a : Nat) :
    getParent h (some a) = Run.ofOption ((h.read a).map Node.parent) := by
  simp only [getParent, deref_some]; exact ofOption_bind_pure _ _

@[simp] theorem getLeft_some (h : Heap α) (a : Nat) :
    getLeft h (some a) = Run.ofOption ((h.read a).map Node.left) := by
  simp only [getLeft, deref_some]; exact ofOption_bind_pure _ _

@[simp] theorem getRight_some (h : Heap α) (a : Nat) :
    getRight h (some a) = Run.ofOption ((h.read a).map Node.right) := by
  simp only [getRight, deref_some]; exact ofOption_bind_pure _ _

@[simp] theorem getColor_some (h : Heap α) (a : Nat) :
    getColor h (some a) = Run.ofOption ((h.read a).map Node.color) := by
  simp only [getColor, deref_some]; exact ofOption_bind_pure _ _

@[simp] theorem getValue_none (h : Heap α) : getValue h none = Except.error Fault.undefined := rfl
@[simp] theorem getParent_none (h : Heap α) : getParent h none = Except.error Fault.undefined := rfl
@[simp] theorem getLeft_none (h : Heap α) : getLeft h none = Except.error Fault.undefined := rfl
@[simp] theorem getRight_none (h : Heap α) : getRight h none = Except.error Fault.undefined := rfl
@[simp] theorem getColor_none (h : Heap α) : getColor h none = Except.error Fault.undefined := rfl

@[simp] theorem assign_some (h : Heap α) (a : Nat) (f : Node α → Node α) :
    assign h (some a) f = Run.ofOption ((h.read a).map fun _ => h.update a f) := rfl

@[simp] theorem assign_none (h : Heap α) (f : Node α → Node α) :
    assign h none f = Except.error Fault.undefined := rfl

end Basics

end bulumutka

namespace bulumutka

section Layout

variable {α : Type}

/-! ## Layout of a tree in the heap -/

@[simp] theorem Lay_nil (h : Heap α) (par : Ptr) : Lay h par Tree.nil := trivial

@[simp] theorem Lay_node (h : Heap α) (par : Ptr) (a : Nat) (c : Bool) (l r : Tree α) (v : α) :
    Lay h par (Tree.node a c l v r) ↔
      h.read a = some ⟨v, par, l.ptr, r.ptr, c⟩ ∧ Lay h (some a) l ∧ Lay h (some a) r :=
  Iff.rfl

@[simp] theorem ptr_nil : (Tree.nil : Tree α).ptr = none := rfl

@[simp] theorem ptr_node (a : Nat) (c : Bool) (l r : Tree α) (v : α) :
    (Tree.node a c l v r).ptr = some a := rfl

@[simp] theorem addrs_nil : (Tree.nil : Tree α).addrs = [] := rfl

@[simp] theorem addrs_node (a : Nat) (c : Bool) (l r : Tree α) (v : α) :
    (Tree.node a c l v r).addrs = l.addrs ++ a :: r.addrs := rfl

@[simp] theorem values_nil : (Tree.nil : Tree α).values = [] := rfl

@[simp] theorem values_node (a : Nat) (c : Bool) (l r : Tree α) (v : α) :
    (Tree.node a c l v r).values = l.values ++ v :: r.values := rfl

theorem ptr_eq_none {t : Tree α} : t.ptr = none ↔ t = Tree.nil := by
  cases t <;> simp

theorem ptr_mem_addrs {t : Tree α} {a : Nat} (hp : t.ptr = some a) : a ∈ t.addrs := by
  cases t with
  | nil => simp at hp
  | node b c l v r => simp at hp; simp [hp]

theorem Lay_update {h : Heap α} {par : Ptr} {t : Tree α} {a : Nat} (f : Node α → Node α)
    (ha : a ∉ t.addrs) : Lay (h.update a f) par t ↔ Lay h par t := by
  induction t generalizing par with
  | nil => simp
  | node b c l v r ihl ihr =>
    simp only [addrs_node, List.mem_append, List.mem_cons, not_or] at ha
    have hb : b ≠ a := fun e => ha.2.1 e.symm
    simp [read_update, hb, ihl ha.1, ihr ha.2.2]

theorem Lay_clear {h : Heap α} {par : Ptr} {t : Tree α} {a : Nat}
    (ha : a ∉ t.addrs) : Lay (h.clear a) par t ↔ Lay h par t := by
  induction t generalizing par with
  | nil => simp
  | node b c l v r ihl ihr =>
    simp only [addrs_node, List.mem_append, List.mem_cons, not_or] at ha
    have hb : b ≠ a := fun e => ha.2.1 e.symm
    simp [read_clear, hb, ihl ha.1, ihr ha.2.2]

theorem Lay.read_of_mem {h : Heap α} {par : Ptr} {t : Tree α} (hl : Lay h par t) {a : Nat}
    (ha : a ∈ t.addrs) : ∃ n, h.read a = some n ∧ n.value ∈ t.values := by
  induction t generalizing par with
  | nil => simp at ha
  | node b c l v r ihl ihr =>
    simp only [Lay_node] at hl
    simp only [addrs_node, List.mem_append, List.mem_cons] at ha
    rcases ha with ha | ha | ha
    · obtain ⟨n, hn, hv⟩ := ihl hl.2.1 ha
      exact ⟨n, hn, by simp [hv]⟩
    · subst ha; exact ⟨_, hl.1, by simp⟩
    · obtain ⟨n, hn, hv⟩ := ihr hl.2.2 ha
      exact ⟨n, hn, by simp [hv]⟩

theorem Lay.lt_length {h : Heap α} {par : Ptr} {t : Tree α} (hl : Lay h par t) {a : Nat}
    (ha : a ∈ t.addrs) : a < h.length := by
  obtain ⟨n, hn, _⟩ := hl.read_of_mem ha
  exact read_lt hn

theorem Lay_append {h : Heap α} {par : Ptr} {t : Tree α} (n : Node α) (hl : Lay h par t) :
    Lay (h ++ [some n]) par t := by
  induction t generalizing par with
  | nil => simp
  | node b c l v r ihl ihr =>
    simp only [Lay_node] at hl ⊢
    have hb : b ≠ h.length := Nat.ne_of_lt (read_lt hl.1)
    exact ⟨by simp [read_append_single, hb, hl.1], ihl hl.2.1, ihr hl.2.2⟩

/-! ## Order -/

theorem All_iff {p : α → Prop} {t : Tree α} : t.All p ↔ ∀ v ∈ t.values, p v := by
  induction t with
  | nil => simp [Tree.All]
  | node a c l v r ihl ihr =>
    simp only [Tree.All, ihl, ihr, values_node, List.mem_append, List.mem_cons]
    constructor
    · rintro ⟨h1, h2, h3⟩ w (hw | hw | hw)
      · exact h2 w hw
      · exact hw ▸ h1
      · exact h3 w hw
    · intro H
      exact ⟨H v (Or.inr (Or.inl rfl)), fun w hw => H w (Or.inl hw),
        fun w hw => H w (Or.inr (Or.inr hw))⟩

theorem Ordered_iff [LinearOrder α] {t : Tree α} :
    t.Ordered ↔ t.values.Pairwise (· < ·) := by
  induction t with
  | nil => simp [Tree.Ordered]
  | node a c l v r ihl ihr =>
    simp only [Tree.Ordered, ihl, ihr, values_node, List.pairwise_append, List.pairwise_cons,
      List.mem_cons, All_iff]
    constructor
    · rintro ⟨h1, h2, h3, h4⟩
      refine ⟨h3, ⟨h2, h4⟩, ?_⟩
      rintro x hx y (rfl | hy)
      · exact h1 x hx
      · exact lt_trans (h1 x hx) (h2 y hy)
    · rintro ⟨h3, ⟨h2, h4⟩, h5⟩
      exact ⟨fun x hx => h5 x hx v (Or.inl rfl), h2, h3, h4⟩

theorem Lay.nodup_addrs [LinearOrder α] {h : Heap α} {par : Ptr} {t : Tree α}
    (hl : Lay h par t) (ho : t.Ordered) : t.addrs.Nodup := by
  induction t generalizing par with
  | nil => simp
  | node b c l v r ihl ihr =>
    simp only [Lay_node] at hl
    simp only [Tree.Ordered, All_iff] at ho
    obtain ⟨hlv, hrv, hol, hor⟩ := ho
    simp only [addrs_node, List.nodup_append, List.nodup_cons, List.Disjoint, List.mem_cons]
    refine ⟨ihl hl.2.1 hol, ⟨?_, ihr hl.2.2 hor⟩, ?_⟩
    · intro hb
      obtain ⟨n, hn, hv⟩ := hl.2.2.read_of_mem hb
      rw [hl.1] at hn
      cases hn
      exact lt_irrefl _ (hrv _ hv)
    · rintro x hx (rfl | hx2)
      · obtain ⟨n, hn, hv⟩ := hl.2.1.read_of_mem hx
        rw [hl.1] at hn
        cases hn
        exact lt_irrefl _ (hlv _ hv)
      · obtain ⟨n, hn, hv⟩ := hl.2.1.read_of_mem hx
        obtain ⟨m, hm, hw⟩ := hl.2.2.read_of_mem hx2
        rw [hn] at hm
        cases hm
        exact lt_irrefl _ (lt_trans (hlv _ hv) (hrv _ hw))

theorem length_addrs (t : Tree α) : t.addrs.length = t.size := by
  induction t with
  | nil => rfl
  | node a c l v r ihl ihr => simp [Tree.size, ihl, ihr]; omega

theorem length_values (t : Tree α) : t.values.length = t.size := by
  induction t with
  | nil => rfl
  | node a c l v r ihl ihr => simp [Tree.size, ihl, ihr]; omega

theorem height_le_size (t : Tree α) : t.height ≤ t.size := by
  induction t with
  | nil => simp [Tree.height]
  | node a c l v r ihl ihr => simp only [Tree.height, Tree.size]; omega

theorem nodup_length_le {l : List Nat} {n : Nat} (hn : l.Nodup) (hb : ∀ a ∈ l, a < n) :
    l.length ≤ n := by
  have hsub : l ⊆ List.range n := fun a ha => List.mem_range.2 (hb a ha)
  have := (List.subperm_of_subset hn hsub).length_le
  simpa using this

theorem Lay.size_le [LinearOrder α] {h : Heap α} {par : Ptr} {t : Tree α}
    (hl : Lay h par t) (ho : t.Ordered) : t.size ≤ h.length := by
  rw [← length_addrs]
  exact nodup_length_le (hl.nodup_addrs ho) (fun a ha => hl.lt_length ha)

theorem Lay.height_le [LinearOrder α] {h : Heap α} {par : Ptr} {t : Tree α}
    (hl : Lay h par t) (ho : t.Ordered) : t.height ≤ h.length :=
  le_trans (height_le_size t) (hl.size_le ho)

end Layout

end bulumutka

namespace bulumutka

section Search

variable {α : Type}

theorem equals_iff [LinearOrder α] (x y : α) : equals x y = true ↔ x = y := by
  simp only [equals, Bool.and_eq_true, Bool.not_eq_true', decide_eq_false_iff_not, not_lt]
  exact ⟨fun ⟨h1, h2⟩ => le_antisymm h2 h1, fun e => by simp [e]⟩

theorem equals_false_iff [LinearOrder α] (x y : α) : equals x y = false ↔ x ≠ y := by
  rw [← Bool.not_eq_true, equals_iff]

/-- The descent of `find_` ends at the node holding `key`, or at `nullptr`. -/
theorem find_loop_spec [LinearOrder α] {h : Heap α} {par : Ptr} {t : Tree α} (hl : Lay h par t)
    (ho : t.Ordered) (key : α) (fuel : Nat) (hf : t.height < fuel) :
    ∃ p, find_loop fuel h key t.ptr = Except.ok p ∧
      (key ∈ t.values → ∃ a n, p = some a ∧ a ∈ t.addrs ∧ h.read a = some n ∧ n.value = key) ∧
      (key ∉ t.values → p = none) := by
  induction t generalizing par fuel with
  | nil =>
    cases fuel with
    | zero => simp [Tree.height] at hf
    | succ fuel => exact ⟨none, by simp [find_loop], by simp, by simp⟩
  | node a c l v r ihl ihr =>
    cases fuel with
    | zero => simp at hf
    | succ fuel =>
      simp only [Lay_node] at hl
      obtain ⟨hr, hll, hlr⟩ := hl
      simp only [Tree.Ordered, All_iff] at ho
      obtain ⟨hlv, hrv, hol, hor⟩ := ho
      simp only [Tree.height] at hf
      by_cases hk : key = v
      · subst hk
        refine ⟨some a, ?_, fun _ => ⟨a, _, rfl, by simp, hr, rfl⟩, by simp⟩
        simp [find_loop, hr, (equals_iff key key).2 rfl]
      · have he : equals key v = false := (equals_false_iff _ _).2 hk
        rcases lt_or_gt_of_ne hk with hlt | hgt
        · obtain ⟨p, hp, h1, h2⟩ := ihl hll hol fuel (by omega)
          refine ⟨p, ?_, ?_, ?_⟩
          · simp [find_loop, hr, he, hlt, hp]
          · intro hmem
            simp only [values_node, List.mem_append, List.mem_cons] at hmem
            rcases hmem with hm | hm | hm
            · obtain ⟨b, n, e1, e2, e3, e4⟩ := h1 hm
              exact ⟨b, n, e1, by simp [e2], e3, e4⟩
            · exact absurd hm hk
            · exact absurd (lt_trans (hrv _ hm) hlt) (lt_irrefl _)
          · intro hmem
            apply h2
            intro hm
            exact hmem (by simp [hm])
        · obtain ⟨p, hp, h1, h2⟩ := ihr hlr hor fuel (by omega)
          have hnlt : ¬ key < v := not_lt.2 (le_of_lt hgt)
          refine ⟨p, ?_, ?_, ?_⟩
          · simp [find_loop, hr, he, hnlt, hp]
          · intro hmem
            simp only [values_node, List.mem_append, List.mem_cons] at hmem
            rcases hmem with hm | hm | hm
            · exact absurd (lt_trans (hlv _ hm) hgt) (lt_irrefl _)
            · exact absurd hm hk
            · obtain ⟨b, n, e1, e2, e3, e4⟩ := h1 hm
              exact ⟨b, n, e1, by simp [e2], e3, e4⟩
          · intro hmem
            apply h2
            intro hm
            exact hmem (by simp [hm])

theorem find__spec [LinearOrder α] {s : Set α} {t : Tree α} (hm : s.Models t) (ho : t.Ordered)
    (key : α) :
    ∃ p, s.find_ key = Except.ok p ∧
      (key ∈ t.values →
        ∃ a n, p = some a ∧ a ∈ t.addrs ∧ s.heap.read a = some n ∧ n.value = key) ∧
      (key ∉ t.values → p = none) := by
  obtain ⟨hroot, hl⟩ := hm
  have hh := hl.height_le ho
  simpa [Set.find_, hroot] using find_loop_spec hl ho key (s.heap.length + 1) (by omega)

/-- The descent of `insert` stops with the early `return` when `key` is stored. -/
theorem insert_loop_present [LinearOrder α] {h : Heap α} {par : Ptr} {t : Tree α}
    (hl : Lay h par t) (ho : t.Ordered) (key : α) (hk : key ∈ t.values) (fuel : Nat)
    (hf : t.height ≤ fuel) : insert_loop fuel h key t.ptr = Except.ok none := by
  induction t generalizing par fuel with
  | nil => simp at hk
  | node a c l v r ihl ihr =>
    cases fuel with
    | zero => simp [Tree.height] at hf
    | succ fuel =>
      simp only [Lay_node] at hl
      obtain ⟨hr, hll, hlr⟩ := hl
      simp only [Tree.Ordered, All_iff] at ho
      obtain ⟨hlv, hrv, hol, hor⟩ := ho
      simp only [Tree.height] at hf
      by_cases hkv : key = v
      · subst hkv
        simp [insert_loop, hr, (equals_iff key key).2 rfl]
      · have he : equals key v = false := (equals_false_iff _ _).2 hkv
        simp only [values_node, List.mem_append, List.mem_cons] at hk
        rcases hk with hm | hm | hm
        · have hlt : key < v := hlv _ hm
          have hne : l.ptr ≠ none := by
            intro e; rw [ptr_eq_none] at e; subst e; simp at hm
          have := ihl hll hol hm fuel (by omega)
          simp [insert_loop, hr, he, hlt, hne, this]
        · exact absurd hm hkv
        · have hgt : v < key := hrv _ hm
          have hnlt : ¬ key < v := not_lt.2 (le_of_lt hgt)
          have hne : r.ptr ≠ none := by
            intro e; rw [ptr_eq_none] at e; subst e; simp at hm
          have := ihr hlr hor hm fuel (by omega)
          simp [insert_loop, hr, he, hnlt, hne, this]

/-- The descent of `lower_bound_` returns the node of the least value not less than
`key` below the start node, and the incoming `answer` when there is none; the
incoming `answer`, if any, holds a value above every value below the start node. -/
theorem lower_bound_loop_spec [LinearOrder α] {h : Heap α} {par : Ptr} {t : Tree α}
    (hl : Lay h par t) (ho : t.Ordered) (key : α) (fuel : Nat) (hf : t.height < fuel)
    (answer : Ptr)
    (ha : ∀ b, answer = some b → ∃ n, h.read b = some n ∧ ∀ w ∈ t.values, w < n.value) :
    ∃ p, lower_bound_loop fuel h key t.ptr answer = Except.ok p ∧
      ((∀ w ∈ t.values, w < key) → p = answer) ∧
      ((∃ w ∈ t.values, ¬ w < key) →
        ∃ a n, p = some a ∧ a ∈ t.addrs ∧ h.read a = some n ∧ n.value ∈ t.values ∧
          ¬ n.value < key ∧ ∀ w ∈ t.values, ¬ w < key → ¬ w < n.value) := by
  induction t generalizing par fuel answer with
  | nil =>
    cases fuel with
    | zero => simp [Tree.height] at hf
    | succ fuel => exact ⟨answer, by simp [lower_bound_loop], by simp, by simp⟩
  | node a c l v r ihl ihr =>
    cases fuel with
    | zero => simp at hf
    | succ fuel =>
      simp only [Lay_node] at hl
      obtain ⟨hr, hll, hlr⟩ := hl
      simp only [Tree.Ordered, All_iff] at ho
      obtain ⟨hlv, hrv, hol, hor⟩ := ho
      simp only [Tree.height] at hf
      rcases lt_trichotomy key v with hlt | heq | hgt
      · -- descend to the left with `answer = node`
        obtain ⟨p, hp, h1, h2⟩ := ihl hll hol fuel (by omega) (some a)
          (fun b hb => by
            cases hb
            exact ⟨_, hr, hlv⟩)
        refine ⟨p, ?_, ?_, ?_⟩
        · cases answer with
          | none => simp [lower_bound_loop, hr, hlt, hp]
          | some b =>
            obtain ⟨n, hn, hlt2⟩ := ha b rfl
            have hvn : v < n.value := hlt2 v (by simp)
            simp [lower_bound_loop, hr, hlt, hn, hvn, hp]
        · intro hall
          exact absurd (hall v (by simp)) (not_lt.2 (le_of_lt hlt))
        · intro _
          by_cases hex : ∃ w ∈ l.values, ¬ w < key
          · obtain ⟨b, n, e1, e2, e3, e4, e5, e6⟩ := h2 hex
            refine ⟨b, n, e1, by simp [e2], e3, by simp [e4], e5, ?_⟩
            intro w hw hwk
            simp only [values_node, List.mem_append, List.mem_cons] at hw
            rcases hw with hw | hw | hw
            · exact e6 w hw hwk
            · subst hw; exact not_lt.2 (le_of_lt (hlv _ e4))
            · exact not_lt.2 (le_of_lt (lt_trans (hlv _ e4) (hrv _ hw)))
          · have hall : ∀ w ∈ l.values, w < key := by
              intro w hw
              by_contra hc
              exact hex ⟨w, hw, hc⟩
            have hpa := h1 hall
            refine ⟨a, _, hpa, by simp, hr, by simp, not_lt.2 (le_of_lt hlt), ?_⟩
            intro w hw hwk
            simp only [values_node, List.mem_append, List.mem_cons] at hw
            rcases hw with hw | hw | hw
            · exact absurd (hall w hw) hwk
            · subst hw; exact lt_irrefl _
            · exact not_lt.2 (le_of_lt (hrv _ hw))
      · subst heq
        refine ⟨some a, by simp [lower_bound_loop, hr], ?_, ?_⟩
        · intro hall
          exact absurd (hall key (by simp)) (lt_irrefl _)
        · intro _
          refine ⟨a, _, rfl, by simp, hr, by simp, lt_irrefl _, ?_⟩
          intro w _ hwk
          exact hwk
      · have hnlt : ¬ key < v := not_lt.2 (le_of_lt hgt)
        obtain ⟨p, hp, h1, h2⟩ := ihr hlr hor fuel (by omega) answer
          (fun b hb => by
            obtain ⟨n, hn, hlt2⟩ := ha b hb
            exact ⟨n, hn, fun w hw => hlt2 w (by simp [hw])⟩)
        refine ⟨p, by simp [lower_bound_loop, hr, hnlt, hgt, hp], ?_, ?_⟩
        · intro hall
          exact h1 (fun w hw => hall w (by simp [hw]))
        · rintro ⟨w, hw, hwk⟩
          have hex : ∃ w ∈ r.values, ¬ w < key := by
            simp only [values_node, List.mem_append, List.mem_cons] at hw
            rcases hw with hw | hw | hw
            · exact absurd (lt_trans (hlv _ hw) hgt) hwk
            · subst hw; exact absurd hgt hwk
            · exact ⟨w, hw, hwk⟩
          obtain ⟨b, n, e1, e2, e3, e4, e5, e6⟩ := h2 hex
          refine ⟨b, n, e1, by simp [e2], e3, by simp [e4], e5, ?_⟩
          intro w hw hwk
          simp only [values_node, List.mem_append, List.mem_cons] at hw
          rcases hw with hw | hw | hw
          · exact absurd (lt_trans (hlv _ hw) hgt) hwk
          · subst hw; exact absurd hgt hwk
          · exact e6 w hw hwk

end Search

end bulumutka

namespace bulumutka

section SearchClaims

variable {α : Type}

theorem demo_models : demoSet.Models demoTree := by
  simp [Set.Models, demoSet, demoTree]

theorem demo_ordered : demoTree.Ordered := by
  simp [demoTree, Tree.Ordered, Tree.All]

theorem demo_redBlack : demoTree.RedBlack := by
  simp [Tree.RedBlack, demoTree, Tree.Ordered, Tree.All, Tree.isRed, Tree.NoRedRed,
    Tree.Uniform, Tree.blackCount]

theorem demo_wellFormed : demoSet.WellFormed := ⟨demoTree, demo_models, demo_redBlack⟩

theorem demo_root_mem : 0 ∈ demoTree.addrs := by simp [demoTree]

theorem demo_root_read : demoSet.heap.read 0 = some ⟨2, none, some 1, some 2, BLACK⟩ := rfl

theorem demo_height : demoTree.height ≤ 4 := by decide

theorem demo_nodup : demoTree.addrs.Nodup := by decide

theorem zig_lay : Lay zigSet.heap none zigTree := by
  simp [zigSet, zigTree]

theorem zig_nodup : zigTree.addrs.Nodup := by decide

theorem zag_lay : Lay zagSet.heap none zagTree := by
  simp [zagSet, zagTree]

theorem zag_nodup : zagTree.addrs.Nodup := by decide

theorem demo_find_root : demoSet.find 2 = Except.ok ⟨some 0, some 0⟩ := by rfl

theorem demo_find_root_ne : (Iterator.mk (some 0) (some 0)).equal demoSet.end_ = false := by rfl

/-- C6: `find` is correct on every set with binary-search order.  On a set whose links
draw a tree `t` in strict search order: if a stored value `w` is equal to `v` in the
sense of the order (neither is less than the other), `find v` returns a non-end iterator
to a node of the tree that holds `w`; and if every stored value is less than `v` or
greater than `v`, `find v` returns `end()`. -/
theorem find_correct [LinearOrder α] (s : Set α) (t : Tree α) (hm : s.Models t)
    (ho : t.Ordered) (v : α) :
    (∀ w ∈ t.values, ¬ v < w → ¬ w < v →
      ∃ a n, s.find v = Except.ok ⟨some a, s.root_⟩ ∧ a ∈ t.addrs ∧
        s.heap.read a = some n ∧ n.value = w ∧
        (Iterator.mk (some a) s.root_).equal s.end_ = false) ∧
    ((∀ w ∈ t.values, v < w ∨ w < v) →
      s.find v = Except.ok s.end_ ∧
        ∀ it, s.find v = Except.ok it → it.equal s.end_ = true) := by
  obtain ⟨p, hp, h1, h2⟩ := find__spec hm ho v
  constructor
  · intro w hw h3 h4
    have hvw : v = w := le_antisymm (not_lt.1 h4) (not_lt.1 h3)
    have hv : v ∈ t.values := by rw [hvw]; exact hw
    obtain ⟨a, n, e1, e2, e3, e4⟩ := h1 hv
    refine ⟨a, n, ?_, e2, e3, by rw [e4, hvw], ?_⟩
    · simp [Set.find, hp, e1]
    · simp [Iterator.equal, Set.end_]
  · intro hall
    have hv : v ∉ t.values := fun hv => by
      rcases hall v hv with h | h <;> exact lt_irrefl v h
    have hf : s.find v = Except.ok s.end_ := by
      simp [Set.find, hp, h2 hv, Set.end_]
    refine ⟨hf, fun it hit => ?_⟩
    rw [hf] at hit
    cases hit
    simp [Iterator.equal, Set.end_]

theorem find_correct_witness :
    demoSet.Models demoTree ∧ demoTree.Ordered ∧
    (3 ∈ demoTree.values ∧ ¬ 3 < 3) ∧
    (∃ a n, demoSet.find 3 = Except.ok ⟨some a, demoSet.root_⟩ ∧ a ∈ demoTree.addrs ∧
      demoSet.heap.read a = some n ∧ n.value = 3 ∧
      (Iterator.mk (some a) demoSet.root_).equal demoSet.end_ = false) ∧
    (∀ w ∈ demoTree.values, 7 < w ∨ w < 7) ∧
    demoSet.find 7 = Except.ok demoSet.end_ ∧
    (∀ it, demoSet.find 7 = Except.ok it → it.equal demoSet.end_ = true) :=
  ⟨demo_models, demo_ordered, ⟨by simp [demoTree], by decide⟩,
    (find_correct demoSet demoTree demo_models demo_ordered 3).1 3 (by simp [demoTree])
      (by decide) (by decide),
    by simp [demoTree],
    (find_correct demoSet demoTree demo_models demo_ordered 7).2 (by simp [demoTree])⟩

/-- C7: on a set whose links draw a tree `t` in strict search order, `lower_bound v`
returns `end()` exactly when every stored value is less than `v`, and otherwise an
iterator to the node holding the least stored value that is not less than `v`; the
tie-break on the running answer never changes that. -/
theorem lower_bound_correct [LinearOrder α] (s : Set α) (t : Tree α) (hm : s.Models t)
    (ho : t.Ordered) (v : α) :
    ∃ it, s.lower_bound v = Except.ok it ∧
      (it.equal s.end_ = true ↔ ∀ w ∈ t.values, w < v) ∧
      (∀ a, it.current_ = some a →
        a ∈ t.addrs ∧ ∃ n, s.heap.read a = some n ∧ n.value ∈ t.values ∧ ¬ n.value < v ∧
          ∀ w ∈ t.values, ¬ w < v → ¬ w < n.value) := by
  obtain ⟨hroot, hl⟩ := hm
  have hh := hl.height_le ho
  obtain ⟨p, hp, h1, h2⟩ :=
    lower_bound_loop_spec hl ho v (s.heap.length + 1) (by omega) none (by simp)
  refine ⟨⟨p, s.root_⟩, by simp [Set.lower_bound, Set.lower_bound_, hroot, hp], ?_, ?_⟩
  · simp only [Iterator.equal, Set.end_, beq_iff_eq]
    constructor
    · intro hnone
      by_contra hc
      push_neg at hc
      obtain ⟨w, hw, hwv⟩ := hc
      obtain ⟨a, n, e1, _⟩ := h2 ⟨w, hw, not_lt.2 hwv⟩
      rw [hnone] at e1
      cases e1
    · exact h1
  · intro a hpa
    simp only at hpa
    have hex : ∃ w ∈ t.values, ¬ w < v := by
      by_contra hc
      push_neg at hc
      have := h1 hc
      rw [this] at hpa
      cases hpa
    obtain ⟨b, n, e1, e2, e3, e4, e5, e6⟩ := h2 hex
    rw [e1] at hpa
    cases hpa
    exact ⟨e2, n, e3, e4, e5, e6⟩

theorem lower_bound_correct_witness :
    demoSet.Models demoTree ∧ demoTree.Ordered ∧
    ∃ it, demoSet.lower_bound 2 = Except.ok it ∧
      (it.equal demoSet.end_ = true ↔ ∀ w ∈ demoTree.values, w < 2) ∧
      (∀ a, it.current_ = some a →
        a ∈ demoTree.addrs ∧ ∃ n, demoSet.heap.read a = some n ∧ n.value ∈ demoTree.values ∧
          ¬ n.value < 2 ∧ ∀ w ∈ demoTree.values, ¬ w < 2 → ¬ w < n.value) :=
  ⟨demo_models, demo_ordered, lower_bound_correct demoSet demoTree demo_models demo_ordered 2⟩

/-- C9: on a set whose links draw a tree `t` in strict search order, inserting a key
equal to a stored value returns the very same state: heap (nodes, values, colours,
links), `root_` and `size_` are all unchanged. -/
theorem insert_present_noop [LinearOrder α] (s : Set α) (t : Tree α) (hm : s.Models t)
    (ho : t.Ordered) (key : α) (hk : ∃ w ∈ t.values, equals key w = true) :
    s.insert key = Except.ok s := by
  obtain ⟨w, hw, he⟩ := hk
  have hv : key ∈ t.values := by rw [(equals_iff key w).1 he]; exact hw
  obtain ⟨hroot, hl⟩ := hm
  have hh := hl.height_le ho
  have hne : s.root_ ≠ none := by
    rw [hroot]
    intro e
    rw [ptr_eq_none] at e
    subst e
    simp at hv
  have hloop := insert_loop_present hl ho key hv (s.heap.length + 1) (by omega)
  rw [← hroot] at hloop
  simp [Set.insert, hne, hloop]

theorem insert_present_noop_witness :
    demoSet.Models demoTree ∧ demoTree.Ordered ∧ (∃ w ∈ demoTree.values, equals 1 w = true) ∧
    demoSet.insert 1 = Except.ok demoSet :=
  ⟨demo_models, demo_ordered, ⟨1, by simp [demoTree], by decide⟩,
    insert_present_noop demoSet demoTree demo_models demo_ordered 1
      ⟨1, by simp [demoTree], by decide⟩⟩

/-- C10: on a set whose links draw a tree `t` in strict search order, erasing a key
equal to no stored value returns the very same state: heap, `root_` and `size_` are
all unchanged. -/
theorem erase_absent_noop [LinearOrder α] (s : Set α) (t : Tree α) (hm : s.Models t)
    (ho : t.Ordered) (key : α) (hk : ∀ w ∈ t.values, equals key w = false) :
    s.erase key = Except.ok s := by
  have hv : key ∉ t.values := fun hv => by
    have := hk key hv
    rw [equals_false_iff] at this
    exact this rfl
  obtain ⟨p, hp, _, h2⟩ := find__spec hm ho key
  simp [Set.erase, hp, h2 hv]

theorem erase_absent_noop_witness :
    demoSet.Models demoTree ∧ demoTree.Ordered ∧
    (∀ w ∈ demoTree.values, equals 7 w = false) ∧ demoSet.erase 7 = Except.ok demoSet :=
  ⟨demo_models, demo_ordered, by simp [demoTree]; decide,
    erase_absent_noop demoSet demoTree demo_models demo_ordered 7
      (by simp [demoTree]; decide)⟩

end SearchClaims

end bulumutka

namespace bulumutka

section Scenarios

/-- C16: inserting 5, 3, 8, 1, 4, 7, 9 in that order into an empty set gives a set
whose iteration from `begin()` to `end()` yields 1, 3, 4, 5, 7, 8, 9 and in which the
node of 5 has two children; `erase 5` then gives a set whose iteration yields
1, 3, 4, 7, 8, 9 and on which `find 5` equals `end()`. -/
theorem scenario_insert_erase :
    ∃ s s' : Set Nat, Set.ofList [5, 3, 8, 1, 4, 7, 9] = Except.ok s ∧
      s.toList = Except.ok [1, 3, 4, 5, 7, 8, 9] ∧
      (∃ a n, s.find 5 = Except.ok ⟨some a, s.root_⟩ ∧ s.heap.read a = some n ∧
        n.value = 5 ∧ n.left ≠ none ∧ n.right ≠ none) ∧
      s.erase 5 = Except.ok s' ∧
      s'.toList = Except.ok [1, 3, 4, 7, 8, 9] ∧
      ∃ it, s'.find 5 = Except.ok it ∧ it.equal s'.end_ = true :=
  ⟨⟨[some ⟨5, none, some 1, some 2, BLACK⟩, some ⟨3, some 0, some 3, some 4, BLACK⟩,
      some ⟨8, some 0, some 5, some 6, BLACK⟩, some ⟨1, some 1, none, none, RED⟩,
      some ⟨4, some 1, none, none, RED⟩, some ⟨7, some 2, none, none, RED⟩,
      some ⟨9, some 2, none, none, RED⟩], some 0, 7⟩,
   ⟨[none, some ⟨3, some 4, some 3, none, BLACK⟩, some ⟨8, some 4, some 5, some 6, BLACK⟩,
      some ⟨1, some 1, none, none, RED⟩, some ⟨4, none, some 1, some 2, BLACK⟩,
      some ⟨7, some 2, none, none, RED⟩, some ⟨9, some 2, none, none, RED⟩, none], some 4, 6⟩,
   by rfl, by rfl, ⟨0, _, by rfl, by rfl, by rfl, by decide, by decide⟩, by rfl, by rfl,
   ⟨_, by rfl, by rfl⟩⟩

/-- C15, as stated, fails.  Erasing 5 from the set built from 5, 3, 8, 1, 4, 7, 9: the
node of 5 (cell 0) has
two children and its in-order predecessor 4 is held by cell 4.  After `erase 5` cell 0
is freed, and cell 4 is still in the tree - it is the root, in the slot of the erased
node, and still holds 4.  So it is not the predecessor's node object that is freed, and
the node object of the erased value does not stay. -/
theorem erase_two_children_frees_target :
    ∃ s s' : Set Nat, Set.ofList [5, 3, 8, 1, 4, 7, 9] = Except.ok s ∧
      s.heap.read 0 = some ⟨5, none, some 1, some 2, BLACK⟩ ∧
      s.heap.read 4 = some ⟨4, some 1, none, none, RED⟩ ∧
      previous (s.heap.length + 1) s.heap (some 0) = Except.ok (some 4) ∧
      s.erase 5 = Except.ok s' ∧
      s'.heap.read 0 = none ∧
      s'.root_ = some 4 ∧
      s'.heap.read 4 = some ⟨4, none, some 1, some 2, BLACK⟩ ∧
      ¬ (s'.heap.read 4 = none ∧ ∃ n, s'.heap.read 0 = some n ∧ n.value = 4) :=
  ⟨⟨[some ⟨5, none, some 1, some 2, BLACK⟩, some ⟨3, some 0, some 3, some 4, BLACK⟩,
      some ⟨8, some 0, some 5, some 6, BLACK⟩, some ⟨1, some 1, none, none, RED⟩,
      some ⟨4, some 1, none, none, RED⟩, some ⟨7, some 2, none, none, RED⟩,
      some ⟨9, some 2, none, none, RED⟩], some 0, 7⟩,
   ⟨[none, some ⟨3, some 4, some 3, none, BLACK⟩, some ⟨8, some 4, some 5, some 6, BLACK⟩,
      some ⟨1, some 1, none, none, RED⟩, some ⟨4, none, some 1, some 2, BLACK⟩,
      some ⟨7, some 2, none, none, RED⟩, some ⟨9, some 2, none, none, RED⟩, none], some 4, 6⟩,
   by rfl, by rfl, by rfl, by rfl, by rfl, by rfl, by rfl, by rfl,
   fun h => by
     have h1 : Heap.read _ 4 = _ := h.1
     exact absurd h1 (by decide)⟩

end Scenarios

end bulumutka

namespace bulumutka

section StaleEnd

/-- C21: an end iterator decrements relative to the root captured when it was created:
on any heap, `operator--` on the iterator `end()` of a set gives `end_node` of the root
that the set had when `end()` was called.  After inserting 1 and 2 into an empty set,
taking `e = end()` and inserting 3 (which rotates 2 into the root), decrementing `e`
yields the node of 1, whereas the traversal of the set is 1, 2, 3 and decrementing a
fresh `end()` yields the maximum 3. -/
theorem end_decrement_uses_captured_root :
    (∀ (β : Type) (s : Set β) (h : Heap β),
      s.end_.decrement h =
        (end_node (h.length + 1) h s.root_).map (fun c => ⟨c, s.root_⟩)) ∧
    ∃ (s2 s3 : Set Nat) (it it' : Iterator),
      Set.ofList [1, 2] = Except.ok s2 ∧
      s2.insert 3 = Except.ok s3 ∧
      s2.root_ = some 0 ∧ s3.root_ = some 1 ∧
      s3.heap.read 1 = some ⟨2, none, some 0, some 2, BLACK⟩ ∧
      s3.toList = Except.ok [1, 2, 3] ∧
      s2.end_.decrement s3.heap = Except.ok it ∧
      it.star s3.heap = Except.ok 1 ∧
      s3.end_.decrement s3.heap = Except.ok it' ∧
      it'.star s3.heap = Except.ok 3 ∧
      it.equal it' = false :=
  ⟨fun _ _ _ => rfl,
   ⟨[some ⟨1, none, none, some 1, BLACK⟩, some ⟨2, some 0, none, none, RED⟩], some 0, 2⟩,
   ⟨[some ⟨1, some 1, none, none, RED⟩, some ⟨2, none, some 0, some 2, BLACK⟩,
      some ⟨3, some 1, none, none, RED⟩], some 1, 3⟩,
   ⟨some 0, some 0⟩, ⟨some 2, some 1⟩,
   by rfl, by rfl, by rfl, by rfl, by rfl, by rfl, by rfl, by rfl, by rfl, by rfl, by rfl⟩

/-- Inserting 1, 2, ..., 7 in ascending order: the links of the resulting set draw a tree
of height 4 whose root holds 2. -/
theorem ascending_seven :
    ∃ (s : Set Nat) (t : Tree Nat), Set.ofList [1, 2, 3, 4, 5, 6, 7] = Except.ok s ∧
      s.Models t ∧ t.height = 4 ∧ getValue s.heap s.root_ = Except.ok 2 :=
  ⟨⟨[some ⟨1, some 1, none, none, BLACK⟩, some ⟨2, none, some 0, some 3, BLACK⟩,
      some ⟨3, some 3, none, none, BLACK⟩, some ⟨4, some 1, some 2, some 5, RED⟩,
      some ⟨5, some 5, none, none, RED⟩, some ⟨6, some 3, some 4, some 6, BLACK⟩,
      some ⟨7, some 5, none, none, RED⟩], some 1, 7⟩,
   .node 1 BLACK (.node 0 BLACK .nil 1 .nil) 2
     (.node 3 RED (.node 2 BLACK .nil 3 .nil) 4
       (.node 5 BLACK (.node 4 RED .nil 5 .nil) 6 (.node 6 RED .nil 7 .nil))),
   by rfl, by simp [Set.Models], by rfl, by rfl⟩

theorem duoA_models : duoA.Models demoTree := by
  simp [Set.Models, duoA, duoHeap, demoSet, demoTree]

theorem duoB_models : duoB.Models duoTree := by
  simp [Set.Models, duoB, duoHeap, demoSet, duoTree]

theorem duoTree_redBlack : duoTree.RedBlack := by
  simp [Tree.RedBlack, duoTree, Tree.Ordered, Tree.All, Tree.isRed, Tree.NoRedRed,
    Tree.Uniform, Tree.blackCount]

theorem duo_apart : ∀ x ∈ duoTree.addrs, x ∉ demoTree.addrs := by
  simp [duoTree, demoTree]

end StaleEnd

end bulumutka

namespace bulumutka

section Paths

variable {α : Type}

/-! ## Layout of a path -/

@[simp] theorem LayPath_nil (h : Heap α) (q : Ptr) : LayPath h q ([] : Path α) := trivial

@[simp] theorem LayPath_inL (h : Heap α) (q : Ptr) (a : Nat) (c : Bool) (v : α) (r : Tree α)
    (p : Path α) :
    LayPath h q (Frame.inL a c v r :: p) ↔
      h.read a = some ⟨v, Path.ptr p, q, r.ptr, c⟩ ∧ Lay h (some a) r ∧ LayPath h (some a) p :=
  Iff.rfl

@[simp] theorem LayPath_inR (h : Heap α) (q : Ptr) (a : Nat) (c : Bool) (l : Tree α) (v : α)
    (p : Path α) :
    LayPath h q (Frame.inR a c l v :: p) ↔
      h.read a = some ⟨v, Path.ptr p, l.ptr, q, c⟩ ∧ Lay h (some a) l ∧ LayPath h (some a) p :=
  Iff.rfl

@[simp] theorem Path.ptr_empty : Path.ptr ([] : Path α) = none := rfl

@[simp] theorem Path.ptr_cons (f : Frame α) (p : Path α) : Path.ptr (f :: p) = some f.addr := rfl

@[simp] theorem Path.addrs_empty : Path.addrs ([] : Path α) = [] := rfl

@[simp] theorem Path.addrs_cons (f : Frame α) (p : Path α) :
    Path.addrs (f :: p) = f.addr :: (f.sibling.addrs ++ Path.addrs p) := rfl

@[simp] theorem Path.fill_nil (t : Tree α) : Path.fill [] t = t := rfl

@[simp] theorem Path.fill_cons (f : Frame α) (p : Path α) (t : Tree α) :
    Path.fill (f :: p) t = Path.fill p (f.fill t) := rfl

@[simp] theorem Frame.addr_inL (a : Nat) (c : Bool) (v : α) (r : Tree α) :
    (Frame.inL a c v r).addr = a := rfl

@[simp] theorem Frame.addr_inR (a : Nat) (c : Bool) (l : Tree α) (v : α) :
    (Frame.inR a c l v).addr = a := rfl

@[simp] theorem Frame.sibling_inL (a : Nat) (c : Bool) (v : α) (r : Tree α) :
    (Frame.inL a c v r).sibling = r := rfl

@[simp] theorem Frame.sibling_inR (a : Nat) (c : Bool) (l : Tree α) (v : α) :
    (Frame.inR a c l v).sibling = l := rfl

@[simp] theorem Frame.color_inL (a : Nat) (c : Bool) (v : α) (r : Tree α) :
    (Frame.inL a c v r).color = c := rfl

@[simp] theorem Frame.color_inR (a : Nat) (c : Bool) (l : Tree α) (v : α) :
    (Frame.inR a c l v).color = c := rfl

@[simp] theorem Frame.fill_inL (a : Nat) (c : Bool) (v : α) (r t : Tree α) :
    (Frame.inL a c v r).fill t = Tree.node a c t v r := rfl

@[simp] theorem Frame.fill_inR (a : Nat) (c : Bool) (l : Tree α) (v : α) (t : Tree α) :
    (Frame.inR a c l v).fill t = Tree.node a c l v t := rfl

theorem LayPath_update {h : Heap α} {q : Ptr} {p : Path α} {a : Nat} (f : Node α → Node α)
    (ha : a ∉ p.addrs) : LayPath (h.update a f) q p ↔ LayPath h q p := by
  induction p generalizing q with
  | nil => simp
  | cons fr p ih =>
    simp only [Path.addrs_cons, List.mem_cons, List.mem_append, not_or] at ha
    cases fr with
    | inL b c v r =>
      simp only [Frame.addr_inL, Frame.sibling_inL] at ha
      have hb : b ≠ a := fun e => ha.1 e.symm
      simp [read_update, hb, Lay_update f ha.2.1, ih ha.2.2]
    | inR b c l v =>
      simp only [Frame.addr_inR, Frame.sibling_inR] at ha
      have hb : b ≠ a := fun e => ha.1 e.symm
      simp [read_update, hb, Lay_update f ha.2.1, ih ha.2.2]

theorem ptr_ne_of_not_mem {t : Tree α} {a : Nat} (ha : a ∉ t.addrs) : t.ptr ≠ some a :=
  fun e => ha (ptr_mem_addrs e)

/-- Laying out a filled path is laying out the path and the filling. -/
theorem Lay_fill {h : Heap α} {p : Path α} {t : Tree α} :
    Lay h none (p.fill t) ↔ LayPath h t.ptr p ∧ Lay h p.ptr t := by
  induction p generalizing t with
  | nil => simp
  | cons f p ih =>
    cases f with
    | inL a c v r => simp [ih]; tauto
    | inR a c l v => simp [ih]; tauto

theorem addrs_fill_perm (p : Path α) (t : Tree α) :
    (p.fill t).addrs.Perm (p.addrs ++ t.addrs) := by
  induction p generalizing t with
  | nil => simp
  | cons f p ih =>
    cases f with
    | inL a c v r =>
      simp only [Path.fill_cons, Frame.fill_inL, Path.addrs_cons, Frame.addr_inL,
        Frame.sibling_inL]
      refine (ih _).trans ?_
      simp only [addrs_node]
      have : (Path.addrs p ++ (t.addrs ++ a :: r.addrs)).Perm
          ((a :: (r.addrs ++ Path.addrs p)) ++ t.addrs) := by
        rw [List.perm_iff_count]
        intro x
        simp [List.count_cons]
        omega
      simpa using this
    | inR a c l v =>
      simp only [Path.fill_cons, Frame.fill_inR, Path.addrs_cons, Frame.addr_inR,
        Frame.sibling_inR]
      refine (ih _).trans ?_
      simp only [addrs_node]
      have : (Path.addrs p ++ (l.addrs ++ a :: t.addrs)).Perm
          ((a :: (l.addrs ++ Path.addrs p)) ++ t.addrs) := by
        rw [List.perm_iff_count]
        intro x
        simp [List.count_cons]
        omega
      simpa using this

theorem size_fill (p : Path α) (t : Tree α) :
    (p.fill t).size = p.addrs.length + t.size := by
  have := (addrs_fill_perm p t).length_eq
  simpa [length_addrs] using this

end Paths

end bulumutka

namespace bulumutka

section Rotations

variable {α : Type}

/-! From here on the heap primitives are used through their laws only. -/

attribute [irreducible] Heap.update Heap.read Heap.clear

/-- Simplification runs a block one statement at a time: the rest of the block is
looked at only once the statement in front has been evaluated. -/
@[congr] theorem run_bind_congr {β γ : Type} {x y : Run β} (f : β → Run γ) (hx : x = y) :
    (x >>= f) = (y >>= f) := by rw [hx]

theorem read_update_ne {h : Heap α} {a b : Nat} (f : Node α → Node α) (hb : b ≠ a) :
    (h.update a f).read b = h.read b := by
  simp [read_update, hb]

@[simp] theorem read_update_self (h : Heap α) (a : Nat) (f : Node α → Node α) :
    (h.update a f).read a = (h.read a).map f := by
  simp [read_update]

theorem ptr_eq_some_false {t : Tree α} {a : Nat} (ha : a ∉ t.addrs) : (t.ptr = some a) = False :=
  eq_false (ptr_ne_of_not_mem ha)

theorem some_eq_ptr_false {t : Tree α} {a : Nat} (ha : a ∉ t.addrs) : (some a = t.ptr) = False :=
  eq_false fun e => ptr_ne_of_not_mem ha e.symm

@[simp] theorem setParent_some (h : Heap α) (a : Nat) (x : Ptr) :
    setParent h (some a) x =
      Run.ofOption ((h.read a).map fun _ => h.update a fun n => { n with parent := x }) := rfl

@[simp] theorem setLeft_some (h : Heap α) (a : Nat) (x : Ptr) :
    setLeft h (some a) x =
      Run.ofOption ((h.read a).map fun _ => h.update a fun n => { n with left := x }) := rfl

@[simp] theorem setRight_some (h : Heap α) (a : Nat) (x : Ptr) :
    setRight h (some a) x =
      Run.ofOption ((h.read a).map fun _ => h.update a fun n => { n with right := x }) := rfl

@[simp] theorem setColor_some (h : Heap α) (a : Nat) (x : Bool) :
    setColor h (some a) x =
      Run.ofOption ((h.read a).map fun _ => h.update a fun n => { n with color := x }) := rfl

theorem nat_eq_false_symm {a b : Nat} (h : b ≠ a) : (a = b) = False :=
  eq_false fun e => h e.symm

@[simp] theorem Path.rootPtr_nil (q : Ptr) : Path.rootPtr ([] : Path α) q = q := rfl

@[simp] theorem Path.rootPtr_cons (f : Frame α) (p : Path α) (q : Ptr) :
    Path.rootPtr (f :: p) q = Path.rootPtr p (some f.addr) := rfl

theorem ptr_fill (p : Path α) (t : Tree α) : (p.fill t).ptr = Path.rootPtr p t.ptr := by
  induction p generalizing t with
  | nil => rfl
  | cons f p ih => cases f <;> simp [ih]

@[simp] theorem andThen_ok_true (y : Run Bool) : andThen (Except.ok true) y = y := rfl

@[simp] theorem andThen_ok_false (y : Run Bool) :
    andThen (Except.ok false) y = Except.ok false := rfl

@[simp] theorem orElse_ok_true (y : Run Bool) : orElse (Except.ok true) y = Except.ok true := rfl

@[simp] theorem orElse_ok_false (y : Run Bool) : orElse (Except.ok false) y = y := rfl

/-- The first argument of a short-circuit test is evaluated before the second is
looked at. -/
@[congr] theorem andThen_congr {x y : Run Bool} (z : Run Bool) (hx : x = y) :
    andThen x z = andThen y z := by rw [hx]

/-- The first argument of a short-circuit test is evaluated before the second is
looked at. -/
@[congr] theorem orElse_congr {x y : Run Bool} (z : Run Bool) (hx : x = y) :
    orElse x z = orElse y z := by rw [hx]

theorem AgreeOff_refl (S : List Nat) (h : Heap α) : Heap.AgreeOff S h h := fun _ _ => rfl

theorem AgreeOff_update {S : List Nat} {h h' : Heap α} {a : Nat} (f : Node α → Node α)
    (ha : a ∈ S) : Heap.AgreeOff S h (h'.update a f) ↔ Heap.AgreeOff S h h' := by
  constructor
  · intro hf b hb
    have hne : b ≠ a := fun e => hb (e ▸ ha)
    rw [← hf b hb, read_update_ne f hne]
  · intro hf b hb
    have hne : b ≠ a := fun e => hb (e ▸ ha)
    rw [read_update_ne f hne, hf b hb]

theorem AgreeOff_trans {S : List Nat} {h h' h'' : Heap α} (h1 : Heap.AgreeOff S h h')
    (h2 : Heap.AgreeOff S h' h'') : Heap.AgreeOff S h h'' :=
  fun b hb => (h2 b hb).trans (h1 b hb)

theorem AgreeOff_mono {S T : List Nat} {h h' : Heap α} (h1 : Heap.AgreeOff S h h')
    (hs : ∀ a, a ∈ S → a ∈ T) : Heap.AgreeOff T h h' :=
  fun b hb => h1 b fun hm => hb (hs b hm)

theorem AgreeOff_of_perm {S T : List Nat} {h h' : Heap α} (h1 : Heap.AgreeOff S h h')
    (hs : S.Perm T) : Heap.AgreeOff T h h' :=
  AgreeOff_mono h1 fun _ ha => hs.mem_iff.1 ha

/-- Left rotation in the heap: the right child `q` takes the place of `g`. -/
theorem rotate_left_sim {h : Heap α} {p : Path α} {g q : Nat} {cg cq : Bool} {A B C : Tree α}
    {vg vq : α} (hp : LayPath h (some g) p)
    (ht : Lay h p.ptr (.node g cg A vg (.node q cq B vq C)))
    (hn : (p.addrs ++ (Tree.node g cg A vg (.node q cq B vq C)).addrs).Nodup) :
    ∃ h', rotate_left_ h (some g) = Except.ok h' ∧ LayPath h' (some q) p ∧
      Lay h' p.ptr (.node q cq (.node g cg A vg B) vq C) ∧ h'.length = h.length ∧
      Heap.AgreeOff (p.addrs ++ (Tree.node g cg A vg (.node q cq B vq C)).addrs) h h' := by
  unfold rotate_left_
  rcases p with _ | ⟨⟨a, c, v, r⟩ | ⟨a, c, l, v⟩, p⟩ <;> rcases B with _ | ⟨b, cb, Bl, vb, Br⟩ <;>
  · simp only [addrs_node, addrs_nil, Path.addrs_empty, Path.addrs_cons, List.nodup_append,
      List.nodup_cons, List.mem_append, List.mem_cons, not_or, List.disjoint_cons_left,
      List.disjoint_cons_right, List.disjoint_append_left, List.disjoint_append_right,
      List.nil_append, List.append_nil, List.disjoint_nil_left, List.disjoint_nil_right,
      List.nodup_nil, List.not_mem_nil, not_false_eq_true, true_and, and_true, Frame.addr_inL,
      Frame.addr_inR, Frame.sibling_inL, Frame.sibling_inR, Lay_node, Lay_nil, LayPath_inL,
      LayPath_inR, LayPath_nil, ptr_node, ptr_nil, Path.ptr_cons, Path.ptr_empty] at hn hp ht
    casesm* _ ∧ _
    simp  only [getParent_some, getRight_some, getLeft_some, getColor_some, getValue_some,
      getParent_none, getRight_none, getLeft_none, getColor_none, getValue_none,
      Option.map_some', ofOption_some, ofOption_none, ok_bind, error_bind, setParent_some,
      setLeft_some, setRight_some, setColor_some, ↓reduceIte, ne_eq, not_true_eq_false,
      not_false_eq_true, run_pure, read_update_self, read_update_ne, reduceCtorEq,
      Option.some.injEq, ptr_eq_some_false, some_eq_ptr_false, Except.ok.injEq,
      exists_eq_left', Lay_node, Lay_nil, LayPath_inL, LayPath_inR, LayPath_nil, Lay_update,
      LayPath_update, length_update, ptr_node, ptr_nil, Path.ptr_cons, Path.ptr_empty,
      Frame.addr_inL, Frame.addr_inR, and_self, and_true, true_and, decide_True, decide_False,
      Bool.true_eq_false, Bool.false_eq_true, decide_eq_true_eq, decide_not, Bool.not_true,
      Bool.not_false, if_true, if_false, Set.mk.injEq, and_assoc, andThen_ok_true,
      andThen_ok_false, orElse_ok_true, orElse_ok_false, Path.rootPtr_nil, Path.rootPtr_cons, nat_eq_false_symm, AgreeOff_update, AgreeOff_refl,
      addrs_node, addrs_nil, Path.addrs_cons, Path.addrs_empty, List.mem_append, List.mem_cons,
      true_or, or_true, Frame.sibling_inL, Frame.sibling_inR, *]

/-- Right rotation in the heap: the left child `q` takes the place of `g`. -/
theorem rotate_right_sim {h : Heap α} {p : Path α} {g q : Nat} {cg cq : Bool} {A B C : Tree α}
    {vg vq : α} (hp : LayPath h (some g) p)
    (ht : Lay h p.ptr (.node g cg (.node q cq A vq B) vg C))
    (hn : (p.addrs ++ (Tree.node g cg (.node q cq A vq B) vg C).addrs).Nodup) :
    ∃ h', rotate_right_ h (some g) = Except.ok h' ∧ LayPath h' (some q) p ∧
      Lay h' p.ptr (.node q cq A vq (.node g cg B vg C)) ∧ h'.length = h.length ∧
      Heap.AgreeOff (p.addrs ++ (Tree.node g cg (.node q cq A vq B) vg C).addrs) h h' := by
  unfold rotate_right_
  rcases p with _ | ⟨⟨a, c, v, r⟩ | ⟨a, c, l, v⟩, p⟩ <;> rcases B with _ | ⟨b, cb, Bl, vb, Br⟩ <;>
  · simp only [addrs_node, addrs_nil, Path.addrs_empty, Path.addrs_cons, List.nodup_append,
      List.nodup_cons, List.mem_append, List.mem_cons, not_or, List.disjoint_cons_left,
      List.disjoint_cons_right, List.disjoint_append_left, List.disjoint_append_right,
      List.nil_append, List.append_nil, List.disjoint_nil_left, List.disjoint_nil_right,
      List.nodup_nil, List.not_mem_nil, not_false_eq_true, true_and, and_true, Frame.addr_inL,
      Frame.addr_inR, Frame.sibling_inL, Frame.sibling_inR, Lay_node, Lay_nil, LayPath_inL,
      LayPath_inR, LayPath_nil, ptr_node, ptr_nil, Path.ptr_cons, Path.ptr_empty] at hn hp ht
    casesm* _ ∧ _
    simp  only [getParent_some, getRight_some, getLeft_some, getColor_some, getValue_some,
      getParent_none, getRight_none, getLeft_none, getColor_none, getValue_none,
      Option.map_some', ofOption_some, ofOption_none, ok_bind, error_bind, setParent_some,
      setLeft_some, setRight_some, setColor_some, ↓reduceIte, ne_eq, not_true_eq_false,
      not_false_eq_true, run_pure, read_update_self, read_update_ne, reduceCtorEq,
      Option.some.injEq, ptr_eq_some_false, some_eq_ptr_false, Except.ok.injEq,
      exists_eq_left', Lay_node, Lay_nil, LayPath_inL, LayPath_inR, LayPath_nil, Lay_update,
      LayPath_update, length_update, ptr_node, ptr_nil, Path.ptr_cons, Path.ptr_empty,
      Frame.addr_inL, Frame.addr_inR, and_self, and_true, true_and, decide_True, decide_False,
      Bool.true_eq_false, Bool.false_eq_true, decide_eq_true_eq, decide_not, Bool.not_true,
      Bool.not_false, if_true, if_false, Set.mk.injEq, and_assoc, andThen_ok_true,
      andThen_ok_false, orElse_ok_true, orElse_ok_false, Path.rootPtr_nil, Path.rootPtr_cons, nat_eq_false_symm, AgreeOff_update, AgreeOff_refl,
      addrs_node, addrs_nil, Path.addrs_cons, Path.addrs_empty, List.mem_append, List.mem_cons,
      true_or, or_true, Frame.sibling_inL, Frame.sibling_inR, *]

end Rotations

end bulumutka

namespace bulumutka

section InsertFix

variable {α : Type}

theorem rootBlack_tail2 {f g : Frame α} {rest : Path α} (h : Path.rootBlack (f :: g :: rest)) :
    Path.rootBlack rest := by
  cases rest with
  | nil => trivial
  | cons r rest => exact h

@[simp] theorem isRed_node (a : Nat) (c : Bool) (l r : Tree α) (v : α) :
    (Tree.node a c l v r).isRed = c := rfl

@[simp] theorem isRed_nil : (Tree.nil : Tree α).isRed = false := rfl

/-- Case 3 of the insertion fix-up in the heap: parent and uncle become black, the
grandparent red, and the fix-up continues at the grandparent. -/
theorem insert_recolor_sim (case1 : Set α → Ptr → Run (Set α)) (root : Ptr) (size : Nat)
    {f g : Frame α} {rest : Path α} {n : Nat} {l r : Tree α} {v : α} {h : Heap α}
    (hp : LayPath h (some n) (f :: g :: rest)) (ht : Lay h (some f.addr) (.node n RED l v r))
    (hn : (Path.addrs (f :: g :: rest) ++ (Tree.node n RED l v r).addrs).Nodup)
    (hf : f.color = RED) (hu : g.sibling.isRed = true) :
    ∃ h', insert_2_case_ case1 ⟨h, root, size⟩ (some n) = case1 ⟨h', root, size⟩ (some g.addr) ∧
      LayPath h' (some g.addr) rest ∧
      Lay h' rest.ptr (((g.paint RED).paintSibling BLACK).fill ((f.paint BLACK).fill
        (.node n RED l v r))) ∧
      h'.length = h.length ∧
      Heap.AgreeOff (Path.addrs (f :: g :: rest) ++ (Tree.node n RED l v r).addrs) h h' := by
  rcases f with ⟨pa, pc, pv, pr⟩ | ⟨pa, pc, pl, pv⟩ <;>
  rcases g with ⟨ga, gc, gv, _ | ⟨u, uc, ul, uv, ur⟩⟩ | ⟨ga, gc, _ | ⟨u, uc, ul, uv, ur⟩, gv⟩ <;>
  simp only [Frame.sibling_inL, Frame.sibling_inR, isRed_nil, isRed_node, Frame.color_inL,
    Frame.color_inR, Bool.false_eq_true] at hu hf <;>
  · subst hu hf
    simp only [addrs_node, addrs_nil, Path.addrs_empty, Path.addrs_cons, List.nodup_append,
      List.nodup_cons, List.mem_append, List.mem_cons, not_or, List.disjoint_cons_left,
      List.disjoint_cons_right, List.disjoint_append_left, List.disjoint_append_right,
      List.nil_append, List.append_nil, List.disjoint_nil_left, List.disjoint_nil_right,
      List.nodup_nil, List.not_mem_nil, not_false_eq_true, true_and, and_true, Frame.addr_inL,
      Frame.addr_inR, Frame.sibling_inL, Frame.sibling_inR, Lay_node, Lay_nil, LayPath_inL,
      LayPath_inR, LayPath_nil, ptr_node, ptr_nil, Path.ptr_cons, Path.ptr_empty] at hn hp ht
    casesm* _ ∧ _
    simp  only [insert_2_case_, insert_3_case_, getGrandparent, getUncle,
      Frame.paint, Frame.paintSibling, Tree.paint, Frame.fill_inL, Frame.fill_inR, getParent_some, getRight_some, getLeft_some, getColor_some, getValue_some,
      getParent_none, getRight_none, getLeft_none, getColor_none, getValue_none,
      Option.map_some', ofOption_some, ofOption_none, ok_bind, error_bind, setParent_some,
      setLeft_some, setRight_some, setColor_some, ↓reduceIte, ne_eq, not_true_eq_false,
      not_false_eq_true, run_pure, read_update_self, read_update_ne, reduceCtorEq,
      Option.some.injEq, ptr_eq_some_false, some_eq_ptr_false, Except.ok.injEq,
      exists_eq_left', Lay_node, Lay_nil, LayPath_inL, LayPath_inR, LayPath_nil, Lay_update,
      LayPath_update, length_update, ptr_node, ptr_nil, Path.ptr_cons, Path.ptr_empty,
      Frame.addr_inL, Frame.addr_inR, and_self, and_true, true_and, decide_True, decide_False,
      Bool.true_eq_false, Bool.false_eq_true, decide_eq_true_eq, decide_not, Bool.not_true,
      Bool.not_false, if_true, if_false, Set.mk.injEq, and_assoc, andThen_ok_true,
      andThen_ok_false, orElse_ok_true, orElse_ok_false, Path.rootPtr_nil, Path.rootPtr_cons, nat_eq_false_symm, AgreeOff_update, AgreeOff_refl,
      addrs_node, addrs_nil, Path.addrs_cons, Path.addrs_empty, List.mem_append, List.mem_cons,
      true_or, or_true, Frame.sibling_inL, Frame.sibling_inR, *]
    exact ⟨_, rfl, by simp  only [getParent_some, getRight_some, getLeft_some, getColor_some, getValue_some,
      getParent_none, getRight_none, getLeft_none, getColor_none, getValue_none,
      Option.map_some', ofOption_some, ofOption_none, ok_bind, error_bind, setParent_some,
      setLeft_some, setRight_some, setColor_some, ↓reduceIte, ne_eq, not_true_eq_false,
      not_false_eq_true, run_pure, read_update_self, read_update_ne, reduceCtorEq,
      Option.some.injEq, ptr_eq_some_false, some_eq_ptr_false, Except.ok.injEq,
      exists_eq_left', Lay_node, Lay_nil, LayPath_inL, LayPath_inR, LayPath_nil, Lay_update,
      LayPath_update, length_update, ptr_node, ptr_nil, Path.ptr_cons, Path.ptr_empty,
      Frame.addr_inL, Frame.addr_inR, and_self, and_true, true_and, decide_True, decide_False,
      Bool.true_eq_false, Bool.false_eq_true, decide_eq_true_eq, decide_not, Bool.not_true,
      Bool.not_false, if_true, if_false, Set.mk.injEq, and_assoc, andThen_ok_true,
      andThen_ok_false, orElse_ok_true, orElse_ok_false, Path.rootPtr_nil, Path.rootPtr_cons, nat_eq_false_symm, AgreeOff_update, AgreeOff_refl,
      addrs_node, addrs_nil, Path.addrs_cons, Path.addrs_empty, List.mem_append, List.mem_cons,
      true_or, or_true, Frame.sibling_inL, Frame.sibling_inR, *]⟩

/-- With a red parent and no red uncle the fix-up goes on to case 4. -/
theorem insert_to_case4 (case1 : Set α → Ptr → Run (Set α)) {f g : Frame α} {rest : Path α}
    {n : Nat} {l r : Tree α} {v : α} {h : Heap α} {root : Ptr} {size : Nat}
    (hp : LayPath h (some n) (f :: g :: rest)) (ht : Lay h (some f.addr) (.node n RED l v r))
    (hn : (Path.addrs (f :: g :: rest) ++ (Tree.node n RED l v r).addrs).Nodup)
    (hf : f.color = RED) (hu : g.sibling.isRed = false) :
    insert_2_case_ case1 ⟨h, root, size⟩ (some n) =
      insert_4_case_ case1 ⟨h, root, size⟩ (some n) := by
  rcases f with ⟨pa, pc, pv, pr⟩ | ⟨pa, pc, pl, pv⟩ <;>
  rcases g with ⟨ga, gc, gv, _ | ⟨u, uc, ul, uv, ur⟩⟩ | ⟨ga, gc, _ | ⟨u, uc, ul, uv, ur⟩, gv⟩ <;>
  simp only [Frame.sibling_inL, Frame.sibling_inR, isRed_nil, isRed_node, Frame.color_inL,
    Frame.color_inR, Bool.false_eq_true] at hu hf <;>
  · subst hf
    try subst hu
    simp only [addrs_node, addrs_nil, Path.addrs_empty, Path.addrs_cons, List.nodup_append,
      List.nodup_cons, List.mem_append, List.mem_cons, not_or, List.disjoint_cons_left,
      List.disjoint_cons_right, List.disjoint_append_left, List.disjoint_append_right,
      List.nil_append, List.append_nil, List.disjoint_nil_left, List.disjoint_nil_right,
      List.nodup_nil, List.not_mem_nil, not_false_eq_true, true_and, and_true, Frame.addr_inL,
      Frame.addr_inR, Frame.sibling_inL, Frame.sibling_inR, Lay_node, Lay_nil, LayPath_inL,
      LayPath_inR, LayPath_nil, ptr_node, ptr_nil, Path.ptr_cons, Path.ptr_empty] at hn hp ht
    casesm* _ ∧ _
    simp  only [insert_2_case_, insert_3_case_, getGrandparent, getUncle, getParent_some, getRight_some, getLeft_some, getColor_some, getValue_some,
      getParent_none, getRight_none, getLeft_none, getColor_none, getValue_none,
      Option.map_some', ofOption_some, ofOption_none, ok_bind, error_bind, setParent_some,
      setLeft_some, setRight_some, setColor_some, ↓reduceIte, ne_eq, not_true_eq_false,
      not_false_eq_true, run_pure, read_update_self, read_update_ne, reduceCtorEq,
      Option.some.injEq, ptr_eq_some_false, some_eq_ptr_false, Except.ok.injEq,
      exists_eq_left', Lay_node, Lay_nil, LayPath_inL, LayPath_inR, LayPath_nil, Lay_update,
      LayPath_update, length_update, ptr_node, ptr_nil, Path.ptr_cons, Path.ptr_empty,
      Frame.addr_inL, Frame.addr_inR, and_self, and_true, true_and, decide_True, decide_False,
      Bool.true_eq_false, Bool.false_eq_true, decide_eq_true_eq, decide_not, Bool.not_true,
      Bool.not_false, if_true, if_false, Set.mk.injEq, and_assoc, andThen_ok_true,
      andThen_ok_false, orElse_ok_true, orElse_ok_false, Path.rootPtr_nil, Path.rootPtr_cons, nat_eq_false_symm, AgreeOff_update, AgreeOff_refl,
      addrs_node, addrs_nil, Path.addrs_cons, Path.addrs_empty, List.mem_append, List.mem_cons,
      true_or, or_true, Frame.sibling_inL, Frame.sibling_inR, *]

set_option maxHeartbeats 1000000 in
/-- Cases 4 and 5 of the insertion fix-up in the heap: after the rotations the subtree
`insRotate f g t` hangs where the grandparent hung, and the fix-up continues at its
root. -/
theorem insert_rotate_sim (case1 : Set α → Ptr → Run (Set α)) (root : Ptr) (size : Nat)
    {f g : Frame α} {rest : Path α} {n : Nat} {c : Bool} {l r : Tree α} {v : α} {h : Heap α}
    (hp : LayPath h (some n) (f :: g :: rest)) (ht : Lay h (some f.addr) (.node n c l v r))
    (hn : (Path.addrs (f :: g :: rest) ++ (Tree.node n c l v r).addrs).Nodup) :
    ∃ h', insert_4_case_ case1 ⟨h, root, size⟩ (some n) =
        case1 ⟨h', root, size⟩ (insRotate f g (.node n c l v r)).ptr ∧
      LayPath h' (insRotate f g (.node n c l v r)).ptr rest ∧
      Lay h' rest.ptr (insRotate f g (.node n c l v r)) ∧ h'.length = h.length ∧
      Heap.AgreeOff (Path.addrs (f :: g :: rest) ++ (Tree.node n c l v r).addrs) h h' := by
  rcases f with ⟨pa, pc, pv, pr⟩ | ⟨pa, pc, pl, pv⟩ <;>
  rcases g with ⟨ga, gc, gv, gr⟩ | ⟨ga, gc, gl, gv⟩
  · -- left-left
    rcases rest with _ | ⟨⟨a, k, w, x⟩ | ⟨a, k, x, w⟩, rest⟩ <;>
    rcases pr with _ | ⟨b, cb, bl, vb, br⟩ <;>
    · simp only [addrs_node, addrs_nil, Path.addrs_empty, Path.addrs_cons, List.nodup_append,
      List.nodup_cons, List.mem_append, List.mem_cons, not_or, List.disjoint_cons_left,
      List.disjoint_cons_right, List.disjoint_append_left, List.disjoint_append_right,
      List.nil_append, List.append_nil, List.disjoint_nil_left, List.disjoint_nil_right,
      List.nodup_nil, List.not_mem_nil, not_false_eq_true, true_and, and_true, Frame.addr_inL,
      Frame.addr_inR, Frame.sibling_inL, Frame.sibling_inR, Lay_node, Lay_nil, LayPath_inL,
      LayPath_inR, LayPath_nil, ptr_node, ptr_nil, Path.ptr_cons, Path.ptr_empty] at hn hp ht
      casesm* _ ∧ _
      simp  only [insert_4_case_, insert_5_case_, getGrandparent, rotate_right_,
        rotate_left_, small_left_rotate_, small_right_rotate_, insRotate, getParent_some, getRight_some, getLeft_some, getColor_some, getValue_some,
      getParent_none, getRight_none, getLeft_none, getColor_none, getValue_none,
      Option.map_some', ofOption_some, ofOption_none, ok_bind, error_bind, setParent_some,
      setLeft_some, setRight_some, setColor_some, ↓reduceIte, ne_eq, not_true_eq_false,
      not_false_eq_true, run_pure, read_update_self, read_update_ne, reduceCtorEq,
      Option.some.injEq, ptr_eq_some_false, some_eq_ptr_false, Except.ok.injEq,
      exists_eq_left', Lay_node, Lay_nil, LayPath_inL, LayPath_inR, LayPath_nil, Lay_update,
      LayPath_update, length_update, ptr_node, ptr_nil, Path.ptr_cons, Path.ptr_empty,
      Frame.addr_inL, Frame.addr_inR, and_self, and_true, true_and, decide_True, decide_False,
      Bool.true_eq_false, Bool.false_eq_true, decide_eq_true_eq, decide_not, Bool.not_true,
      Bool.not_false, if_true, if_false, Set.mk.injEq, and_assoc, andThen_ok_true,
      andThen_ok_false, orElse_ok_true, orElse_ok_false, Path.rootPtr_nil, Path.rootPtr_cons, nat_eq_false_symm, AgreeOff_update, AgreeOff_refl,
      addrs_node, addrs_nil, Path.addrs_cons, Path.addrs_empty, List.mem_append, List.mem_cons,
      true_or, or_true, Frame.sibling_inL, Frame.sibling_inR, *]
      exact ⟨_, rfl, by simp  only [getParent_some, getRight_some, getLeft_some, getColor_some, getValue_some,
      getParent_none, getRight_none, getLeft_none, getColor_none, getValue_none,
      Option.map_some', ofOption_some, ofOption_none, ok_bind, error_bind, setParent_some,
      setLeft_some, setRight_some, setColor_some, ↓reduceIte, ne_eq, not_true_eq_false,
      not_false_eq_true, run_pure, read_update_self, read_update_ne, reduceCtorEq,
      Option.some.injEq, ptr_eq_some_false, some_eq_ptr_false, Except.ok.injEq,
      exists_eq_left', Lay_node, Lay_nil, LayPath_inL, LayPath_inR, LayPath_nil, Lay_update,
      LayPath_update, length_update, ptr_node, ptr_nil, Path.ptr_cons, Path.ptr_empty,
      Frame.addr_inL, Frame.addr_inR, and_self, and_true, true_and, decide_True, decide_False,
      Bool.true_eq_false, Bool.false_eq_true, decide_eq_true_eq, decide_not, Bool.not_true,
      Bool.not_false, if_true, if_false, Set.mk.injEq, and_assoc, andThen_ok_true,
      andThen_ok_false, orElse_ok_true, orElse_ok_false, Path.rootPtr_nil, Path.rootPtr_cons, nat_eq_false_symm, AgreeOff_update, AgreeOff_refl,
      addrs_node, addrs_nil, Path.addrs_cons, Path.addrs_empty, List.mem_append, List.mem_cons,
      true_or, or_true, Frame.sibling_inL, Frame.sibling_inR, *]⟩
  · -- left child of a right child
    rcases rest with _ | ⟨⟨a, k, w, x⟩ | ⟨a, k, x, w⟩, rest⟩ <;>
    rcases l with _ | ⟨b, cb, bl, vb, br⟩ <;> rcases r with _ | ⟨d, cd, dl, vd, dr⟩ <;>
    · simp only [addrs_node, addrs_nil, Path.addrs_empty, Path.addrs_cons, List.nodup_append,
      List.nodup_cons, List.mem_append, List.mem_cons, not_or, List.disjoint_cons_left,
      List.disjoint_cons_right, List.disjoint_append_left, List.disjoint_append_right,
      List.nil_append, List.append_nil, List.disjoint_nil_left, List.disjoint_nil_right,
      List.nodup_nil, List.not_mem_nil, not_false_eq_true, true_and, and_true, Frame.addr_inL,
      Frame.addr_inR, Frame.sibling_inL, Frame.sibling_inR, Lay_node, Lay_nil, LayPath_inL,
      LayPath_inR, LayPath_nil, ptr_node, ptr_nil, Path.ptr_cons, Path.ptr_empty] at hn hp ht
      casesm* _ ∧ _
      simp  only [insert_4_case_, insert_5_case_, getGrandparent, rotate_right_,
        rotate_left_, small_left_rotate_, small_right_rotate_, insRotate, getParent_some, getRight_some, getLeft_some, getColor_some, getValue_some,
      getParent_none, getRight_none, getLeft_none, getColor_none, getValue_none,
      Option.map_some', ofOption_some, ofOption_none, ok_bind, error_bind, setParent_some,
      setLeft_some, setRight_some, setColor_some, ↓reduceIte, ne_eq, not_true_eq_false,
      not_false_eq_true, run_pure, read_update_self, read_update_ne, reduceCtorEq,
      Option.some.injEq, ptr_eq_some_false, some_eq_ptr_false, Except.ok.injEq,
      exists_eq_left', Lay_node, Lay_nil, LayPath_inL, LayPath_inR, LayPath_nil, Lay_update,
      LayPath_update, length_update, ptr_node, ptr_nil, Path.ptr_cons, Path.ptr_empty,
      Frame.addr_inL, Frame.addr_inR, and_self, and_true, true_and, decide_True, decide_False,
      Bool.true_eq_false, Bool.false_eq_true, decide_eq_true_eq, decide_not, Bool.not_true,
      Bool.not_false, if_true, if_false, Set.mk.injEq, and_assoc, andThen_ok_true,
      andThen_ok_false, orElse_ok_true, orElse_ok_false, Path.rootPtr_nil, Path.rootPtr_cons, nat_eq_false_symm, AgreeOff_update, AgreeOff_refl,
      addrs_node, addrs_nil, Path.addrs_cons, Path.addrs_empty, List.mem_append, List.mem_cons,
      true_or, or_true, Frame.sibling_inL, Frame.sibling_inR, *]
      exact ⟨_, rfl, by simp  only [getParent_some, getRight_some, getLeft_some, getColor_some, getValue_some,
      getParent_none, getRight_none, getLeft_none, getColor_none, getValue_none,
      Option.map_some', ofOption_some, ofOption_none, ok_bind, error_bind, setParent_some,
      setLeft_some, setRight_some, setColor_some, ↓reduceIte, ne_eq, not_true_eq_false,
      not_false_eq_true, run_pure, read_update_self, read_update_ne, reduceCtorEq,
      Option.some.injEq, ptr_eq_some_false, some_eq_ptr_false, Except.ok.injEq,
      exists_eq_left', Lay_node, Lay_nil, LayPath_inL, LayPath_inR, LayPath_nil, Lay_update,
      LayPath_update, length_update, ptr_node, ptr_nil, Path.ptr_cons, Path.ptr_empty,
      Frame.addr_inL, Frame.addr_inR, and_self, and_true, true_and, decide_True, decide_False,
      Bool.true_eq_false, Bool.false_eq_true, decide_eq_true_eq, decide_not, Bool.not_true,
      Bool.not_false, if_true, if_false, Set.mk.injEq, and_assoc, andThen_ok_true,
      andThen_ok_false, orElse_ok_true, orElse_ok_false, Path.rootPtr_nil, Path.rootPtr_cons, nat_eq_false_symm, AgreeOff_update, AgreeOff_refl,
      addrs_node, addrs_nil, Path.addrs_cons, Path.addrs_empty, List.mem_append, List.mem_cons,
      true_or, or_true, Frame.sibling_inL, Frame.sibling_inR, *]⟩
  · -- right child of a left child
    rcases rest with _ | ⟨⟨a, k, w, x⟩ | ⟨a, k, x, w⟩, rest⟩ <;>
    rcases l with _ | ⟨b, cb, bl, vb, br⟩ <;> rcases r with _ | ⟨d, cd, dl, vd, dr⟩ <;>
    · simp only [addrs_node, addrs_nil, Path.addrs_empty, Path.addrs_cons, List.nodup_append,
      List.nodup_cons, List.mem_append, List.mem_cons, not_or, List.disjoint_cons_left,
      List.disjoint_cons_right, List.disjoint_append_left, List.disjoint_append_right,
      List.nil_append, List.append_nil, List.disjoint_nil_left, List.disjoint_nil_right,
      List.nodup_nil, List.not_mem_nil, not_false_eq_true, true_and, and_true, Frame.addr_inL,
      Frame.addr_inR, Frame.sibling_inL, Frame.sibling_inR, Lay_node, Lay_nil, LayPath_inL,
      LayPath_inR, LayPath_nil, ptr_node, ptr_nil, Path.ptr_cons, Path.ptr_empty] at hn hp ht
      casesm* _ ∧ _
      simp  only [insert_4_case_, insert_5_case_, getGrandparent, rotate_right_,
        rotate_left_, small_left_rotate_, small_right_rotate_, insRotate, getParent_some, getRight_some, getLeft_some, getColor_some, getValue_some,
      getParent_none, getRight_none, getLeft_none, getColor_none, getValue_none,
      Option.map_some', ofOption_some, ofOption_none, ok_bind, error_bind, setParent_some,
      setLeft_some, setRight_some, setColor_some, ↓reduceIte, ne_eq, not_true_eq_false,
      not_false_eq_true, run_pure, read_update_self, read_update_ne, reduceCtorEq,
      Option.some.injEq, ptr_eq_some_false, some_eq_ptr_false, Except.ok.injEq,
      exists_eq_left', Lay_node, Lay_nil, LayPath_inL, LayPath_inR, LayPath_nil, Lay_update,
      LayPath_update, length_update, ptr_node, ptr_nil, Path.ptr_cons, Path.ptr_empty,
      Frame.addr_inL, Frame.addr_inR, and_self, and_true, true_and, decide_True, decide_False,
      Bool.true_eq_false, Bool.false_eq_true, decide_eq_true_eq, decide_not, Bool.not_true,
      Bool.not_false, if_true, if_false, Set.mk.injEq, and_assoc, andThen_ok_true,
      andThen_ok_false, orElse_ok_true, orElse_ok_false, Path.rootPtr_nil, Path.rootPtr_cons, nat_eq_false_symm, AgreeOff_update, AgreeOff_refl,
      addrs_node, addrs_nil, Path.addrs_cons, Path.addrs_empty, List.mem_append, List.mem_cons,
      true_or, or_true, Frame.sibling_inL, Frame.sibling_inR, *]
      exact ⟨_, rfl, by simp  only [getParent_some, getRight_some, getLeft_some, getColor_some, getValue_some,
      getParent_none, getRight_none, getLeft_none, getColor_none, getValue_none,
      Option.map_some', ofOption_some, ofOption_none, ok_bind, error_bind, setParent_some,
      setLeft_some, setRight_some, setColor_some, ↓reduceIte, ne_eq, not_true_eq_false,
      not_false_eq_true, run_pure, read_update_self, read_update_ne, reduceCtorEq,
      Option.some.injEq, ptr_eq_some_false, some_eq_ptr_false, Except.ok.injEq,
      exists_eq_left', Lay_node, Lay_nil, LayPath_inL, LayPath_inR, LayPath_nil, Lay_update,
      LayPath_update, length_update, ptr_node, ptr_nil, Path.ptr_cons, Path.ptr_empty,
      Frame.addr_inL, Frame.addr_inR, and_self, and_true, true_and, decide_True, decide_False,
      Bool.true_eq_false, Bool.false_eq_true, decide_eq_true_eq, decide_not, Bool.not_true,
      Bool.not_false, if_true, if_false, Set.mk.injEq, and_assoc, andThen_ok_true,
      andThen_ok_false, orElse_ok_true, orElse_ok_false, Path.rootPtr_nil, Path.rootPtr_cons, nat_eq_false_symm, AgreeOff_update, AgreeOff_refl,
      addrs_node, addrs_nil, Path.addrs_cons, Path.addrs_empty, List.mem_append, List.mem_cons,
      true_or, or_true, Frame.sibling_inL, Frame.sibling_inR, *]⟩
  · -- right-right
    rcases rest with _ | ⟨⟨a, k, w, x⟩ | ⟨a, k, x, w⟩, rest⟩ <;>
    rcases pl with _ | ⟨b, cb, bl, vb, br⟩ <;>
    · simp only [addrs_node, addrs_nil, Path.addrs_empty, Path.addrs_cons, List.nodup_append,
      List.nodup_cons, List.mem_append, List.mem_cons, not_or, List.disjoint_cons_left,
      List.disjoint_cons_right, List.disjoint_append_left, List.disjoint_append_right,
      List.nil_append, List.append_nil, List.disjoint_nil_left, List.disjoint_nil_right,
      List.nodup_nil, List.not_mem_nil, not_false_eq_true, true_and, and_true, Frame.addr_inL,
      Frame.addr_inR, Frame.sibling_inL, Frame.sibling_inR, Lay_node, Lay_nil, LayPath_inL,
      LayPath_inR, LayPath_nil, ptr_node, ptr_nil, Path.ptr_cons, Path.ptr_empty] at hn hp ht
      casesm* _ ∧ _
      simp  only [insert_4_case_, insert_5_case_, getGrandparent, rotate_right_,
        rotate_left_, small_left_rotate_, small_right_rotate_, insRotate, getParent_some, getRight_some, getLeft_some, getColor_some, getValue_some,
      getParent_none, getRight_none, getLeft_none, getColor_none, getValue_none,
      Option.map_some', ofOption_some, ofOption_none, ok_bind, error_bind, setParent_some,
      setLeft_some, setRight_some, setColor_some, ↓reduceIte, ne_eq, not_true_eq_false,
      not_false_eq_true, run_pure, read_update_self, read_update_ne, reduceCtorEq,
      Option.some.injEq, ptr_eq_some_false, some_eq_ptr_false, Except.ok.injEq,
      exists_eq_left', Lay_node, Lay_nil, LayPath_inL, LayPath_inR, LayPath_nil, Lay_update,
      LayPath_update, length_update, ptr_node, ptr_nil, Path.ptr_cons, Path.ptr_empty,
      Frame.addr_inL, Frame.addr_inR, and_self, and_true, true_and, decide_True, decide_False,
      Bool.true_eq_false, Bool.false_eq_true, decide_eq_true_eq, decide_not, Bool.not_true,
      Bool.not_false, if_true, if_false, Set.mk.injEq, and_assoc, andThen_ok_true,
      andThen_ok_false, orElse_ok_true, orElse_ok_false, Path.rootPtr_nil, Path.rootPtr_cons, nat_eq_false_symm, AgreeOff_update, AgreeOff_refl,
      addrs_node, addrs_nil, Path.addrs_cons, Path.addrs_empty, List.mem_append, List.mem_cons,
      true_or, or_true, Frame.sibling_inL, Frame.sibling_inR, *]
      exact ⟨_, rfl, by simp  only [getParent_some, getRight_some, getLeft_some, getColor_some, getValue_some,
      getParent_none, getRight_none, getLeft_none, getColor_none, getValue_none,
      Option.map_some', ofOption_some, ofOption_none, ok_bind, error_bind, setParent_some,
      setLeft_some, setRight_some, setColor_some, ↓reduceIte, ne_eq, not_true_eq_false,
      not_false_eq_true, run_pure, read_update_self, read_update_ne, reduceCtorEq,
      Option.some.injEq, ptr_eq_some_false, some_eq_ptr_false, Except.ok.injEq,
      exists_eq_left', Lay_node, Lay_nil, LayPath_inL, LayPath_inR, LayPath_nil, Lay_update,
      LayPath_update, length_update, ptr_node, ptr_nil, Path.ptr_cons, Path.ptr_empty,
      Frame.addr_inL, Frame.addr_inR, and_self, and_true, true_and, decide_True, decide_False,
      Bool.true_eq_false, Bool.false_eq_true, decide_eq_true_eq, decide_not, Bool.not_true,
      Bool.not_false, if_true, if_false, Set.mk.injEq, and_assoc, andThen_ok_true,
      andThen_ok_false, orElse_ok_true, orElse_ok_false, Path.rootPtr_nil, Path.rootPtr_cons, nat_eq_false_symm, AgreeOff_update, AgreeOff_refl,
      addrs_node, addrs_nil, Path.addrs_cons, Path.addrs_empty, List.mem_append, List.mem_cons,
      true_or, or_true, Frame.sibling_inL, Frame.sibling_inR, *]⟩

@[simp] theorem addrs_paint (c : Bool) (t : Tree α) : (t.paint c).addrs = t.addrs := by
  cases t <;> rfl

@[simp] theorem values_paint (c : Bool) (t : Tree α) : (t.paint c).values = t.values := by
  cases t <;> rfl

@[simp] theorem ptr_paint (c : Bool) (t : Tree α) : (t.paint c).ptr = t.ptr := by
  cases t <;> rfl

theorem addrs_recolor_perm (f g : Frame α) (rest : Path α) (t : Tree α) :
    (Path.addrs rest ++
      (((g.paint RED).paintSibling BLACK).fill ((f.paint BLACK).fill t)).addrs).Perm
      (Path.addrs (f :: g :: rest) ++ t.addrs) := by
  rcases f with ⟨pa, pc, pv, pr⟩ | ⟨pa, pc, pl, pv⟩ <;>
  rcases g with ⟨ga, gc, gv, gr⟩ | ⟨ga, gc, gl, gv⟩ <;>
  · rw [List.perm_iff_count]
    intro x
    simp [Frame.paint, Frame.paintSibling, List.count_cons]
    omega

theorem addrs_insRotate_perm (f g : Frame α) (rest : Path α) (n : Nat) (c : Bool) (l r : Tree α)
    (v : α) :
    (Path.addrs rest ++ (insRotate f g (.node n c l v r)).addrs).Perm
      (Path.addrs (f :: g :: rest) ++ (Tree.node n c l v r).addrs) := by
  rcases f with ⟨pa, pc, pv, pr⟩ | ⟨pa, pc, pl, pv⟩ <;>
  rcases g with ⟨ga, gc, gv, gr⟩ | ⟨ga, gc, gl, gv⟩ <;>
  · rw [List.perm_iff_count]
    intro x
    simp [insRotate, List.count_cons]
    omega

theorem insRotate_black (f g : Frame α) (n : Nat) (c : Bool) (l r : Tree α) (v : α) :
    ∃ m x y w, insRotate f g (.node n c l v r) = .node m BLACK x w y := by
  rcases f with ⟨pa, pc, pv, pr⟩ | ⟨pa, pc, pl, pv⟩ <;>
  rcases g with ⟨ga, gc, gv, gr⟩ | ⟨ga, gc, gl, gv⟩ <;>
  exact ⟨_, _, _, _, rfl⟩

theorem insFix_black (p : Path α) (m : Nat) (x y : Tree α) (w : α) :
    insFix p (.node m BLACK x w y) = Path.fill p (.node m BLACK x w y) := by
  rcases p with _ | ⟨f, _ | ⟨g, rest⟩⟩
  · rfl
  · rfl
  · simp [insFix]

theorem rootPtr_irrel {p : Path α} (hp : p ≠ []) (q q' : Ptr) :
    Path.rootPtr p q = Path.rootPtr p q' := by
  cases p with
  | nil => exact absurd rfl hp
  | cons f p => rfl

theorem recolor_ptr (f g : Frame α) (t : Tree α) :
    (((g.paint RED).paintSibling BLACK).fill ((f.paint BLACK).fill t)).ptr = some g.addr := by
  cases g <;> rfl

set_option maxHeartbeats 1000000 in
/-- The insertion fix-up in the heap computes `insFix`: started at the root of `t`,
which hangs in the hole of `p`, it ends with the heap holding `insFix p t` and with
`root_` pointing to its root. -/
theorem insert_1_case_sim (fuel : Nat) : ∀ (p : Path α) (t : Tree α) (n : Nat) (h : Heap α)
    (root : Ptr) (size : Nat),
    t.ptr = some n → LayPath h (some n) p → Lay h p.ptr t →
    (Path.addrs p ++ t.addrs).Nodup → Path.rootBlack p → p.length < 2 * fuel →
    (p ≠ [] → root = Path.rootPtr p (some n)) →
    ∃ h', insert_1_case_ fuel ⟨h, root, size⟩ (some n) =
        Except.ok ⟨h', (insFix p t).ptr, size⟩ ∧
      Lay h' none (insFix p t) ∧ h'.length = h.length ∧
      Heap.AgreeOff (Path.addrs p ++ t.addrs) h h' := by
  induction fuel with
  | zero => intro p t n h root size _ _ _ _ _ hlen; simp at hlen
  | succ fuel ih =>
    intro p t n h root size hptr hp ht hn hb hlen hroot
    rcases t with _ | ⟨n', c, l, v, r⟩
    · simp at hptr
    simp only [ptr_node, Option.some.injEq] at hptr
    subst hptr
    rcases p with _ | ⟨f, _ | ⟨g, rest⟩⟩
    · -- the node is the root
      simp only [addrs_node, addrs_nil, Path.addrs_empty, Path.addrs_cons, List.nodup_append,
      List.nodup_cons, List.mem_append, List.mem_cons, not_or, List.disjoint_cons_left,
      List.disjoint_cons_right, List.disjoint_append_left, List.disjoint_append_right,
      List.nil_append, List.append_nil, List.disjoint_nil_left, List.disjoint_nil_right,
      List.nodup_nil, List.not_mem_nil, not_false_eq_true, true_and, and_true, Frame.addr_inL,
      Frame.addr_inR, Frame.sibling_inL, Frame.sibling_inR, Lay_node, Lay_nil, LayPath_inL,
      LayPath_inR, LayPath_nil, ptr_node, ptr_nil, Path.ptr_cons, Path.ptr_empty] at hn hp ht
      casesm* _ ∧ _
      simp only [insert_1_case_, insFix, Tree.paint, getParent_some, getRight_some, getLeft_some, getColor_some, getValue_some,
      getParent_none, getRight_none, getLeft_none, getColor_none, getValue_none,
      Option.map_some', ofOption_some, ofOption_none, ok_bind, error_bind, setParent_some,
      setLeft_some, setRight_some, setColor_some, ↓reduceIte, ne_eq, not_true_eq_false,
      not_false_eq_true, run_pure, read_update_self, read_update_ne, reduceCtorEq,
      Option.some.injEq, ptr_eq_some_false, some_eq_ptr_false, Except.ok.injEq,
      exists_eq_left', Lay_node, Lay_nil, LayPath_inL, LayPath_inR, LayPath_nil, Lay_update,
      LayPath_update, length_update, ptr_node, ptr_nil, Path.ptr_cons, Path.ptr_empty,
      Frame.addr_inL, Frame.addr_inR, and_self, and_true, true_and, decide_True, decide_False,
      Bool.true_eq_false, Bool.false_eq_true, decide_eq_true_eq, decide_not, Bool.not_true,
      Bool.not_false, if_true, if_false, Set.mk.injEq, and_assoc, andThen_ok_true,
      andThen_ok_false, orElse_ok_true, orElse_ok_false, Path.rootPtr_nil, Path.rootPtr_cons, nat_eq_false_symm, AgreeOff_update, AgreeOff_refl,
      addrs_node, addrs_nil, Path.addrs_cons, Path.addrs_empty, List.mem_append, List.mem_cons,
      true_or, or_true, Frame.sibling_inL, Frame.sibling_inR, *]
    · -- the parent is the root, hence black
      have hroot := hroot (by simp)
      rcases f with ⟨pa, pc, pv, pr⟩ | ⟨pa, pc, pl, pv⟩ <;> cases c <;>
      · simp only [Path.rootBlack, Frame.color_inL, Frame.color_inR] at hb
        subst hb
        simp only [addrs_node, addrs_nil, Path.addrs_empty, Path.addrs_cons, List.nodup_append,
      List.nodup_cons, List.mem_append, List.mem_cons, not_or, List.disjoint_cons_left,
      List.disjoint_cons_right, List.disjoint_append_left, List.disjoint_append_right,
      List.nil_append, List.append_nil, List.disjoint_nil_left, List.disjoint_nil_right,
      List.nodup_nil, List.not_mem_nil, not_false_eq_true, true_and, and_true, Frame.addr_inL,
      Frame.addr_inR, Frame.sibling_inL, Frame.sibling_inR, Lay_node, Lay_nil, LayPath_inL,
      LayPath_inR, LayPath_nil, ptr_node, ptr_nil, Path.ptr_cons, Path.ptr_empty] at hn hp ht
        casesm* _ ∧ _
        simp only [insert_1_case_, insert_2_case_, insFix, Frame.fill_inL,
          Frame.fill_inR, getParent_some, getRight_some, getLeft_some, getColor_some, getValue_some,
      getParent_none, getRight_none, getLeft_none, getColor_none, getValue_none,
      Option.map_some', ofOption_some, ofOption_none, ok_bind, error_bind, setParent_some,
      setLeft_some, setRight_some, setColor_some, ↓reduceIte, ne_eq, not_true_eq_false,
      not_false_eq_true, run_pure, read_update_self, read_update_ne, reduceCtorEq,
      Option.some.injEq, ptr_eq_some_false, some_eq_ptr_false, Except.ok.injEq,
      exists_eq_left', Lay_node, Lay_nil, LayPath_inL, LayPath_inR, LayPath_nil, Lay_update,
      LayPath_update, length_update, ptr_node, ptr_nil, Path.ptr_cons, Path.ptr_empty,
      Frame.addr_inL, Frame.addr_inR, and_self, and_true, true_and, decide_True, decide_False,
      Bool.true_eq_false, Bool.false_eq_true, decide_eq_true_eq, decide_not, Bool.not_true,
      Bool.not_false, if_true, if_false, Set.mk.injEq, and_assoc, andThen_ok_true,
      andThen_ok_false, orElse_ok_true, orElse_ok_false, Path.rootPtr_nil, Path.rootPtr_cons, nat_eq_false_symm, AgreeOff_update, AgreeOff_refl,
      addrs_node, addrs_nil, Path.addrs_cons, Path.addrs_empty, List.mem_append, List.mem_cons,
      true_or, or_true, Frame.sibling_inL, Frame.sibling_inR, *]
    · -- a parent and a grandparent exist
      have hroot := hroot (by simp)
      simp only [Path.rootPtr_cons] at hroot
      have hlen' : rest.length < 2 * fuel := by
        simp only [List.length_cons] at hlen
        omega
      by_cases hc : c = RED ∧ f.color = RED
      · obtain ⟨rfl, hf⟩ := hc
        have step1 : insert_1_case_ (fuel + 1) ⟨h, root, size⟩ (some n') =
            insert_2_case_ (insert_1_case_ fuel) ⟨h, root, size⟩ (some n') := by
          rcases f with ⟨pa, pc, pv, pr⟩ | ⟨pa, pc, pl, pv⟩ <;>
          · simp only [addrs_node, addrs_nil, Path.addrs_empty, Path.addrs_cons, List.nodup_append,
      List.nodup_cons, List.mem_append, List.mem_cons, not_or, List.disjoint_cons_left,
      List.disjoint_cons_right, List.disjoint_append_left, List.disjoint_append_right,
      List.nil_append, List.append_nil, List.disjoint_nil_left, List.disjoint_nil_right,
      List.nodup_nil, List.not_mem_nil, not_false_eq_true, true_and, and_true, Frame.addr_inL,
      Frame.addr_inR, Frame.sibling_inL, Frame.sibling_inR, Lay_node, Lay_nil, LayPath_inL,
      LayPath_inR, LayPath_nil, ptr_node, ptr_nil, Path.ptr_cons, Path.ptr_empty] at hn hp ht
            casesm* _ ∧ _
            simp only [insert_1_case_, getParent_some, getRight_some, getLeft_some, getColor_some, getValue_some,
      getParent_none, getRight_none, getLeft_none, getColor_none, getValue_none,
      Option.map_some', ofOption_some, ofOption_none, ok_bind, error_bind, setParent_some,
      setLeft_some, setRight_some, setColor_some, ↓reduceIte, ne_eq, not_true_eq_false,
      not_false_eq_true, run_pure, read_update_self, read_update_ne, reduceCtorEq,
      Option.some.injEq, ptr_eq_some_false, some_eq_ptr_false, Except.ok.injEq,
      exists_eq_left', Lay_node, Lay_nil, LayPath_inL, LayPath_inR, LayPath_nil, Lay_update,
      LayPath_update, length_update, ptr_node, ptr_nil, Path.ptr_cons, Path.ptr_empty,
      Frame.addr_inL, Frame.addr_inR, and_self, and_true, true_and, decide_True, decide_False,
      Bool.true_eq_false, Bool.false_eq_true, decide_eq_true_eq, decide_not, Bool.not_true,
      Bool.not_false, if_true, if_false, Set.mk.injEq, and_assoc, andThen_ok_true,
      andThen_ok_false, orElse_ok_true, orElse_ok_false, Path.rootPtr_nil, Path.rootPtr_cons, nat_eq_false_symm, AgreeOff_update, AgreeOff_refl,
      addrs_node, addrs_nil, Path.addrs_cons, Path.addrs_empty, List.mem_append, List.mem_cons,
      true_or, or_true, Frame.sibling_inL, Frame.sibling_inR, *]
        have ht' : Lay h (some f.addr) (.node n' RED l v r) := ht
        by_cases hu : g.sibling.isRed = true
        · obtain ⟨h1, e1, hp1, ht1, hl1, ha1⟩ :=
            insert_recolor_sim (insert_1_case_ fuel) root size hp ht' hn hf hu
          obtain ⟨h2, e2, ht2, hl2, ha2⟩ := ih rest _ g.addr h1 root size (recolor_ptr f g _)
            hp1 ht1 ((addrs_recolor_perm f g rest _).nodup_iff.2 hn) (rootBlack_tail2 hb) hlen'
            (fun _ => hroot)
          refine ⟨h2, ?_, ?_, by rw [hl2, hl1],
            AgreeOff_trans ha1 (AgreeOff_of_perm ha2 (addrs_recolor_perm f g rest _))⟩
          · rw [step1, e1, e2]
            simp [insFix, hf, hu]
          · simpa [insFix, hf, hu] using ht2
        · have hu' : g.sibling.isRed = false := by simpa using hu
          obtain ⟨h1, e1, hp1, ht1, hl1, ha1⟩ :=
            insert_rotate_sim (insert_1_case_ fuel) root size hp ht' hn
          obtain ⟨m, x, y, w, hm⟩ := insRotate_black f g n' RED l r v
          rw [hm] at e1 hp1 ht1
          simp only [ptr_node] at e1 hp1
          have hn1 : (Path.addrs rest ++ (Tree.node m BLACK x w y).addrs).Nodup := by
            rw [← hm]
            exact (addrs_insRotate_perm f g rest n' RED l r v).nodup_iff.2 hn
          obtain ⟨h2, e2, ht2, hl2, ha2⟩ := ih rest (.node m BLACK x w y) m h1 root size rfl hp1
            ht1 hn1 (rootBlack_tail2 hb) hlen'
            (fun hne => by rw [hroot]; exact rootPtr_irrel hne _ _)
          rw [insFix_black] at e2 ht2
          have hperm := addrs_insRotate_perm f g rest n' RED l r v
          rw [hm] at hperm
          refine ⟨h2, ?_, ?_, by rw [hl2, hl1], AgreeOff_trans ha1 (AgreeOff_of_perm ha2 hperm)⟩
          · rw [step1, insert_to_case4 (insert_1_case_ fuel) hp ht' hn hf hu', e1, e2]
            simp [insFix, hf, hu', hm]
          · simpa [insFix, hf, hu', hm] using ht2
      · -- nothing to repair
        have hfix : insFix (f :: g :: rest) (.node n' c l v r) =
            Path.fill (f :: g :: rest) (.node n' c l v r) := by
          simp only [insFix, isRed_node]
          rw [if_neg hc]
        rw [hfix]
        refine ⟨h, ?_, Lay_fill.2 ⟨hp, ht⟩, rfl, AgreeOff_refl _ _⟩
        rw [ptr_fill]
        simp only [Path.rootPtr_cons]
        rw [← hroot]
        rcases f with ⟨pa, pc, pv, pr⟩ | ⟨pa, pc, pl, pv⟩ <;> cases c <;> cases pc <;>
        first
        | (exfalso; exact hc ⟨rfl, rfl⟩)
        | (simp only [addrs_node, addrs_nil, Path.addrs_empty, Path.addrs_cons, List.nodup_append,
      List.nodup_cons, List.mem_append, List.mem_cons, not_or, List.disjoint_cons_left,
      List.disjoint_cons_right, List.disjoint_append_left, List.disjoint_append_right,
      List.nil_append, List.append_nil, List.disjoint_nil_left, List.disjoint_nil_right,
      List.nodup_nil, List.not_mem_nil, not_false_eq_true, true_and, and_true, Frame.addr_inL,
      Frame.addr_inR, Frame.sibling_inL, Frame.sibling_inR, Lay_node, Lay_nil, LayPath_inL,
      LayPath_inR, LayPath_nil, ptr_node, ptr_nil, Path.ptr_cons, Path.ptr_empty] at hn hp ht
           casesm* _ ∧ _
           simp only [insert_1_case_, insert_2_case_, getParent_some, getRight_some, getLeft_some, getColor_some, getValue_some,
      getParent_none, getRight_none, getLeft_none, getColor_none, getValue_none,
      Option.map_some', ofOption_some, ofOption_none, ok_bind, error_bind, setParent_some,
      setLeft_some, setRight_some, setColor_some, ↓reduceIte, ne_eq, not_true_eq_false,
      not_false_eq_true, run_pure, read_update_self, read_update_ne, reduceCtorEq,
      Option.some.injEq, ptr_eq_some_false, some_eq_ptr_false, Except.ok.injEq,
      exists_eq_left', Lay_node, Lay_nil, LayPath_inL, LayPath_inR, LayPath_nil, Lay_update,
      LayPath_update, length_update, ptr_node, ptr_nil, Path.ptr_cons, Path.ptr_empty,
      Frame.addr_inL, Frame.addr_inR, and_self, and_true, true_and, decide_True, decide_False,
      Bool.true_eq_false, Bool.false_eq_true, decide_eq_true_eq, decide_not, Bool.not_true,
      Bool.not_false, if_true, if_false, Set.mk.injEq, and_assoc, andThen_ok_true,
      andThen_ok_false, orElse_ok_true, orElse_ok_false, Path.rootPtr_nil, Path.rootPtr_cons, nat_eq_false_symm, AgreeOff_update, AgreeOff_refl,
      addrs_node, addrs_nil, Path.addrs_cons, Path.addrs_empty, List.mem_append, List.mem_cons,
      true_or, or_true, Frame.sibling_inL, Frame.sibling_inR, *])

end InsertFix

end bulumutka

namespace bulumutka

section InsertTop

variable {α : Type}

theorem LayPath.addr_lt {h : Heap α} {q : Ptr} {p : Path α} (hl : LayPath h q p) {a : Nat}
    (ha : a ∈ Path.addrs p) : a < h.length := by
  induction p generalizing q with
  | nil => simp at ha
  | cons f p ih =>
    rcases f with ⟨b, c, v, r⟩ | ⟨b, c, l, v⟩ <;>
    · simp only [LayPath_inL, LayPath_inR] at hl
      simp only [Path.addrs_cons, Frame.addr_inL, Frame.addr_inR, Frame.sibling_inL,
        Frame.sibling_inR, List.mem_cons, List.mem_append] at ha
      rcases ha with ha | ha | ha
      · subst ha; exact read_lt hl.1
      · exact hl.2.1.lt_length ha
      · exact ih hl.2.2 ha

theorem read_append_lt {h : Heap α} {a : Nat} (n : Node α) (ha : a < h.length) :
    Heap.read (h ++ [some n]) a = h.read a := by
  rw [read_append_single, if_neg (Nat.ne_of_lt ha)]

theorem read_append_self (h : Heap α) (n : Node α) :
    Heap.read (h ++ [some n]) h.length = some n := by
  rw [read_append_single, if_pos rfl]

theorem LayPath_append {h : Heap α} {q : Ptr} {p : Path α} (n : Node α) (hl : LayPath h q p) :
    LayPath (h ++ [some n]) q p := by
  induction p generalizing q with
  | nil => simp
  | cons f p ih =>
    rcases f with ⟨b, c, v, r⟩ | ⟨b, c, l, v⟩ <;>
    · simp only [LayPath_inL, LayPath_inR] at hl ⊢
      exact ⟨by rw [read_append_lt n (read_lt hl.1)]; exact hl.1, Lay_append n hl.2.1, ih hl.2.2⟩

/-- Filling the path found by the descent is planting at the leaf. -/
theorem fill_zoom [LinearOrder α] (key : α) (x t : Tree α) (p : Path α) :
    Path.fill (t.zoom key p) x = Path.fill p (Tree.plant key x t) := by
  induction t generalizing p with
  | nil => rfl
  | node a c l v r ihl ihr =>
    simp only [Tree.zoom, Tree.plant]
    split
    · rw [ihl]; rfl
    · rw [ihr]; rfl

theorem LayPath_zoom [LinearOrder α] (key : α) {h : Heap α} {t : Tree α} {p : Path α}
    (hp : LayPath h t.ptr p) (ht : Lay h p.ptr t) : LayPath h none (t.zoom key p) := by
  induction t generalizing p with
  | nil => exact hp
  | node a c l v r ihl ihr =>
    simp only [Lay_node] at ht
    simp only [Tree.zoom]
    split
    · exact ihl (by simpa using ⟨ht.1, ht.2.2, hp⟩) (by simpa using ht.2.1)
    · exact ihr (by simpa using ⟨ht.1, ht.2.1, hp⟩) (by simpa using ht.2.2)

theorem addrs_zoom_perm [LinearOrder α] (key : α) (t : Tree α) (p : Path α) :
    (Path.addrs (t.zoom key p)).Perm (Path.addrs p ++ t.addrs) := by
  induction t generalizing p with
  | nil => simp [Tree.zoom]
  | node a c l v r ihl ihr =>
    simp only [Tree.zoom]
    split
    · refine (ihl _).trans ?_
      rw [List.perm_iff_count]
      intro x
      simp [List.count_cons]
      omega
    · refine (ihr _).trans ?_
      rw [List.perm_iff_count]
      intro x
      simp [List.count_cons]
      omega

theorem length_zoom_le [LinearOrder α] (key : α) (t : Tree α) (p : Path α) :
    (t.zoom key p).length ≤ p.length + t.height := by
  induction t generalizing p with
  | nil => simp [Tree.zoom]
  | node a c l v r ihl ihr =>
    simp only [Tree.zoom, Tree.height]
    split
    · have := ihl (Frame.inL a c v r :: p)
      simp only [List.length_cons] at this
      omega
    · have := ihr (Frame.inR a c l v :: p)
      simp only [List.length_cons] at this
      omega

theorem rootPtr_zoom [LinearOrder α] (key : α) (t : Tree α) (p : Path α) (x : Ptr)
    (ht : t ≠ Tree.nil) : Path.rootPtr (t.zoom key p) x = Path.rootPtr p t.ptr := by
  induction t generalizing p x with
  | nil => exact absurd rfl ht
  | node a c l v r ihl ihr =>
    simp only [Tree.zoom]
    split
    · rcases l with _ | ⟨b, cb, bl, vb, br⟩
      · rfl
      · rw [ihl _ _ (by simp)]; rfl
    · rcases r with _ | ⟨b, cb, bl, vb, br⟩
      · rfl
      · rw [ihr _ _ (by simp)]; rfl

theorem rootBlack_cons {f : Frame α} {p : Path α} (hp : p ≠ []) :
    Path.rootBlack (f :: p) ↔ Path.rootBlack p := by
  cases p with
  | nil => exact absurd rfl hp
  | cons g p => rfl

theorem rootBlack_zoom [LinearOrder α] (key : α) (t : Tree α) (p : Path α) (hp : p ≠ []) :
    Path.rootBlack (t.zoom key p) ↔ Path.rootBlack p := by
  induction t generalizing p with
  | nil => rfl
  | node a c l v r ihl ihr =>
    simp only [Tree.zoom]
    split
    · rw [ihl _ (by simp), rootBlack_cons hp]
    · rw [ihr _ (by simp), rootBlack_cons hp]

theorem rootBlack_zoom_root [LinearOrder α] (key : α) (t : Tree α) (ht : t.isRed = false) :
    Path.rootBlack (t.zoom key []) := by
  rcases t with _ | ⟨a, c, l, v, r⟩
  · trivial
  · simp only [isRed_node] at ht
    subst ht
    simp only [Tree.zoom]
    split
    · rw [rootBlack_zoom _ _ _ (by simp)]; rfl
    · rw [rootBlack_zoom _ _ _ (by simp)]; rfl

/-- The innermost frame of the path found by the descent: the key goes to the left of
a greater value or to the right of a smaller one. -/
theorem zoom_head [LinearOrder α] (key : α) (t : Tree α) (p : Path α) (ht : t ≠ Tree.nil) :
    (∃ a c v r rest, t.zoom key p = Frame.inL a c v r :: rest ∧ key < v) ∨
    (∃ a c l v rest, t.zoom key p = Frame.inR a c l v :: rest ∧ ¬ key < v) := by
  induction t generalizing p with
  | nil => exact absurd rfl ht
  | node a c l v r ihl ihr =>
    simp only [Tree.zoom]
    split
    · rcases l with _ | ⟨b, cb, bl, vb, br⟩
      · exact Or.inl ⟨a, c, v, r, p, rfl, ‹_›⟩
      · exact ihl _ (by simp)
    · rcases r with _ | ⟨b, cb, bl, vb, br⟩
      · exact Or.inr ⟨a, c, l, v, p, rfl, ‹_›⟩
      · exact ihr _ (by simp)

/-- The descent of `insert` ends at the parent-to-be when `key` is not stored. -/
theorem insert_loop_absent [LinearOrder α] {h : Heap α} {par : Ptr} {t : Tree α}
    (hl : Lay h par t) (key : α) (hk : key ∉ t.values) (ht : t ≠ Tree.nil) (p : Path α)
    (fuel : Nat) (hf : t.height ≤ fuel) :
    insert_loop fuel h key t.ptr = Except.ok (some (Path.ptr (t.zoom key p))) := by
  induction t generalizing par fuel p with
  | nil => exact absurd rfl ht
  | node a c l v r ihl ihr =>
    cases fuel with
    | zero => simp [Tree.height] at hf
    | succ fuel =>
      simp only [Lay_node] at hl
      obtain ⟨hr, hll, hlr⟩ := hl
      simp only [Tree.height] at hf
      simp only [values_node, List.mem_append, List.mem_cons, not_or] at hk
      have he : equals key v = false := (equals_false_iff _ _).2 hk.2.1
      by_cases hlt : key < v
      · rcases l with _ | ⟨b, cb, bl, vb, br⟩
        · simp [insert_loop, hr, he, hlt, Tree.zoom]
        · have := ihl hll hk.1 (by simp) (Frame.inL a c v r :: p) fuel (by omega)
          simp only [ptr_node] at this
          simp [insert_loop, hr, he, hlt, Tree.zoom, this]
      · rcases r with _ | ⟨b, cb, bl, vb, br⟩
        · simp [insert_loop, hr, he, hlt, Tree.zoom]
        · have := ihr hlr hk.2.2 (by simp) (Frame.inR a c l v :: p) fuel (by omega)
          simp only [ptr_node] at this
          simp [insert_loop, hr, he, hlt, Tree.zoom, this]

end InsertTop

end bulumutka

namespace bulumutka

section InsertTop

variable {α : Type}

theorem insert_link_left {h : Heap α} {pa : Nat} {pc : Bool} {pv : α} {pr : Tree α}
    {rest : Path α} (key : α) (hq : LayPath h none (Frame.inL pa pc pv pr :: rest))
    (hnd : (Path.addrs (Frame.inL pa pc pv pr :: rest)).Nodup) :
    LayPath (((h ++ [some (Node.mk key none none none RED)]).update h.length
        fun n => { n with parent := some pa }).update pa fun n => { n with left := some h.length })
      (some h.length) (Frame.inL pa pc pv pr :: rest) ∧
    Lay (((h ++ [some (Node.mk key none none none RED)]).update h.length
        fun n => { n with parent := some pa }).update pa fun n => { n with left := some h.length })
      (some pa) (Tree.node h.length RED Tree.nil key Tree.nil) := by
  have hfresh : h.length ∉ Path.addrs (Frame.inL pa pc pv pr :: rest) :=
    fun hin => Nat.lt_irrefl _ (hq.addr_lt hin)
  have hq1 := LayPath_append (Node.mk key none none none RED) hq
  have hself := read_append_self h (Node.mk key none none none RED)
  generalize h ++ [some (Node.mk key none none none RED)] = h1 at hq1 hself
  generalize h.length = a at hfresh hself
  simp only [addrs_node, addrs_nil, Path.addrs_empty, Path.addrs_cons, List.nodup_append,
      List.nodup_cons, List.mem_append, List.mem_cons, not_or, List.disjoint_cons_left,
      List.disjoint_cons_right, List.disjoint_append_left, List.disjoint_append_right,
      List.nil_append, List.append_nil, List.disjoint_nil_left, List.disjoint_nil_right,
      List.nodup_nil, List.not_mem_nil, not_false_eq_true, true_and, and_true, Frame.addr_inL,
      Frame.addr_inR, Frame.sibling_inL, Frame.sibling_inR, Lay_node, Lay_nil, LayPath_inL,
      LayPath_inR, LayPath_nil, ptr_node, ptr_nil, Path.ptr_cons, Path.ptr_empty] at hnd hfresh hq1
  casesm* _ ∧ _
  simp only [getParent_some, getRight_some, getLeft_some, getColor_some, getValue_some,
      getParent_none, getRight_none, getLeft_none, getColor_none, getValue_none,
      Option.map_some', ofOption_some, ofOption_none, ok_bind, error_bind, setParent_some,
      setLeft_some, setRight_some, setColor_some, ↓reduceIte, ne_eq, not_true_eq_false,
      not_false_eq_true, run_pure, read_update_self, read_update_ne, reduceCtorEq,
      Option.some.injEq, ptr_eq_some_false, some_eq_ptr_false, Except.ok.injEq,
      exists_eq_left', Lay_node, Lay_nil, LayPath_inL, LayPath_inR, LayPath_nil, Lay_update,
      LayPath_update, length_update, ptr_node, ptr_nil, Path.ptr_cons, Path.ptr_empty,
      Frame.addr_inL, Frame.addr_inR, and_self, and_true, true_and, decide_True, decide_False,
      Bool.true_eq_false, Bool.false_eq_true, decide_eq_true_eq, decide_not, Bool.not_true,
      Bool.not_false, if_true, if_false, Set.mk.injEq, and_assoc, andThen_ok_true,
      andThen_ok_false, orElse_ok_true, orElse_ok_false, Path.rootPtr_nil, Path.rootPtr_cons, nat_eq_false_symm, AgreeOff_update, AgreeOff_refl,
      addrs_node, addrs_nil, Path.addrs_cons, Path.addrs_empty, List.mem_append, List.mem_cons,
      true_or, or_true, Frame.sibling_inL, Frame.sibling_inR, *]

theorem insert_link_right {h : Heap α} {pa : Nat} {pc : Bool} {pv : α} {pl : Tree α}
    {rest : Path α} (key : α) (hq : LayPath h none (Frame.inR pa pc pl pv :: rest))
    (hnd : (Path.addrs (Frame.inR pa pc pl pv :: rest)).Nodup) :
    LayPath (((h ++ [some (Node.mk key none none none RED)]).update h.length
        fun n => { n with parent := some pa }).update pa fun n => { n with right := some h.length })
      (some h.length) (Frame.inR pa pc pl pv :: rest) ∧
    Lay (((h ++ [some (Node.mk key none none none RED)]).update h.length
        fun n => { n with parent := some pa }).update pa fun n => { n with right := some h.length })
      (some pa) (Tree.node h.length RED Tree.nil key Tree.nil) := by
  have hfresh : h.length ∉ Path.addrs (Frame.inR pa pc pl pv :: rest) :=
    fun hin => Nat.lt_irrefl _ (hq.addr_lt hin)
  have hq1 := LayPath_append (Node.mk key none none none RED) hq
  have hself := read_append_self h (Node.mk key none none none RED)
  generalize h ++ [some (Node.mk key none none none RED)] = h1 at hq1 hself
  generalize h.length = a at hfresh hself
  simp only [addrs_node, addrs_nil, Path.addrs_empty, Path.addrs_cons, List.nodup_append,
      List.nodup_cons, List.mem_append, List.mem_cons, not_or, List.disjoint_cons_left,
      List.disjoint_cons_right, List.disjoint_append_left, List.disjoint_append_right,
      List.nil_append, List.append_nil, List.disjoint_nil_left, List.disjoint_nil_right,
      List.nodup_nil, List.not_mem_nil, not_false_eq_true, true_and, and_true, Frame.addr_inL,
      Frame.addr_inR, Frame.sibling_inL, Frame.sibling_inR, Lay_node, Lay_nil, LayPath_inL,
      LayPath_inR, LayPath_nil, ptr_node, ptr_nil, Path.ptr_cons, Path.ptr_empty] at hnd hfresh hq1
  casesm* _ ∧ _
  simp only [getParent_some, getRight_some, getLeft_some, getColor_some, getValue_some,
      getParent_none, getRight_none, getLeft_none, getColor_none, getValue_none,
      Option.map_some', ofOption_some, ofOption_none, ok_bind, error_bind, setParent_some,
      setLeft_some, setRight_some, setColor_some, ↓reduceIte, ne_eq, not_true_eq_false,
      not_false_eq_true, run_pure, read_update_self, read_update_ne, reduceCtorEq,
      Option.some.injEq, ptr_eq_some_false, some_eq_ptr_false, Except.ok.injEq,
      exists_eq_left', Lay_node, Lay_nil, LayPath_inL, LayPath_inR, LayPath_nil, Lay_update,
      LayPath_update, length_update, ptr_node, ptr_nil, Path.ptr_cons, Path.ptr_empty,
      Frame.addr_inL, Frame.addr_inR, and_self, and_true, true_and, decide_True, decide_False,
      Bool.true_eq_false, Bool.false_eq_true, decide_eq_true_eq, decide_not, Bool.not_true,
      Bool.not_false, if_true, if_false, Set.mk.injEq, and_assoc, andThen_ok_true,
      andThen_ok_false, orElse_ok_true, orElse_ok_false, Path.rootPtr_nil, Path.rootPtr_cons, nat_eq_false_symm, AgreeOff_update, AgreeOff_refl,
      addrs_node, addrs_nil, Path.addrs_cons, Path.addrs_empty, List.mem_append, List.mem_cons,
      true_or, or_true, Frame.sibling_inL, Frame.sibling_inR, *]

theorem insert_link_agree {h : Heap α} {S : List Nat} {pa : Nat} (n : Node α)
    (f g : Node α → Node α) (hpa : pa ∈ S) :
    Heap.AgreeOff (h.length :: S) h (((h ++ [some n]).update h.length f).update pa g) := by
  refine (AgreeOff_update _ (List.mem_cons_of_mem _ hpa)).2
    ((AgreeOff_update _ (List.mem_cons_self _ _)).2 ?_)
  intro b hb
  have hne : b ≠ h.length := fun e => hb (by rw [e]; exact List.mem_cons_self _ _)
  rw [read_append_single, if_neg hne]

theorem insertAt_node [LinearOrder α] (key : α) (a b : Nat) (c : Bool) (l : Tree α) (v : α)
    (r : Tree α) : (Tree.node b c l v r).insertAt key a =
      insFix ((Tree.node b c l v r).zoom key []) (Tree.node a RED Tree.nil key Tree.nil) := rfl

/-- The member `insert` of a key that is not stored performs the functional insertion on
the tree laid out in the heap, in the fresh cell at the end of the heap. -/
theorem insert_sim [LinearOrder α] (s : Set α) (t : Tree α) (key : α) (hm : s.Models t)
    (ho : t.Ordered) (hb : t.isRed = false) (hk : key ∉ t.values) :
    ∃ h, s.insert key = Except.ok ⟨h, (t.insertAt key s.heap.length).ptr, s.size_ + 1⟩ ∧
      Lay h none (t.insertAt key s.heap.length) ∧ h.length = s.heap.length + 1 ∧
      Heap.AgreeOff (s.heap.length :: t.addrs) s.heap h := by
  obtain ⟨h, root, size⟩ := s
  obtain ⟨hr, hl⟩ := hm
  simp only at hr hl
  subst hr
  rcases t with _ | ⟨b, c, l, v, r⟩
  · refine ⟨h ++ [some (Node.mk key none none none BLACK)], ?_, ?_, ?_, ?_⟩
    · simp [Set.insert, Heap.alloc, Tree.insertAt]
    · simp [Tree.insertAt, read_append_self]
    · simp
    · intro b hb
      simp only [addrs_nil, List.mem_cons, List.not_mem_nil, or_false] at hb
      rw [read_append_single, if_neg hb]
  · have hne : Tree.node b c l v r ≠ Tree.nil := by simp
    have hnd := hl.nodup_addrs ho
    have hq := LayPath_zoom key (p := []) (by simp) hl
    have hloop := insert_loop_absent hl key hk hne [] (h.length + 1)
      (by have := hl.height_le ho; omega)
    have hperm := addrs_zoom_perm key (Tree.node b c l v r) []
    have hlen := length_zoom_le key (Tree.node b c l v r) []
    have hht := hl.height_le ho
    have hrootb := rootBlack_zoom_root key _ hb
    have hrp := fun x => rootPtr_zoom key (Tree.node b c l v r) [] x hne
    have hndq : (Path.addrs ((Tree.node b c l v r).zoom key [])).Nodup :=
      hperm.nodup_iff.2 (by simpa using hnd)
    rw [insertAt_node]
    simp only [Set.insert, ptr_node, reduceCtorEq, ↓reduceIte] at hloop ⊢
    rcases zoom_head key (Tree.node b c l v r) [] hne with
      ⟨pa, pc, pv, pr, rest, hz, hlt⟩ | ⟨pa, pc, pl, pv, rest, hz, hlt⟩
    · rw [hz] at hq hloop hlen hrootb hrp hndq ⊢
      obtain ⟨hq3, hl3⟩ := insert_link_left key hq hndq
      have hfresh : h.length ∉ Path.addrs (Frame.inL pa pc pv pr :: rest) :=
        fun hin => Nat.lt_irrefl _ (hq.addr_lt hin)
      have hpa : pa ≠ h.length := by
        rintro rfl
        exact hfresh (by simp)
      obtain ⟨h', he, hl', hlen', hag'⟩ := insert_1_case_sim (h.length + 1)
        (Frame.inL pa pc pv pr :: rest) (Tree.node h.length RED Tree.nil key Tree.nil) h.length _
        (Tree.ptr (Tree.node b c l v r)) size rfl hq3 hl3
        (by
          simp only [addrs_node, addrs_nil, List.nil_append]
          rw [List.nodup_append]
          refine ⟨hndq, by simp, ?_⟩
          simpa using hfresh)
        hrootb (by simp only [Tree.height, List.length_nil] at hlen hht ⊢; omega)
        (fun _ => (hrp _).symm)
      have hmem : ∀ a, a ∈ Path.addrs ((Tree.node b c l v r).zoom key []) →
          a ∈ (Tree.node b c l v r).addrs := fun a ha => by
        simpa using hperm.mem_iff.1 ha
      rw [hz] at hmem
      refine ⟨h', ?_, hl', by simpa using hlen', AgreeOff_trans
        (AgreeOff_mono (insert_link_agree _ _ _ (List.mem_cons_self _ _))
          (fun a ha => by
            rcases List.mem_cons.1 ha with rfl | ha
            · exact List.mem_cons_self _ _
            · exact List.mem_cons_of_mem _ (hmem a ha)))
        (AgreeOff_mono hag' (fun a ha => by
            simp only [addrs_node, addrs_nil, List.nil_append, List.mem_append,
              List.mem_singleton] at ha
            rcases ha with ha | rfl
            · exact List.mem_cons_of_mem _ (hmem a ha)
            · exact List.mem_cons_self _ _))⟩
      simp only [LayPath_inL] at hq
      have hr1 := read_append_lt (Node.mk key none none none RED) (read_lt hq.1)
      have hr0 := read_append_self h (Node.mk key none none none RED)
      simp only [ptr_node] at he
      simp only [hloop, Path.ptr_cons, Frame.addr_inL, ok_bind, Heap.alloc, setParent_some, hr0,
        Option.map_some', ofOption_some, getValue_some, read_update_ne _ hpa, hr1, hq.1, hlt,
        ↓reduceIte, getParent_some, read_update_self, setLeft_some, he]
      rfl
    · rw [hz] at hq hloop hlen hrootb hrp hndq ⊢
      obtain ⟨hq3, hl3⟩ := insert_link_right key hq hndq
      have hfresh : h.length ∉ Path.addrs (Frame.inR pa pc pl pv :: rest) :=
        fun hin => Nat.lt_irrefl _ (hq.addr_lt hin)
      have hpa : pa ≠ h.length := by
        rintro rfl
        exact hfresh (by simp)
      obtain ⟨h', he, hl', hlen', hag'⟩ := insert_1_case_sim (h.length + 1)
        (Frame.inR pa pc pl pv :: rest) (Tree.node h.length RED Tree.nil key Tree.nil) h.length _
        (Tree.ptr (Tree.node b c l v r)) size rfl hq3 hl3
        (by
          simp only [addrs_node, addrs_nil, List.nil_append]
          rw [List.nodup_append]
          refine ⟨hndq, by simp, ?_⟩
          simpa using hfresh)
        hrootb (by simp only [Tree.height, List.length_nil] at hlen hht ⊢; omega)
        (fun _ => (hrp _).symm)
      have hmem : ∀ a, a ∈ Path.addrs ((Tree.node b c l v r).zoom key []) →
          a ∈ (Tree.node b c l v r).addrs := fun a ha => by
        simpa using hperm.mem_iff.1 ha
      rw [hz] at hmem
      refine ⟨h', ?_, hl', by simpa using hlen', AgreeOff_trans
        (AgreeOff_mono (insert_link_agree _ _ _ (List.mem_cons_self _ _))
          (fun a ha => by
            rcases List.mem_cons.1 ha with rfl | ha
            · exact List.mem_cons_self _ _
            · exact List.mem_cons_of_mem _ (hmem a ha)))
        (AgreeOff_mono hag' (fun a ha => by
            simp only [addrs_node, addrs_nil, List.nil_append, List.mem_append,
              List.mem_singleton] at ha
            rcases ha with ha | rfl
            · exact List.mem_cons_of_mem _ (hmem a ha)
            · exact List.mem_cons_self _ _))⟩
      simp only [LayPath_inR] at hq
      have hr1 := read_append_lt (Node.mk key none none none RED) (read_lt hq.1)
      have hr0 := read_append_self h (Node.mk key none none none RED)
      simp only [ptr_node] at he
      simp only [hloop, Path.ptr_cons, Frame.addr_inR, ok_bind, Heap.alloc, setParent_some, hr0,
        Option.map_some', ofOption_some, getValue_some, read_update_ne _ hpa, hr1, hq.1, hlt,
        ↓reduceIte, getParent_some, read_update_self, setRight_some, he]
      rfl

end InsertTop

end bulumutka

namespace bulumutka

section InsertInvariants

variable {α : Type}

@[simp] theorem cells_nil : (Tree.nil : Tree α).cells = [] := rfl

@[simp] theorem cells_node (a : Nat) (c : Bool) (l r : Tree α) (v : α) :
    (Tree.node a c l v r).cells = l.cells ++ (a, v) :: r.cells := rfl

theorem values_eq_cells (t : Tree α) : t.values = t.cells.map Prod.snd := by
  induction t with
  | nil => rfl
  | node a c l v r ihl ihr => simp [ihl, ihr]

theorem addrs_eq_cells (t : Tree α) : t.addrs = t.cells.map Prod.fst := by
  induction t with
  | nil => rfl
  | node a c l v r ihl ihr => simp [ihl, ihr]

@[simp] theorem cells_paint (c : Bool) (t : Tree α) : (t.paint c).cells = t.cells := by
  cases t <;> rfl

theorem cells_fill_congr (p : Path α) {t u : Tree α} (h : t.cells = u.cells) :
    (Path.fill p t).cells = (Path.fill p u).cells := by
  induction p generalizing t u with
  | nil => exact h
  | cons f p ih =>
    cases f with
    | inL a c v r => exact ih (by simp [Frame.fill, h])
    | inR a c l v => exact ih (by simp [Frame.fill, h])

theorem cells_recolor (f g : Frame α) (t : Tree α) :
    (((g.paint RED).paintSibling BLACK).fill ((f.paint BLACK).fill t)).cells =
      (g.fill (f.fill t)).cells := by
  cases f <;> cases g <;> simp [Frame.paint, Frame.paintSibling, Frame.fill]

theorem cells_insRotate (f g : Frame α) (n : Nat) (c : Bool) (l r : Tree α) (v : α) :
    (insRotate f g (.node n c l v r)).cells = (g.fill (f.fill (.node n c l v r))).cells := by
  cases f <;> cases g <;> simp [insRotate, Frame.fill]

/-- The insertion fix-up keeps the in-order sequence of nodes. -/
theorem cells_insFix (k : Nat) : ∀ (p : Path α) (t : Tree α), p.length ≤ k →
    (insFix p t).cells = (Path.fill p t).cells := by
  induction k using Nat.strong_induction_on with
  | _ k ih =>
    intro p t hk
    rcases p with _ | ⟨f, _ | ⟨g, rest⟩⟩
    · simp [insFix, Path.fill]
    · rfl
    · simp only [insFix]
      split
      · rename_i hred
        split
        · simp only [List.length_cons] at hk
          rw [ih rest.length (by omega) rest _ le_rfl]
          exact cells_fill_congr rest (cells_recolor f g t)
        · rcases t with _ | ⟨n, c, l, v, r⟩
          · simp at hred
          · exact cells_fill_congr rest (cells_insRotate f g n c l r v)
      · rfl

theorem mem_cells_plant [LinearOrder α] (key : α) (x t : Tree α) (c : Nat × α) :
    c ∈ (Tree.plant key x t).cells ↔ c ∈ x.cells ∨ c ∈ t.cells := by
  induction t with
  | nil => simp [Tree.plant]
  | node a k l v r ihl ihr =>
    simp only [Tree.plant]
    split <;> simp [ihl, ihr] <;> tauto

theorem All_plant [LinearOrder α] (P : α → Prop) (key : α) (x t : Tree α) :
    (Tree.plant key x t).All P ↔ x.All P ∧ t.All P := by
  simp only [All_iff, values_eq_cells, List.mem_map, mem_cells_plant]
  constructor
  · intro h
    exact ⟨fun v ⟨c, hc, e⟩ => h v ⟨c, Or.inl hc, e⟩, fun v ⟨c, hc, e⟩ => h v ⟨c, Or.inr hc, e⟩⟩
  · rintro ⟨h1, h2⟩ v ⟨c, hc | hc, e⟩
    · exact h1 v ⟨c, hc, e⟩
    · exact h2 v ⟨c, hc, e⟩

theorem Ordered_plant [LinearOrder α] (key : α) (a : Nat) (c : Bool) (t : Tree α)
    (ho : t.Ordered) (hk : key ∉ t.values) :
    (Tree.plant key (.node a c .nil key .nil) t).Ordered := by
  induction t with
  | nil => simp [Tree.plant, Tree.Ordered, Tree.All]
  | node b k l v r ihl ihr =>
    simp only [values_node, List.mem_append, List.mem_cons, not_or] at hk
    simp only [Tree.Ordered] at ho
    simp only [Tree.plant]
    split
    · rename_i hlt
      simp only [Tree.Ordered, All_plant]
      exact ⟨⟨by simp [Tree.All, hlt], ho.1⟩, ho.2.1, ihl ho.2.2.1 hk.1, ho.2.2.2⟩
    · rename_i hlt
      have hvk : v < key := lt_of_le_of_ne (not_lt.1 hlt) (fun e => hk.2.1 e.symm)
      simp only [Tree.Ordered, All_plant]
      exact ⟨ho.1, ⟨by simp [Tree.All, hvk], ho.2.1⟩, ho.2.2.1, ihr ho.2.2.2 hk.2.2⟩

theorem Ordered_of_cells [LinearOrder α] {t u : Tree α} (h : t.cells = u.cells)
    (ho : u.Ordered) : t.Ordered := by
  rw [Ordered_iff, values_eq_cells] at *
  rw [h]; exact ho

theorem cells_insertAt [LinearOrder α] (key : α) (a : Nat) (t : Tree α) :
    (t.insertAt key a).cells = (Tree.plant key (.node a RED .nil key .nil) t).cells := by
  rcases t with _ | ⟨b, c, l, v, r⟩
  · rfl
  · rw [insertAt_node, cells_insFix _ _ _ le_rfl, fill_zoom]
    rfl

theorem mem_cells_insertAt [LinearOrder α] (key : α) (a : Nat) (t : Tree α) (c : Nat × α) :
    c ∈ (t.insertAt key a).cells ↔ c = (a, key) ∨ c ∈ t.cells := by
  rw [cells_insertAt, mem_cells_plant]
  simp

theorem mem_values_insertAt [LinearOrder α] (key : α) (a : Nat) (t : Tree α) (x : α) :
    x ∈ (t.insertAt key a).values ↔ x = key ∨ x ∈ t.values := by
  simp only [values_eq_cells, List.mem_map, mem_cells_insertAt]
  constructor
  · rintro ⟨c, hc | hc, rfl⟩
    · left; rw [hc]
    · right; exact ⟨c, hc, rfl⟩
  · rintro (rfl | ⟨c, hc, rfl⟩)
    · exact ⟨(a, x), Or.inl rfl, rfl⟩
    · exact ⟨c, Or.inr hc, rfl⟩

theorem Ordered_insertAt [LinearOrder α] (key : α) (a : Nat) (t : Tree α) (ho : t.Ordered)
    (hk : key ∉ t.values) : (t.insertAt key a).Ordered :=
  Ordered_of_cells (cells_insertAt key a t) (Ordered_plant key a RED t ho hk)

theorem size_eq_cells (t : Tree α) : t.size = t.cells.length := by
  rw [← length_values, values_eq_cells, List.length_map]

theorem size_plant [LinearOrder α] (key : α) (x t : Tree α) :
    (Tree.plant key x t).size = t.size + x.size := by
  induction t with
  | nil => simp [Tree.plant, Tree.size]
  | node a k l v r ihl ihr =>
    simp only [Tree.plant]
    split <;> simp [Tree.size, ihl, ihr] <;> omega

theorem size_insertAt [LinearOrder α] (key : α) (a : Nat) (t : Tree α) :
    (t.insertAt key a).size = t.size + 1 := by
  rw [size_eq_cells, cells_insertAt, ← size_eq_cells, size_plant]
  rfl

end InsertInvariants

end bulumutka

namespace bulumutka

section InsertBalance

variable {α : Type}

theorem Balanced_nil : (Tree.nil : Tree α).Balanced 0 := ⟨trivial, trivial, rfl⟩

theorem Balanced_node {a : Nat} {c : Bool} {l r : Tree α} {v : α} {n : Nat} :
    (Tree.node a c l v r).Balanced (n + if c = BLACK then 1 else 0) ↔
      l.Balanced n ∧ r.Balanced n ∧ (c = RED → l.isRed = false ∧ r.isRed = false) := by
  simp only [Tree.Balanced, Tree.NoRedRed, Tree.Uniform, Tree.blackCount]
  constructor
  · rintro ⟨⟨h1, h2, h3⟩, ⟨h4, h5, h6⟩, h7⟩
    have : l.blackCount = n := by omega
    exact ⟨⟨h2, h5, this⟩, ⟨h3, h6, by omega⟩, h1⟩
  · rintro ⟨⟨h1, h2, h3⟩, ⟨h4, h5, h6⟩, h7⟩
    exact ⟨⟨h7, h1, h4⟩, ⟨by omega, h2, h5⟩, by omega⟩

theorem Balanced_frame_fill {f : Frame α} {t : Tree α} {n : Nat} (hs : f.sibling.Balanced n)
    (ht : t.Balanced n) (hr : f.color = RED → f.sibling.isRed = false ∧ t.isRed = false) :
    (f.fill t).Balanced (n + if f.color = BLACK then 1 else 0) := by
  cases f with
  | inL a c v r => exact Balanced_node.2 ⟨ht, hs, fun h => ⟨(hr h).2, (hr h).1⟩⟩
  | inR a c l v => exact Balanced_node.2 ⟨hs, ht, fun h => ⟨(hr h).1, (hr h).2⟩⟩

theorem isRed_frame_fill (f : Frame α) (t : Tree α) : (f.fill t).isRed = f.color := by
  cases f <;> rfl

theorem not_red_of_headBlack {f : Frame α} {p : Path α} {t : Tree α}
    (h : t.isRed = true → Path.headBlack (f :: p)) (hf : f.color = RED) : t.isRed = false := by
  cases ht : t.isRed with
  | false => rfl
  | true =>
    have := h ht
    simp only [Path.headBlack] at this
    rw [hf] at this
    exact absurd this (by decide)

/-- A balanced subtree in the hole of a balanced path gives a tree with the colour
invariants of a red-black tree. -/
theorem fill_balanced (p : Path α) : ∀ (t : Tree α) (n : Nat), Path.Balanced p n →
    t.Balanced n → (t.isRed = true → Path.headBlack p) →
    (Path.fill p t).isRed = false ∧ (Path.fill p t).NoRedRed ∧ (Path.fill p t).Uniform := by
  induction p with
  | nil =>
    intro t n _ ht hr
    refine ⟨?_, ht.1, ht.2.1⟩
    cases h : t.isRed with
    | false => exact h
    | true => exact absurd (hr h) (by simp [Path.headBlack])
  | cons f p ih =>
    intro t n hp ht hr
    obtain ⟨hs, hc, hrest⟩ := hp
    refine ih (f.fill t) _ hrest
      (Balanced_frame_fill hs ht fun hf => ⟨(hc hf).1, not_red_of_headBlack hr hf⟩) ?_
    rw [isRed_frame_fill]
    exact fun hf => (hc hf).2

theorem zoom_balanced [LinearOrder α] (key : α) (t : Tree α) : ∀ (p : Path α) (n : Nat),
    t.Balanced n → Path.Balanced p n → (t.isRed = true → Path.headBlack p) →
    Path.Balanced (t.zoom key p) 0 := by
  induction t with
  | nil =>
    intro p n ht hp _
    have : n = 0 := ht.2.2.symm
    subst this
    exact hp
  | node a c l v r ihl ihr =>
    intro p n ht hp hr
    obtain ⟨hnr, hu, hb⟩ := ht
    simp only [Tree.NoRedRed] at hnr
    simp only [Tree.Uniform] at hu
    simp only [Tree.blackCount] at hb
    simp only [isRed_node] at hr
    simp only [Tree.zoom]
    split
    · refine ihl _ l.blackCount ⟨hnr.2.1, hu.2.1, rfl⟩ ⟨⟨hnr.2.2, hu.2.2, hu.1.symm⟩,
        fun hc => ⟨(hnr.1 hc).2, hr hc⟩, by simpa [Frame.color, hb] using hp⟩ ?_
      intro hl
      simp only [Path.headBlack, Frame.color]
      cases c with
      | false => rfl
      | true => rw [(hnr.1 rfl).1] at hl; exact absurd hl (by decide)
    · refine ihr _ r.blackCount ⟨hnr.2.2, hu.2.2, rfl⟩ ⟨⟨hnr.2.1, hu.2.1, hu.1⟩,
        fun hc => ⟨(hnr.1 hc).1, hr hc⟩, by simpa [Frame.color, hb, ← hu.1] using hp⟩ ?_
      intro hl
      simp only [Path.headBlack, Frame.color]
      cases c with
      | false => rfl
      | true => rw [(hnr.1 rfl).2] at hl; exact absurd hl (by decide)

theorem Balanced_paint_black {t : Tree α} {n : Nat} (ht : t.Balanced n) (hr : t.isRed = true) :
    (t.paint BLACK).Balanced (n + 1) := by
  rcases t with _ | ⟨a, c, l, v, r⟩
  · simp at hr
  · simp only [isRed_node] at hr
    subst hr
    obtain ⟨h1, h2, h3⟩ := ht
    simp only [Tree.NoRedRed, Tree.Uniform, Tree.blackCount] at h1 h2 h3
    refine ⟨⟨by simp, h1.2.1, h1.2.2⟩, h2, ?_⟩
    simp only [Tree.paint, Tree.blackCount]
    simpa using h3

theorem Balanced_recolor {f g : Frame α} {t : Tree α} {n : Nat} (ht : t.Balanced n)
    (hf : f.sibling.Balanced n) (hg : g.sibling.Balanced n) (hu : g.sibling.isRed = true) :
    (((g.paint RED).paintSibling BLACK).fill ((f.paint BLACK).fill t)).Balanced (n + 1) := by
  have hu1 := Balanced_paint_black hg hu
  have hp : ((f.paint BLACK).fill t).Balanced (n + 1) := by
    cases f with
    | inL a c v r => exact (Balanced_node (c := BLACK)).2 ⟨ht, hf, by simp⟩
    | inR a c l v => exact (Balanced_node (c := BLACK)).2 ⟨hf, ht, by simp⟩
  have hpr : ((f.paint BLACK).fill t).isRed = false := by cases f <;> rfl
  have hur : (g.sibling.paint BLACK).isRed = false := by
    cases g.sibling <;> rfl
  cases g with
  | inL a c v r =>
    exact (Balanced_node (c := RED) (n := n + 1)).2 ⟨hp, hu1, fun _ => ⟨hpr, hur⟩⟩
  | inR a c l v =>
    exact (Balanced_node (c := RED) (n := n + 1)).2 ⟨hu1, hp, fun _ => ⟨hur, hpr⟩⟩

theorem Balanced_insRotate {f g : Frame α} {m : Nat} {l r : Tree α} {v : α} {n : Nat}
    (ht : (Tree.node m RED l v r).Balanced n) (hf : f.sibling.Balanced n)
    (hfc : f.color = RED) (hfr : f.sibling.isRed = false) (hg : g.sibling.Balanced n)
    (hu : g.sibling.isRed = false) :
    (insRotate f g (.node m RED l v r)).Balanced (n + 1) := by
  have ht0 := (Balanced_node (c := RED) (n := n)).1 ht
  obtain ⟨hl, hr, hc⟩ := ht0
  obtain ⟨hlr, hrr⟩ := hc rfl
  rcases f with ⟨pa, pc, pv, pr⟩ | ⟨pa, pc, pl, pv⟩ <;>
  rcases g with ⟨ga, gc, gv, gr⟩ | ⟨ga, gc, gl, gv⟩ <;>
  simp only [Frame.sibling, Frame.color] at hf hfr hg hu hfc <;>
  subst hfc <;>
  simp only [insRotate]
  · exact (Balanced_node (c := BLACK)).2 ⟨ht,
      (Balanced_node (c := RED) (n := n)).2 ⟨hf, hg, fun _ => ⟨hfr, hu⟩⟩, by simp⟩
  · exact (Balanced_node (c := BLACK)).2
      ⟨(Balanced_node (c := RED) (n := n)).2 ⟨hg, hl, fun _ => ⟨hu, hlr⟩⟩,
       (Balanced_node (c := RED) (n := n)).2 ⟨hr, hf, fun _ => ⟨hrr, hfr⟩⟩, by simp⟩
  · exact (Balanced_node (c := BLACK)).2
      ⟨(Balanced_node (c := RED) (n := n)).2 ⟨hf, hl, fun _ => ⟨hfr, hlr⟩⟩,
       (Balanced_node (c := RED) (n := n)).2 ⟨hr, hg, fun _ => ⟨hrr, hu⟩⟩, by simp⟩
  · exact (Balanced_node (c := BLACK)).2
      ⟨(Balanced_node (c := RED) (n := n)).2 ⟨hg, hf, fun _ => ⟨hu, hfr⟩⟩, ht, by simp⟩

/-- The insertion fix-up restores the colour invariants: started at a red balanced
subtree in the hole of a balanced path, it yields a tree with a black root, no red
node with a red child, and the same black count on every path. -/
theorem insFix_balanced (k : Nat) : ∀ (p : Path α) (t : Tree α) (n : Nat), p.length ≤ k →
    Path.Balanced p n → t.isRed = true → t.Balanced n →
    (insFix p t).isRed = false ∧ (insFix p t).NoRedRed ∧ (insFix p t).Uniform := by
  induction k using Nat.strong_induction_on with
  | _ k ih =>
    intro p t n hk hp hr ht
    rcases p with _ | ⟨f, _ | ⟨g, rest⟩⟩
    · have := Balanced_paint_black ht hr
      refine ⟨?_, this.1, this.2.1⟩
      cases t <;> rfl
    · have hfb : f.color = BLACK := by
        cases hc : f.color with
        | false => rfl
        | true => exact absurd (hp.2.1 hc).2 (by simp [Path.headBlack])
      exact fill_balanced [f] t n hp ht (fun _ => hfb)
    · simp only [insFix]
      split
      · rename_i hred
        obtain ⟨hfs, hfc, hgs, hgc, hrest⟩ := hp
        have hgb : g.color = BLACK := (hfc hred.2).2
        have hfsr : f.sibling.isRed = false := (hfc hred.2).1
        rw [hred.2] at hgs hrest
        rw [hgb] at hrest
        simp only [reduceCtorEq, ↓reduceIte, Nat.add_zero] at hgs hrest
        split
        · rename_i hu
          simp only [List.length_cons] at hk
          refine ih rest.length (by omega) rest _ (n + 1) le_rfl hrest ?_
            (Balanced_recolor ht hfs hgs hu)
          cases g <;> rfl
        · rename_i hu
          rcases t with _ | ⟨m, c, l, v, r⟩
          · simp at hr
          · simp only [isRed_node] at hr
            subst hr
            have hb := Balanced_insRotate ht hfs hred.2 hfsr hgs (by simpa using hu)
            obtain ⟨m', x, y, w, e⟩ := insRotate_black f g m RED l r v
            rw [e] at hb ⊢
            exact fill_balanced rest _ (n + 1) hrest hb (by simp)
      · rename_i hred
        have hfb : f.color = BLACK := by
          cases hc : f.color with
          | false => rfl
          | true => exact absurd ⟨hr, hc⟩ hred
        exact fill_balanced (f :: g :: rest) t n hp ht (fun _ => hfb)

/-- The functional insertion preserves the red-black invariants. -/
theorem insertAt_redBlack [LinearOrder α] (key : α) (a : Nat) (t : Tree α) (h : t.RedBlack)
    (hk : key ∉ t.values) : (t.insertAt key a).RedBlack := by
  refine ⟨Ordered_insertAt key a t h.1 hk, ?_⟩
  rcases t with _ | ⟨b, c, l, v, r⟩
  · exact ⟨rfl, by simp [Tree.insertAt, Tree.NoRedRed], by simp [Tree.insertAt, Tree.Uniform]⟩
  · rw [insertAt_node]
    obtain ⟨_, hb, hn, hu⟩ := h
    refine insFix_balanced _ _ _ 0 le_rfl ?_ rfl ⟨by simp [Tree.NoRedRed], by simp [Tree.Uniform], rfl⟩
    refine zoom_balanced key _ [] _ ⟨hn, hu, rfl⟩ trivial ?_
    rw [hb]
    exact fun h => absurd h (by decide)

end InsertBalance

end bulumutka

namespace bulumutka

section InsertSpec

variable {α : Type}

theorem Lay.read_of_cell {h : Heap α} {par : Ptr} {t : Tree α} (hl : Lay h par t) {a : Nat}
    {v : α} (hc : (a, v) ∈ t.cells) : ∃ n, h.read a = some n ∧ n.value = v := by
  induction t generalizing par with
  | nil => simp at hc
  | node b c l w r ihl ihr =>
    simp only [Lay_node] at hl
    simp only [cells_node, List.mem_append, List.mem_cons, Prod.mk.injEq] at hc
    rcases hc with hc | ⟨rfl, rfl⟩ | hc
    · exact ihl hl.2.1 hc
    · exact ⟨_, hl.1, rfl⟩
    · exact ihr hl.2.2 hc

theorem Lay.cell_of_mem {h : Heap α} {par : Ptr} {t : Tree α} (hl : Lay h par t) {a : Nat}
    {n : Node α} (ha : a ∈ t.addrs) (hn : h.read a = some n) : (a, n.value) ∈ t.cells := by
  rw [addrs_eq_cells, List.mem_map] at ha
  obtain ⟨⟨b, v⟩, hc, rfl⟩ := ha
  obtain ⟨m, hm, hv⟩ := hl.read_of_cell hc
  simp only at hn
  rw [hn] at hm
  cases hm
  rw [hv]
  exact hc

theorem mem_addrs_of_cell {t : Tree α} {a : Nat} {v : α} (hc : (a, v) ∈ t.cells) :
    a ∈ t.addrs := by
  rw [addrs_eq_cells, List.mem_map]
  exact ⟨(a, v), hc, rfl⟩

theorem mem_values_of_cell {t : Tree α} {a : Nat} {v : α} (hc : (a, v) ∈ t.cells) :
    v ∈ t.values := by
  rw [values_eq_cells, List.mem_map]
  exact ⟨(a, v), hc, rfl⟩

/-- What `insert` does to a well-formed set: it returns, the result is well formed,
its nodes are those of before together with one new node for a key that was not
stored, and `size_` grows by the number of nodes added. -/
theorem insert_spec [LinearOrder α] (s : Set α) (t : Tree α) (key : α) (hm : s.Models t)
    (hrb : t.RedBlack) :
    ∃ s' t', s.insert key = Except.ok s' ∧ s'.Models t' ∧ t'.RedBlack ∧
      (∀ c, c ∈ t'.cells ↔ c ∈ t.cells ∨ (key ∉ t.values ∧ c = (s.heap.length, key))) ∧
      (∀ x, x ∈ t'.values ↔ x = key ∨ x ∈ t.values) ∧
      s'.size_ + t.size = s.size_ + t'.size ∧
      Heap.AgreeOff (s.heap.length :: t.addrs) s.heap s'.heap := by
  by_cases hk : key ∈ t.values
  · refine ⟨s, t, ?_, hm, hrb, by simp [hk], ?_, by omega, AgreeOff_refl _ _⟩
    · obtain ⟨hroot, hl⟩ := hm
      have hh := hl.height_le hrb.1
      have hne : s.root_ ≠ none := by
        rw [hroot]
        intro e
        rw [ptr_eq_none] at e
        subst e
        simp at hk
      have hloop := insert_loop_present hl hrb.1 key hk (s.heap.length + 1) (by omega)
      rw [← hroot] at hloop
      simp [Set.insert, hne, hloop]
    · intro x
      constructor
      · exact Or.inr
      · rintro (rfl | h)
        · exact hk
        · exact h
  · obtain ⟨h, he, hl, -, hag⟩ := insert_sim s t key hm hrb.1 hrb.2.1 hk
    refine ⟨_, t.insertAt key s.heap.length, he, ⟨rfl, hl⟩,
      insertAt_redBlack key _ t hrb hk, ?_, mem_values_insertAt key _ t, ?_, hag⟩
    · intro c
      rw [mem_cells_insertAt]
      simp only [hk, not_false_eq_true, true_and]
      tauto
    · simp only [size_insertAt]
      omega

end InsertSpec

end bulumutka

namespace bulumutka

section InsertClaims

variable {α : Type}

/-- C1: `insert` preserves the red-black invariants.  On a well-formed set (its links
draw a tree with consistent parent links, in strict search order, with a black root,
no red node with a red child and the same black count on every path), `insert key`
returns a set whose links again draw such a tree. -/
theorem insert_preserves_invariants [LinearOrder α] (s : Set α) (hw : s.WellFormed) (key : α) :
    ∃ s' t', s.insert key = Except.ok s' ∧ s'.Models t' ∧
      t'.Ordered ∧ t'.isRed = false ∧ t'.NoRedRed ∧ t'.Uniform := by
  obtain ⟨t, hm, hrb⟩ := hw
  obtain ⟨s', t', he, hm', hrb', _⟩ := insert_spec s t key hm hrb
  exact ⟨s', t', he, hm', hrb'⟩

theorem insert_preserves_invariants_witness :
    demoSet.WellFormed ∧
    ∃ s' t', demoSet.insert 4 = Except.ok s' ∧ s'.Models t' ∧
      t'.Ordered ∧ t'.isRed = false ∧ t'.NoRedRed ∧ t'.Uniform :=
  ⟨demo_wellFormed, insert_preserves_invariants demoSet demo_wellFormed 4⟩

theorem find_end_iff [LinearOrder α] {s : Set α} {t : Tree α} (hm : s.Models t)
    (ho : t.Ordered) (x : α) :
    ∃ it, s.find x = Except.ok it ∧ (it.equal s.end_ = false ↔ x ∈ t.values) := by
  obtain ⟨p, hp, h1, h2⟩ := find__spec hm ho x
  refine ⟨⟨p, s.root_⟩, by simp [Set.find, hp], ?_⟩
  simp only [Iterator.equal, Set.end_, beq_eq_false_iff_ne, ne_eq]
  constructor
  · intro hne
    by_contra hx
    exact hne (h2 hx)
  · intro hx
    obtain ⟨a, n, e, _⟩ := h1 hx
    rw [e]
    simp

/-- C14: `insert` keeps the node objects.  On a well-formed set whose links draw the
tree `t`, every node of `t` is, after `insert key`, still a node of the tree and
stores the same value; the fix-up changes colours and links only. -/
theorem insert_keeps_nodes [LinearOrder α] (s : Set α) (t : Tree α) (hm : s.Models t)
    (hrb : t.RedBlack) (key : α) :
    ∃ s' t', s.insert key = Except.ok s' ∧ s'.Models t' ∧
      ∀ a n, a ∈ t.addrs → s.heap.read a = some n →
        a ∈ t'.addrs ∧ ∃ n', s'.heap.read a = some n' ∧ n'.value = n.value := by
  obtain ⟨s', t', he, hm', _, hc, _⟩ := insert_spec s t key hm hrb
  refine ⟨s', t', he, hm', ?_⟩
  intro a n ha hn
  have h1 := hm.2.cell_of_mem ha hn
  have h2 := (hc (a, n.value)).2 (Or.inl h1)
  exact ⟨mem_addrs_of_cell h2, hm'.2.read_of_cell h2⟩

theorem insert_keeps_nodes_witness :
    demoSet.Models demoTree ∧ demoTree.RedBlack ∧
    ∃ s' t', demoSet.insert 4 = Except.ok s' ∧ s'.Models t' ∧
      ∀ a n, a ∈ demoTree.addrs → demoSet.heap.read a = some n →
        a ∈ t'.addrs ∧ ∃ n', s'.heap.read a = some n' ∧ n'.value = n.value :=
  ⟨demo_models, demo_redBlack, insert_keeps_nodes demoSet demoTree demo_models demo_redBlack 4⟩

end InsertClaims

end bulumutka

namespace bulumutka

section Traversal

variable {α : Type}

theorem cells_fill (p : Path α) (t : Tree α) :
    (Path.fill p t).cells = Path.before p ++ t.cells ++ Path.after p := by
  induction p generalizing t with
  | nil => simp [Path.before, Path.after]
  | cons f p ih =>
    cases f with
    | inL a c v r => simp [ih, Path.before, Path.after]
    | inR a c l v => simp [ih, Path.before, Path.after]

theorem fill_append (p q : Path α) (t : Tree α) :
    Path.fill (p ++ q) t = Path.fill q (Path.fill p t) := by
  induction p generalizing t with
  | nil => rfl
  | cons f p ih => simp [ih]

/-- Every node of a tree is the root of the subtree in the hole of some path. -/
theorem exists_zipper {t : Tree α} {a : Nat} (ha : a ∈ t.addrs) :
    ∃ p c l v r, t = Path.fill p (.node a c l v r) := by
  induction t with
  | nil => simp at ha
  | node b c l v r ihl ihr =>
    simp only [addrs_node, List.mem_append, List.mem_cons] at ha
    rcases ha with ha | rfl | ha
    · obtain ⟨p, c', l', v', r', e⟩ := ihl ha
      exact ⟨p ++ [Frame.inL b c v r], c', l', v', r', by rw [fill_append, ← e]; rfl⟩
    · exact ⟨[], c, l, v, r, rfl⟩
    · obtain ⟨p, c', l', v', r', e⟩ := ihr ha
      exact ⟨p ++ [Frame.inR b c l v], c', l', v', r', by rw [fill_append, ← e]; rfl⟩

/-- In a list without repeated keys an entry splits the list in one way only. -/
theorem split_unique {β : Type} {l1 l2 m1 m2 : List (Nat × β)} {a : Nat} {v w : β}
    (h : l1 ++ (a, v) :: l2 = m1 ++ (a, w) :: m2)
    (hn : ((l1 ++ (a, v) :: l2).map Prod.fst).Nodup) : l1 = m1 ∧ v = w ∧ l2 = m2 := by
  induction l1 generalizing m1 with
  | nil =>
    cases m1 with
    | nil =>
      simp only [List.nil_append, List.cons.injEq, Prod.mk.injEq, true_and] at h
      exact ⟨rfl, h.1, h.2⟩
    | cons y m1 =>
      exfalso
      simp only [List.nil_append, List.cons_append, List.cons.injEq] at h
      simp only [List.nil_append, List.map_cons, List.nodup_cons] at hn
      apply hn.1
      rw [h.2]
      simp
  | cons x l1 ih =>
    cases m1 with
    | nil =>
      exfalso
      simp only [List.nil_append, List.cons_append, List.cons.injEq] at h
      simp only [List.cons_append, List.map_cons, List.nodup_cons] at hn
      apply hn.1
      rw [h.1]
      simp
    | cons y m1 =>
      simp only [List.cons_append, List.cons.injEq] at h
      simp only [List.cons_append, List.map_cons, List.nodup_cons] at hn
      obtain ⟨e1, e2, e3⟩ := ih h.2 hn.2
      exact ⟨by rw [h.1, e1], e2, e3⟩

theorem cells_ne_nil (a : Nat) (c : Bool) (l r : Tree α) (v : α) :
    (Tree.node a c l v r).cells ≠ [] := by simp

theorem head_cells_node (a : Nat) (c : Bool) (l r : Tree α) (v : α) :
    ∃ x, (Tree.node a c l v r).cells.head? = some x := by
  cases h : (Tree.node a c l v r).cells with
  | nil => exact absurd h (cells_ne_nil a c l r v)
  | cons x xs => exact ⟨x, rfl⟩

theorem getLast_cells_node (a : Nat) (c : Bool) (l r : Tree α) (v : α) :
    ∃ x, (Tree.node a c l v r).cells.getLast? = some x := by
  have := List.getLast?_eq_getLast _ (cells_ne_nil a c l r v)
  exact ⟨_, this⟩

/-- The loop `while (p->left) p = p->left` ends at the first node in in-order. -/
theorem descend_left_spec {h : Heap α} {par : Ptr} {a : Nat} {c : Bool} {l r : Tree α} {v : α}
    (hl : Lay h par (.node a c l v r)) (fuel : Nat)
    (hf : (Tree.node a c l v r).height ≤ fuel) :
    descend_left fuel h (some a) =
      Except.ok ((Tree.node a c l v r).cells.head?.map Prod.fst) := by
  induction l generalizing par a c r v fuel with
  | nil =>
    cases fuel with
    | zero => simp [Tree.height] at hf
    | succ fuel =>
      simp only [Lay_node] at hl
      simp [descend_left, hl.1]
  | node b cb bl vb br ihl _ =>
    cases fuel with
    | zero => simp [Tree.height] at hf
    | succ fuel =>
      rw [Lay_node] at hl
      simp only [Tree.height] at hf
      have := ihl hl.2.1 fuel (by simp only [Tree.height]; omega)
      obtain ⟨x, hx⟩ := head_cells_node b cb bl br vb
      have hc : (Tree.node a c (Tree.node b cb bl vb br) v r).cells.head? = some x := by
        rw [cells_node a c _ r v, List.head?_append, hx]; rfl
      rw [hx] at this
      rw [hc]
      simp [descend_left, hl.1, this]

/-- The loop `while (p->right != nullptr) p = p->right` ends at the last node in
in-order. -/
theorem descend_right_spec {h : Heap α} {par : Ptr} {a : Nat} {c : Bool} {l r : Tree α} {v : α}
    (hl : Lay h par (.node a c l v r)) (fuel : Nat)
    (hf : (Tree.node a c l v r).height ≤ fuel) :
    descend_right fuel h (some a) =
      Except.ok ((Tree.node a c l v r).cells.getLast?.map Prod.fst) := by
  induction r generalizing par a c l v fuel with
  | nil =>
    cases fuel with
    | zero => simp [Tree.height] at hf
    | succ fuel =>
      simp only [Lay_node] at hl
      simp [descend_right, hl.1]
  | node b cb bl vb br _ ihr =>
    cases fuel with
    | zero => simp [Tree.height] at hf
    | succ fuel =>
      rw [Lay_node] at hl
      simp only [Tree.height] at hf
      have := ihr hl.2.2 fuel (by simp only [Tree.height]; omega)
      obtain ⟨x, hx⟩ := getLast_cells_node b cb bl br vb
      have hc : (Tree.node a c l v (Tree.node b cb bl vb br)).cells.getLast? = some x := by
        rw [cells_node a c l _ v, List.getLast?_append, List.getLast?_cons, hx]; rfl
      rw [hx] at this
      rw [hc]
      simp [descend_right, hl.1, this]

/-- The upward loop of `next` ends at the first node after the hole of the path. -/
theorem next_up_spec {h : Heap α} (p : Path α) : ∀ (a : Nat) (n : Node α) (fuel : Nat),
    h.read a = some n → n.parent = Path.ptr p → LayPath h (some a) p →
    (a :: Path.addrs p).Nodup → p.length < fuel →
    next_up fuel h (some a) = Except.ok ((Path.after p).head?.map Prod.fst) := by
  induction p with
  | nil =>
    intro a n fuel hr hp _ _ hf
    cases fuel with
    | zero => simp at hf
    | succ fuel =>
      simp only [Path.ptr_empty] at hp
      simp [next_up, hr, hp, Path.after]
  | cons f p ih =>
    intro a n fuel hr hp hl hn hf
    cases fuel with
    | zero => simp at hf
    | succ fuel =>
      simp only [List.length_cons, Nat.add_lt_add_iff_right] at hf
      cases f with
      | inL b c v r =>
        simp only [Path.ptr_cons, Frame.addr_inL] at hp
        simp only [LayPath_inL] at hl
        simp [next_up, hr, hp, hl.1, Path.after]
      | inR b c l v =>
        simp only [Path.ptr_cons, Frame.addr_inR] at hp
        simp only [LayPath_inR] at hl
        simp only [Path.addrs_cons, Frame.addr_inR, Frame.sibling_inR, List.nodup_cons,
          List.mem_cons, List.mem_append, not_or, List.nodup_append] at hn
        have hne : l.ptr ≠ some a := ptr_ne_of_not_mem hn.1.2.1
        have := ih b _ fuel hl.1 rfl hl.2.2
          (by
            simp only [List.nodup_cons]
            exact ⟨hn.2.1.2, hn.2.2.2.1⟩) hf
        simp [next_up, hr, hp, hl.1, Path.after, hne, this]

/-- The upward loop of `previous` ends at the last node before the hole of the path. -/
theorem previous_up_spec {h : Heap α} (p : Path α) : ∀ (a : Nat) (n : Node α) (fuel : Nat),
    h.read a = some n → n.parent = Path.ptr p → LayPath h (some a) p →
    (a :: Path.addrs p).Nodup → p.length < fuel →
    previous_up fuel h (some a) = Except.ok ((Path.before p).getLast?.map Prod.fst) := by
  induction p with
  | nil =>
    intro a n fuel hr hp _ _ hf
    cases fuel with
    | zero => simp at hf
    | succ fuel =>
      simp only [Path.ptr_empty] at hp
      simp [previous_up, hr, hp, Path.before]
  | cons f p ih =>
    intro a n fuel hr hp hl hn hf
    cases fuel with
    | zero => simp at hf
    | succ fuel =>
      simp only [List.length_cons, Nat.add_lt_add_iff_right] at hf
      cases f with
      | inR b c l v =>
        simp only [Path.ptr_cons, Frame.addr_inR] at hp
        simp only [LayPath_inR] at hl
        simp [previous_up, hr, hp, hl.1, Path.before]
      | inL b c v r =>
        simp only [Path.ptr_cons, Frame.addr_inL] at hp
        simp only [LayPath_inL] at hl
        simp only [Path.addrs_cons, Frame.addr_inL, Frame.sibling_inL, List.nodup_cons,
          List.mem_cons, List.mem_append, not_or, List.nodup_append] at hn
        have hne : r.ptr ≠ some a := ptr_ne_of_not_mem hn.1.2.1
        have := ih b _ fuel hl.1 rfl hl.2.2
          (by
            simp only [List.nodup_cons]
            exact ⟨hn.2.1.2, hn.2.2.2.1⟩) hf
        simp [previous_up, hr, hp, hl.1, Path.before, hne, this]

theorem height_fill_ge (p : Path α) (t : Tree α) :
    p.length + t.height ≤ (Path.fill p t).height := by
  induction p generalizing t with
  | nil => simp
  | cons f p ih =>
    have := ih (f.fill t)
    cases f with
    | inL a c v r =>
      simp only [Frame.fill_inL, Tree.height, List.length_cons, Path.fill_cons] at this ⊢
      omega
    | inR a c l v =>
      simp only [Frame.fill_inR, Tree.height, List.length_cons, Path.fill_cons] at this ⊢
      omega

/-- The function `next` at the root of the subtree in the hole of a path. -/
theorem next_zip {h : Heap α} {p : Path α} {a : Nat} {c : Bool} {l r : Tree α} {v : α}
    (hp : LayPath h (some a) p) (ht : Lay h (Path.ptr p) (.node a c l v r))
    (hn : (Path.addrs p ++ (Tree.node a c l v r).addrs).Nodup) (fuel : Nat)
    (hf : p.length + (Tree.node a c l v r).height ≤ fuel) :
    next fuel h (some a) = Except.ok ((r.cells ++ Path.after p).head?.map Prod.fst) := by
  rw [Lay_node] at ht
  simp only [Tree.height] at hf
  rcases r with _ | ⟨b, cb, bl, vb, br⟩
  · have hnd : (a :: Path.addrs p).Nodup := by
      simp only [addrs_node, addrs_nil, List.nodup_append, List.nodup_cons] at hn
      simp only [List.nodup_cons]
      refine ⟨fun hin => ?_, hn.1⟩
      exact hn.2.2 hin (by simp)
    have := next_up_spec p a _ fuel ht.1 rfl hp hnd (by omega)
    simp [next, ht.1, this]
  · have := descend_left_spec ht.2.2 fuel (by omega)
    obtain ⟨x, hx⟩ := head_cells_node b cb bl br vb
    rw [hx] at this
    rw [List.head?_append, hx]
    simp [next, ht.1, this]

/-- The function `previous` at the root of the subtree in the hole of a path. -/
theorem previous_zip {h : Heap α} {p : Path α} {a : Nat} {c : Bool} {l r : Tree α} {v : α}
    (hp : LayPath h (some a) p) (ht : Lay h (Path.ptr p) (.node a c l v r))
    (hn : (Path.addrs p ++ (Tree.node a c l v r).addrs).Nodup) (fuel : Nat)
    (hf : p.length + (Tree.node a c l v r).height ≤ fuel) :
    previous fuel h (some a) =
      Except.ok ((Path.before p ++ l.cells).getLast?.map Prod.fst) := by
  rw [Lay_node] at ht
  simp only [Tree.height] at hf
  rcases l with _ | ⟨b, cb, bl, vb, br⟩
  · have hnd : (a :: Path.addrs p).Nodup := by
      simp only [addrs_node, addrs_nil, List.nodup_append, List.nodup_cons] at hn
      simp only [List.nodup_cons]
      refine ⟨fun hin => ?_, hn.1⟩
      exact hn.2.2 hin (by simp)
    have := previous_up_spec p a _ fuel ht.1 rfl hp hnd (by omega)
    simp [previous, ht.1, this]
  · have := descend_right_spec ht.2.1 fuel (by omega)
    obtain ⟨x, hx⟩ := getLast_cells_node b cb bl br vb
    rw [hx] at this
    rw [List.getLast?_append, hx]
    simp [previous, ht.1, this]

/-- The functions `next` and `previous` step through the in-order sequence of the
nodes: at the node `a`, with the nodes `pre` before it and the nodes `post` after it,
`next` gives the first node of `post` and `previous` the last node of `pre` (`nullptr`
when there is none). -/
theorem next_previous_spec {h : Heap α} {t : Tree α} (hl : Lay h none t)
    (hn : t.addrs.Nodup) {pre post : List (Nat × α)} {a : Nat} {v : α}
    (hc : t.cells = pre ++ (a, v) :: post) (fuel : Nat) (hf : t.height ≤ fuel) :
    next fuel h (some a) = Except.ok (post.head?.map Prod.fst) ∧
    previous fuel h (some a) = Except.ok (pre.getLast?.map Prod.fst) := by
  have ha : a ∈ t.addrs := by
    rw [addrs_eq_cells, hc]
    simp
  obtain ⟨p, c, l, w, r, e⟩ := exists_zipper ha
  subst e
  have hcells := cells_fill p (Tree.node a c l w r)
  rw [hc, cells_node, List.append_assoc, List.append_assoc, List.cons_append,
    ← List.append_assoc] at hcells
  have hnd : ((pre ++ (a, v) :: post).map Prod.fst).Nodup := by
    rw [← hc, ← addrs_eq_cells]; exact hn
  obtain ⟨e1, _, e3⟩ := split_unique hcells hnd
  obtain ⟨hp, ht⟩ := Lay_fill.1 hl
  have hn2 := (addrs_fill_perm p _).nodup_iff.1 hn
  have hh := height_fill_ge p (Tree.node a c l w r)
  simp only [ptr_node] at hp
  rw [e1, e3]
  exact ⟨next_zip hp ht hn2 fuel (by omega), previous_zip hp ht hn2 fuel (by omega)⟩

theorem begin_node_spec {h : Heap α} {par : Ptr} {t : Tree α} (hl : Lay h par t) (fuel : Nat)
    (hf : t.height ≤ fuel) :
    begin_node fuel h t.ptr = Except.ok (t.cells.head?.map Prod.fst) := by
  rcases t with _ | ⟨a, c, l, v, r⟩
  · simp [begin_node]
  · simp only [begin_node, ptr_node, ne_eq, reduceCtorEq, not_false_eq_true, ↓reduceIte]
    exact descend_left_spec hl fuel hf

theorem end_node_spec {h : Heap α} {par : Ptr} {t : Tree α} (hl : Lay h par t) (fuel : Nat)
    (hf : t.height ≤ fuel) :
    end_node fuel h t.ptr = Except.ok (t.cells.getLast?.map Prod.fst) := by
  rcases t with _ | ⟨a, c, l, v, r⟩
  · simp [end_node]
  · simp only [end_node, ptr_node, ne_eq, reduceCtorEq, not_false_eq_true, ↓reduceIte]
    exact descend_right_spec hl fuel hf

theorem Lay.height_le_of_nodup {h : Heap α} {par : Ptr} {t : Tree α} (hl : Lay h par t)
    (hn : t.addrs.Nodup) : t.height ≤ h.length := by
  refine le_trans (height_le_size t) ?_
  rw [← length_addrs]
  exact nodup_length_le hn (fun a ha => hl.lt_length ha)

/-- Walking by `operator++` from a node to `end()` collects the values of the nodes
from that node on, in in-order. -/
theorem iterate_spec {h : Heap α} {t : Tree α} (hl : Lay h none t) (hn : t.addrs.Nodup)
    (r1 r2 : Ptr) (post : List (Nat × α)) : ∀ (pre : List (Nat × α)) (fuel : Nat),
    t.cells = pre ++ post → post.length < fuel →
    iterate fuel h ⟨post.head?.map Prod.fst, r1⟩ ⟨none, r2⟩ =
      Except.ok (post.map Prod.snd) := by
  induction post with
  | nil =>
    intro pre fuel _ hf
    cases fuel with
    | zero => simp at hf
    | succ fuel => simp [iterate, Iterator.equal]
  | cons x post ih =>
    intro pre fuel hc hf
    obtain ⟨a, v⟩ := x
    cases fuel with
    | zero => simp at hf
    | succ fuel =>
      simp only [List.length_cons, Nat.add_lt_add_iff_right] at hf
      have hnext := (next_previous_spec hl hn hc (h.length + 1)
        (by have := hl.height_le_of_nodup hn; omega)).1
      obtain ⟨n, hr, hv⟩ := hl.read_of_cell (a := a) (v := v) (by rw [hc]; simp)
      have := ih (pre ++ [(a, v)]) fuel (by rw [hc]; simp) hf
      simp [iterate, Iterator.equal, Iterator.star, Iterator.increment, hr, hv, hnext, this]

/-- The traversal from `begin()` to `end()` yields the values in in-order. -/
theorem toList_spec {s : Set α} {t : Tree α} (hm : s.Models t) (hn : t.addrs.Nodup) :
    s.toList = Except.ok t.values := by
  obtain ⟨hroot, hl⟩ := hm
  have hh := hl.height_le_of_nodup hn
  have hb := begin_node_spec hl (s.heap.length + 1) (by omega)
  have hlen : t.cells.length ≤ s.heap.length := by
    rw [← size_eq_cells, ← length_addrs]
    exact nodup_length_le hn (fun a ha => hl.lt_length ha)
  have := iterate_spec hl hn t.ptr t.ptr t.cells [] (s.heap.length + 1) rfl (by omega)
  rw [values_eq_cells]
  simp [Set.toList, Set.begin, Set.end_, hroot, hb, this]

end Traversal

end bulumutka

namespace bulumutka

section TraversalOrder

variable {α : Type}

/-- In a strictly ascending sequence the entries before an entry are less than it and
the entries after it are greater. -/
theorem sorted_split [LinearOrder α] {pre post : List (Nat × α)} {a : Nat} {v : α}
    (h : ((pre ++ (a, v) :: post).map Prod.snd).Pairwise (· < ·)) :
    (∀ x ∈ pre, x.2 < v) ∧ (∀ x ∈ post, v < x.2) ∧ (post.map Prod.snd).Pairwise (· < ·) ∧
      (pre.map Prod.snd).Pairwise (· < ·) := by
  simp only [List.map_append, List.map_cons, List.pairwise_append, List.pairwise_cons,
    List.mem_map, List.mem_cons, forall_exists_index, and_imp] at h
  obtain ⟨h1, ⟨h2, h3⟩, h4⟩ := h
  refine ⟨fun x hx => h4 _ x hx rfl _ (Or.inl rfl), fun x hx => h2 _ x hx rfl, h3, h1⟩

theorem cells_split_of_mem {t : Tree α} {a : Nat} {v : α} (h : (a, v) ∈ t.cells) :
    ∃ pre post, t.cells = pre ++ (a, v) :: post :=
  List.append_of_mem h

theorem lower_bound_mem [LinearOrder α] {s : Set α} {t : Tree α} (hm : s.Models t)
    (ho : t.Ordered) (v : α) :
    ∃ p, s.lower_bound v = Except.ok ⟨p, s.root_⟩ ∧ ∀ a, p = some a → a ∈ t.addrs := by
  obtain ⟨hroot, hl⟩ := hm
  have hh := hl.height_le ho
  obtain ⟨p, hp, h1, h2⟩ :=
    lower_bound_loop_spec hl ho v (s.heap.length + 1) (by omega) none (by simp)
  refine ⟨p, by simp [Set.lower_bound, Set.lower_bound_, hroot, hp], ?_⟩
  intro a hpa
  by_cases hex : ∃ w ∈ t.values, ¬ w < v
  · obtain ⟨b, n, e1, e2, _⟩ := h2 hex
    rw [e1] at hpa
    cases hpa
    exact e2
  · push_neg at hex
    rw [h1 hex] at hpa
    cases hpa

theorem new_models : (Set.new : Set α).Models Tree.nil := ⟨rfl, trivial⟩

theorem nil_redBlack [LinearOrder α] : (Tree.nil : Tree α).RedBlack :=
  ⟨trivial, rfl, trivial, trivial⟩

/-- Inserting the values of a list one after the other. -/
theorem foldlM_insert_spec [LinearOrder α] (l : List α) : ∀ (s : Set α) (t : Tree α),
    s.Models t → t.RedBlack →
    ∃ s' t', l.foldlM Set.insert s = Except.ok s' ∧ s'.Models t' ∧ t'.RedBlack ∧
      (∀ x, x ∈ t'.values ↔ x ∈ l ∨ x ∈ t.values) ∧
      s'.size_ + t.size = s.size_ + t'.size := by
  induction l with
  | nil =>
    intro s t hm hrb
    exact ⟨s, t, rfl, hm, hrb, by simp, by omega⟩
  | cons k l ih =>
    intro s t hm hrb
    obtain ⟨s1, t1, he, hm1, hrb1, _, hv1, hs1, _⟩ := insert_spec s t k hm hrb
    obtain ⟨s2, t2, he2, hm2, hrb2, hv2, hs2⟩ := ih s1 t1 hm1 hrb1
    refine ⟨s2, t2, ?_, hm2, hrb2, ?_, by omega⟩
    · simp [List.foldlM, he, he2]
    · intro x
      rw [hv2, hv1]
      simp only [List.mem_cons]
      tauto

/-- A strictly ascending list is determined by its elements. -/
theorem sorted_unique [LinearOrder α] {l1 l2 : List α} (h1 : l1.Pairwise (· < ·))
    (h2 : l2.Pairwise (· < ·)) (hm : ∀ x, x ∈ l1 ↔ x ∈ l2) : l1 = l2 := by
  have n1 : l1.Nodup := h1.imp (fun h => ne_of_lt h)
  have n2 : l2.Nodup := h2.imp (fun h => ne_of_lt h)
  have hp : l1.Perm l2 := (List.perm_ext_iff_of_nodup n1 n2).2 hm
  exact List.eq_of_perm_of_sorted hp (h1.imp le_of_lt) (h2.imp le_of_lt)

end TraversalOrder

end bulumutka

namespace bulumutka

section TraversalClaims

variable {α : Type}

/-- C3: order-preservation round trip.  For every finite sequence `l` the range
constructor returns a set, and walking that set from `begin()` by `operator++` until
`end()` yields the strictly ascending (sorted, duplicate-free) sequence of the values
of `l`. -/
theorem insert_iterate_roundtrip [LinearOrder α] (l : List α) :
    ∃ s out, Set.ofList l = Except.ok s ∧ s.toList = Except.ok out ∧
      out.Pairwise (· < ·) ∧ (∀ x, x ∈ out ↔ x ∈ l) ∧ out = l.toFinset.sort (· ≤ ·) := by
  obtain ⟨s, t, he, hm, hrb, hv, _⟩ := foldlM_insert_spec l Set.new Tree.nil new_models nil_redBlack
  have hn := hm.2.nodup_addrs hrb.1
  have hs : t.values.Pairwise (· < ·) := Ordered_iff.1 hrb.1
  have hmem : ∀ x, x ∈ t.values ↔ x ∈ l := fun x => by simpa using hv x
  refine ⟨s, t.values, he, toList_spec hm hn, hs, hmem, ?_⟩
  refine sorted_unique hs (Finset.sort_sorted_lt _) fun x => ?_
  rw [hmem, Finset.mem_sort, List.mem_toFinset]

/-- C18: successor and predecessor are correct.  In a heap whose links draw the tree
`t`, with consistent parent links and strict search order, for every node `a` of `t`:
`next` returns the node holding the least value greater than the value of `a`, and
`nullptr` exactly when `a` holds the maximum; `previous` returns the node holding the
greatest value less than the value of `a`, and `nullptr` exactly when `a` holds the
minimum. -/
theorem next_previous_correct [LinearOrder α] (h : Heap α) (t : Tree α) (hl : Lay h none t)
    (ho : t.Ordered) (a : Nat) (n : Node α) (ha : a ∈ t.addrs) (hr : h.read a = some n)
    (fuel : Nat) (hf : t.height ≤ fuel) :
    (∃ q, next fuel h (some a) = Except.ok q ∧
      (q = none ↔ ∀ w ∈ t.values, ¬ n.value < w) ∧
      ∀ b, q = some b → b ∈ t.addrs ∧ ∃ m, h.read b = some m ∧ n.value < m.value ∧
        ∀ w ∈ t.values, n.value < w → m.value ≤ w) ∧
    (∃ q, previous fuel h (some a) = Except.ok q ∧
      (q = none ↔ ∀ w ∈ t.values, ¬ w < n.value) ∧
      ∀ b, q = some b → b ∈ t.addrs ∧ ∃ m, h.read b = some m ∧ m.value < n.value ∧
        ∀ w ∈ t.values, w < n.value → w ≤ m.value) := by
  have hn := hl.nodup_addrs ho
  obtain ⟨pre, post, hc⟩ := cells_split_of_mem (hl.cell_of_mem ha hr)
  obtain ⟨hnext, hprev⟩ := next_previous_spec hl hn hc fuel hf
  have hs : ((pre ++ (a, n.value) :: post).map Prod.snd).Pairwise (· < ·) := by
    rw [← hc, ← values_eq_cells]; exact Ordered_iff.1 ho
  obtain ⟨hpre, hpost, hsp, hsq⟩ := sorted_split hs
  have hvals : ∀ w, w ∈ t.values ↔
      (∃ x ∈ pre, x.2 = w) ∨ w = n.value ∨ ∃ x ∈ post, x.2 = w := by
    intro w
    rw [values_eq_cells, hc]
    simp only [List.map_append, List.map_cons, List.mem_append, List.mem_map, List.mem_cons]
  constructor
  · refine ⟨_, hnext, ?_, ?_⟩
    · cases post with
      | nil =>
        simp only [List.head?_nil, Option.map_none', true_iff]
        intro w hw
        rcases (hvals w).1 hw with ⟨x, hx, rfl⟩ | rfl | ⟨x, hx, _⟩
        · exact not_lt_of_gt (hpre x hx)
        · exact lt_irrefl _
        · simp at hx
      | cons y post =>
        simp only [List.head?_cons, Option.map_some', reduceCtorEq, false_iff]
        intro hall
        exact hall y.2 ((hvals _).2 (Or.inr (Or.inr ⟨y, by simp, rfl⟩)))
          (hpost y (by simp))
    · intro b hb
      cases post with
      | nil => simp at hb
      | cons y post =>
        obtain ⟨b', w0⟩ := y
        simp only [List.head?_cons, Option.map_some', Option.some.injEq] at hb
        subst hb
        have hcell : (b', w0) ∈ t.cells := by rw [hc]; simp
        obtain ⟨m, hm, hmv⟩ := hl.read_of_cell hcell
        refine ⟨mem_addrs_of_cell hcell, m, hm, by rw [hmv]; exact hpost (b', w0) (by simp), ?_⟩
        intro w hw hlt
        rw [hmv]
        rcases (hvals w).1 hw with ⟨x, hx, rfl⟩ | rfl | ⟨x, hx, rfl⟩
        · exact absurd hlt (not_lt_of_gt (hpre x hx))
        · exact absurd hlt (lt_irrefl _)
        · simp only [List.mem_cons] at hx
          rcases hx with rfl | hx
          · exact le_rfl
          · simp only [List.map_cons, List.pairwise_cons, List.mem_map,
              forall_exists_index, and_imp] at hsp
            exact le_of_lt (hsp.1 _ x hx rfl)
  · refine ⟨_, hprev, ?_, ?_⟩
    · rcases List.eq_nil_or_concat pre with rfl | ⟨pre', y, rfl⟩
      · simp only [List.getLast?_nil, Option.map_none', true_iff]
        intro w hw
        rcases (hvals w).1 hw with ⟨x, hx, _⟩ | rfl | ⟨x, hx, rfl⟩
        · simp at hx
        · exact lt_irrefl _
        · exact not_lt_of_gt (hpost x hx)
      · simp only [List.concat_eq_append, List.getLast?_append, List.getLast?_singleton,
          Option.or_some, Option.map_some', reduceCtorEq, false_iff]
        intro hall
        exact hall y.2 ((hvals _).2 (Or.inl ⟨y, by simp, rfl⟩)) (hpre y (by simp))
    · intro b hb
      rcases List.eq_nil_or_concat pre with rfl | ⟨pre', y, rfl⟩
      · simp at hb
      · obtain ⟨b', w0⟩ := y
        simp only [List.concat_eq_append, List.getLast?_append, List.getLast?_singleton,
          Option.or_some, Option.map_some', Option.some.injEq] at hb
        subst hb
        have hcell : (b', w0) ∈ t.cells := by rw [hc]; simp
        obtain ⟨m, hm, hmv⟩ := hl.read_of_cell hcell
        refine ⟨mem_addrs_of_cell hcell, m, hm, by rw [hmv]; exact hpre (b', w0) (by simp), ?_⟩
        intro w hw hlt
        rw [hmv]
        rcases (hvals w).1 hw with ⟨x, hx, rfl⟩ | rfl | ⟨x, hx, rfl⟩
        · simp only [List.concat_eq_append, List.mem_append, List.mem_singleton] at hx
          rcases hx with hx | rfl
          · simp only [List.concat_eq_append, List.map_append, List.map_cons, List.map_nil,
              List.pairwise_append, List.mem_map, forall_exists_index, and_imp,
              List.mem_singleton] at hsq
            exact le_of_lt (hsq.2.2 _ x hx rfl _ rfl)
          · exact le_rfl
        · exact absurd hlt (lt_irrefl _)
        · exact absurd hlt (not_lt_of_gt (hpost x hx))

theorem next_previous_correct_witness :
    Lay demoSet.heap none demoTree ∧ demoTree.Ordered ∧ 0 ∈ demoTree.addrs ∧
    demoSet.heap.read 0 = some ⟨2, none, some 1, some 2, BLACK⟩ ∧ demoTree.height ≤ 4 ∧
    (∃ q, next 4 demoSet.heap (some 0) = Except.ok q ∧
      (q = none ↔ ∀ w ∈ demoTree.values, ¬ (2 : Nat) < w) ∧
      ∀ b, q = some b → b ∈ demoTree.addrs ∧ ∃ m, demoSet.heap.read b = some m ∧
        (2 : Nat) < m.value ∧ ∀ w ∈ demoTree.values, (2 : Nat) < w → m.value ≤ w) ∧
    (∃ q, previous 4 demoSet.heap (some 0) = Except.ok q ∧
      (q = none ↔ ∀ w ∈ demoTree.values, ¬ w < (2 : Nat)) ∧
      ∀ b, q = some b → b ∈ demoTree.addrs ∧ ∃ m, demoSet.heap.read b = some m ∧
        m.value < (2 : Nat) ∧ ∀ w ∈ demoTree.values, w < (2 : Nat) → w ≤ m.value) :=
  ⟨demo_models.2, demo_ordered, demo_root_mem, demo_root_read, demo_height,
    next_previous_correct demoSet.heap demoTree demo_models.2 demo_ordered 0
      ⟨2, none, some 1, some 2, BLACK⟩ demo_root_mem demo_root_read 4 demo_height⟩

theorem iterator_in_tree [LinearOrder α] {s : Set α} {t : Tree α} (hm : s.Models t)
    (ho : t.Ordered) {it : Iterator}
    (hit : s.begin = Except.ok it ∨ (∃ v, s.find v = Except.ok it) ∨
      ∃ v, s.lower_bound v = Except.ok it)
    (hne : it.equal s.end_ = false) : ∃ a, a ∈ t.addrs ∧ it = ⟨some a, s.root_⟩ := by
  have hn := hm.2.nodup_addrs ho
  have hh := hm.2.height_le ho
  simp only [Iterator.equal, Set.end_, beq_eq_false_iff_ne, ne_eq] at hne
  rcases hit with hb | ⟨v, hf⟩ | ⟨v, hlb⟩
  · have := begin_node_spec hm.2 (s.heap.length + 1) (by omega)
    rw [← hm.1] at this
    simp only [Set.begin, this, ok_bind, run_pure, Except.ok.injEq] at hb
    subst hb
    simp only at hne
    cases hc : t.cells.head? with
    | none => rw [hc] at hne; simp at hne
    | some x =>
      obtain ⟨a, w⟩ := x
      exact ⟨a, mem_addrs_of_cell (v := w) (List.mem_of_mem_head? hc), rfl⟩
  · obtain ⟨p, hp, h1, h2⟩ := find__spec hm ho v
    simp only [Set.find, hp, ok_bind, run_pure, Except.ok.injEq] at hf
    subst hf
    simp only at hne
    by_cases hv : v ∈ t.values
    · obtain ⟨a, n, e, ha, _⟩ := h1 hv
      exact ⟨a, ha, by rw [e]⟩
    · exact absurd (h2 hv) hne
  · obtain ⟨p, hp, h1⟩ := lower_bound_mem hm ho v
    rw [hp] at hlb
    simp only [Except.ok.injEq] at hlb
    subst hlb
    simp only at hne
    cases p with
    | none => exact absurd rfl hne
    | some a => exact ⟨a, h1 a rfl, rfl⟩

/-- C13: iterator symmetry.  On a well-formed set, for every non-end iterator `it`
obtained from `begin()`, `find` or `lower_bound`, incrementing and then decrementing
gives an iterator equal to `it`; when `it` is at the maximum element the increment is
`end()`, and decrementing `end()` gives the iterator of the maximum element. -/
theorem iterator_symmetry [LinearOrder α] (s : Set α) (t : Tree α) (hm : s.Models t)
    (hrb : t.RedBlack) (it : Iterator)
    (hit : s.begin = Except.ok it ∨ (∃ v, s.find v = Except.ok it) ∨
      ∃ v, s.lower_bound v = Except.ok it)
    (hne : it.equal s.end_ = false) :
    ∃ it1 it2, it.increment s.heap = Except.ok it1 ∧ it1.decrement s.heap = Except.ok it2 ∧
      it2.equal it = true ∧
      ∃ x, it.star s.heap = Except.ok x ∧
        ((∀ w ∈ t.values, ¬ x < w) → it1.equal s.end_ = true ∧
          ∃ e, s.end_.decrement s.heap = Except.ok e ∧ e.equal it = true) := by
  obtain ⟨a, ha, rfl⟩ := iterator_in_tree hm hrb.1 hit hne
  have hn := hm.2.nodup_addrs hrb.1
  have hh := hm.2.height_le hrb.1
  obtain ⟨n, hr, _⟩ := hm.2.read_of_mem ha
  obtain ⟨pre, post, hc⟩ := cells_split_of_mem (hm.2.cell_of_mem ha hr)
  obtain ⟨hnext, _⟩ := next_previous_spec hm.2 hn hc (s.heap.length + 1) (by omega)
  have hend := end_node_spec hm.2 (s.heap.length + 1) (by omega)
  rw [← hm.1] at hend
  have hs : ((pre ++ (a, n.value) :: post).map Prod.snd).Pairwise (· < ·) := by
    rw [← hc, ← values_eq_cells]; exact Ordered_iff.1 hrb.1
  obtain ⟨_, hpost, _, _⟩ := sorted_split hs
  cases post with
  | nil =>
    have hlast : t.cells.getLast?.map Prod.fst = some a := by rw [hc]; simp
    rw [hlast] at hend
    refine ⟨⟨none, s.root_⟩, ⟨some a, s.root_⟩, ?_, ?_, by simp [Iterator.equal], n.value, ?_, ?_⟩
    · simp [Iterator.increment, hnext]
    · simp [Iterator.decrement, hend]
    · simp [Iterator.star, hr]
    · intro _
      exact ⟨by simp [Iterator.equal, Set.end_], ⟨some a, s.root_⟩,
        by simp [Iterator.decrement, Set.end_, hend], by simp [Iterator.equal]⟩
  | cons y post =>
    obtain ⟨b, w⟩ := y
    have hc2 : t.cells = (pre ++ [(a, n.value)]) ++ (b, w) :: post := by rw [hc]; simp
    obtain ⟨_, hprev⟩ := next_previous_spec hm.2 hn hc2 (s.heap.length + 1) (by omega)
    refine ⟨⟨some b, s.root_⟩, ⟨some a, s.root_⟩, ?_, ?_, by simp [Iterator.equal], n.value, ?_, ?_⟩
    · simp [Iterator.increment, hnext]
    · simp [Iterator.decrement, hprev]
    · simp [Iterator.star, hr]
    · intro hall
      exfalso
      refine hall w ?_ (hpost (b, w) (by simp))
      rw [values_eq_cells, hc]
      simp

theorem iterator_symmetry_witness :
    demoSet.Models demoTree ∧ demoTree.RedBlack ∧
    (demoSet.begin = Except.ok ⟨some 0, some 0⟩ ∨
      (∃ v, demoSet.find v = Except.ok ⟨some 0, some 0⟩) ∨
      ∃ v, demoSet.lower_bound v = Except.ok ⟨some 0, some 0⟩) ∧
    (Iterator.mk (some 0) (some 0)).equal demoSet.end_ = false ∧
    ∃ it1 it2, (Iterator.mk (some 0) (some 0)).increment demoSet.heap = Except.ok it1 ∧
      it1.decrement demoSet.heap = Except.ok it2 ∧
      it2.equal ⟨some 0, some 0⟩ = true ∧
      ∃ x, (Iterator.mk (some 0) (some 0)).star demoSet.heap = Except.ok x ∧
        ((∀ w ∈ demoTree.values, ¬ x < w) → it1.equal demoSet.end_ = true ∧
          ∃ e, demoSet.end_.decrement demoSet.heap = Except.ok e ∧
            e.equal ⟨some 0, some 0⟩ = true) :=
  ⟨demo_models, demo_redBlack, Or.inr (Or.inl ⟨2, demo_find_root⟩), demo_find_root_ne,
    iterator_symmetry demoSet demoTree demo_models demo_redBlack ⟨some 0, some 0⟩
      (Or.inr (Or.inl ⟨2, demo_find_root⟩)) demo_find_root_ne⟩

end TraversalClaims

end bulumutka

namespace bulumutka

section SmallRotations

variable {α : Type}

/-- The member `small_left_rotate_` in the heap: `n`, the right child of the left child
`pa` of `g`, is lifted above `pa`. -/
theorem small_left_rotate_sim {h : Heap α} {p : Path α} {g pa n : Nat} {cg pc cn : Bool}
    {A B C D : Tree α} {vg vp vn : α} (hp : LayPath h (some g) p)
    (ht : Lay h p.ptr (.node g cg (.node pa pc A vp (.node n cn B vn C)) vg D))
    (hn : (p.addrs ++
      (Tree.node g cg (.node pa pc A vp (.node n cn B vn C)) vg D).addrs).Nodup) :
    ∃ h', small_left_rotate_ h (some n) = Except.ok h' ∧ LayPath h' (some g) p ∧
      Lay h' p.ptr (.node g cg (.node n cn (.node pa pc A vp B) vn C) vg D) ∧
      h'.length = h.length ∧
      Heap.AgreeOff (p.addrs ++
        (Tree.node g cg (.node pa pc A vp (.node n cn B vn C)) vg D).addrs) h h' := by
  unfold small_left_rotate_
  rcases B with _ | ⟨b, cb, Bl, vb, Br⟩ <;>
  · simp only [addrs_node, addrs_nil, Path.addrs_empty, Path.addrs_cons, List.nodup_append,
      List.nodup_cons, List.mem_append, List.mem_cons, not_or, List.disjoint_cons_left,
      List.disjoint_cons_right, List.disjoint_append_left, List.disjoint_append_right,
      List.nil_append, List.append_nil, List.disjoint_nil_left, List.disjoint_nil_right,
      List.nodup_nil, List.not_mem_nil, not_false_eq_true, true_and, and_true, Frame.addr_inL,
      Frame.addr_inR, Frame.sibling_inL, Frame.sibling_inR, Lay_node, Lay_nil, LayPath_inL,
      LayPath_inR, LayPath_nil, ptr_node, ptr_nil, Path.ptr_cons, Path.ptr_empty] at hn hp ht
    casesm* _ ∧ _
    simp only [getGrandparent, getParent_some, getRight_some, getLeft_some, getColor_some, getValue_some,
      getParent_none, getRight_none, getLeft_none, getColor_none, getValue_none,
      Option.map_some', ofOption_some, ofOption_none, ok_bind, error_bind, setParent_some,
      setLeft_some, setRight_some, setColor_some, ↓reduceIte, ne_eq, not_true_eq_false,
      not_false_eq_true, run_pure, read_update_self, read_update_ne, reduceCtorEq,
      Option.some.injEq, ptr_eq_some_false, some_eq_ptr_false, Except.ok.injEq,
      exists_eq_left', Lay_node, Lay_nil, LayPath_inL, LayPath_inR, LayPath_nil, Lay_update,
      LayPath_update, length_update, ptr_node, ptr_nil, Path.ptr_cons, Path.ptr_empty,
      Frame.addr_inL, Frame.addr_inR, and_self, and_true, true_and, decide_True, decide_False,
      Bool.true_eq_false, Bool.false_eq_true, decide_eq_true_eq, decide_not, Bool.not_true,
      Bool.not_false, if_true, if_false, Set.mk.injEq, and_assoc, andThen_ok_true,
      andThen_ok_false, orElse_ok_true, orElse_ok_false, Path.rootPtr_nil, Path.rootPtr_cons, nat_eq_false_symm, AgreeOff_update, AgreeOff_refl,
      addrs_node, addrs_nil, Path.addrs_cons, Path.addrs_empty, List.mem_append, List.mem_cons,
      true_or, or_true, Frame.sibling_inL, Frame.sibling_inR, *]

/-- The member `small_right_rotate_` in the heap: `n`, the left child of the right
child `pa` of `g`, is lifted above `pa`. -/
theorem small_right_rotate_sim {h : Heap α} {p : Path α} {g pa n : Nat} {cg pc cn : Bool}
    {A B C D : Tree α} {vg vp vn : α} (hp : LayPath h (some g) p)
    (ht : Lay h p.ptr (.node g cg D vg (.node pa pc (.node n cn B vn C) vp A)))
    (hn : (p.addrs ++
      (Tree.node g cg D vg (.node pa pc (.node n cn B vn C) vp A)).addrs).Nodup) :
    ∃ h', small_right_rotate_ h (some n) = Except.ok h' ∧ LayPath h' (some g) p ∧
      Lay h' p.ptr (.node g cg D vg (.node n cn B vn (.node pa pc C vp A))) ∧
      h'.length = h.length ∧
      Heap.AgreeOff (p.addrs ++
        (Tree.node g cg D vg (.node pa pc (.node n cn B vn C) vp A)).addrs) h h' := by
  unfold small_right_rotate_
  rcases C with _ | ⟨b, cb, Bl, vb, Br⟩ <;>
  · simp only [addrs_node, addrs_nil, Path.addrs_empty, Path.addrs_cons, List.nodup_append,
      List.nodup_cons, List.mem_append, List.mem_cons, not_or, List.disjoint_cons_left,
      List.disjoint_cons_right, List.disjoint_append_left, List.disjoint_append_right,
      List.nil_append, List.append_nil, List.disjoint_nil_left, List.disjoint_nil_right,
      List.nodup_nil, List.not_mem_nil, not_false_eq_true, true_and, and_true, Frame.addr_inL,
      Frame.addr_inR, Frame.sibling_inL, Frame.sibling_inR, Lay_node, Lay_nil, LayPath_inL,
      LayPath_inR, LayPath_nil, ptr_node, ptr_nil, Path.ptr_cons, Path.ptr_empty] at hn hp ht
    casesm* _ ∧ _
    simp only [getGrandparent, getParent_some, getRight_some, getLeft_some, getColor_some, getValue_some,
      getParent_none, getRight_none, getLeft_none, getColor_none, getValue_none,
      Option.map_some', ofOption_some, ofOption_none, ok_bind, error_bind, setParent_some,
      setLeft_some, setRight_some, setColor_some, ↓reduceIte, ne_eq, not_true_eq_false,
      not_false_eq_true, run_pure, read_update_self, read_update_ne, reduceCtorEq,
      Option.some.injEq, ptr_eq_some_false, some_eq_ptr_false, Except.ok.injEq,
      exists_eq_left', Lay_node, Lay_nil, LayPath_inL, LayPath_inR, LayPath_nil, Lay_update,
      LayPath_update, length_update, ptr_node, ptr_nil, Path.ptr_cons, Path.ptr_empty,
      Frame.addr_inL, Frame.addr_inR, and_self, and_true, true_and, decide_True, decide_False,
      Bool.true_eq_false, Bool.false_eq_true, decide_eq_true_eq, decide_not, Bool.not_true,
      Bool.not_false, if_true, if_false, Set.mk.injEq, and_assoc, andThen_ok_true,
      andThen_ok_false, orElse_ok_true, orElse_ok_false, Path.rootPtr_nil, Path.rootPtr_cons, nat_eq_false_symm, AgreeOff_update, AgreeOff_refl,
      addrs_node, addrs_nil, Path.addrs_cons, Path.addrs_empty, List.mem_append, List.mem_cons,
      true_or, or_true, Frame.sibling_inL, Frame.sibling_inR, *]

end SmallRotations

end bulumutka

namespace bulumutka

section RotationClaims

variable {α : Type}

theorem zipper_of_fill {h : Heap α} {p : Path α} {t : Tree α} (hl : Lay h none (Path.fill p t))
    (hn : (Path.fill p t).addrs.Nodup) :
    LayPath h t.ptr p ∧ Lay h (Path.ptr p) t ∧ (Path.addrs p ++ t.addrs).Nodup :=
  ⟨(Lay_fill.1 hl).1, (Lay_fill.1 hl).2, (addrs_fill_perm p t).nodup_iff.1 hn⟩

/-- C20: rotations preserve the in-order sequence.  In a heap whose links draw a tree
with consistent parent links, `rotate_left_` at a node `g` with right child `q` yields
a heap whose links draw the tree with `q` in the place of `g`, with the same nodes and
the same in-order sequence of nodes and values; `rotate_right_` does so for a node with
a left child; `small_left_rotate_` and `small_right_rotate_` do so when called on the
inner grandchild `n` of a zig-zag. -/
theorem rotations_preserve_inorder (h : Heap α) (p : Path α) (g q n : Nat) (cg cq cn : Bool)
    (A B C D : Tree α) (vg vq vn : α) :
    (Lay h none (Path.fill p (.node g cg A vg (.node q cq B vq C))) →
      (Path.fill p (.node g cg A vg (.node q cq B vq C))).addrs.Nodup →
      ∃ h', rotate_left_ h (some g) = Except.ok h' ∧
        Lay h' none (Path.fill p (.node q cq (.node g cg A vg B) vq C)) ∧
        (Path.fill p (.node q cq (.node g cg A vg B) vq C)).cells =
          (Path.fill p (.node g cg A vg (.node q cq B vq C))).cells) ∧
    (Lay h none (Path.fill p (.node g cg (.node q cq A vq B) vg C)) →
      (Path.fill p (.node g cg (.node q cq A vq B) vg C)).addrs.Nodup →
      ∃ h', rotate_right_ h (some g) = Except.ok h' ∧
        Lay h' none (Path.fill p (.node q cq A vq (.node g cg B vg C))) ∧
        (Path.fill p (.node q cq A vq (.node g cg B vg C))).cells =
          (Path.fill p (.node g cg (.node q cq A vq B) vg C)).cells) ∧
    (Lay h none (Path.fill p (.node g cg (.node q cq A vq (.node n cn B vn C)) vg D)) →
      (Path.fill p (.node g cg (.node q cq A vq (.node n cn B vn C)) vg D)).addrs.Nodup →
      ∃ h', small_left_rotate_ h (some n) = Except.ok h' ∧
        Lay h' none (Path.fill p (.node g cg (.node n cn (.node q cq A vq B) vn C) vg D)) ∧
        (Path.fill p (.node g cg (.node n cn (.node q cq A vq B) vn C) vg D)).cells =
          (Path.fill p (.node g cg (.node q cq A vq (.node n cn B vn C)) vg D)).cells) ∧
    (Lay h none (Path.fill p (.node g cg D vg (.node q cq (.node n cn B vn C) vq A))) →
      (Path.fill p (.node g cg D vg (.node q cq (.node n cn B vn C) vq A))).addrs.Nodup →
      ∃ h', small_right_rotate_ h (some n) = Except.ok h' ∧
        Lay h' none (Path.fill p (.node g cg D vg (.node n cn B vn (.node q cq C vq A)))) ∧
        (Path.fill p (.node g cg D vg (.node n cn B vn (.node q cq C vq A)))).cells =
          (Path.fill p (.node g cg D vg (.node q cq (.node n cn B vn C) vq A))).cells) := by
  refine ⟨?_, ?_, ?_, ?_⟩
  · intro hl hn
    obtain ⟨hp, ht, hnd⟩ := zipper_of_fill hl hn
    obtain ⟨h', he, hp', ht', _⟩ := rotate_left_sim hp ht hnd
    exact ⟨h', he, Lay_fill.2 ⟨hp', ht'⟩, cells_fill_congr p (by simp)⟩
  · intro hl hn
    obtain ⟨hp, ht, hnd⟩ := zipper_of_fill hl hn
    obtain ⟨h', he, hp', ht', _⟩ := rotate_right_sim hp ht hnd
    exact ⟨h', he, Lay_fill.2 ⟨hp', ht'⟩, cells_fill_congr p (by simp)⟩
  · intro hl hn
    obtain ⟨hp, ht, hnd⟩ := zipper_of_fill hl hn
    obtain ⟨h', he, hp', ht', _⟩ := small_left_rotate_sim hp ht hnd
    exact ⟨h', he, Lay_fill.2 ⟨hp', ht'⟩, cells_fill_congr p (by simp)⟩
  · intro hl hn
    obtain ⟨hp, ht, hnd⟩ := zipper_of_fill hl hn
    obtain ⟨h', he, hp', ht', _⟩ := small_right_rotate_sim hp ht hnd
    exact ⟨h', he, Lay_fill.2 ⟨hp', ht'⟩, cells_fill_congr p (by simp)⟩

theorem rotations_preserve_inorder_witness :
    Lay demoSet.heap none demoTree ∧ demoTree.addrs.Nodup ∧
    Lay zigSet.heap none zigTree ∧ zigTree.addrs.Nodup ∧
    Lay zagSet.heap none zagTree ∧ zagTree.addrs.Nodup ∧
    (∃ h', rotate_left_ demoSet.heap (some 0) = Except.ok h' ∧
      Lay h' none (Path.fill []
        (.node 2 RED (.node 0 BLACK (.node 1 RED .nil 1 .nil) 2 .nil) 3 .nil)) ∧
      (Path.fill [] (Tree.node 2 RED (.node 0 BLACK (.node 1 RED .nil 1 .nil) 2 .nil) 3
        .nil)).cells = (Path.fill [] demoTree).cells) ∧
    (∃ h', rotate_right_ demoSet.heap (some 0) = Except.ok h' ∧
      Lay h' none (Path.fill []
        (.node 1 RED .nil 1 (.node 0 BLACK .nil 2 (.node 2 RED .nil 3 .nil)))) ∧
      (Path.fill [] (Tree.node 1 RED .nil 1 (.node 0 BLACK .nil 2
        (.node 2 RED .nil 3 .nil)))).cells = (Path.fill [] demoTree).cells) ∧
    (∃ h', small_left_rotate_ zigSet.heap (some 2) = Except.ok h' ∧
      Lay h' none (Path.fill []
        (.node 0 BLACK (.node 2 RED (.node 1 RED .nil 1 .nil) 2 .nil) 3 .nil)) ∧
      (Path.fill [] (Tree.node 0 BLACK (.node 2 RED (.node 1 RED .nil 1 .nil) 2 .nil) 3
        .nil)).cells = (Path.fill [] zigTree).cells) ∧
    (∃ h', small_right_rotate_ zagSet.heap (some 2) = Except.ok h' ∧
      Lay h' none (Path.fill []
        (.node 0 BLACK .nil 1 (.node 2 RED .nil 2 (.node 1 RED .nil 3 .nil)))) ∧
      (Path.fill [] (Tree.node 0 BLACK .nil 1 (.node 2 RED .nil 2
        (.node 1 RED .nil 3 .nil)))).cells = (Path.fill [] zagTree).cells) :=
  ⟨demo_models.2, demo_nodup, zig_lay, zig_nodup, zag_lay, zag_nodup,
    (rotations_preserve_inorder demoSet.heap [] 0 2 0 BLACK RED BLACK
      (.node 1 RED .nil 1 .nil) .nil .nil .nil 2 3 0).1 demo_models.2 demo_nodup,
    (rotations_preserve_inorder demoSet.heap [] 0 1 0 BLACK RED BLACK
      .nil .nil (.node 2 RED .nil 3 .nil) .nil 2 1 0).2.1 demo_models.2 demo_nodup,
    (rotations_preserve_inorder zigSet.heap [] 0 1 2 BLACK RED RED
      .nil .nil .nil .nil 3 1 2).2.2.1 zig_lay zig_nodup,
    (rotations_preserve_inorder zagSet.heap [] 0 1 2 BLACK RED RED
      .nil .nil .nil .nil 1 3 2).2.2.2 zag_lay zag_nodup⟩

end RotationClaims

end bulumutka

namespace bulumutka

section DeleteFix

variable {α : Type}

@[simp] theorem nullOrBlack_none (h : Heap α) : nullOrBlack h none = Except.ok true := rfl

@[simp] theorem nullOrBlack_some (h : Heap α) (a : Nat) :
    nullOrBlack h (some a) = (do pure ((← getColor h (some a)) = BLACK)) := rfl

set_option maxHeartbeats 1000000 in
/-- Case 2 of the deletion fix-up in the heap. -/
theorem delete_case2_sim (case1 : Set α → Ptr → Run (Set α)) (size : Nat)
    {f : Frame α} {rest : Path α} {n : Nat} {c : Bool} {l r : Tree α} {v : α} {h : Heap α}
    (hp : LayPath h (some n) (f :: rest)) (ht : Lay h (some f.addr) (.node n c l v r))
    (hn : (Path.addrs (f :: rest) ++ (Tree.node n c l v r).addrs).Nodup) (hok : f.DelOK) :
    ∃ h', delete_2_case_ case1 ⟨h, Path.rootPtr (f :: rest) (some n), size⟩ (some n) =
        delete_3_case_ case1 ⟨h', Path.rootPtr ((delCase2 f rest).1 :: (delCase2 f rest).2)
          (some n), size⟩ (some n) ∧
      LayPath h' (some n) ((delCase2 f rest).1 :: (delCase2 f rest).2) ∧
      Lay h' (some f.addr) (.node n c l v r) ∧ h'.length = h.length ∧
      Heap.AgreeOff (Path.addrs (f :: rest) ++ (Tree.node n c l v r).addrs) h h' := by
  rcases f with ⟨pa, pc, pv, _ | ⟨s, sc, sl, sv, sr⟩⟩ | ⟨pa, pc, _ | ⟨s, sc, sl, sv, sr⟩, pv⟩
  · exact absurd hok (by simp [Frame.DelOK])
  · cases sc
    · simp only [addrs_node, addrs_nil, Path.addrs_empty, Path.addrs_cons, List.nodup_append,
      List.nodup_cons, List.mem_append, List.mem_cons, not_or, List.disjoint_cons_left,
      List.disjoint_cons_right, List.disjoint_append_left, List.disjoint_append_right,
      List.nil_append, List.append_nil, List.disjoint_nil_left, List.disjoint_nil_right,
      List.nodup_nil, List.not_mem_nil, not_false_eq_true, true_and, and_true, Frame.addr_inL,
      Frame.addr_inR, Frame.sibling_inL, Frame.sibling_inR, Lay_node, Lay_nil, LayPath_inL,
      LayPath_inR, LayPath_nil, ptr_node, ptr_nil, Path.ptr_cons, Path.ptr_empty] at hn hp ht
      casesm* _ ∧ _
      simp only [delete_2_case_, subling, delCase2, getParent_some, getRight_some, getLeft_some, getColor_some, getValue_some,
      getParent_none, getRight_none, getLeft_none, getColor_none, getValue_none,
      Option.map_some', ofOption_some, ofOption_none, ok_bind, error_bind, setParent_some,
      setLeft_some, setRight_some, setColor_some, ↓reduceIte, ne_eq, not_true_eq_false,
      not_false_eq_true, run_pure, read_update_self, read_update_ne, reduceCtorEq,
      Option.some.injEq, ptr_eq_some_false, some_eq_ptr_false, Except.ok.injEq,
      exists_eq_left', Lay_node, Lay_nil, LayPath_inL, LayPath_inR, LayPath_nil, Lay_update,
      LayPath_update, length_update, ptr_node, ptr_nil, Path.ptr_cons, Path.ptr_empty,
      Frame.addr_inL, Frame.addr_inR, and_self, and_true, true_and, decide_True, decide_False,
      Bool.true_eq_false, Bool.false_eq_true, decide_eq_true_eq, decide_not, Bool.not_true,
      Bool.not_false, if_true, if_false, Set.mk.injEq, and_assoc, andThen_ok_true,
      andThen_ok_false, orElse_ok_true, orElse_ok_false, Path.rootPtr_nil, Path.rootPtr_cons, nat_eq_false_symm, AgreeOff_update, AgreeOff_refl,
      addrs_node, addrs_nil, Path.addrs_cons, Path.addrs_empty, List.mem_append, List.mem_cons,
      true_or, or_true, Frame.sibling_inL, Frame.sibling_inR, *]
      exact ⟨_, rfl, by simp only [getParent_some, getRight_some, getLeft_some, getColor_some, getValue_some,
      getParent_none, getRight_none, getLeft_none, getColor_none, getValue_none,
      Option.map_some', ofOption_some, ofOption_none, ok_bind, error_bind, setParent_some,
      setLeft_some, setRight_some, setColor_some, ↓reduceIte, ne_eq, not_true_eq_false,
      not_false_eq_true, run_pure, read_update_self, read_update_ne, reduceCtorEq,
      Option.some.injEq, ptr_eq_some_false, some_eq_ptr_false, Except.ok.injEq,
      exists_eq_left', Lay_node, Lay_nil, LayPath_inL, LayPath_inR, LayPath_nil, Lay_update,
      LayPath_update, length_update, ptr_node, ptr_nil, Path.ptr_cons, Path.ptr_empty,
      Frame.addr_inL, Frame.addr_inR, and_self, and_true, true_and, decide_True, decide_False,
      Bool.true_eq_false, Bool.false_eq_true, decide_eq_true_eq, decide_not, Bool.not_true,
      Bool.not_false, if_true, if_false, Set.mk.injEq, and_assoc, andThen_ok_true,
      andThen_ok_false, orElse_ok_true, orElse_ok_false, Path.rootPtr_nil, Path.rootPtr_cons, nat_eq_false_symm, AgreeOff_update, AgreeOff_refl,
      addrs_node, addrs_nil, Path.addrs_cons, Path.addrs_empty, List.mem_append, List.mem_cons,
      true_or, or_true, Frame.sibling_inL, Frame.sibling_inR, *]⟩
    · obtain ⟨t, tl, tv, tr, rfl⟩ := hok rfl
      rcases rest with _ | ⟨⟨a, k, w, x⟩ | ⟨a, k, x, w⟩, rest⟩ <;>
      · simp only [addrs_node, addrs_nil, Path.addrs_empty, Path.addrs_cons, List.nodup_append,
      List.nodup_cons, List.mem_append, List.mem_cons, not_or, List.disjoint_cons_left,
      List.disjoint_cons_right, List.disjoint_append_left, List.disjoint_append_right,
      List.nil_append, List.append_nil, List.disjoint_nil_left, List.disjoint_nil_right,
      List.nodup_nil, List.not_mem_nil, not_false_eq_true, true_and, and_true, Frame.addr_inL,
      Frame.addr_inR, Frame.sibling_inL, Frame.sibling_inR, Lay_node, Lay_nil, LayPath_inL,
      LayPath_inR, LayPath_nil, ptr_node, ptr_nil, Path.ptr_cons, Path.ptr_empty] at hn hp ht
        casesm* _ ∧ _
        simp only [delete_2_case_, subling, delCase2, rotate_left_, rotate_right_, getParent_some, getRight_some, getLeft_some, getColor_some, getValue_some,
      getParent_none, getRight_none, getLeft_none, getColor_none, getValue_none,
      Option.map_some', ofOption_some, ofOption_none, ok_bind, error_bind, setParent_some,
      setLeft_some, setRight_some, setColor_some, ↓reduceIte, ne_eq, not_true_eq_false,
      not_false_eq_true, run_pure, read_update_self, read_update_ne, reduceCtorEq,
      Option.some.injEq, ptr_eq_some_false, some_eq_ptr_false, Except.ok.injEq,
      exists_eq_left', Lay_node, Lay_nil, LayPath_inL, LayPath_inR, LayPath_nil, Lay_update,
      LayPath_update, length_update, ptr_node, ptr_nil, Path.ptr_cons, Path.ptr_empty,
      Frame.addr_inL, Frame.addr_inR, and_self, and_true, true_and, decide_True, decide_False,
      Bool.true_eq_false, Bool.false_eq_true, decide_eq_true_eq, decide_not, Bool.not_true,
      Bool.not_false, if_true, if_false, Set.mk.injEq, and_assoc, andThen_ok_true,
      andThen_ok_false, orElse_ok_true, orElse_ok_false, Path.rootPtr_nil, Path.rootPtr_cons, nat_eq_false_symm, AgreeOff_update, AgreeOff_refl,
      addrs_node, addrs_nil, Path.addrs_cons, Path.addrs_empty, List.mem_append, List.mem_cons,
      true_or, or_true, Frame.sibling_inL, Frame.sibling_inR, *]
        exact ⟨_, rfl, by simp only [getParent_some, getRight_some, getLeft_some, getColor_some, getValue_some,
      getParent_none, getRight_none, getLeft_none, getColor_none, getValue_none,
      Option.map_some', ofOption_some, ofOption_none, ok_bind, error_bind, setParent_some,
      setLeft_some, setRight_some, setColor_some, ↓reduceIte, ne_eq, not_true_eq_false,
      not_false_eq_true, run_pure, read_update_self, read_update_ne, reduceCtorEq,
      Option.some.injEq, ptr_eq_some_false, some_eq_ptr_false, Except.ok.injEq,
      exists_eq_left', Lay_node, Lay_nil, LayPath_inL, LayPath_inR, LayPath_nil, Lay_update,
      LayPath_update, length_update, ptr_node, ptr_nil, Path.ptr_cons, Path.ptr_empty,
      Frame.addr_inL, Frame.addr_inR, and_self, and_true, true_and, decide_True, decide_False,
      Bool.true_eq_false, Bool.false_eq_true, decide_eq_true_eq, decide_not, Bool.not_true,
      Bool.not_false, if_true, if_false, Set.mk.injEq, and_assoc, andThen_ok_true,
      andThen_ok_false, orElse_ok_true, orElse_ok_false, Path.rootPtr_nil, Path.rootPtr_cons, nat_eq_false_symm, AgreeOff_update, AgreeOff_refl,
      addrs_node, addrs_nil, Path.addrs_cons, Path.addrs_empty, List.mem_append, List.mem_cons,
      true_or, or_true, Frame.sibling_inL, Frame.sibling_inR, *]⟩
  · exact absurd hok (by simp [Frame.DelOK])
  · cases sc
    · simp only [addrs_node, addrs_nil, Path.addrs_empty, Path.addrs_cons, List.nodup_append,
      List.nodup_cons, List.mem_append, List.mem_cons, not_or, List.disjoint_cons_left,
      List.disjoint_cons_right, List.disjoint_append_left, List.disjoint_append_right,
      List.nil_append, List.append_nil, List.disjoint_nil_left, List.disjoint_nil_right,
      List.nodup_nil, List.not_mem_nil, not_false_eq_true, true_and, and_true, Frame.addr_inL,
      Frame.addr_inR, Frame.sibling_inL, Frame.sibling_inR, Lay_node, Lay_nil, LayPath_inL,
      LayPath_inR, LayPath_nil, ptr_node, ptr_nil, Path.ptr_cons, Path.ptr_empty] at hn hp ht
      casesm* _ ∧ _
      simp only [delete_2_case_, subling, delCase2, getParent_some, getRight_some, getLeft_some, getColor_some, getValue_some,
      getParent_none, getRight_none, getLeft_none, getColor_none, getValue_none,
      Option.map_some', ofOption_some, ofOption_none, ok_bind, error_bind, setParent_some,
      setLeft_some, setRight_some, setColor_some, ↓reduceIte, ne_eq, not_true_eq_false,
      not_false_eq_true, run_pure, read_update_self, read_update_ne, reduceCtorEq,
      Option.some.injEq, ptr_eq_some_false, some_eq_ptr_false, Except.ok.injEq,
      exists_eq_left', Lay_node, Lay_nil, LayPath_inL, LayPath_inR, LayPath_nil, Lay_update,
      LayPath_update, length_update, ptr_node, ptr_nil, Path.ptr_cons, Path.ptr_empty,
      Frame.addr_inL, Frame.addr_inR, and_self, and_true, true_and, decide_True, decide_False,
      Bool.true_eq_false, Bool.false_eq_true, decide_eq_true_eq, decide_not, Bool.not_true,
      Bool.not_false, if_true, if_false, Set.mk.injEq, and_assoc, andThen_ok_true,
      andThen_ok_false, orElse_ok_true, orElse_ok_false, Path.rootPtr_nil, Path.rootPtr_cons, nat_eq_false_symm, AgreeOff_update, AgreeOff_refl,
      addrs_node, addrs_nil, Path.addrs_cons, Path.addrs_empty, List.mem_append, List.mem_cons,
      true_or, or_true, Frame.sibling_inL, Frame.sibling_inR, *]
      exact ⟨_, rfl, by simp only [getParent_some, getRight_some, getLeft_some, getColor_some, getValue_some,
      getParent_none, getRight_none, getLeft_none, getColor_none, getValue_none,
      Option.map_some', ofOption_some, ofOption_none, ok_bind, error_bind, setParent_some,
      setLeft_some, setRight_some, setColor_some, ↓reduceIte, ne_eq, not_true_eq_false,
      not_false_eq_true, run_pure, read_update_self, read_update_ne, reduceCtorEq,
      Option.some.injEq, ptr_eq_some_false, some_eq_ptr_false, Except.ok.injEq,
      exists_eq_left', Lay_node, Lay_nil, LayPath_inL, LayPath_inR, LayPath_nil, Lay_update,
      LayPath_update, length_update, ptr_node, ptr_nil, Path.ptr_cons, Path.ptr_empty,
      Frame.addr_inL, Frame.addr_inR, and_self, and_true, true_and, decide_True, decide_False,
      Bool.true_eq_false, Bool.false_eq_true, decide_eq_true_eq, decide_not, Bool.not_true,
      Bool.not_false, if_true, if_false, Set.mk.injEq, and_assoc, andThen_ok_true,
      andThen_ok_false, orElse_ok_true, orElse_ok_false, Path.rootPtr_nil, Path.rootPtr_cons, nat_eq_false_symm, AgreeOff_update, AgreeOff_refl,
      addrs_node, addrs_nil, Path.addrs_cons, Path.addrs_empty, List.mem_append, List.mem_cons,
      true_or, or_true, Frame.sibling_inL, Frame.sibling_inR, *]⟩
    · obtain ⟨t, tl, tv, tr, rfl⟩ := hok rfl
      rcases rest with _ | ⟨⟨a, k, w, x⟩ | ⟨a, k, x, w⟩, rest⟩ <;>
      · simp only [addrs_node, addrs_nil, Path.addrs_empty, Path.addrs_cons, List.nodup_append,
      List.nodup_cons, List.mem_append, List.mem_cons, not_or, List.disjoint_cons_left,
      List.disjoint_cons_right, List.disjoint_append_left, List.disjoint_append_right,
      List.nil_append, List.append_nil, List.disjoint_nil_left, List.disjoint_nil_right,
      List.nodup_nil, List.not_mem_nil, not_false_eq_true, true_and, and_true, Frame.addr_inL,
      Frame.addr_inR, Frame.sibling_inL, Frame.sibling_inR, Lay_node, Lay_nil, LayPath_inL,
      LayPath_inR, LayPath_nil, ptr_node, ptr_nil, Path.ptr_cons, Path.ptr_empty] at hn hp ht
        casesm* _ ∧ _
        simp only [delete_2_case_, subling, delCase2, rotate_left_, rotate_right_, getParent_some, getRight_some, getLeft_some, getColor_some, getValue_some,
      getParent_none, getRight_none, getLeft_none, getColor_none, getValue_none,
      Option.map_some', ofOption_some, ofOption_none, ok_bind, error_bind, setParent_some,
      setLeft_some, setRight_some, setColor_some, ↓reduceIte, ne_eq, not_true_eq_false,
      not_false_eq_true, run_pure, read_update_self, read_update_ne, reduceCtorEq,
      Option.some.injEq, ptr_eq_some_false, some_eq_ptr_false, Except.ok.injEq,
      exists_eq_left', Lay_node, Lay_nil, LayPath_inL, LayPath_inR, LayPath_nil, Lay_update,
      LayPath_update, length_update, ptr_node, ptr_nil, Path.ptr_cons, Path.ptr_empty,
      Frame.addr_inL, Frame.addr_inR, and_self, and_true, true_and, decide_True, decide_False,
      Bool.true_eq_false, Bool.false_eq_true, decide_eq_true_eq, decide_not, Bool.not_true,
      Bool.not_false, if_true, if_false, Set.mk.injEq, and_assoc, andThen_ok_true,
      andThen_ok_false, orElse_ok_true, orElse_ok_false, Path.rootPtr_nil, Path.rootPtr_cons, nat_eq_false_symm, AgreeOff_update, AgreeOff_refl,
      addrs_node, addrs_nil, Path.addrs_cons, Path.addrs_empty, List.mem_append, List.mem_cons,
      true_or, or_true, Frame.sibling_inL, Frame.sibling_inR, *]
        exact ⟨_, rfl, by simp only [getParent_some, getRight_some, getLeft_some, getColor_some, getValue_some,
      getParent_none, getRight_none, getLeft_none, getColor_none, getValue_none,
      Option.map_some', ofOption_some, ofOption_none, ok_bind, error_bind, setParent_some,
      setLeft_some, setRight_some, setColor_some, ↓reduceIte, ne_eq, not_true_eq_false,
      not_false_eq_true, run_pure, read_update_self, read_update_ne, reduceCtorEq,
      Option.some.injEq, ptr_eq_some_false, some_eq_ptr_false, Except.ok.injEq,
      exists_eq_left', Lay_node, Lay_nil, LayPath_inL, LayPath_inR, LayPath_nil, Lay_update,
      LayPath_update, length_update, ptr_node, ptr_nil, Path.ptr_cons, Path.ptr_empty,
      Frame.addr_inL, Frame.addr_inR, and_self, and_true, true_and, decide_True, decide_False,
      Bool.true_eq_false, Bool.false_eq_true, decide_eq_true_eq, decide_not, Bool.not_true,
      Bool.not_false, if_true, if_false, Set.mk.injEq, and_assoc, andThen_ok_true,
      andThen_ok_false, orElse_ok_true, orElse_ok_false, Path.rootPtr_nil, Path.rootPtr_cons, nat_eq_false_symm, AgreeOff_update, AgreeOff_refl,
      addrs_node, addrs_nil, Path.addrs_cons, Path.addrs_empty, List.mem_append, List.mem_cons,
      true_or, or_true, Frame.sibling_inL, Frame.sibling_inR, *]⟩

theorem quiet_inL {pa : Nat} {pc : Bool} {pv : α} {S : Tree α}
    (hq : (Frame.inL pa pc pv S).quiet = true) :
    ∃ s sl sv sr, S = .node s BLACK sl sv sr ∧ sl.isRed = false ∧ sr.isRed = false := by
  rcases S with _ | ⟨s, sc, sl, sv, sr⟩
  · simp [Frame.quiet] at hq
  · simp only [Frame.quiet, Bool.and_eq_true, beq_iff_eq, Bool.not_eq_true'] at hq
    obtain ⟨⟨rfl, h1⟩, h2⟩ := hq
    exact ⟨s, sl, sv, sr, rfl, h1, h2⟩

theorem quiet_inR {pa : Nat} {pc : Bool} {pv : α} {S : Tree α}
    (hq : (Frame.inR pa pc S pv).quiet = true) :
    ∃ s sl sv sr, S = .node s BLACK sl sv sr ∧ sl.isRed = false ∧ sr.isRed = false := by
  rcases S with _ | ⟨s, sc, sl, sv, sr⟩
  · simp [Frame.quiet] at hq
  · simp only [Frame.quiet, Bool.and_eq_true, beq_iff_eq, Bool.not_eq_true'] at hq
    obtain ⟨⟨rfl, h1⟩, h2⟩ := hq
    exact ⟨s, sl, sv, sr, rfl, h1, h2⟩

set_option maxHeartbeats 1000000 in
/-- Case 3 of the deletion fix-up in the heap: with a black parent, a black sibling and
no red nephew the sibling becomes red and the fix-up continues at the parent. -/
theorem delete_case3_sim (case1 : Set α → Ptr → Run (Set α)) (root : Ptr) (size : Nat)
    {f : Frame α} {rest : Path α} {n : Nat} {c : Bool} {l r : Tree α} {v : α} {h : Heap α}
    (hp : LayPath h (some n) (f :: rest)) (ht : Lay h (some f.addr) (.node n c l v r))
    (hn : (Path.addrs (f :: rest) ++ (Tree.node n c l v r).addrs).Nodup)
    (hc : f.color = BLACK) (hq : f.quiet = true) :
    ∃ h', delete_3_case_ case1 ⟨h, root, size⟩ (some n) =
        case1 ⟨h', root, size⟩ (some f.addr) ∧
      LayPath h' (some f.addr) rest ∧
      Lay h' rest.ptr ((f.paintSibling RED).fill (.node n c l v r)) ∧ h'.length = h.length ∧
      Heap.AgreeOff (Path.addrs (f :: rest) ++ (Tree.node n c l v r).addrs) h h' := by
  rcases f with ⟨pa, pc, pv, S⟩ | ⟨pa, pc, S, pv⟩
  · obtain ⟨s, sl, sv, sr, rfl, h1, h2⟩ := quiet_inL hq
    simp only [Frame.color_inL] at hc
    subst hc
    rcases sl with _ | ⟨t, tc, tl, tv, tr⟩ <;> rcases sr with _ | ⟨u, uc, ul, uv, ur⟩ <;>
    · simp only [isRed_node, isRed_nil] at h1 h2
      try subst h1
      try subst h2
      simp only [addrs_node, addrs_nil, Path.addrs_empty, Path.addrs_cons, List.nodup_append,
      List.nodup_cons, List.mem_append, List.mem_cons, not_or, List.disjoint_cons_left,
      List.disjoint_cons_right, List.disjoint_append_left, List.disjoint_append_right,
      List.nil_append, List.append_nil, List.disjoint_nil_left, List.disjoint_nil_right,
      List.nodup_nil, List.not_mem_nil, not_false_eq_true, true_and, and_true, Frame.addr_inL,
      Frame.addr_inR, Frame.sibling_inL, Frame.sibling_inR, Lay_node, Lay_nil, LayPath_inL,
      LayPath_inR, LayPath_nil, ptr_node, ptr_nil, Path.ptr_cons, Path.ptr_empty] at hn hp ht
      casesm* _ ∧ _
      simp only [delete_3_case_, subling, Frame.paintSibling, Tree.paint, Frame.fill_inL,
        nullOrBlack_none, nullOrBlack_some, getParent_some, getRight_some, getLeft_some, getColor_some, getValue_some,
      getParent_none, getRight_none, getLeft_none, getColor_none, getValue_none,
      Option.map_some', ofOption_some, ofOption_none, ok_bind, error_bind, setParent_some,
      setLeft_some, setRight_some, setColor_some, ↓reduceIte, ne_eq, not_true_eq_false,
      not_false_eq_true, run_pure, read_update_self, read_update_ne, reduceCtorEq,
      Option.some.injEq, ptr_eq_some_false, some_eq_ptr_false, Except.ok.injEq,
      exists_eq_left', Lay_node, Lay_nil, LayPath_inL, LayPath_inR, LayPath_nil, Lay_update,
      LayPath_update, length_update, ptr_node, ptr_nil, Path.ptr_cons, Path.ptr_empty,
      Frame.addr_inL, Frame.addr_inR, and_self, and_true, true_and, decide_True, decide_False,
      Bool.true_eq_false, Bool.false_eq_true, decide_eq_true_eq, decide_not, Bool.not_true,
      Bool.not_false, if_true, if_false, Set.mk.injEq, and_assoc, andThen_ok_true,
      andThen_ok_false, orElse_ok_true, orElse_ok_false, Path.rootPtr_nil, Path.rootPtr_cons, nat_eq_false_symm, AgreeOff_update, AgreeOff_refl,
      addrs_node, addrs_nil, Path.addrs_cons, Path.addrs_empty, List.mem_append, List.mem_cons,
      true_or, or_true, Frame.sibling_inL, Frame.sibling_inR, *]
      exact ⟨_, rfl, by simp only [getParent_some, getRight_some, getLeft_some, getColor_some, getValue_some,
      getParent_none, getRight_none, getLeft_none, getColor_none, getValue_none,
      Option.map_some', ofOption_some, ofOption_none, ok_bind, error_bind, setParent_some,
      setLeft_some, setRight_some, setColor_some, ↓reduceIte, ne_eq, not_true_eq_false,
      not_false_eq_true, run_pure, read_update_self, read_update_ne, reduceCtorEq,
      Option.some.injEq, ptr_eq_some_false, some_eq_ptr_false, Except.ok.injEq,
      exists_eq_left', Lay_node, Lay_nil, LayPath_inL, LayPath_inR, LayPath_nil, Lay_update,
      LayPath_update, length_update, ptr_node, ptr_nil, Path.ptr_cons, Path.ptr_empty,
      Frame.addr_inL, Frame.addr_inR, and_self, and_true, true_and, decide_True, decide_False,
      Bool.true_eq_false, Bool.false_eq_true, decide_eq_true_eq, decide_not, Bool.not_true,
      Bool.not_false, if_true, if_false, Set.mk.injEq, and_assoc, andThen_ok_true,
      andThen_ok_false, orElse_ok_true, orElse_ok_false, Path.rootPtr_nil, Path.rootPtr_cons, nat_eq_false_symm, AgreeOff_update, AgreeOff_refl,
      addrs_node, addrs_nil, Path.addrs_cons, Path.addrs_empty, List.mem_append, List.mem_cons,
      true_or, or_true, Frame.sibling_inL, Frame.sibling_inR, *]⟩
  · obtain ⟨s, sl, sv, sr, rfl, h1, h2⟩ := quiet_inR hq
    simp only [Frame.color_inR] at hc
    subst hc
    rcases sl with _ | ⟨t, tc, tl, tv, tr⟩ <;> rcases sr with _ | ⟨u, uc, ul, uv, ur⟩ <;>
    · simp only [isRed_node, isRed_nil] at h1 h2
      try subst h1
      try subst h2
      simp only [addrs_node, addrs_nil, Path.addrs_empty, Path.addrs_cons, List.nodup_append,
      List.nodup_cons, List.mem_append, List.mem_cons, not_or, List.disjoint_cons_left,
      List.disjoint_cons_right, List.disjoint_append_left, List.disjoint_append_right,
      List.nil_append, List.append_nil, List.disjoint_nil_left, List.disjoint_nil_right,
      List.nodup_nil, List.not_mem_nil, not_false_eq_true, true_and, and_true, Frame.addr_inL,
      Frame.addr_inR, Frame.sibling_inL, Frame.sibling_inR, Lay_node, Lay_nil, LayPath_inL,
      LayPath_inR, LayPath_nil, ptr_node, ptr_nil, Path.ptr_cons, Path.ptr_empty] at hn hp ht
      casesm* _ ∧ _
      simp only [delete_3_case_, subling, Frame.paintSibling, Tree.paint, Frame.fill_inR,
        nullOrBlack_none, nullOrBlack_some, getParent_some, getRight_some, getLeft_some, getColor_some, getValue_some,
      getParent_none, getRight_none, getLeft_none, getColor_none, getValue_none,
      Option.map_some', ofOption_some, ofOption_none, ok_bind, error_bind, setParent_some,
      setLeft_some, setRight_some, setColor_some, ↓reduceIte, ne_eq, not_true_eq_false,
      not_false_eq_true, run_pure, read_update_self, read_update_ne, reduceCtorEq,
      Option.some.injEq, ptr_eq_some_false, some_eq_ptr_false, Except.ok.injEq,
      exists_eq_left', Lay_node, Lay_nil, LayPath_inL, LayPath_inR, LayPath_nil, Lay_update,
      LayPath_update, length_update, ptr_node, ptr_nil, Path.ptr_cons, Path.ptr_empty,
      Frame.addr_inL, Frame.addr_inR, and_self, and_true, true_and, decide_True, decide_False,
      Bool.true_eq_false, Bool.false_eq_true, decide_eq_true_eq, decide_not, Bool.not_true,
      Bool.not_false, if_true, if_false, Set.mk.injEq, and_assoc, andThen_ok_true,
      andThen_ok_false, orElse_ok_true, orElse_ok_false, Path.rootPtr_nil, Path.rootPtr_cons, nat_eq_false_symm, AgreeOff_update, AgreeOff_refl,
      addrs_node, addrs_nil, Path.addrs_cons, Path.addrs_empty, List.mem_append, List.mem_cons,
      true_or, or_true, Frame.sibling_inL, Frame.sibling_inR, *]
      exact ⟨_, rfl, by simp only [getParent_some, getRight_some, getLeft_some, getColor_some, getValue_some,
      getParent_none, getRight_none, getLeft_none, getColor_none, getValue_none,
      Option.map_some', ofOption_some, ofOption_none, ok_bind, error_bind, setParent_some,
      setLeft_some, setRight_some, setColor_some, ↓reduceIte, ne_eq, not_true_eq_false,
      not_false_eq_true, run_pure, read_update_self, read_update_ne, reduceCtorEq,
      Option.some.injEq, ptr_eq_some_false, some_eq_ptr_false, Except.ok.injEq,
      exists_eq_left', Lay_node, Lay_nil, LayPath_inL, LayPath_inR, LayPath_nil, Lay_update,
      LayPath_update, length_update, ptr_node, ptr_nil, Path.ptr_cons, Path.ptr_empty,
      Frame.addr_inL, Frame.addr_inR, and_self, and_true, true_and, decide_True, decide_False,
      Bool.true_eq_false, Bool.false_eq_true, decide_eq_true_eq, decide_not, Bool.not_true,
      Bool.not_false, if_true, if_false, Set.mk.injEq, and_assoc, andThen_ok_true,
      andThen_ok_false, orElse_ok_true, orElse_ok_false, Path.rootPtr_nil, Path.rootPtr_cons, nat_eq_false_symm, AgreeOff_update, AgreeOff_refl,
      addrs_node, addrs_nil, Path.addrs_cons, Path.addrs_empty, List.mem_append, List.mem_cons,
      true_or, or_true, Frame.sibling_inL, Frame.sibling_inR, *]⟩

set_option maxHeartbeats 1000000 in
/-- Case 4 of the deletion fix-up in the heap: with a red parent, a black sibling and no
red nephew the parent and the sibling exchange their colours and the fix-up ends. -/
theorem delete_case4_sim (case1 : Set α → Ptr → Run (Set α)) (root : Ptr) (size : Nat)
    {f : Frame α} {rest : Path α} {n : Nat} {c : Bool} {l r : Tree α} {v : α} {h : Heap α}
    (hp : LayPath h (some n) (f :: rest)) (ht : Lay h (some f.addr) (.node n c l v r))
    (hn : (Path.addrs (f :: rest) ++ (Tree.node n c l v r).addrs).Nodup)
    (hc : f.color = RED) (hq : f.quiet = true) :
    ∃ h', delete_3_case_ case1 ⟨h, root, size⟩ (some n) = Except.ok ⟨h', root, size⟩ ∧
      LayPath h' (some n) ((f.paint BLACK).paintSibling RED :: rest) ∧
      Lay h' (some f.addr) (.node n c l v r) ∧ h'.length = h.length ∧
      Heap.AgreeOff (Path.addrs (f :: rest) ++ (Tree.node n c l v r).addrs) h h' := by
  rcases f with ⟨pa, pc, pv, S⟩ | ⟨pa, pc, S, pv⟩
  · obtain ⟨s, sl, sv, sr, rfl, h1, h2⟩ := quiet_inL hq
    simp only [Frame.color_inL] at hc
    subst hc
    rcases sl with _ | ⟨t, tc, tl, tv, tr⟩ <;> rcases sr with _ | ⟨u, uc, ul, uv, ur⟩ <;>
    · simp only [isRed_node, isRed_nil] at h1 h2
      try subst h1
      try subst h2
      simp only [addrs_node, addrs_nil, Path.addrs_empty, Path.addrs_cons, List.nodup_append,
      List.nodup_cons, List.mem_append, List.mem_cons, not_or, List.disjoint_cons_left,
      List.disjoint_cons_right, List.disjoint_append_left, List.disjoint_append_right,
      List.nil_append, List.append_nil, List.disjoint_nil_left, List.disjoint_nil_right,
      List.nodup_nil, List.not_mem_nil, not_false_eq_true, true_and, and_true, Frame.addr_inL,
      Frame.addr_inR, Frame.sibling_inL, Frame.sibling_inR, Lay_node, Lay_nil, LayPath_inL,
      LayPath_inR, LayPath_nil, ptr_node, ptr_nil, Path.ptr_cons, Path.ptr_empty] at hn hp ht
      casesm* _ ∧ _
      simp only [delete_3_case_, delete_4_case_, subling, Frame.paintSibling, Frame.paint,
        Tree.paint, nullOrBlack_none, nullOrBlack_some, getParent_some, getRight_some, getLeft_some, getColor_some, getValue_some,
      getParent_none, getRight_none, getLeft_none, getColor_none, getValue_none,
      Option.map_some', ofOption_some, ofOption_none, ok_bind, error_bind, setParent_some,
      setLeft_some, setRight_some, setColor_some, ↓reduceIte, ne_eq, not_true_eq_false,
      not_false_eq_true, run_pure, read_update_self, read_update_ne, reduceCtorEq,
      Option.some.injEq, ptr_eq_some_false, some_eq_ptr_false, Except.ok.injEq,
      exists_eq_left', Lay_node, Lay_nil, LayPath_inL, LayPath_inR, LayPath_nil, Lay_update,
      LayPath_update, length_update, ptr_node, ptr_nil, Path.ptr_cons, Path.ptr_empty,
      Frame.addr_inL, Frame.addr_inR, and_self, and_true, true_and, decide_True, decide_False,
      Bool.true_eq_false, Bool.false_eq_true, decide_eq_true_eq, decide_not, Bool.not_true,
      Bool.not_false, if_true, if_false, Set.mk.injEq, and_assoc, andThen_ok_true,
      andThen_ok_false, orElse_ok_true, orElse_ok_false, Path.rootPtr_nil, Path.rootPtr_cons, nat_eq_false_symm, AgreeOff_update, AgreeOff_refl,
      addrs_node, addrs_nil, Path.addrs_cons, Path.addrs_empty, List.mem_append, List.mem_cons,
      true_or, or_true, Frame.sibling_inL, Frame.sibling_inR, *]
  · obtain ⟨s, sl, sv, sr, rfl, h1, h2⟩ := quiet_inR hq
    simp only [Frame.color_inR] at hc
    subst hc
    rcases sl with _ | ⟨t, tc, tl, tv, tr⟩ <;> rcases sr with _ | ⟨u, uc, ul, uv, ur⟩ <;>
    · simp only [isRed_node, isRed_nil] at h1 h2
      try subst h1
      try subst h2
      simp only [addrs_node, addrs_nil, Path.addrs_empty, Path.addrs_cons, List.nodup_append,
      List.nodup_cons, List.mem_append, List.mem_cons, not_or, List.disjoint_cons_left,
      List.disjoint_cons_right, List.disjoint_append_left, List.disjoint_append_right,
      List.nil_append, List.append_nil, List.disjoint_nil_left, List.disjoint_nil_right,
      List.nodup_nil, List.not_mem_nil, not_false_eq_true, true_and, and_true, Frame.addr_inL,
      Frame.addr_inR, Frame.sibling_inL, Frame.sibling_inR, Lay_node, Lay_nil, LayPath_inL,
      LayPath_inR, LayPath_nil, ptr_node, ptr_nil, Path.ptr_cons, Path.ptr_empty] at hn hp ht
      casesm* _ ∧ _
      simp only [delete_3_case_, delete_4_case_, subling, Frame.paintSibling, Frame.paint,
        Tree.paint, nullOrBlack_none, nullOrBlack_some, getParent_some, getRight_some, getLeft_some, getColor_some, getValue_some,
      getParent_none, getRight_none, getLeft_none, getColor_none, getValue_none,
      Option.map_some', ofOption_some, ofOption_none, ok_bind, error_bind, setParent_some,
      setLeft_some, setRight_some, setColor_some, ↓reduceIte, ne_eq, not_true_eq_false,
      not_false_eq_true, run_pure, read_update_self, read_update_ne, reduceCtorEq,
      Option.some.injEq, ptr_eq_some_false, some_eq_ptr_false, Except.ok.injEq,
      exists_eq_left', Lay_node, Lay_nil, LayPath_inL, LayPath_inR, LayPath_nil, Lay_update,
      LayPath_update, length_update, ptr_node, ptr_nil, Path.ptr_cons, Path.ptr_empty,
      Frame.addr_inL, Frame.addr_inR, and_self, and_true, true_and, decide_True, decide_False,
      Bool.true_eq_false, Bool.false_eq_true, decide_eq_true_eq, decide_not, Bool.not_true,
      Bool.not_false, if_true, if_false, Set.mk.injEq, and_assoc, andThen_ok_true,
      andThen_ok_false, orElse_ok_true, orElse_ok_false, Path.rootPtr_nil, Path.rootPtr_cons, nat_eq_false_symm, AgreeOff_update, AgreeOff_refl,
      addrs_node, addrs_nil, Path.addrs_cons, Path.addrs_empty, List.mem_append, List.mem_cons,
      true_or, or_true, Frame.sibling_inL, Frame.sibling_inR, *]

set_option maxHeartbeats 1000000 in
/-- With a black sibling that has a red child the fix-up goes on to case 5. -/
theorem delete_to_case5 (case1 : Set α → Ptr → Run (Set α)) (root : Ptr) (size : Nat)
    {f : Frame α} {rest : Path α} {n : Nat} {c : Bool} {l r : Tree α} {v : α} {h : Heap α}
    (hp : LayPath h (some n) (f :: rest)) (ht : Lay h (some f.addr) (.node n c l v r))
    (hn : (Path.addrs (f :: rest) ++ (Tree.node n c l v r).addrs).Nodup)
    (hs : ∃ s sl sv sr, f.sibling = .node s BLACK sl sv sr) (hq : f.quiet = false) :
    delete_3_case_ case1 ⟨h, root, size⟩ (some n) = delete_5_case_ ⟨h, root, size⟩ (some n) := by
  obtain ⟨s, sl, sv, sr, hs⟩ := hs
  rcases f with ⟨pa, pc, pv, S⟩ | ⟨pa, pc, S, pv⟩ <;>
  simp only [Frame.sibling_inL, Frame.sibling_inR] at hs <;>
  subst hs <;>
  rcases sl with _ | ⟨t, tc, tl, tv, tr⟩ <;> rcases sr with _ | ⟨u, uc, ul, uv, ur⟩ <;>
  cases pc <;> (try cases tc) <;> (try cases uc) <;>
  first
  | (exfalso; revert hq; simp [Frame.quiet]; done)
  | (simp only [addrs_node, addrs_nil, Path.addrs_empty, Path.addrs_cons, List.nodup_append,
      List.nodup_cons, List.mem_append, List.mem_cons, not_or, List.disjoint_cons_left,
      List.disjoint_cons_right, List.disjoint_append_left, List.disjoint_append_right,
      List.nil_append, List.append_nil, List.disjoint_nil_left, List.disjoint_nil_right,
      List.nodup_nil, List.not_mem_nil, not_false_eq_true, true_and, and_true, Frame.addr_inL,
      Frame.addr_inR, Frame.sibling_inL, Frame.sibling_inR, Lay_node, Lay_nil, LayPath_inL,
      LayPath_inR, LayPath_nil, ptr_node, ptr_nil, Path.ptr_cons, Path.ptr_empty] at hn hp ht
     casesm* _ ∧ _
     simp only [delete_3_case_, delete_4_case_, subling, nullOrBlack_none, nullOrBlack_some,
       getParent_some, getRight_some, getLeft_some, getColor_some, getValue_some,
      getParent_none, getRight_none, getLeft_none, getColor_none, getValue_none,
      Option.map_some', ofOption_some, ofOption_none, ok_bind, error_bind, setParent_some,
      setLeft_some, setRight_some, setColor_some, ↓reduceIte, ne_eq, not_true_eq_false,
      not_false_eq_true, run_pure, read_update_self, read_update_ne, reduceCtorEq,
      Option.some.injEq, ptr_eq_some_false, some_eq_ptr_false, Except.ok.injEq,
      exists_eq_left', Lay_node, Lay_nil, LayPath_inL, LayPath_inR, LayPath_nil, Lay_update,
      LayPath_update, length_update, ptr_node, ptr_nil, Path.ptr_cons, Path.ptr_empty,
      Frame.addr_inL, Frame.addr_inR, and_self, and_true, true_and, decide_True, decide_False,
      Bool.true_eq_false, Bool.false_eq_true, decide_eq_true_eq, decide_not, Bool.not_true,
      Bool.not_false, if_true, if_false, Set.mk.injEq, and_assoc, andThen_ok_true,
      andThen_ok_false, orElse_ok_true, orElse_ok_false, Path.rootPtr_nil, Path.rootPtr_cons, nat_eq_false_symm, AgreeOff_update, AgreeOff_refl,
      addrs_node, addrs_nil, Path.addrs_cons, Path.addrs_empty, List.mem_append, List.mem_cons,
      true_or, or_true, Frame.sibling_inL, Frame.sibling_inR, *])

end DeleteFix

end bulumutka

namespace bulumutka

section DeleteRotate

variable {α : Type}

set_option maxHeartbeats 2000000 in
/-- Case 5 of the deletion fix-up in the heap. -/
theorem delete_case5_sim (root : Ptr) (size : Nat)
    {f : Frame α} {rest : Path α} {n : Nat} {c : Bool} {l r : Tree α} {v : α} {h : Heap α}
    (hp : LayPath h (some n) (f :: rest)) (ht : Lay h (some f.addr) (.node n c l v r))
    (hn : (Path.addrs (f :: rest) ++ (Tree.node n c l v r).addrs).Nodup)
    (hs : ∃ s sl sv sr, f.sibling = .node s BLACK sl sv sr) (hq : f.quiet = false) :
    ∃ h', delete_5_case_ ⟨h, root, size⟩ (some n) =
        delete_6_case_ ⟨h', root, size⟩ (some n) ∧
      LayPath h' (some n) (delCase5 f :: rest) ∧
      Lay h' (some f.addr) (.node n c l v r) ∧ h'.length = h.length ∧
      Heap.AgreeOff (Path.addrs (f :: rest) ++ (Tree.node n c l v r).addrs) h h' := by
  obtain ⟨s, sl, sv, sr, hs⟩ := hs
  rcases f with ⟨pa, pc, pv, S⟩ | ⟨pa, pc, S, pv⟩ <;>
  simp only [Frame.sibling_inL, Frame.sibling_inR] at hs <;>
  subst hs
  · rcases sr with _ | ⟨u, uc, ul, uv, ur⟩ <;> (try cases uc) <;>
    rcases sl with _ | ⟨t, tc, tl, tv, _ | ⟨x, xc, xl, xv, xr⟩⟩ <;> (try cases tc) <;>
    first
    | (exfalso; revert hq; simp [Frame.quiet]; done)
    | (simp only [addrs_node, addrs_nil, Path.addrs_empty, Path.addrs_cons, List.nodup_append,
      List.nodup_cons, List.mem_append, List.mem_cons, not_or, List.disjoint_cons_left,
      List.disjoint_cons_right, List.disjoint_append_left, List.disjoint_append_right,
      List.nil_append, List.append_nil, List.disjoint_nil_left, List.disjoint_nil_right,
      List.nodup_nil, List.not_mem_nil, not_false_eq_true, true_and, and_true, Frame.addr_inL,
      Frame.addr_inR, Frame.sibling_inL, Frame.sibling_inR, Lay_node, Lay_nil, LayPath_inL,
      LayPath_inR, LayPath_nil, ptr_node, ptr_nil, Path.ptr_cons, Path.ptr_empty] at hn hp ht
       casesm* _ ∧ _
       simp only [delete_5_case_, nearLeftRed, nearRightRed, subling, rotate_right_,
         rotate_left_, delCase5, isRed_nil, isRed_node, nullOrBlack_none, nullOrBlack_some,
         getParent_some, getRight_some, getLeft_some, getColor_some, getValue_some,
      getParent_none, getRight_none, getLeft_none, getColor_none, getValue_none,
      Option.map_some', ofOption_some, ofOption_none, ok_bind, error_bind, setParent_some,
      setLeft_some, setRight_some, setColor_some, ↓reduceIte, ne_eq, not_true_eq_false,
      not_false_eq_true, run_pure, read_update_self, read_update_ne, reduceCtorEq,
      Option.some.injEq, ptr_eq_some_false, some_eq_ptr_false, Except.ok.injEq,
      exists_eq_left', Lay_node, Lay_nil, LayPath_inL, LayPath_inR, LayPath_nil, Lay_update,
      LayPath_update, length_update, ptr_node, ptr_nil, Path.ptr_cons, Path.ptr_empty,
      Frame.addr_inL, Frame.addr_inR, and_self, and_true, true_and, decide_True, decide_False,
      Bool.true_eq_false, Bool.false_eq_true, decide_eq_true_eq, decide_not, Bool.not_true,
      Bool.not_false, if_true, if_false, Set.mk.injEq, and_assoc, andThen_ok_true,
      andThen_ok_false, orElse_ok_true, orElse_ok_false, Path.rootPtr_nil, Path.rootPtr_cons, nat_eq_false_symm, AgreeOff_update, AgreeOff_refl,
      addrs_node, addrs_nil, Path.addrs_cons, Path.addrs_empty, List.mem_append, List.mem_cons,
      true_or, or_true, Frame.sibling_inL, Frame.sibling_inR, *]
       exact ⟨_, rfl, by simp only [getParent_some, getRight_some, getLeft_some, getColor_some, getValue_some,
      getParent_none, getRight_none, getLeft_none, getColor_none, getValue_none,
      Option.map_some', ofOption_some, ofOption_none, ok_bind, error_bind, setParent_some,
      setLeft_some, setRight_some, setColor_some, ↓reduceIte, ne_eq, not_true_eq_false,
      not_false_eq_true, run_pure, read_update_self, read_update_ne, reduceCtorEq,
      Option.some.injEq, ptr_eq_some_false, some_eq_ptr_false, Except.ok.injEq,
      exists_eq_left', Lay_node, Lay_nil, LayPath_inL, LayPath_inR, LayPath_nil, Lay_update,
      LayPath_update, length_update, ptr_node, ptr_nil, Path.ptr_cons, Path.ptr_empty,
      Frame.addr_inL, Frame.addr_inR, and_self, and_true, true_and, decide_True, decide_False,
      Bool.true_eq_false, Bool.false_eq_true, decide_eq_true_eq, decide_not, Bool.not_true,
      Bool.not_false, if_true, if_false, Set.mk.injEq, and_assoc, andThen_ok_true,
      andThen_ok_false, orElse_ok_true, orElse_ok_false, Path.rootPtr_nil, Path.rootPtr_cons, nat_eq_false_symm, AgreeOff_update, AgreeOff_refl,
      addrs_node, addrs_nil, Path.addrs_cons, Path.addrs_empty, List.mem_append, List.mem_cons,
      true_or, or_true, Frame.sibling_inL, Frame.sibling_inR, *]⟩)
  · rcases sl with _ | ⟨u, uc, ul, uv, ur⟩ <;> (try cases uc) <;>
    rcases sr with _ | ⟨t, tc, _ | ⟨x, xc, xl, xv, xr⟩, tv, tr⟩ <;> (try cases tc) <;>
    first
    | (exfalso; revert hq; simp [Frame.quiet]; done)
    | (simp only [addrs_node, addrs_nil, Path.addrs_empty, Path.addrs_cons, List.nodup_append,
      List.nodup_cons, List.mem_append, List.mem_cons, not_or, List.disjoint_cons_left,
      List.disjoint_cons_right, List.disjoint_append_left, List.disjoint_append_right,
      List.nil_append, List.append_nil, List.disjoint_nil_left, List.disjoint_nil_right,
      List.nodup_nil, List.not_mem_nil, not_false_eq_true, true_and, and_true, Frame.addr_inL,
      Frame.addr_inR, Frame.sibling_inL, Frame.sibling_inR, Lay_node, Lay_nil, LayPath_inL,
      LayPath_inR, LayPath_nil, ptr_node, ptr_nil, Path.ptr_cons, Path.ptr_empty] at hn hp ht
       casesm* _ ∧ _
       simp only [delete_5_case_, nearLeftRed, nearRightRed, subling, rotate_right_,
         rotate_left_, delCase5, isRed_nil, isRed_node, nullOrBlack_none, nullOrBlack_some,
         getParent_some, getRight_some, getLeft_some, getColor_some, getValue_some,
      getParent_none, getRight_none, getLeft_none, getColor_none, getValue_none,
      Option.map_some', ofOption_some, ofOption_none, ok_bind, error_bind, setParent_some,
      setLeft_some, setRight_some, setColor_some, ↓reduceIte, ne_eq, not_true_eq_false,
      not_false_eq_true, run_pure, read_update_self, read_update_ne, reduceCtorEq,
      Option.some.injEq, ptr_eq_some_false, some_eq_ptr_false, Except.ok.injEq,
      exists_eq_left', Lay_node, Lay_nil, LayPath_inL, LayPath_inR, LayPath_nil, Lay_update,
      LayPath_update, length_update, ptr_node, ptr_nil, Path.ptr_cons, Path.ptr_empty,
      Frame.addr_inL, Frame.addr_inR, and_self, and_true, true_and, decide_True, decide_False,
      Bool.true_eq_false, Bool.false_eq_true, decide_eq_true_eq, decide_not, Bool.not_true,
      Bool.not_false, if_true, if_false, Set.mk.injEq, and_assoc, andThen_ok_true,
      andThen_ok_false, orElse_ok_true, orElse_ok_false, Path.rootPtr_nil, Path.rootPtr_cons, nat_eq_false_symm, AgreeOff_update, AgreeOff_refl,
      addrs_node, addrs_nil, Path.addrs_cons, Path.addrs_empty, List.mem_append, List.mem_cons,
      true_or, or_true, Frame.sibling_inL, Frame.sibling_inR, *]
       exact ⟨_, rfl, by simp only [getParent_some, getRight_some, getLeft_some, getColor_some, getValue_some,
      getParent_none, getRight_none, getLeft_none, getColor_none, getValue_none,
      Option.map_some', ofOption_some, ofOption_none, ok_bind, error_bind, setParent_some,
      setLeft_some, setRight_some, setColor_some, ↓reduceIte, ne_eq, not_true_eq_false,
      not_false_eq_true, run_pure, read_update_self, read_update_ne, reduceCtorEq,
      Option.some.injEq, ptr_eq_some_false, some_eq_ptr_false, Except.ok.injEq,
      exists_eq_left', Lay_node, Lay_nil, LayPath_inL, LayPath_inR, LayPath_nil, Lay_update,
      LayPath_update, length_update, ptr_node, ptr_nil, Path.ptr_cons, Path.ptr_empty,
      Frame.addr_inL, Frame.addr_inR, and_self, and_true, true_and, decide_True, decide_False,
      Bool.true_eq_false, Bool.false_eq_true, decide_eq_true_eq, decide_not, Bool.not_true,
      Bool.not_false, if_true, if_false, Set.mk.injEq, and_assoc, andThen_ok_true,
      andThen_ok_false, orElse_ok_true, orElse_ok_false, Path.rootPtr_nil, Path.rootPtr_cons, nat_eq_false_symm, AgreeOff_update, AgreeOff_refl,
      addrs_node, addrs_nil, Path.addrs_cons, Path.addrs_empty, List.mem_append, List.mem_cons,
      true_or, or_true, Frame.sibling_inL, Frame.sibling_inR, *]⟩)

set_option maxHeartbeats 2000000 in
/-- Case 6 of the deletion fix-up in the heap. -/
theorem delete_case6_sim (size : Nat)
    {f : Frame α} {rest : Path α} {n : Nat} {c : Bool} {l r : Tree α} {v : α} {h : Heap α}
    (hp : LayPath h (some n) (f :: rest)) (ht : Lay h (some f.addr) (.node n c l v r))
    (hn : (Path.addrs (f :: rest) ++ (Tree.node n c l v r).addrs).Nodup)
    (hfar : f.FarNode) :
    ∃ h', delete_6_case_ ⟨h, Path.rootPtr (f :: rest) (some n), size⟩ (some n) =
        Except.ok ⟨h', Path.rootPtr (delCase6 f ++ rest) (some n), size⟩ ∧
      LayPath h' (some n) (delCase6 f ++ rest) ∧
      Lay h' (some f.addr) (.node n c l v r) ∧ h'.length = h.length ∧
      Heap.AgreeOff (Path.addrs (f :: rest) ++ (Tree.node n c l v r).addrs) h h' := by
  rcases f with ⟨pa, pc, pv, _ | ⟨s, sc, sl, sv, _ | ⟨u, uc, ul, uv, ur⟩⟩⟩ |
    ⟨pa, pc, _ | ⟨s, sc, _ | ⟨u, uc, ul, uv, ur⟩, sv, sr⟩, pv⟩
  · exact absurd hfar (by simp [Frame.FarNode])
  · exact absurd hfar (by simp [Frame.FarNode])
  · rcases rest with _ | ⟨⟨a, k, w, x⟩ | ⟨a, k, x, w⟩, rest⟩ <;>
    rcases sl with _ | ⟨t, tc, tl, tv, tr⟩ <;>
    · simp only [addrs_node, addrs_nil, Path.addrs_empty, Path.addrs_cons, List.nodup_append,
      List.nodup_cons, List.mem_append, List.mem_cons, not_or, List.disjoint_cons_left,
      List.disjoint_cons_right, List.disjoint_append_left, List.disjoint_append_right,
      List.nil_append, List.append_nil, List.disjoint_nil_left, List.disjoint_nil_right,
      List.nodup_nil, List.not_mem_nil, not_false_eq_true, true_and, and_true, Frame.addr_inL,
      Frame.addr_inR, Frame.sibling_inL, Frame.sibling_inR, Lay_node, Lay_nil, LayPath_inL,
      LayPath_inR, LayPath_nil, ptr_node, ptr_nil, Path.ptr_cons, Path.ptr_empty] at hn hp ht
      casesm* _ ∧ _
      simp only [delete_6_case_, subling, rotate_right_, rotate_left_, delCase6, Tree.paint,
        List.cons_append, List.nil_append, getParent_some, getRight_some, getLeft_some, getColor_some, getValue_some,
      getParent_none, getRight_none, getLeft_none, getColor_none, getValue_none,
      Option.map_some', ofOption_some, ofOption_none, ok_bind, error_bind, setParent_some,
      setLeft_some, setRight_some, setColor_some, ↓reduceIte, ne_eq, not_true_eq_false,
      not_false_eq_true, run_pure, read_update_self, read_update_ne, reduceCtorEq,
      Option.some.injEq, ptr_eq_some_false, some_eq_ptr_false, Except.ok.injEq,
      exists_eq_left', Lay_node, Lay_nil, LayPath_inL, LayPath_inR, LayPath_nil, Lay_update,
      LayPath_update, length_update, ptr_node, ptr_nil, Path.ptr_cons, Path.ptr_empty,
      Frame.addr_inL, Frame.addr_inR, and_self, and_true, true_and, decide_True, decide_False,
      Bool.true_eq_false, Bool.false_eq_true, decide_eq_true_eq, decide_not, Bool.not_true,
      Bool.not_false, if_true, if_false, Set.mk.injEq, and_assoc, andThen_ok_true,
      andThen_ok_false, orElse_ok_true, orElse_ok_false, Path.rootPtr_nil, Path.rootPtr_cons, nat_eq_false_symm, AgreeOff_update, AgreeOff_refl,
      addrs_node, addrs_nil, Path.addrs_cons, Path.addrs_empty, List.mem_append, List.mem_cons,
      true_or, or_true, Frame.sibling_inL, Frame.sibling_inR, *]
  · exact absurd hfar (by simp [Frame.FarNode])
  · exact absurd hfar (by simp [Frame.FarNode])
  · rcases rest with _ | ⟨⟨a, k, w, x⟩ | ⟨a, k, x, w⟩, rest⟩ <;>
    rcases sr with _ | ⟨t, tc, tl, tv, tr⟩ <;>
    · simp only [addrs_node, addrs_nil, Path.addrs_empty, Path.addrs_cons, List.nodup_append,
      List.nodup_cons, List.mem_append, List.mem_cons, not_or, List.disjoint_cons_left,
      List.disjoint_cons_right, List.disjoint_append_left, List.disjoint_append_right,
      List.nil_append, List.append_nil, List.disjoint_nil_left, List.disjoint_nil_right,
      List.nodup_nil, List.not_mem_nil, not_false_eq_true, true_and, and_true, Frame.addr_inL,
      Frame.addr_inR, Frame.sibling_inL, Frame.sibling_inR, Lay_node, Lay_nil, LayPath_inL,
      LayPath_inR, LayPath_nil, ptr_node, ptr_nil, Path.ptr_cons, Path.ptr_empty] at hn hp ht
      casesm* _ ∧ _
      simp only [delete_6_case_, subling, rotate_right_, rotate_left_, delCase6, Tree.paint,
        List.cons_append, List.nil_append, getParent_some, getRight_some, getLeft_some, getColor_some, getValue_some,
      getParent_none, getRight_none, getLeft_none, getColor_none, getValue_none,
      Option.map_some', ofOption_some, ofOption_none, ok_bind, error_bind, setParent_some,
      setLeft_some, setRight_some, setColor_some, ↓reduceIte, ne_eq, not_true_eq_false,
      not_false_eq_true, run_pure, read_update_self, read_update_ne, reduceCtorEq,
      Option.some.injEq, ptr_eq_some_false, some_eq_ptr_false, Except.ok.injEq,
      exists_eq_left', Lay_node, Lay_nil, LayPath_inL, LayPath_inR, LayPath_nil, Lay_update,
      LayPath_update, length_update, ptr_node, ptr_nil, Path.ptr_cons, Path.ptr_empty,
      Frame.addr_inL, Frame.addr_inR, and_self, and_true, true_and, decide_True, decide_False,
      Bool.true_eq_false, Bool.false_eq_true, decide_eq_true_eq, decide_not, Bool.not_true,
      Bool.not_false, if_true, if_false, Set.mk.injEq, and_assoc, andThen_ok_true,
      andThen_ok_false, orElse_ok_true, orElse_ok_false, Path.rootPtr_nil, Path.rootPtr_cons, nat_eq_false_symm, AgreeOff_update, AgreeOff_refl,
      addrs_node, addrs_nil, Path.addrs_cons, Path.addrs_empty, List.mem_append, List.mem_cons,
      true_or, or_true, Frame.sibling_inL, Frame.sibling_inR, *]

end DeleteRotate

end bulumutka

namespace bulumutka

section DeleteFixSim

variable {α : Type}

theorem addr_delCase2 (f : Frame α) (rest : Path α) : (delCase2 f rest).1.addr = f.addr := by
  rcases f with ⟨pa, pc, pv, _ | ⟨s, sc, sl, sv, sr⟩⟩ | ⟨pa, pc, _ | ⟨s, sc, sl, sv, sr⟩, pv⟩ <;>
  simp only [delCase2] <;> (try split) <;> rfl

theorem addrs_delCase2_perm (f : Frame α) (rest : Path α) :
    (Path.addrs ((delCase2 f rest).1 :: (delCase2 f rest).2)).Perm (Path.addrs (f :: rest)) := by
  rcases f with ⟨pa, pc, pv, _ | ⟨s, sc, sl, sv, sr⟩⟩ | ⟨pa, pc, _ | ⟨s, sc, sl, sv, sr⟩, pv⟩ <;>
  simp only [delCase2] <;> (try split) <;>
  · rw [List.perm_iff_count]
    intro x
    simp [List.count_cons]
    try omega

theorem delCase2_black {f : Frame α} {rest : Path α} (hok : f.DelOK) :
    ∃ s sl sv sr, (delCase2 f rest).1.sibling = .node s BLACK sl sv sr := by
  rcases f with ⟨pa, pc, pv, _ | ⟨s, sc, sl, sv, sr⟩⟩ | ⟨pa, pc, _ | ⟨s, sc, sl, sv, sr⟩, pv⟩
  · exact absurd hok (by simp [Frame.DelOK])
  · cases sc
    · exact ⟨s, sl, sv, sr, rfl⟩
    · obtain ⟨t, tl, tv, tr, rfl⟩ := hok rfl
      exact ⟨t, tl, tv, tr, rfl⟩
  · exact absurd hok (by simp [Frame.DelOK])
  · cases sc
    · exact ⟨s, sl, sv, sr, rfl⟩
    · obtain ⟨t, tl, tv, tr, rfl⟩ := hok rfl
      exact ⟨t, tl, tv, tr, rfl⟩

/-- When case 2 leaves a black parent it has changed nothing. -/
theorem delCase2_of_black {f : Frame α} {rest : Path α}
    (hc : (delCase2 f rest).1.color = BLACK) : delCase2 f rest = (f, rest) := by
  rcases f with ⟨pa, pc, pv, _ | ⟨s, sc, sl, sv, sr⟩⟩ | ⟨pa, pc, _ | ⟨s, sc, sl, sv, sr⟩, pv⟩ <;>
  try rfl
  · cases sc
    · rfl
    · simp [delCase2] at hc
  · cases sc
    · rfl
    · simp [delCase2] at hc

theorem addr_delCase5 (f : Frame α) : (delCase5 f).addr = f.addr := by
  rcases f with ⟨pa, pc, pv, _ | ⟨s, sc, _ | ⟨t, tc, tl, tv, tr⟩, sv, sr⟩⟩ |
    ⟨pa, pc, _ | ⟨s, sc, sl, sv, _ | ⟨t, tc, tl, tv, tr⟩⟩, pv⟩ <;>
  simp only [delCase5] <;> (try split) <;> rfl

theorem addrs_delCase5_perm (f : Frame α) (rest : Path α) :
    (Path.addrs (delCase5 f :: rest)).Perm (Path.addrs (f :: rest)) := by
  rcases f with ⟨pa, pc, pv, _ | ⟨s, sc, _ | ⟨t, tc, tl, tv, tr⟩, sv, sr⟩⟩ |
    ⟨pa, pc, _ | ⟨s, sc, sl, sv, _ | ⟨t, tc, tl, tv, tr⟩⟩, pv⟩ <;>
  simp only [delCase5] <;> (try split) <;>
  · rw [List.perm_iff_count]
    intro x
    simp [List.count_cons]
    try omega

theorem farNode_delCase5 {f : Frame α} (hs : ∃ s sl sv sr, f.sibling = .node s BLACK sl sv sr)
    (hq : f.quiet = false) : (delCase5 f).FarNode := by
  obtain ⟨s, sl, sv, sr, hs⟩ := hs
  rcases f with ⟨pa, pc, pv, S⟩ | ⟨pa, pc, S, pv⟩ <;>
  simp only [Frame.sibling_inL, Frame.sibling_inR] at hs <;>
  subst hs <;>
  rcases sl with _ | ⟨t, tc, tl, tv, tr⟩ <;> rcases sr with _ | ⟨u, uc, ul, uv, ur⟩ <;>
  (try cases tc) <;> (try cases uc) <;>
  first
  | (exfalso; revert hq; simp [Frame.quiet]; done)
  | simp [delCase5, Frame.FarNode]

theorem addrs_delCase6_perm (f : Frame α) (rest : Path α) :
    (Path.addrs (delCase6 f ++ rest)).Perm (Path.addrs (f :: rest)) := by
  rcases f with ⟨pa, pc, pv, _ | ⟨s, sc, sl, sv, sr⟩⟩ | ⟨pa, pc, _ | ⟨s, sc, sl, sv, sr⟩, pv⟩ <;>
  simp only [delCase6] <;>
  · rw [List.perm_iff_count]
    intro x
    simp [List.count_cons]
    try omega

theorem delFix_cons (f : Frame α) (rest : Path α) :
    delFix (f :: rest) = delStep (delCase2 f rest).1 (delCase2 f rest).2 (delFix rest) := rfl

theorem addr_paintSibling (c : Bool) (f : Frame α) : (f.paintSibling c).addr = f.addr := by
  cases f <;> rfl

theorem addr_paint (c : Bool) (f : Frame α) : (f.paint c).addr = f.addr := by
  cases f <;> rfl

theorem addrs_paintSibling (c : Bool) (f : Frame α) (rest : Path α) :
    Path.addrs (f.paintSibling c :: rest) = Path.addrs (f :: rest) := by
  cases f <;> simp [Frame.paintSibling]

theorem addrs_paint_frame (c : Bool) (f : Frame α) (rest : Path α) :
    Path.addrs (f.paint c :: rest) = Path.addrs (f :: rest) := by
  cases f <;> simp [Frame.paint]

theorem sibling_addrs_paintSibling (c : Bool) (f : Frame α) :
    (f.paintSibling c).sibling.addrs = f.sibling.addrs := by
  cases f <;> simp [Frame.paintSibling]

theorem addrs_delStep_perm (f : Frame α) (rest up : Path α)
    (hup : f.color = BLACK → (Path.addrs up).Perm (Path.addrs rest)) :
    (Path.addrs (delStep f rest up)).Perm (Path.addrs (f :: rest)) := by
  simp only [delStep]
  split
  · rename_i hc
    simp only [Path.addrs_cons, addr_paintSibling, sibling_addrs_paintSibling]
    exact List.Perm.cons _ (List.Perm.append_left _ (hup hc.1))
  · split
    · rw [addrs_paintSibling, addrs_paint_frame]
    · exact (addrs_delCase6_perm _ _).trans (addrs_delCase5_perm _ _)

/-- The fix-up permutes the nodes of the path. -/
theorem addrs_delFix_perm (p : Path α) : (Path.addrs (delFix p)).Perm (Path.addrs p) := by
  induction p with
  | nil => exact List.Perm.refl _
  | cons f rest ih =>
    rw [delFix_cons]
    refine List.Perm.trans (addrs_delStep_perm _ _ _ ?_) (addrs_delCase2_perm f rest)
    intro hc
    rw [delCase2_of_black hc]
    exact ih

theorem ptr_delCase6 (f : Frame α) (rest : Path α) :
    Path.ptr (delCase6 f ++ rest) = some f.addr := by
  rcases f with ⟨pa, pc, pv, _ | ⟨s, sc, sl, sv, sr⟩⟩ | ⟨pa, pc, _ | ⟨s, sc, sl, sv, sr⟩, pv⟩ <;>
  rfl

theorem delStep_case3 {f : Frame α} (rest up : Path α) (hc : f.color = BLACK)
    (hq : f.quiet = true) : delStep f rest up = f.paintSibling RED :: up := by
  simp [delStep, hc, hq]

theorem delStep_case4 {f : Frame α} (rest up : Path α) (hc : f.color = RED)
    (hq : f.quiet = true) : delStep f rest up = (f.paint BLACK).paintSibling RED :: rest := by
  simp [delStep, hc, hq]

theorem delStep_case56 {f : Frame α} (rest up : Path α) (hq : f.quiet = false) :
    delStep f rest up = delCase6 (delCase5 f) ++ rest := by
  simp [delStep, hq]

set_option maxHeartbeats 1000000 in
/-- The deletion fix-up in the heap computes `delFix`: started at the black root `n` of a
subtree that hangs in the hole of `p`, it ends with the subtree, untouched, in the hole
of `delFix p`, and with `root_` pointing to the root of the whole tree. -/
theorem delete_1_case_sim (fuel : Nat) : ∀ (p : Path α) (n : Nat) (l r : Tree α) (v : α)
    (h : Heap α) (root : Ptr) (size : Nat),
    LayPath h (some n) p → Lay h (Path.ptr p) (.node n BLACK l v r) →
    (Path.addrs p ++ (Tree.node n BLACK l v r).addrs).Nodup → (∀ f ∈ p, f.DelOK) →
    p.length < fuel → (p ≠ [] → root = Path.rootPtr p (some n)) →
    ∃ h', delete_1_case_ fuel ⟨h, root, size⟩ (some n) =
        Except.ok ⟨h', Path.rootPtr (delFix p) (some n), size⟩ ∧
      LayPath h' (some n) (delFix p) ∧
      Lay h' (Path.ptr (delFix p)) (.node n BLACK l v r) ∧ h'.length = h.length ∧
      Heap.AgreeOff (Path.addrs p ++ (Tree.node n BLACK l v r).addrs) h h' := by
  induction fuel with
  | zero => intro p n l r v h root size _ _ _ _ hlen; simp at hlen
  | succ fuel ih =>
    intro p n l r v h root size hp ht hn hok hlen hroot
    rcases p with _ | ⟨f, rest⟩
    · simp only [addrs_node, addrs_nil, Path.addrs_empty, Path.addrs_cons, List.nodup_append,
      List.nodup_cons, List.mem_append, List.mem_cons, not_or, List.disjoint_cons_left,
      List.disjoint_cons_right, List.disjoint_append_left, List.disjoint_append_right,
      List.nil_append, List.append_nil, List.disjoint_nil_left, List.disjoint_nil_right,
      List.nodup_nil, List.not_mem_nil, not_false_eq_true, true_and, and_true, Frame.addr_inL,
      Frame.addr_inR, Frame.sibling_inL, Frame.sibling_inR, Lay_node, Lay_nil, LayPath_inL,
      LayPath_inR, LayPath_nil, ptr_node, ptr_nil, Path.ptr_cons, Path.ptr_empty] at hn hp ht
      casesm* _ ∧ _
      simp only [delete_1_case_, delFix, getParent_some, getRight_some, getLeft_some, getColor_some, getValue_some,
      getParent_none, getRight_none, getLeft_none, getColor_none, getValue_none,
      Option.map_some', ofOption_some, ofOption_none, ok_bind, error_bind, setParent_some,
      setLeft_some, setRight_some, setColor_some, ↓reduceIte, ne_eq, not_true_eq_false,
      not_false_eq_true, run_pure, read_update_self, read_update_ne, reduceCtorEq,
      Option.some.injEq, ptr_eq_some_false, some_eq_ptr_false, Except.ok.injEq,
      exists_eq_left', Lay_node, Lay_nil, LayPath_inL, LayPath_inR, LayPath_nil, Lay_update,
      LayPath_update, length_update, ptr_node, ptr_nil, Path.ptr_cons, Path.ptr_empty,
      Frame.addr_inL, Frame.addr_inR, and_self, and_true, true_and, decide_True, decide_False,
      Bool.true_eq_false, Bool.false_eq_true, decide_eq_true_eq, decide_not, Bool.not_true,
      Bool.not_false, if_true, if_false, Set.mk.injEq, and_assoc, andThen_ok_true,
      andThen_ok_false, orElse_ok_true, orElse_ok_false, Path.rootPtr_nil, Path.rootPtr_cons, nat_eq_false_symm, AgreeOff_update, AgreeOff_refl,
      addrs_node, addrs_nil, Path.addrs_cons, Path.addrs_empty, List.mem_append, List.mem_cons,
      true_or, or_true, Frame.sibling_inL, Frame.sibling_inR, *]
    · have hroot := hroot (by simp)
      subst hroot
      have hlen' : rest.length < fuel := by
        simp only [List.length_cons] at hlen
        omega
      have step1 : delete_1_case_ (fuel + 1) ⟨h, Path.rootPtr (f :: rest) (some n), size⟩
          (some n) = delete_2_case_ (delete_1_case_ fuel)
            ⟨h, Path.rootPtr (f :: rest) (some n), size⟩ (some n) := by
        rcases f with ⟨pa, pc, pv, pr⟩ | ⟨pa, pc, pl, pv⟩ <;>
        · simp only [addrs_node, addrs_nil, Path.addrs_empty, Path.addrs_cons, List.nodup_append,
      List.nodup_cons, List.mem_append, List.mem_cons, not_or, List.disjoint_cons_left,
      List.disjoint_cons_right, List.disjoint_append_left, List.disjoint_append_right,
      List.nil_append, List.append_nil, List.disjoint_nil_left, List.disjoint_nil_right,
      List.nodup_nil, List.not_mem_nil, not_false_eq_true, true_and, and_true, Frame.addr_inL,
      Frame.addr_inR, Frame.sibling_inL, Frame.sibling_inR, Lay_node, Lay_nil, LayPath_inL,
      LayPath_inR, LayPath_nil, ptr_node, ptr_nil, Path.ptr_cons, Path.ptr_empty] at hn hp ht
          casesm* _ ∧ _
          simp only [delete_1_case_, getParent_some, getRight_some, getLeft_some, getColor_some, getValue_some,
      getParent_none, getRight_none, getLeft_none, getColor_none, getValue_none,
      Option.map_some', ofOption_some, ofOption_none, ok_bind, error_bind, setParent_some,
      setLeft_some, setRight_some, setColor_some, ↓reduceIte, ne_eq, not_true_eq_false,
      not_false_eq_true, run_pure, read_update_self, read_update_ne, reduceCtorEq,
      Option.some.injEq, ptr_eq_some_false, some_eq_ptr_false, Except.ok.injEq,
      exists_eq_left', Lay_node, Lay_nil, LayPath_inL, LayPath_inR, LayPath_nil, Lay_update,
      LayPath_update, length_update, ptr_node, ptr_nil, Path.ptr_cons, Path.ptr_empty,
      Frame.addr_inL, Frame.addr_inR, and_self, and_true, true_and, decide_True, decide_False,
      Bool.true_eq_false, Bool.false_eq_true, decide_eq_true_eq, decide_not, Bool.not_true,
      Bool.not_false, if_true, if_false, Set.mk.injEq, and_assoc, andThen_ok_true,
      andThen_ok_false, orElse_ok_true, orElse_ok_false, Path.rootPtr_nil, Path.rootPtr_cons, nat_eq_false_symm, AgreeOff_update, AgreeOff_refl,
      addrs_node, addrs_nil, Path.addrs_cons, Path.addrs_empty, List.mem_append, List.mem_cons,
      true_or, or_true, Frame.sibling_inL, Frame.sibling_inR, *]
      have ht0 : Lay h (some f.addr) (.node n BLACK l v r) := ht
      obtain ⟨h1, e1, hp1, ht1, hl1, ha1⟩ :=
        delete_case2_sim (delete_1_case_ fuel) size hp ht0 hn (hok f (by simp))
      have hperm1 := (addrs_delCase2_perm f rest).append_right (Tree.node n BLACK l v r).addrs
      have hn1 := hperm1.nodup_iff.2 hn
      have hbs := @delCase2_black α f rest (hok f (by simp))
      rw [← addr_delCase2 f rest] at ht1
      rw [step1, e1, delFix_cons]
      by_cases hq : (delCase2 f rest).1.quiet = true
      · cases hc : (delCase2 f rest).1.color with
        | false =>
          have he := delCase2_of_black hc
          rw [he] at hp1 ht1 hn1 hq hc hperm1 ⊢
          simp only at hp1 ht1 hn1 hq hc hperm1 ⊢
          obtain ⟨h2, e2, hp2, ht2, hl2, ha2⟩ :=
            delete_case3_sim (delete_1_case_ fuel) (Path.rootPtr (f :: rest) (some n)) size
              hp1 ht1 hn1 hc hq
          rw [e2, delStep_case3 _ _ hc hq]
          rcases f with ⟨pa, pc, pv, S⟩ | ⟨pa, pc, S, pv⟩
          · simp only [Frame.color_inL] at hc
            subst hc
            simp only [Frame.paintSibling, Frame.fill_inL, Frame.addr_inL] at ht2 hp2 ⊢
            have hn2 : (Path.addrs rest ++
                (Tree.node pa BLACK (.node n BLACK l v r) pv (S.paint RED)).addrs).Nodup := by
              refine (List.Perm.nodup_iff ?_).2 hn
              rw [List.perm_iff_count]
              intro x
              simp [List.count_cons]
              omega
            obtain ⟨h3, e3, hp3, ht3, hl3, ha3⟩ := ih rest pa _ _ pv h2 _ size hp2 ht2 hn2
              (fun g hg => hok g (List.mem_cons_of_mem _ hg)) hlen' (fun _ => rfl)
            refine ⟨h3, ?_, ?_, ?_, by rw [hl3, hl2, hl1], ?_⟩
            · exact e3
            · rw [Lay_node] at ht3
              exact (LayPath_inL _ _ _ _ _ _ _).2 ⟨ht3.1, ht3.2.2, hp3⟩
            · rw [Lay_node] at ht3
              exact ht3.2.1
            · refine AgreeOff_trans ha1 (AgreeOff_trans ha2 (AgreeOff_mono ha3 ?_))
              intro a ha
              simp only [addrs_node, addrs_paint, Path.addrs_cons, Frame.addr_inL,
                Frame.sibling_inL, List.mem_append, List.mem_cons] at ha ⊢
              tauto
          · simp only [Frame.color_inR] at hc
            subst hc
            simp only [Frame.paintSibling, Frame.fill_inR, Frame.addr_inR] at ht2 hp2 ⊢
            have hn2 : (Path.addrs rest ++
                (Tree.node pa BLACK (S.paint RED) pv (.node n BLACK l v r)).addrs).Nodup := by
              refine (List.Perm.nodup_iff ?_).2 hn
              rw [List.perm_iff_count]
              intro x
              simp [List.count_cons]
              omega
            obtain ⟨h3, e3, hp3, ht3, hl3, ha3⟩ := ih rest pa _ _ pv h2 _ size hp2 ht2 hn2
              (fun g hg => hok g (List.mem_cons_of_mem _ hg)) hlen' (fun _ => rfl)
            refine ⟨h3, ?_, ?_, ?_, by rw [hl3, hl2, hl1], ?_⟩
            · exact e3
            · rw [Lay_node] at ht3
              exact (LayPath_inR _ _ _ _ _ _ _).2 ⟨ht3.1, ht3.2.1, hp3⟩
            · rw [Lay_node] at ht3
              exact ht3.2.2
            · refine AgreeOff_trans ha1 (AgreeOff_trans ha2 (AgreeOff_mono ha3 ?_))
              intro a ha
              simp only [addrs_node, addrs_paint, Path.addrs_cons, Frame.addr_inR,
                Frame.sibling_inR, List.mem_append, List.mem_cons] at ha ⊢
              tauto
        | true =>
          obtain ⟨h2, e2, hp2, ht2, hl2, ha2⟩ :=
            delete_case4_sim (delete_1_case_ fuel)
              (Path.rootPtr ((delCase2 f rest).1 :: (delCase2 f rest).2) (some n)) size
              hp1 ht1 hn1 hc hq
          rw [e2, delStep_case4 _ _ hc hq]
          refine ⟨h2, ?_, hp2, ?_, by rw [hl2, hl1],
            AgreeOff_trans ha1 (AgreeOff_of_perm ha2 hperm1)⟩
          · simp only [Path.rootPtr_cons, addr_paintSibling, addr_paint]
          · simpa only [Path.ptr_cons, addr_paintSibling, addr_paint] using ht2
      · have hq' : (delCase2 f rest).1.quiet = false := by simpa using hq
        obtain ⟨h2, e2, hp2, ht2, hl2, ha2⟩ :=
          delete_case5_sim (Path.rootPtr ((delCase2 f rest).1 :: (delCase2 f rest).2) (some n))
            size hp1 ht1 hn1 hbs hq'
        have hperm2 := (addrs_delCase5_perm (delCase2 f rest).1 (delCase2 f rest).2).append_right
          (Tree.node n BLACK l v r).addrs
        have hn2 := hperm2.nodup_iff.2 hn1
        rw [← addr_delCase5] at ht2
        have hroot2 : Path.rootPtr ((delCase2 f rest).1 :: (delCase2 f rest).2) (some n) =
            Path.rootPtr (delCase5 (delCase2 f rest).1 :: (delCase2 f rest).2) (some n) := by
          simp only [Path.rootPtr_cons, addr_delCase5]
        obtain ⟨h3, e3, hp3, ht3, hl3, ha3⟩ :=
          delete_case6_sim size hp2 ht2 hn2 (farNode_delCase5 hbs hq')
        rw [delete_to_case5 (delete_1_case_ fuel) _ size hp1 ht1 hn1 hbs hq', e2, hroot2, e3,
          delStep_case56 _ _ hq']
        refine ⟨h3, rfl, hp3, ?_, by rw [hl3, hl2, hl1],
          AgreeOff_trans ha1 (AgreeOff_of_perm
            (AgreeOff_trans ha2 (AgreeOff_of_perm ha3 hperm2)) hperm1)⟩
        rw [ptr_delCase6]
        exact ht3

end DeleteFixSim

end bulumutka

namespace bulumutka

section DeleteInvariants

variable {α : Type}

theorem before_paintSibling (c : Bool) (f : Frame α) (rest : Path α) :
    Path.before (f.paintSibling c :: rest) = Path.before (f :: rest) := by
  cases f <;> simp [Frame.paintSibling, Path.before]

theorem after_paintSibling (c : Bool) (f : Frame α) (rest : Path α) :
    Path.after (f.paintSibling c :: rest) = Path.after (f :: rest) := by
  cases f <;> simp [Frame.paintSibling, Path.after]

theorem before_paint (c : Bool) (f : Frame α) (rest : Path α) :
    Path.before (f.paint c :: rest) = Path.before (f :: rest) := by
  cases f <;> simp [Frame.paint, Path.before]

theorem after_paint (c : Bool) (f : Frame α) (rest : Path α) :
    Path.after (f.paint c :: rest) = Path.after (f :: rest) := by
  cases f <;> simp [Frame.paint, Path.after]

theorem before_delCase2 (f : Frame α) (rest : Path α) :
    Path.before ((delCase2 f rest).1 :: (delCase2 f rest).2) = Path.before (f :: rest) := by
  rcases f with ⟨pa, pc, pv, _ | ⟨s, sc, sl, sv, sr⟩⟩ | ⟨pa, pc, _ | ⟨s, sc, sl, sv, sr⟩, pv⟩ <;>
  simp only [delCase2] <;> (try split) <;> simp [Path.before]

theorem after_delCase2 (f : Frame α) (rest : Path α) :
    Path.after ((delCase2 f rest).1 :: (delCase2 f rest).2) = Path.after (f :: rest) := by
  rcases f with ⟨pa, pc, pv, _ | ⟨s, sc, sl, sv, sr⟩⟩ | ⟨pa, pc, _ | ⟨s, sc, sl, sv, sr⟩, pv⟩ <;>
  simp only [delCase2] <;> (try split) <;> simp [Path.after]

theorem before_delCase5 (f : Frame α) (rest : Path α) :
    Path.before (delCase5 f :: rest) = Path.before (f :: rest) := by
  rcases f with ⟨pa, pc, pv, _ | ⟨s, sc, _ | ⟨t, tc, tl, tv, tr⟩, sv, sr⟩⟩ |
    ⟨pa, pc, _ | ⟨s, sc, sl, sv, _ | ⟨t, tc, tl, tv, tr⟩⟩, pv⟩ <;>
  simp only [delCase5] <;> (try split) <;> simp [Path.before]

theorem after_delCase5 (f : Frame α) (rest : Path α) :
    Path.after (delCase5 f :: rest) = Path.after (f :: rest) := by
  rcases f with ⟨pa, pc, pv, _ | ⟨s, sc, _ | ⟨t, tc, tl, tv, tr⟩, sv, sr⟩⟩ |
    ⟨pa, pc, _ | ⟨s, sc, sl, sv, _ | ⟨t, tc, tl, tv, tr⟩⟩, pv⟩ <;>
  simp only [delCase5] <;> (try split) <;> simp [Path.after]

theorem before_delCase6 (f : Frame α) (rest : Path α) :
    Path.before (delCase6 f ++ rest) = Path.before (f :: rest) := by
  rcases f with ⟨pa, pc, pv, _ | ⟨s, sc, sl, sv, sr⟩⟩ | ⟨pa, pc, _ | ⟨s, sc, sl, sv, sr⟩, pv⟩ <;>
  simp [delCase6, Path.before]

theorem after_delCase6 (f : Frame α) (rest : Path α) :
    Path.after (delCase6 f ++ rest) = Path.after (f :: rest) := by
  rcases f with ⟨pa, pc, pv, _ | ⟨s, sc, sl, sv, sr⟩⟩ | ⟨pa, pc, _ | ⟨s, sc, sl, sv, sr⟩, pv⟩ <;>
  simp [delCase6, Path.after]

theorem before_cons_congr (f : Frame α) {p q : Path α} (h : Path.before p = Path.before q) :
    Path.before (f :: p) = Path.before (f :: q) := by
  cases f <;> simp [Path.before, h]

theorem after_cons_congr (f : Frame α) {p q : Path α} (h : Path.after p = Path.after q) :
    Path.after (f :: p) = Path.after (f :: q) := by
  cases f <;> simp [Path.after, h]

/-- The deletion fix-up keeps the nodes before the hole. -/
theorem before_delFix (p : Path α) : Path.before (delFix p) = Path.before p := by
  induction p with
  | nil => rfl
  | cons f rest ih =>
    rw [delFix_cons, ← before_delCase2 f rest]
    simp only [delStep]
    split
    · rename_i hc
      rw [before_paintSibling, delCase2_of_black hc.1]
      exact before_cons_congr _ ih
    · split
      · rw [before_paintSibling, before_paint]
      · rw [before_delCase6, before_delCase5]

/-- The deletion fix-up keeps the nodes after the hole. -/
theorem after_delFix (p : Path α) : Path.after (delFix p) = Path.after p := by
  induction p with
  | nil => rfl
  | cons f rest ih =>
    rw [delFix_cons, ← after_delCase2 f rest]
    simp only [delStep]
    split
    · rename_i hc
      rw [after_paintSibling, delCase2_of_black hc.1]
      exact after_cons_congr _ ih
    · split
      · rw [after_paintSibling, after_paint]
      · rw [after_delCase6, after_delCase5]

theorem Balanced_black {a : Nat} {l r : Tree α} {v : α} {n : Nat} :
    (Tree.node a BLACK l v r).Balanced (n + 1) ↔ l.Balanced n ∧ r.Balanced n := by
  have := Balanced_node (a := a) (c := BLACK) (l := l) (r := r) (v := v) (n := n)
  simpa using this

theorem Balanced_red {a : Nat} {l r : Tree α} {v : α} {n : Nat} :
    (Tree.node a RED l v r).Balanced n ↔
      l.Balanced n ∧ r.Balanced n ∧ l.isRed = false ∧ r.isRed = false := by
  have := Balanced_node (a := a) (c := RED) (l := l) (r := r) (v := v) (n := n)
  simpa using this

theorem not_Balanced_nil_succ (n : Nat) : ¬ (Tree.nil : Tree α).Balanced (n + 1) := by
  intro h
  have := h.2.2
  simp [Tree.blackCount] at this

theorem Balanced_paint_red {a : Nat} {l r : Tree α} {v : α} {n : Nat}
    (h : (Tree.node a BLACK l v r).Balanced (n + 1)) (hl : l.isRed = false)
    (hr : r.isRed = false) : ((Tree.node a BLACK l v r).paint RED).Balanced n := by
  rw [Balanced_black] at h
  exact Balanced_red.2 ⟨h.1, h.2, hl, hr⟩

/-- A path around a subtree with at least one black node has the shape the deletion
fix-up relies on. -/
theorem DelOK_of_balanced (p : Path α) : ∀ k, Path.Balanced p (k + 1) → ∀ f ∈ p, f.DelOK := by
  induction p with
  | nil => intro k _ f hf; simp at hf
  | cons g rest ih =>
    intro k hb f hf
    obtain ⟨hs, hc, hrest⟩ := hb
    rcases List.mem_cons.1 hf with rfl | hf
    · rcases f with ⟨pa, pc, pv, _ | ⟨s, sc, sl, sv, sr⟩⟩ |
        ⟨pa, pc, _ | ⟨s, sc, sl, sv, sr⟩, pv⟩
      · exact absurd hs (not_Balanced_nil_succ k)
      · intro hsc
        subst hsc
        simp only [Frame.sibling_inL] at hs
        rw [Balanced_red] at hs
        rcases sl with _ | ⟨t, tc, tl, tv, tr⟩
        · exact absurd hs.1 (not_Balanced_nil_succ k)
        · have := hs.2.2.1
          simp only [isRed_node] at this
          subst this
          exact ⟨t, tl, tv, tr, rfl⟩
      · exact absurd hs (not_Balanced_nil_succ k)
      · intro hsc
        subst hsc
        simp only [Frame.sibling_inR] at hs
        rw [Balanced_red] at hs
        rcases sr with _ | ⟨t, tc, tl, tv, tr⟩
        · exact absurd hs.2.1 (not_Balanced_nil_succ k)
        · have := hs.2.2.2
          simp only [isRed_node] at this
          subst this
          exact ⟨t, tl, tv, tr, rfl⟩
    · cases hcol : g.color with
      | false =>
        rw [hcol] at hrest
        exact ih (k + 1) (by simpa using hrest) f hf
      | true =>
        rw [hcol] at hrest
        exact ih k (by simpa using hrest) f hf

theorem balanced_delCase2 {f : Frame α} {rest : Path α} {k : Nat}
    (h : Path.Balanced (f :: rest) (k + 1)) :
    Path.Balanced ((delCase2 f rest).1 :: (delCase2 f rest).2) (k + 1) := by
  rcases f with ⟨pa, pc, pv, _ | ⟨s, sc, sl, sv, sr⟩⟩ | ⟨pa, pc, _ | ⟨s, sc, sl, sv, sr⟩, pv⟩
  · exact h
  · cases sc
    · exact h
    · obtain ⟨hs, hc, hrest⟩ := h
      simp only [Frame.sibling_inL, Frame.color_inL, isRed_node] at hs hc hrest
      rw [Balanced_red] at hs
      have hpc : pc = BLACK := by
        cases pc
        · rfl
        · exact absurd (hc rfl).1 (by decide)
      subst hpc
      simp only [delCase2, ↓reduceIte]
      exact ⟨hs.1, fun _ => ⟨hs.2.2.1, rfl⟩, hs.2.1, fun hx => by simp at hx,
        by simpa using hrest⟩
  · exact h
  · cases sc
    · exact h
    · obtain ⟨hs, hc, hrest⟩ := h
      simp only [Frame.sibling_inR, Frame.color_inR, isRed_node] at hs hc hrest
      rw [Balanced_red] at hs
      have hpc : pc = BLACK := by
        cases pc
        · rfl
        · exact absurd (hc rfl).1 (by decide)
      subst hpc
      simp only [delCase2, ↓reduceIte]
      exact ⟨hs.2.1, fun _ => ⟨hs.2.2.2, rfl⟩, hs.1, fun hx => by simp at hx,
        by simpa using hrest⟩

theorem isRed_paint_black (t : Tree α) : (t.paint BLACK).isRed = false := by
  cases t <;> rfl

/-- Cases 3 to 6 of the deletion fix-up restore the black count below the parent frame, or
hand the deficiency on to the parent. -/
theorem balanced_delStep {f : Frame α} {rest up : Path α} {k : Nat}
    (h : Path.Balanced (f :: rest) (k + 1))
    (hs : ∃ s sl sv sr, f.sibling = .node s BLACK sl sv sr)
    (hup : f.color = BLACK → Path.Balanced up (k + 1)) :
    Path.Balanced (delStep f rest up) k := by
  obtain ⟨s, sl, sv, sr, hs⟩ := hs
  obtain ⟨hS, hc, hrest⟩ := h
  rw [hs, Balanced_black] at hS
  rcases f with ⟨pa, pc, pv, S⟩ | ⟨pa, pc, S, pv⟩ <;>
  simp only [Frame.sibling_inL, Frame.sibling_inR] at hs <;>
  subst hs <;>
  simp only [Frame.color_inL, Frame.color_inR, Frame.sibling_inL, Frame.sibling_inR,
    isRed_node] at hc hrest hup
  · cases hl : sl.isRed <;> cases hr : sr.isRed
    · cases pc
      · rw [delStep_case3 (f := Frame.inL pa BLACK pv (.node s BLACK sl sv sr)) rest up rfl
          (by simp [Frame.quiet, hl, hr])]
        simp only [Frame.paintSibling, Tree.paint]
        exact ⟨Balanced_red.2 ⟨hS.1, hS.2, hl, hr⟩, fun hx => by simp at hx,
          by simpa using hup rfl⟩
      · rw [delStep_case4 (f := Frame.inL pa RED pv (.node s BLACK sl sv sr)) rest up rfl
          (by simp [Frame.quiet, hl, hr])]
        simp only [Frame.paintSibling, Frame.paint, Tree.paint]
        exact ⟨Balanced_red.2 ⟨hS.1, hS.2, hl, hr⟩, fun hx => by simp at hx,
          by simpa using hrest⟩
    · rw [delStep_case56 _ _ (by simp [Frame.quiet, hl, hr])]
      have h6 : delCase6 (delCase5 (Frame.inL pa pc pv (.node s BLACK sl sv sr))) =
          [.inL pa BLACK pv sl, .inL s pc sv (sr.paint BLACK)] := by
        rcases sl with _ | ⟨t, tc, tl, tv, tr⟩ <;> simp [delCase5, delCase6, hr]
      rw [h6]
      exact ⟨hS.1, fun hx => by simp at hx, Balanced_paint_black hS.2 hr,
        fun hx => ⟨isRed_paint_black _, (hc hx).2⟩, by simpa using hrest⟩
    · rw [delStep_case56 _ _ (by simp [Frame.quiet, hl, hr])]
      rcases sl with _ | ⟨t, tc, tl, tv, tr⟩
      · simp at hl
      · simp only [isRed_node] at hl
        subst hl
        have hT := Balanced_red.1 hS.1
        have h6 : delCase6 (delCase5 (Frame.inL pa pc pv
            (.node s BLACK (.node t RED tl tv tr) sv sr))) =
            [.inL pa BLACK pv tl, .inL t pc tv (.node s BLACK tr sv sr)] := by
          simp [delCase5, delCase6, hr, Tree.paint]
        rw [h6]
        exact ⟨hT.1, fun hx => by simp at hx, Balanced_black.2 ⟨hT.2.1, hS.2⟩,
          fun hx => ⟨rfl, (hc hx).2⟩, by simpa using hrest⟩
    · rw [delStep_case56 _ _ (by simp [Frame.quiet, hl, hr])]
      have h6 : delCase6 (delCase5 (Frame.inL pa pc pv (.node s BLACK sl sv sr))) =
          [.inL pa BLACK pv sl, .inL s pc sv (sr.paint BLACK)] := by
        rcases sl with _ | ⟨t, tc, tl, tv, tr⟩ <;> simp [delCase5, delCase6, hr]
      rw [h6]
      exact ⟨hS.1, fun hx => by simp at hx, Balanced_paint_black hS.2 hr,
        fun hx => ⟨isRed_paint_black _, (hc hx).2⟩, by simpa using hrest⟩
  · cases hl : sl.isRed <;> cases hr : sr.isRed
    · cases pc
      · rw [delStep_case3 (f := Frame.inR pa BLACK (.node s BLACK sl sv sr) pv) rest up rfl
          (by simp [Frame.quiet, hl, hr])]
        simp only [Frame.paintSibling, Tree.paint]
        exact ⟨Balanced_red.2 ⟨hS.1, hS.2, hl, hr⟩, fun hx => by simp at hx,
          by simpa using hup rfl⟩
      · rw [delStep_case4 (f := Frame.inR pa RED (.node s BLACK sl sv sr) pv) rest up rfl
          (by simp [Frame.quiet, hl, hr])]
        simp only [Frame.paintSibling, Frame.paint, Tree.paint]
        exact ⟨Balanced_red.2 ⟨hS.1, hS.2, hl, hr⟩, fun hx => by simp at hx,
          by simpa using hrest⟩
    · rw [delStep_case56 _ _ (by simp [Frame.quiet, hl, hr])]
      rcases sr with _ | ⟨t, tc, tl, tv, tr⟩
      · simp at hr
      · simp only [isRed_node] at hr
        subst hr
        have hT := Balanced_red.1 hS.2
        have h6 : delCase6 (delCase5 (Frame.inR pa pc
            (.node s BLACK sl sv (.node t RED tl tv tr)) pv)) =
            [.inR pa BLACK tr pv, .inR t pc (.node s BLACK sl sv tl) tv] := by
          simp [delCase5, delCase6, hl, Tree.paint]
        rw [h6]
        exact ⟨hT.2.1, fun hx => by simp at hx, Balanced_black.2 ⟨hS.1, hT.1⟩,
          fun hx => ⟨rfl, (hc hx).2⟩, by simpa using hrest⟩
    · rw [delStep_case56 _ _ (by simp [Frame.quiet, hl, hr])]
      have h6 : delCase6 (delCase5 (Frame.inR pa pc (.node s BLACK sl sv sr) pv)) =
          [.inR pa BLACK sr pv, .inR s pc (sl.paint BLACK) sv] := by
        rcases sr with _ | ⟨t, tc, tl, tv, tr⟩ <;> simp [delCase5, delCase6, hl]
      rw [h6]
      exact ⟨hS.2, fun hx => by simp at hx, Balanced_paint_black hS.1 hl,
        fun hx => ⟨isRed_paint_black _, (hc hx).2⟩, by simpa using hrest⟩
    · rw [delStep_case56 _ _ (by simp [Frame.quiet, hl, hr])]
      have h6 : delCase6 (delCase5 (Frame.inR pa pc (.node s BLACK sl sv sr) pv)) =
          [.inR pa BLACK sr pv, .inR s pc (sl.paint BLACK) sv] := by
        rcases sr with _ | ⟨t, tc, tl, tv, tr⟩ <;> simp [delCase5, delCase6, hl]
      rw [h6]
      exact ⟨hS.2, fun hx => by simp at hx, Balanced_paint_black hS.1 hl,
        fun hx => ⟨isRed_paint_black _, (hc hx).2⟩, by simpa using hrest⟩

/-- The deletion fix-up repairs a path around a subtree that lost one black node. -/
theorem delFix_balanced (p : Path α) : ∀ k, Path.Balanced p (k + 1) →
    Path.Balanced (delFix p) k := by
  induction p with
  | nil => intro k _; trivial
  | cons f rest ih =>
    intro k h
    rw [delFix_cons]
    have hok := DelOK_of_balanced (f :: rest) k h f (List.mem_cons_self _ _)
    refine balanced_delStep (balanced_delCase2 h) (delCase2_black hok) ?_
    intro hc
    have he := delCase2_of_black hc
    rw [he] at hc
    simp only at hc
    have hrest := h.2.2
    rw [hc] at hrest
    exact ih (k + 1) (by simpa using hrest)

/-- The colour invariants of a tree, seen from a subtree: the path to the subtree and the
subtree are balanced for the same black count. -/
theorem balanced_of_fill (p : Path α) : ∀ (t : Tree α), (Path.fill p t).isRed = false →
    (Path.fill p t).NoRedRed → (Path.fill p t).Uniform →
    Path.Balanced p t.blackCount ∧ t.Balanced t.blackCount ∧
      (t.isRed = true → Path.headBlack p) := by
  induction p with
  | nil =>
    intro t h1 h2 h3
    refine ⟨trivial, ⟨h2, h3, rfl⟩, fun h => ?_⟩
    simp only [Path.fill_nil] at h1
    rw [h1] at h
    cases h
  | cons f rest ih =>
    intro t h1 h2 h3
    obtain ⟨hp, hb, hr⟩ := ih (f.fill t) h1 h2 h3
    obtain ⟨hn, hu, _⟩ := hb
    cases f with
    | inL a c v r =>
      simp only [Frame.fill_inL, Tree.NoRedRed, Tree.Uniform, Tree.blackCount,
        isRed_node] at hn hu hp hr
      refine ⟨⟨⟨hn.2.2, hu.2.2, hu.1.symm⟩, fun hc => ⟨(hn.1 hc).2, hr hc⟩, hp⟩,
        ⟨hn.2.1, hu.2.1, rfl⟩, fun ht => ?_⟩
      simp only [Path.headBlack, Frame.color_inL]
      cases c
      · rfl
      · rw [(hn.1 rfl).1] at ht
        cases ht
    | inR a c l v =>
      simp only [Frame.fill_inR, Tree.NoRedRed, Tree.Uniform, Tree.blackCount,
        isRed_node] at hn hu hp hr
      refine ⟨⟨⟨hn.2.1, hu.2.1, hu.1⟩, fun hc => ⟨(hn.1 hc).1, hr hc⟩, ?_⟩,
        ⟨hn.2.2, hu.2.2, rfl⟩, fun ht => ?_⟩
      · rw [← hu.1]; exact hp
      · simp only [Path.headBlack, Frame.color_inR]
        cases c
        · rfl
        · rw [(hn.1 rfl).2] at ht
          cases ht

end DeleteInvariants

end bulumutka

namespace bulumutka

section ErasePieces

variable {α : Type}

set_option maxHeartbeats 1000000 in
/-- The function `change_node` in the heap: the node `a`, which is not in the tree, takes
the place of the node `tgt` with its colour and links; the cell of `tgt` is not written. -/
theorem change_node_sim {h : Heap α} {p : Path α} {tgt a : Nat} {c : Bool} {l r : Tree α}
    {v : α} {m : Node α} (hp : LayPath h (some tgt) p)
    (ht : Lay h (Path.ptr p) (.node tgt c l v r))
    (hn : (a :: (Path.addrs p ++ (Tree.node tgt c l v r).addrs)).Nodup)
    (hr : h.read a = some m) :
    ∃ h', change_node h (some a) (some tgt) = Except.ok h' ∧ LayPath h' (some a) p ∧
      Lay h' (Path.ptr p) (.node a c l m.value r) ∧ h'.length = h.length ∧
      Heap.AgreeOff (a :: (Path.addrs p ++ (Tree.node tgt c l v r).addrs)) h h' ∧
      h'.read tgt = h.read tgt := by
  unfold change_node
  obtain ⟨mv, mp, ml, mr, mc⟩ := m
  rcases p with _ | ⟨⟨b, k, w, x⟩ | ⟨b, k, x, w⟩, p⟩ <;>
  rcases l with _ | ⟨d, cd, dl, vd, dr⟩ <;> rcases r with _ | ⟨e, ce, el, ve, er⟩ <;>
  · simp only [addrs_node, addrs_nil, Path.addrs_empty, Path.addrs_cons, List.nodup_append,
      List.nodup_cons, List.mem_append, List.mem_cons, not_or, List.disjoint_cons_left,
      List.disjoint_cons_right, List.disjoint_append_left, List.disjoint_append_right,
      List.nil_append, List.append_nil, List.disjoint_nil_left, List.disjoint_nil_right,
      List.nodup_nil, List.not_mem_nil, not_false_eq_true, true_and, and_true, Frame.addr_inL,
      Frame.addr_inR, Frame.sibling_inL, Frame.sibling_inR, Lay_node, Lay_nil, LayPath_inL,
      LayPath_inR, LayPath_nil, ptr_node, ptr_nil, Path.ptr_cons, Path.ptr_empty] at hn hp ht
    try casesm* _ ∧ _
    simp only [getParent_some, getRight_some, getLeft_some, getColor_some, getValue_some,
      getParent_none, getRight_none, getLeft_none, getColor_none, getValue_none,
      Option.map_some', ofOption_some, ofOption_none, ok_bind, error_bind, setParent_some,
      setLeft_some, setRight_some, setColor_some, ↓reduceIte, ne_eq, not_true_eq_false,
      not_false_eq_true, run_pure, read_update_self, read_update_ne, reduceCtorEq,
      Option.some.injEq, ptr_eq_some_false, some_eq_ptr_false, Except.ok.injEq,
      exists_eq_left', Lay_node, Lay_nil, LayPath_inL, LayPath_inR, LayPath_nil, Lay_update,
      LayPath_update, length_update, ptr_node, ptr_nil, Path.ptr_cons, Path.ptr_empty,
      Frame.addr_inL, Frame.addr_inR, and_self, and_true, true_and, decide_True, decide_False,
      Bool.true_eq_false, Bool.false_eq_true, decide_eq_true_eq, decide_not, Bool.not_true,
      Bool.not_false, if_true, if_false, Set.mk.injEq, and_assoc, andThen_ok_true,
      andThen_ok_false, orElse_ok_true, orElse_ok_false, Path.rootPtr_nil, Path.rootPtr_cons, nat_eq_false_symm, AgreeOff_update, AgreeOff_refl,
      addrs_node, addrs_nil, Path.addrs_cons, Path.addrs_empty, List.mem_append, List.mem_cons,
      true_or, or_true, Frame.sibling_inL, Frame.sibling_inR, *]

set_option maxHeartbeats 1000000 in
/-- The member `erase_one_child_` at a black node whose only child is red and on the
left: the child takes the place of the node and becomes black. -/
theorem erase_one_child_left_sim (fuel : Nat) (size : Nat) {h : Heap α} {p : Path α}
    {n ch : Nat} {cl cr : Tree α} {v cv : α} (hp : LayPath h (some n) p)
    (ht : Lay h (Path.ptr p) (.node n BLACK (.node ch RED cl cv cr) v .nil))
    (hn : (Path.addrs p ++ (Tree.node n BLACK (.node ch RED cl cv cr) v .nil).addrs).Nodup) :
    ∃ h', erase_one_child_ fuel ⟨h, Path.rootPtr p (some n), size⟩ (some n) =
        Except.ok ⟨h', Path.rootPtr p (some ch), size⟩ ∧
      LayPath h' (some ch) p ∧ Lay h' (Path.ptr p) (.node ch BLACK cl cv cr) ∧
      h'.length = h.length ∧
      Heap.AgreeOff (Path.addrs p ++
        (Tree.node n BLACK (.node ch RED cl cv cr) v .nil).addrs) h h' ∧
      h'.read n = h.read n := by
  unfold erase_one_child_ replace_node_
  rcases p with _ | ⟨⟨b, k, w, x⟩ | ⟨b, k, x, w⟩, p⟩ <;>
  · simp only [addrs_node, addrs_nil, Path.addrs_empty, Path.addrs_cons, List.nodup_append,
      List.nodup_cons, List.mem_append, List.mem_cons, not_or, List.disjoint_cons_left,
      List.disjoint_cons_right, List.disjoint_append_left, List.disjoint_append_right,
      List.nil_append, List.append_nil, List.disjoint_nil_left, List.disjoint_nil_right,
      List.nodup_nil, List.not_mem_nil, not_false_eq_true, true_and, and_true, Frame.addr_inL,
      Frame.addr_inR, Frame.sibling_inL, Frame.sibling_inR, Lay_node, Lay_nil, LayPath_inL,
      LayPath_inR, LayPath_nil, ptr_node, ptr_nil, Path.ptr_cons, Path.ptr_empty] at hn hp ht
    try casesm* _ ∧ _
    simp only [getParent_some, getRight_some, getLeft_some, getColor_some, getValue_some,
      getParent_none, getRight_none, getLeft_none, getColor_none, getValue_none,
      Option.map_some', ofOption_some, ofOption_none, ok_bind, error_bind, setParent_some,
      setLeft_some, setRight_some, setColor_some, ↓reduceIte, ne_eq, not_true_eq_false,
      not_false_eq_true, run_pure, read_update_self, read_update_ne, reduceCtorEq,
      Option.some.injEq, ptr_eq_some_false, some_eq_ptr_false, Except.ok.injEq,
      exists_eq_left', Lay_node, Lay_nil, LayPath_inL, LayPath_inR, LayPath_nil, Lay_update,
      LayPath_update, length_update, ptr_node, ptr_nil, Path.ptr_cons, Path.ptr_empty,
      Frame.addr_inL, Frame.addr_inR, and_self, and_true, true_and, decide_True, decide_False,
      Bool.true_eq_false, Bool.false_eq_true, decide_eq_true_eq, decide_not, Bool.not_true,
      Bool.not_false, if_true, if_false, Set.mk.injEq, and_assoc, andThen_ok_true,
      andThen_ok_false, orElse_ok_true, orElse_ok_false, Path.rootPtr_nil, Path.rootPtr_cons, nat_eq_false_symm, AgreeOff_update, AgreeOff_refl,
      addrs_node, addrs_nil, Path.addrs_cons, Path.addrs_empty, List.mem_append, List.mem_cons,
      true_or, or_true, Frame.sibling_inL, Frame.sibling_inR, *]

set_option maxHeartbeats 1000000 in
/-- The member `erase_one_child_` at a black node whose only child is red and on the
right. -/
theorem erase_one_child_right_sim (fuel : Nat) (size : Nat) {h : Heap α} {p : Path α}
    {n ch : Nat} {cl cr : Tree α} {v cv : α} (hp : LayPath h (some n) p)
    (ht : Lay h (Path.ptr p) (.node n BLACK .nil v (.node ch RED cl cv cr)))
    (hn : (Path.addrs p ++ (Tree.node n BLACK .nil v (.node ch RED cl cv cr)).addrs).Nodup) :
    ∃ h', erase_one_child_ fuel ⟨h, Path.rootPtr p (some n), size⟩ (some n) =
        Except.ok ⟨h', Path.rootPtr p (some ch), size⟩ ∧
      LayPath h' (some ch) p ∧ Lay h' (Path.ptr p) (.node ch BLACK cl cv cr) ∧
      h'.length = h.length ∧
      Heap.AgreeOff (Path.addrs p ++
        (Tree.node n BLACK .nil v (.node ch RED cl cv cr)).addrs) h h' ∧
      h'.read n = h.read n := by
  unfold erase_one_child_ replace_node_
  rcases p with _ | ⟨⟨b, k, w, x⟩ | ⟨b, k, x, w⟩, p⟩ <;>
  · simp only [addrs_node, addrs_nil, Path.addrs_empty, Path.addrs_cons, List.nodup_append,
      List.nodup_cons, List.mem_append, List.mem_cons, not_or, List.disjoint_cons_left,
      List.disjoint_cons_right, List.disjoint_append_left, List.disjoint_append_right,
      List.nil_append, List.append_nil, List.disjoint_nil_left, List.disjoint_nil_right,
      List.nodup_nil, List.not_mem_nil, not_false_eq_true, true_and, and_true, Frame.addr_inL,
      Frame.addr_inR, Frame.sibling_inL, Frame.sibling_inR, Lay_node, Lay_nil, LayPath_inL,
      LayPath_inR, LayPath_nil, ptr_node, ptr_nil, Path.ptr_cons, Path.ptr_empty] at hn hp ht
    try casesm* _ ∧ _
    simp only [getParent_some, getRight_some, getLeft_some, getColor_some, getValue_some,
      getParent_none, getRight_none, getLeft_none, getColor_none, getValue_none,
      Option.map_some', ofOption_some, ofOption_none, ok_bind, error_bind, setParent_some,
      setLeft_some, setRight_some, setColor_some, ↓reduceIte, ne_eq, not_true_eq_false,
      not_false_eq_true, run_pure, read_update_self, read_update_ne, reduceCtorEq,
      Option.some.injEq, ptr_eq_some_false, some_eq_ptr_false, Except.ok.injEq,
      exists_eq_left', Lay_node, Lay_nil, LayPath_inL, LayPath_inR, LayPath_nil, Lay_update,
      LayPath_update, length_update, ptr_node, ptr_nil, Path.ptr_cons, Path.ptr_empty,
      Frame.addr_inL, Frame.addr_inR, and_self, and_true, true_and, decide_True, decide_False,
      Bool.true_eq_false, Bool.false_eq_true, decide_eq_true_eq, decide_not, Bool.not_true,
      Bool.not_false, if_true, if_false, Set.mk.injEq, and_assoc, andThen_ok_true,
      andThen_ok_false, orElse_ok_true, orElse_ok_false, Path.rootPtr_nil, Path.rootPtr_cons, nat_eq_false_symm, AgreeOff_update, AgreeOff_refl,
      addrs_node, addrs_nil, Path.addrs_cons, Path.addrs_empty, List.mem_append, List.mem_cons,
      true_or, or_true, Frame.sibling_inL, Frame.sibling_inR, *]

set_option maxHeartbeats 1000000 in
/-- The end of `erase_no_children_`: after `erase_one_child_` has run, the leaf `n` in the
hole of `p` is taken off its parent. -/
theorem unlink_sim (fuel : Nat) (s : Set α) (size : Nat) {h : Heap α} {p : Path α} {n : Nat}
    {c : Bool} {v : α}
    (he : erase_one_child_ fuel s (some n) = Except.ok ⟨h, Path.rootPtr p (some n), size⟩)
    (hp : LayPath h (some n) p) (ht : Lay h (Path.ptr p) (.node n c .nil v .nil))
    (hn : (Path.addrs p ++ (Tree.node n c .nil v .nil).addrs).Nodup) :
    ∃ h', erase_no_children_ fuel s (some n) = Except.ok ⟨h', Path.rootPtr p none, size⟩ ∧
      LayPath h' none p ∧ h'.length = h.length ∧
      Heap.AgreeOff (Path.addrs p ++ (Tree.node n c .nil v .nil).addrs) h h' ∧
      h'.read n = h.read n := by
  unfold erase_no_children_
  rw [he]
  rcases p with _ | ⟨⟨b, k, w, x⟩ | ⟨b, k, x, w⟩, p⟩ <;>
  · simp only [addrs_node, addrs_nil, Path.addrs_empty, Path.addrs_cons, List.nodup_append,
      List.nodup_cons, List.mem_append, List.mem_cons, not_or, List.disjoint_cons_left,
      List.disjoint_cons_right, List.disjoint_append_left, List.disjoint_append_right,
      List.nil_append, List.append_nil, List.disjoint_nil_left, List.disjoint_nil_right,
      List.nodup_nil, List.not_mem_nil, not_false_eq_true, true_and, and_true, Frame.addr_inL,
      Frame.addr_inR, Frame.sibling_inL, Frame.sibling_inR, Lay_node, Lay_nil, LayPath_inL,
      LayPath_inR, LayPath_nil, ptr_node, ptr_nil, Path.ptr_cons, Path.ptr_empty] at hn hp ht
    try casesm* _ ∧ _
    simp only [getParent_some, getRight_some, getLeft_some, getColor_some, getValue_some,
      getParent_none, getRight_none, getLeft_none, getColor_none, getValue_none,
      Option.map_some', ofOption_some, ofOption_none, ok_bind, error_bind, setParent_some,
      setLeft_some, setRight_some, setColor_some, ↓reduceIte, ne_eq, not_true_eq_false,
      not_false_eq_true, run_pure, read_update_self, read_update_ne, reduceCtorEq,
      Option.some.injEq, ptr_eq_some_false, some_eq_ptr_false, Except.ok.injEq,
      exists_eq_left', Lay_node, Lay_nil, LayPath_inL, LayPath_inR, LayPath_nil, Lay_update,
      LayPath_update, length_update, ptr_node, ptr_nil, Path.ptr_cons, Path.ptr_empty,
      Frame.addr_inL, Frame.addr_inR, and_self, and_true, true_and, decide_True, decide_False,
      Bool.true_eq_false, Bool.false_eq_true, decide_eq_true_eq, decide_not, Bool.not_true,
      Bool.not_false, if_true, if_false, Set.mk.injEq, and_assoc, andThen_ok_true,
      andThen_ok_false, orElse_ok_true, orElse_ok_false, Path.rootPtr_nil, Path.rootPtr_cons, nat_eq_false_symm, AgreeOff_update, AgreeOff_refl,
      addrs_node, addrs_nil, Path.addrs_cons, Path.addrs_empty, List.mem_append, List.mem_cons,
      true_or, or_true, Frame.sibling_inL, Frame.sibling_inR, *]

/-- The member `erase_one_child_` at a leaf: a black leaf starts the deletion fix-up, a
red leaf needs nothing. -/
theorem erase_leaf_sim (fuel : Nat) (size : Nat) {h : Heap α} {p : Path α} {n : Nat}
    {c : Bool} {v : α} (hp : LayPath h (some n) p)
    (ht : Lay h (Path.ptr p) (.node n c .nil v .nil))
    (hn : (Path.addrs p ++ (Tree.node n c .nil v .nil).addrs).Nodup)
    (hok : c = BLACK → ∀ f ∈ p, f.DelOK) (hf : p.length < fuel) :
    ∃ h', erase_one_child_ fuel ⟨h, Path.rootPtr p (some n), size⟩ (some n) =
        Except.ok ⟨h', Path.rootPtr (if c = BLACK then delFix p else p) (some n), size⟩ ∧
      LayPath h' (some n) (if c = BLACK then delFix p else p) ∧
      Lay h' (Path.ptr (if c = BLACK then delFix p else p)) (.node n c .nil v .nil) ∧
      h'.length = h.length ∧
      Heap.AgreeOff (Path.addrs p ++ (Tree.node n c .nil v .nil).addrs) h h' := by
  cases c
  · obtain ⟨h', e, hp', ht', hl', ha'⟩ := delete_1_case_sim fuel p n .nil .nil v h
      (Path.rootPtr p (some n)) size hp ht hn (hok rfl) hf (fun _ => rfl)
    refine ⟨h', ?_, by simpa using hp', by simpa using ht', hl', ha'⟩
    rw [Lay_node] at ht
    simp only [erase_one_child_, getLeft_some, getRight_some, getColor_some, ht.1,
      Option.map_some', ofOption_some, ok_bind, ne_eq, not_true_eq_false, ↓reduceIte, run_pure,
      e]
    rfl
  · refine ⟨h, ?_, by simpa using hp, by simpa using ht, rfl, AgreeOff_refl _ _⟩
    rw [Lay_node] at ht
    simp only [erase_one_child_, getLeft_some, getRight_some, getColor_some, ht.1,
      Option.map_some', ofOption_some, ok_bind, ne_eq, not_true_eq_false, ↓reduceIte, run_pure]
    rfl

end ErasePieces

end bulumutka

namespace bulumutka

section EraseByPointer

variable {α : Type}

theorem read_clear_ne {h : Heap α} {a b : Nat} (hb : b ≠ a) : (h.clear a).read b = h.read b := by
  rw [read_clear, if_neg hb]

theorem read_clear_self (h : Heap α) (a : Nat) : (h.clear a).read a = none := by
  rw [read_clear, if_pos rfl]

theorem LayPath_clear {h : Heap α} {q : Ptr} {p : Path α} {a : Nat}
    (ha : a ∉ Path.addrs p) : LayPath (h.clear a) q p ↔ LayPath h q p := by
  induction p generalizing q with
  | nil => simp
  | cons fr p ih =>
    simp only [Path.addrs_cons, List.mem_cons, List.mem_append, not_or] at ha
    have hb : fr.addr ≠ a := fun e => ha.1 e.symm
    cases fr with
    | inL b c v r =>
      simp only [Frame.addr_inL, Frame.sibling_inL] at ha hb
      simp only [LayPath_inL, read_clear_ne hb, Lay_clear ha.2.1, ih ha.2.2]
    | inR b c l v =>
      simp only [Frame.addr_inR, Frame.sibling_inR] at ha hb
      simp only [LayPath_inR, read_clear_ne hb, Lay_clear ha.2.1, ih ha.2.2]

theorem AgreeOff_clear {S : List Nat} {h h' : Heap α} {a : Nat} (ha : a ∈ S)
    (hf : Heap.AgreeOff S h h') : Heap.AgreeOff S h (h'.clear a) := by
  intro b hb
  have hne : b ≠ a := fun e => hb (e ▸ ha)
  rw [read_clear_ne hne, hf b hb]

theorem free_some {h : Heap α} {a : Nat} {m : Node α} (hr : h.read a = some m) :
    h.free (some a) = Except.ok (h.clear a) := by
  simp [Heap.free, deref, hr, Run.ofOption]

/-- The member `erase_by_pointer_` at a leaf `n` in the hole of `p`: the tree that remains
is the (repaired) path with an empty hole, and the cell of `n` is freed. -/
theorem erase_by_pointer_leaf (fuel depth size : Nat) {h : Heap α} {p : Path α} {n : Nat}
    {c : Bool} {v : α} (hp : LayPath h (some n) p)
    (ht : Lay h (Path.ptr p) (.node n c .nil v .nil))
    (hn : (Path.addrs p ++ (Tree.node n c .nil v .nil).addrs).Nodup)
    (hok : c = BLACK → ∀ f ∈ p, f.DelOK) (hf : p.length < fuel) :
    ∃ h', erase_by_pointer_ fuel (depth + 1) ⟨h, Path.rootPtr p (some n), size⟩ (some n) =
        Except.ok ⟨h', Path.rootPtr (if c = BLACK then delFix p else p) none, size⟩ ∧
      LayPath h' none (if c = BLACK then delFix p else p) ∧
      h'.length = h.length ∧ h'.read n = none ∧
      Heap.AgreeOff (Path.addrs p ++ (Tree.node n c .nil v .nil).addrs) h h' := by
  obtain ⟨h1, e1, hp1, ht1, hl1, ha1⟩ := erase_leaf_sim fuel size hp ht hn hok hf
  have hperm : (Path.addrs (if c = BLACK then delFix p else p) ++
      (Tree.node n c .nil v .nil).addrs).Perm
      (Path.addrs p ++ (Tree.node n c .nil v .nil).addrs) := by
    split
    · exact (addrs_delFix_perm p).append_right _
    · exact List.Perm.refl _
  have hn1 := hperm.nodup_iff.2 hn
  obtain ⟨h2, e2, hp2, hl2, ha2, hr2⟩ := unlink_sim fuel _ size e1 hp1 ht1 hn1
  have hnot : n ∉ Path.addrs (if c = BLACK then delFix p else p) := by
    intro hin
    rw [List.nodup_append] at hn1
    exact hn1.2.2 hin (by simp)
  rw [Lay_node] at ht ht1
  refine ⟨h2.clear n, ?_, (LayPath_clear hnot).2 hp2, by rw [length_clear, hl2, hl1],
    read_clear_self _ _, ?_⟩
  · have hfree : h2.free (some n) = Except.ok (h2.clear n) :=
      free_some (hr2.trans ht1.1)
    simp only [erase_by_pointer_, getLeft_some, getRight_some, ht.1, Option.map_some',
      ofOption_some, ok_bind, and_self, ↓reduceIte, e2, hfree, run_pure, ptr_nil]
  · exact AgreeOff_clear (by simp) (AgreeOff_trans ha1 (AgreeOff_of_perm ha2 hperm))

theorem not_mem_of_nodup_mid {l A B : List Nat} {n : Nat}
    (h : (l ++ (A ++ n :: B)).Nodup) : n ∉ l ∧ n ∉ A ∧ n ∉ B := by
  rw [List.nodup_iff_count_le_one] at h
  have := h n
  simp only [List.count_append, List.count_cons_self] at this
  refine ⟨?_, ?_, ?_⟩ <;>
  · rw [← List.count_eq_zero]
    omega

/-- The member `erase_by_pointer_` at a black node whose only child is red and on the
left: the child, now black, takes the place of the node, whose cell is freed. -/
theorem erase_by_pointer_one_left (fuel depth size : Nat) {h : Heap α} {p : Path α}
    {n ch : Nat} {cl cr : Tree α} {v cv : α} (hp : LayPath h (some n) p)
    (ht : Lay h (Path.ptr p) (.node n BLACK (.node ch RED cl cv cr) v .nil))
    (hn : (Path.addrs p ++ (Tree.node n BLACK (.node ch RED cl cv cr) v .nil).addrs).Nodup) :
    ∃ h', erase_by_pointer_ fuel (depth + 1) ⟨h, Path.rootPtr p (some n), size⟩ (some n) =
        Except.ok ⟨h', Path.rootPtr p (some ch), size⟩ ∧
      LayPath h' (some ch) p ∧ Lay h' (Path.ptr p) (.node ch BLACK cl cv cr) ∧
      h'.length = h.length ∧ h'.read n = none ∧
      Heap.AgreeOff (Path.addrs p ++
        (Tree.node n BLACK (.node ch RED cl cv cr) v .nil).addrs) h h' := by
  obtain ⟨h1, e1, hp1, ht1, hl1, ha1, hr1⟩ := erase_one_child_left_sim fuel size hp ht hn
  obtain ⟨hnp, hnc, _⟩ := not_mem_of_nodup_mid
    (A := (Tree.node ch BLACK cl cv cr).addrs) (B := []) (by simpa using hn)
  rw [Lay_node] at ht
  have hfree : h1.free (some n) = Except.ok (h1.clear n) := free_some (hr1.trans ht.1)
  refine ⟨h1.clear n, ?_, (LayPath_clear hnp).2 hp1, (Lay_clear hnc).2 ht1,
    by rw [length_clear, hl1], read_clear_self _ _, AgreeOff_clear (by simp) ha1⟩
  simp only [erase_by_pointer_, getLeft_some, getRight_some, ht.1, Option.map_some',
    ofOption_some, ok_bind, ptr_node, ptr_nil, reduceCtorEq, false_and, and_false, ne_eq,
    not_true_eq_false, not_false_eq_true, ↓reduceIte, e1, hfree, run_pure]

/-- The member `erase_by_pointer_` at a black node whose only child is red and on the
right. -/
theorem erase_by_pointer_one_right (fuel depth size : Nat) {h : Heap α} {p : Path α}
    {n ch : Nat} {cl cr : Tree α} {v cv : α} (hp : LayPath h (some n) p)
    (ht : Lay h (Path.ptr p) (.node n BLACK .nil v (.node ch RED cl cv cr)))
    (hn : (Path.addrs p ++ (Tree.node n BLACK .nil v (.node ch RED cl cv cr)).addrs).Nodup) :
    ∃ h', erase_by_pointer_ fuel (depth + 1) ⟨h, Path.rootPtr p (some n), size⟩ (some n) =
        Except.ok ⟨h', Path.rootPtr p (some ch), size⟩ ∧
      LayPath h' (some ch) p ∧ Lay h' (Path.ptr p) (.node ch BLACK cl cv cr) ∧
      h'.length = h.length ∧ h'.read n = none ∧
      Heap.AgreeOff (Path.addrs p ++
        (Tree.node n BLACK .nil v (.node ch RED cl cv cr)).addrs) h h' := by
  obtain ⟨h1, e1, hp1, ht1, hl1, ha1, hr1⟩ := erase_one_child_right_sim fuel size hp ht hn
  obtain ⟨hnp, _, hnc⟩ := not_mem_of_nodup_mid
    (A := []) (B := (Tree.node ch BLACK cl cv cr).addrs) (by simpa using hn)
  rw [Lay_node] at ht
  have hfree : h1.free (some n) = Except.ok (h1.clear n) := free_some (hr1.trans ht.1)
  refine ⟨h1.clear n, ?_, (LayPath_clear hnp).2 hp1, (Lay_clear hnc).2 ht1,
    by rw [length_clear, hl1], read_clear_self _ _, AgreeOff_clear (by simp) ha1⟩
  simp only [erase_by_pointer_, getLeft_some, getRight_some, ht.1, Option.map_some',
    ofOption_some, ok_bind, ptr_node, ptr_nil, reduceCtorEq, false_and, and_false, ne_eq,
    not_true_eq_false, not_false_eq_true, ↓reduceIte, e1, hfree, run_pure]

end EraseByPointer

end bulumutka

namespace bulumutka

section EraseTwo

variable {α : Type}

theorem Path.addrs_append (q p : Path α) :
    Path.addrs (q ++ p) = Path.addrs q ++ Path.addrs p := by
  induction q with
  | nil => rfl
  | cons f q ih => simp [ih]

theorem rootPtr_append (q : Path α) (f : Frame α) (p : Path α) (x : Ptr) :
    Path.rootPtr (q ++ f :: p) x = Path.rootPtr p (some f.addr) := by
  induction q generalizing x with
  | nil => rfl
  | cons g q ih => simp [ih]

theorem erase_by_pointer_succ (fuel depth : Nat) (s : Set α) (node : Ptr) :
    erase_by_pointer_ fuel (depth + 1) s node = (do
      let nl ← getLeft s.heap node
      let nr ← getRight s.heap node
      let s ← if nl = none ∧ nr = none then erase_no_children_ fuel s node
        else if nl ≠ none ∧ nr ≠ none then
          erase_two_children_ fuel (erase_by_pointer_ fuel depth) s node
        else erase_one_child_ fuel s node
      pure { s with heap := (← s.heap.free node) }) := rfl

theorem rootPtr_some (q : Path α) (a : Nat) : ∃ b, Path.rootPtr q (some a) = some b := by
  induction q generalizing a with
  | nil => exact ⟨a, rfl⟩
  | cons g q ih => exact ih g.addr

theorem ptr_append_cons (q : Path α) (f : Frame α) (p : Path α) :
    ∃ a, Path.ptr (q ++ f :: p) = some a := by
  cases q with
  | nil => exact ⟨_, rfl⟩
  | cons g q => exact ⟨_, rfl⟩

/-- The member `erase_by_pointer_` at a node `n` with two children.  The in-order
predecessor `pr`, at the end of the path `q` in the left subtree, is given a proxy `tmp`
in a fresh cell; `pr` takes the place of `n`, the proxy is erased by the nested call, and
the cells of the proxy and of `n` are freed. -/
theorem erase_by_pointer_two (fuel depth size : Nat) {h : Heap α} {p q : Path α} {n pr : Nat}
    {c cp : Bool} {PL R : Tree α} {v pv : α} (T : Tree α)
    (hl : Lay h none (Path.fill (q ++ Frame.inL n c v R :: p) (.node pr cp PL pv .nil)))
    (hnd : (Path.fill (q ++ Frame.inL n c v R :: p) (.node pr cp PL pv .nil)).addrs.Nodup)
    (hprev : previous fuel h (some n) = Except.ok (some pr)) (hR : R ≠ .nil)
    (hinner : ∀ h3 : Heap α,
      LayPath h3 (some h.length) (q ++ Frame.inL pr c pv R :: p) →
      Lay h3 (Path.ptr (q ++ Frame.inL pr c pv R :: p)) (.node h.length cp PL pv .nil) →
      (Path.addrs (q ++ Frame.inL pr c pv R :: p) ++
        (Tree.node h.length cp PL pv .nil).addrs).Nodup →
      ∃ h4, erase_by_pointer_ fuel (depth + 1)
          ⟨h3, Path.rootPtr (q ++ Frame.inL pr c pv R :: p) (some h.length), size⟩
          (some h.length) = Except.ok ⟨h4, T.ptr, size⟩ ∧
        Lay h4 none T ∧ h4.length = h3.length ∧ h4.read h.length = none ∧
        Heap.AgreeOff (Path.addrs (q ++ Frame.inL pr c pv R :: p) ++
          (Tree.node h.length cp PL pv .nil).addrs) h3 h4 ∧
        ∀ a ∈ T.addrs, a ∈ Path.addrs (q ++ Frame.inL pr c pv R :: p) ++ PL.addrs) :
    ∃ h', erase_by_pointer_ fuel (depth + 2) ⟨h, Path.rootPtr p (some n), size⟩ (some n) =
        Except.ok ⟨h', T.ptr, size⟩ ∧
      Lay h' none T ∧ h'.length = h.length + 1 ∧ h'.read n = none ∧
      h'.read h.length = none ∧
      Heap.AgreeOff (h.length ::
        (Path.fill (q ++ Frame.inL n c v R :: p) (.node pr cp PL pv .nil)).addrs) h h' := by
  -- the layout seen from the predecessor and from the node
  have hzip := Lay_fill.1 hl
  simp only [ptr_node] at hzip
  obtain ⟨hp0, ht0⟩ := hzip
  have hperm0 := addrs_fill_perm (q ++ Frame.inL n c v R :: p) (Tree.node pr cp PL pv .nil)
  have hn0 := hperm0.nodup_iff.1 hnd
  have hfresh : ∀ a, a ∈ Path.addrs (q ++ Frame.inL n c v R :: p) ++
      (Tree.node pr cp PL pv .nil).addrs → a ≠ h.length := by
    intro a ha e
    have := hl.lt_length (hperm0.mem_iff.2 ha)
    omega
  obtain ⟨m, hm, hmv⟩ : ∃ m, h.read pr = some m ∧ m.value = pv := by
    rw [Lay_node] at ht0
    exact ⟨_, ht0.1, rfl⟩
  -- the proxy takes the place of the predecessor
  have hp1 := LayPath_append m hp0
  have ht1 := Lay_append m ht0
  have hn1 : (h.length :: (Path.addrs (q ++ Frame.inL n c v R :: p) ++
      (Tree.node pr cp PL pv .nil).addrs)).Nodup := by
    rw [List.nodup_cons]
    exact ⟨fun hin => hfresh _ hin rfl, hn0⟩
  obtain ⟨h2, e2, hp2, ht2, hl2, ha2, hr2⟩ :=
    change_node_sim hp1 ht1 hn1 (read_append_self h m)
  rw [hmv] at ht2
  -- the predecessor takes the place of the node
  have hl2' : Lay h2 none (Path.fill p (.node n c
      (Path.fill q (.node h.length cp PL pv .nil)) v R)) := by
    have := Lay_fill.2 ⟨hp2, ht2⟩
    rwa [fill_append] at this
  obtain ⟨hp2', ht2'⟩ := Lay_fill.1 hl2'
  simp only [ptr_node] at hp2'
  have hperm2 : (pr :: (Path.addrs p ++ (Tree.node n c
      (Path.fill q (.node h.length cp PL pv .nil)) v R).addrs)).Perm
      (h.length :: (Path.addrs (q ++ Frame.inL n c v R :: p) ++
      (Tree.node pr cp PL pv .nil).addrs)) := by
    have h1 := addrs_fill_perm q (Tree.node h.length cp PL pv .nil)
    rw [List.perm_iff_count] at h1 ⊢
    intro x
    have := h1 x
    simp only [addrs_node, addrs_nil, Path.addrs_append, Path.addrs_cons, Frame.addr_inL,
      Frame.sibling_inL, List.count_append, List.count_cons, List.count_nil] at this ⊢
    omega
  have hr2' : h2.read pr = some m := by
    rw [hr2]
    exact (read_append_lt m (read_lt hm)).trans hm
  obtain ⟨h3, e3, hp3, ht3, hl3, ha3, hr3⟩ :=
    change_node_sim hp2' ht2' (hperm2.nodup_iff.2 hn1) hr2'
  rw [hmv] at ht3
  -- the nested call erases the proxy
  have hl3' : Lay h3 none (Path.fill (q ++ Frame.inL pr c pv R :: p)
      (.node h.length cp PL pv .nil)) := by
    rw [fill_append]
    simp only [Path.fill_cons, Frame.fill_inL]
    exact Lay_fill.2 ⟨hp3, ht3⟩
  obtain ⟨hp3', ht3'⟩ := Lay_fill.1 hl3'
  simp only [ptr_node] at hp3'
  have hperm3 : (n :: (Path.addrs (q ++ Frame.inL pr c pv R :: p) ++
      (Tree.node h.length cp PL pv .nil).addrs)).Perm
      (h.length :: (Path.addrs (q ++ Frame.inL n c v R :: p) ++
      (Tree.node pr cp PL pv .nil).addrs)) := by
    rw [List.perm_iff_count]
    intro x
    simp only [addrs_node, addrs_nil, Path.addrs_append, Path.addrs_cons, Frame.addr_inL,
      Frame.sibling_inL, List.count_append, List.count_cons, List.count_nil]
    omega
  have hn3 := hperm3.nodup_iff.2 hn1
  rw [List.nodup_cons] at hn3
  obtain ⟨h4, e4, hl4, hlen4, hr4, ha4, hsub⟩ := hinner h3 hp3' ht3' hn3.2
  -- the cell of the node is still there to be freed
  have hrn2 : ∃ mn, h2.read n = some mn := by
    rw [Lay_node] at ht2'
    exact ⟨_, ht2'.1⟩
  obtain ⟨mn, hmn⟩ := hrn2
  have hrn4 : h4.read n = some mn := by
    rw [ha4 n hn3.1, hr3, hmn]
  have hnT : n ∉ T.addrs := by
    intro hin
    have := hsub n hin
    apply hn3.1
    simp only [List.mem_append, addrs_node, addrs_nil, List.mem_cons] at this ⊢
    tauto
  have hfree : h4.free (some n) = Except.ok (h4.clear n) := free_some hrn4
  have hne : n ≠ h.length := by
    intro e
    exact hfresh n (by simp [Path.addrs_append]) e
  refine ⟨h4.clear n, ?_, (Lay_clear hnT).2 hl4, ?_, read_clear_self _ _, ?_, ?_⟩
  · -- the run of the code
    obtain ⟨a0, ha0⟩ := ptr_append_cons q (Frame.inL n c v R) p
    have hLptr : (Path.fill q (Tree.node pr cp PL pv .nil)).ptr ≠ none := by
      rw [ptr_fill, ptr_node]
      obtain ⟨b, hb⟩ := rootPtr_some q pr
      rw [hb]
      simp
    have hRptr : R.ptr ≠ none := fun e => hR (ptr_eq_none.1 e)
    have hroot : Path.rootPtr (q ++ Frame.inL pr c pv R :: p) (some h.length) =
        Path.rootPtr p (some pr) := rootPtr_append _ _ _ _
    have hcell : ∃ mx, h.read n = some mx ∧ mx.left = (Path.fill q
        (Tree.node pr cp PL pv .nil)).ptr ∧ mx.right = R.ptr := by
      rw [fill_append] at hl
      have hl0 : Lay h none (Path.fill p (Tree.node n c
          (Path.fill q (Tree.node pr cp PL pv .nil)) v R)) := hl
      have := (Lay_fill.1 hl0).2
      rw [Lay_node] at this
      exact ⟨_, this.1, rfl, rfl⟩
    obtain ⟨mx, hmx, hmxl, hmxr⟩ := hcell
    have hpar : ∃ m3, h3.read pr = some m3 ∧ m3.parent = Path.ptr p := by
      rw [Lay_node] at ht3
      exact ⟨_, ht3.1, rfl⟩
    obtain ⟨m3, hm3, hm3p⟩ := hpar
    rw [hroot] at e4
    rw [erase_by_pointer_succ]
    simp only [erase_two_children_, getLeft_some, getRight_some, hmx,
      Option.map_some', ofOption_some, ok_bind, hmxl, hmxr, hLptr, hRptr, false_and, and_false,
      ne_eq, not_false_eq_true, and_self, ↓reduceIte, hprev, deref_some, hm, Heap.alloc, e2, e3,
      getParent_some, hm3, hm3p, run_pure]
    cases p with
    | nil =>
      simp only [Path.ptr_empty, ↓reduceIte, Path.rootPtr_nil] at e4 ⊢
      simp only [e4, ok_bind, hfree, run_pure]
    | cons g p =>
      simp only [Path.ptr_cons, reduceCtorEq, ↓reduceIte, Path.rootPtr_cons] at e4 ⊢
      simp only [e4, ok_bind, hfree, run_pure]
  · rw [length_clear, hlen4, hl3, hl2]
    simp
  · rw [read_clear_ne hne.symm]
    exact hr4
  · -- the frame
    have hS : ∀ a, a ∈ h.length :: (Path.addrs (q ++ Frame.inL n c v R :: p) ++
        (Tree.node pr cp PL pv .nil).addrs) →
        a ∈ h.length :: (Path.fill (q ++ Frame.inL n c v R :: p)
          (.node pr cp PL pv .nil)).addrs := by
      intro a ha
      rcases List.mem_cons.1 ha with rfl | ha
      · exact List.mem_cons_self _ _
      · exact List.mem_cons_of_mem _ (hperm0.mem_iff.2 ha)
    have hA1 : Heap.AgreeOff (h.length :: (Path.addrs (q ++ Frame.inL n c v R :: p) ++
        (Tree.node pr cp PL pv .nil).addrs)) h (h ++ [some m]) := by
      intro b hb
      have hne : b ≠ h.length := fun e => hb (by rw [e]; exact List.mem_cons_self _ _)
      rw [read_append_single, if_neg hne]
    refine AgreeOff_mono ?_ hS
    refine AgreeOff_clear (by simp [Path.addrs_append]) ?_
    refine AgreeOff_trans (AgreeOff_trans hA1 ha2) ?_
    refine AgreeOff_trans (AgreeOff_of_perm ha3 hperm2) ?_
    refine AgreeOff_mono ha4 ?_
    intro a ha
    exact hperm3.mem_iff.1 (List.mem_cons_of_mem _ ha)

end EraseTwo

end bulumutka

namespace bulumutka

section EraseFunctional

variable {α : Type}

theorem before_append (q p : Path α) :
    Path.before (q ++ p) = Path.before p ++ Path.before q := by
  induction q with
  | nil => simp [Path.before]
  | cons f q ih => cases f <;> simp [Path.before, ih]

theorem after_append (q p : Path α) :
    Path.after (q ++ p) = Path.after q ++ Path.after p := by
  induction q with
  | nil => simp [Path.after]
  | cons f q ih => cases f <;> simp [Path.after, ih]

/-- The last node in in-order is reached by a path of right links and has no right
child. -/
theorem maxZip_spec (t : Tree α) : ∀ (q0 : Path α), t ≠ .nil →
    ∃ q pr cp PL pv, t.maxZip q0 = (q ++ q0, .node pr cp PL pv .nil) ∧
      Path.fill q (.node pr cp PL pv .nil) = t ∧ Path.after q = [] ∧
      q.length + 1 ≤ t.height := by
  induction t with
  | nil => intro q0 h; exact absurd rfl h
  | node a c l v r _ ihr =>
    intro q0 _
    rcases r with _ | ⟨b, cb, bl, vb, br⟩
    · exact ⟨[], a, c, l, v, rfl, rfl, rfl, by simp [Tree.height]⟩
    · obtain ⟨q, pr, cp, PL, pv, e1, e2, e3, e4⟩ := ihr (Frame.inR a c l v :: q0) (by simp)
      refine ⟨q ++ [Frame.inR a c l v], pr, cp, PL, pv, ?_, ?_, ?_, ?_⟩
      · simp only [Tree.maxZip, e1, List.append_assoc, List.singleton_append]
      · rw [fill_append, e2]; rfl
      · rw [after_append, e3]; rfl
      · simp only [List.length_append, List.length_singleton, Tree.height] at e4 ⊢
        omega

theorem headBlack_swap (q : Path α) (f g : Frame α) (p : Path α) (hc : f.color = g.color) :
    Path.headBlack (q ++ f :: p) ↔ Path.headBlack (q ++ g :: p) := by
  cases q with
  | nil => simp [Path.headBlack, hc]
  | cons x q => rfl

/-- The balance of a path does not depend on the address and value of a frame. -/
theorem balanced_swap (q : Path α) (f g : Frame α) (p : Path α) (hc : f.color = g.color)
    (hs : f.sibling = g.sibling) : ∀ k,
    Path.Balanced (q ++ f :: p) k → Path.Balanced (q ++ g :: p) k := by
  induction q with
  | nil =>
    intro k h
    obtain ⟨h1, h2, h3⟩ := h
    exact ⟨hs ▸ h1, fun hx => hs ▸ h2 (hc ▸ hx), hc ▸ h3⟩
  | cons x q ih =>
    intro k h
    obtain ⟨h1, h2, h3⟩ := h
    exact ⟨h1, fun hx => ⟨(h2 hx).1, (headBlack_swap q f g p hc).1 (h2 hx).2⟩, ih _ h3⟩

theorem DelOK_swap {f g : Frame α} (hs : f.sibling = g.sibling)
    (hd : (∃ a c v r, f = .inL a c v r) ↔ (∃ a c v r, g = .inL a c v r)) (h : f.DelOK) :
    g.DelOK := by
  rcases f with ⟨a, c, v, r⟩ | ⟨a, c, l, v⟩ <;> rcases g with ⟨a', c', v', r'⟩ | ⟨a', c', l', v'⟩
  · simp only [Frame.sibling_inL] at hs
    subst hs
    cases r <;> exact h
  · exact absurd (hd.1 ⟨a, c, v, r, rfl⟩) (by simp)
  · exact absurd (hd.2 ⟨a', c', v', r', rfl⟩) (by simp)
  · simp only [Frame.sibling_inR] at hs
    subst hs
    cases l <;> exact h

/-- A balanced node without right child has no left child either, or it is black and
its left child is red. -/
theorem shape_no_right {n : Nat} {c : Bool} {l : Tree α} {v : α} {k : Nat}
    (h : (Tree.node n c l v .nil).Balanced k) :
    l = .nil ∨ (c = BLACK ∧ ∃ ch cl cv cr, l = .node ch RED cl cv cr) := by
  obtain ⟨h1, h2, _⟩ := h
  simp only [Tree.NoRedRed, Tree.Uniform, Tree.blackCount] at h1 h2
  rcases l with _ | ⟨ch, cc, cl, cv, cr⟩
  · exact Or.inl rfl
  · right
    have hcc : cc = RED := by
      cases cc
      · have := h2.1
        simp [Tree.blackCount] at this
      · rfl
    subst hcc
    refine ⟨?_, ch, cl, cv, cr, rfl⟩
    cases c
    · rfl
    · have := (h1.1 rfl).1
      simp at this

/-- The mirror image of `shape_no_right`. -/
theorem shape_no_left {n : Nat} {c : Bool} {r : Tree α} {v : α} {k : Nat}
    (h : (Tree.node n c .nil v r).Balanced k) :
    r = .nil ∨ (c = BLACK ∧ ∃ ch cl cv cr, r = .node ch RED cl cv cr) := by
  obtain ⟨h1, h2, _⟩ := h
  simp only [Tree.NoRedRed, Tree.Uniform, Tree.blackCount] at h1 h2
  rcases r with _ | ⟨ch, cc, cl, cv, cr⟩
  · exact Or.inl rfl
  · right
    have hcc : cc = RED := by
      cases cc
      · have := h2.1
        simp [Tree.blackCount] at this
      · rfl
    subst hcc
    refine ⟨?_, ch, cl, cv, cr, rfl⟩
    cases c
    · rfl
    · have := (h1.1 rfl).2
      simp at this

theorem nil_Balanced : (Tree.nil : Tree α).Balanced 0 := ⟨trivial, trivial, rfl⟩

theorem eraseSimple_leaf (p : Path α) (n : Nat) (c : Bool) (v : α) :
    eraseSimple p (.node n c .nil v .nil) =
      Path.fill (if c = BLACK then delFix p else p) .nil := rfl

theorem eraseSimple_left (p : Path α) (n ch : Nat) (c cc : Bool) (cl cr : Tree α) (v cv : α) :
    eraseSimple p (.node n c (.node ch cc cl cv cr) v .nil) =
      Path.fill p (.node ch BLACK cl cv cr) := rfl

theorem eraseSimple_right (p : Path α) (n ch : Nat) (c cc : Bool) (cl cr : Tree α) (v cv : α) :
    eraseSimple p (.node n c .nil v (.node ch cc cl cv cr)) =
      Path.fill p (.node ch BLACK cl cv cr) := rfl

/-- Erasing a node with at most one child keeps the colour invariants. -/
theorem eraseSimple_colors (p : Path α) {n : Nat} {c : Bool} {l r : Tree α} {v : α}
    (hlr : l = .nil ∨ r = .nil)
    (hp : Path.Balanced p (Tree.node n c l v r).blackCount)
    (hb : (Tree.node n c l v r).Balanced (Tree.node n c l v r).blackCount) :
    (eraseSimple p (.node n c l v r)).isRed = false ∧
      (eraseSimple p (.node n c l v r)).NoRedRed ∧ (eraseSimple p (.node n c l v r)).Uniform := by
  have hleaf : ∀ (c : Bool), Path.Balanced p (Tree.node n c .nil v .nil).blackCount →
      (eraseSimple p (.node n c .nil v .nil)).isRed = false ∧
      (eraseSimple p (.node n c .nil v .nil)).NoRedRed ∧
      (eraseSimple p (.node n c .nil v .nil)).Uniform := by
    intro c hp
    rw [eraseSimple_leaf]
    cases c
    · have hp1 : Path.Balanced p (0 + 1) := hp
      exact fill_balanced _ _ 0 (by simpa using delFix_balanced p 0 hp1) nil_Balanced
        (fun hx => by simp at hx)
    · have hp0 : Path.Balanced p 0 := hp
      exact fill_balanced _ _ 0 (by simpa using hp0) nil_Balanced (fun hx => by simp at hx)
  have hchild : ∀ (ch : Nat) (cl cr : Tree α) (cv : α),
      (Tree.node ch RED cl cv cr).Balanced 0 → Path.Balanced p 1 →
      (Path.fill p (.node ch BLACK cl cv cr)).isRed = false ∧
      (Path.fill p (.node ch BLACK cl cv cr)).NoRedRed ∧
      (Path.fill p (.node ch BLACK cl cv cr)).Uniform := by
    intro ch cl cr cv hc hp1
    have := Balanced_paint_black hc rfl
    exact fill_balanced p _ 1 hp1 this (fun hx => by simp at hx)
  rcases hlr with rfl | rfl
  · rcases shape_no_left hb with rfl | ⟨rfl, ch, cl, cv, cr, rfl⟩
    · exact hleaf c hp
    · rw [eraseSimple_right]
      have hb' := (Balanced_node (c := BLACK) (n := 0)).1 hb
      exact hchild ch cl cr cv hb'.2.1 hp
  · rcases shape_no_right hb with rfl | ⟨rfl, ch, cl, cv, cr, rfl⟩
    · exact hleaf c hp
    · rw [eraseSimple_left]
      have hp1 : Path.Balanced p 1 := by
        have e : (Tree.node n BLACK (Tree.node ch RED cl cv cr) v .nil).blackCount =
            cl.blackCount + 1 := by simp [Tree.blackCount]
        have e0 : cl.blackCount = 0 := by
          have := hb.2.1.1
          simpa [Tree.blackCount] using this
        rw [e, e0] at hp
        exact hp
      have hb' : (Tree.node ch RED cl cv cr).Balanced 0 := by
        obtain ⟨h1, h2, _⟩ := hb
        rw [Tree.NoRedRed] at h1
        rw [Tree.Uniform] at h2
        refine ⟨h1.2.1, h2.2.1, ?_⟩
        have := h2.1
        simpa [Tree.blackCount] using this
      exact hchild ch cl cr cv hb' hp1

/-- Erasing a node with at most one child takes exactly that node out of the in-order
sequence. -/
theorem eraseSimple_cells (p : Path α) {n : Nat} {c : Bool} {l r : Tree α} {v : α}
    (hlr : l = .nil ∨ r = .nil) :
    (eraseSimple p (.node n c l v r)).cells =
      Path.before p ++ l.cells ++ r.cells ++ Path.after p := by
  rcases l with _ | ⟨ch, cc, cl, cv, cr⟩ <;> rcases r with _ | ⟨d, cd, dl, dv, dr⟩
  · rw [eraseSimple_leaf, cells_fill]
    split
    · simp [before_delFix, after_delFix]
    · simp
  · rw [eraseSimple_right, cells_fill]
    simp
  · rw [eraseSimple_left, cells_fill]
    simp
  · rcases hlr with h | h <;> cases h

theorem eraseZip_two (p : Path α) {n a b : Nat} {c ca cb : Bool} {al ar bl br : Tree α}
    {v av vb : α} {q : Path α} {pr : Nat} {cp : Bool} {PL : Tree α} {pv : α}
    (e : (Tree.node a ca al av ar).maxZip [] = (q, .node pr cp PL pv .nil)) :
    eraseZip p (.node n c (.node a ca al av ar) v (.node b cb bl vb br)) =
      eraseSimple (q ++ Frame.inL pr c pv (.node b cb bl vb br) :: p)
        (.node pr cp PL pv .nil) := by
  simp only [eraseZip, e]

theorem eraseZip_simple (p : Path α) {n : Nat} {c : Bool} {l r : Tree α} {v : α}
    (hlr : l = .nil ∨ r = .nil) :
    eraseZip p (.node n c l v r) = eraseSimple p (.node n c l v r) := by
  rcases l with _ | ⟨a, ca, al, av, ar⟩ <;> rcases r with _ | ⟨b, cb, bl, vb, br⟩
  · rfl
  · rfl
  · rfl
  · rcases hlr with h | h <;> cases h

/-- Erasing a node of a tree with the colour invariants gives a tree with the colour
invariants. -/
theorem eraseZip_colors (p : Path α) (n : Nat) (c : Bool) (l r : Tree α) (v : α)
    (h1 : (Path.fill p (.node n c l v r)).isRed = false)
    (h2 : (Path.fill p (.node n c l v r)).NoRedRed)
    (h3 : (Path.fill p (.node n c l v r)).Uniform) :
    (eraseZip p (.node n c l v r)).isRed = false ∧ (eraseZip p (.node n c l v r)).NoRedRed ∧
      (eraseZip p (.node n c l v r)).Uniform := by
  by_cases hlr : l = .nil ∨ r = .nil
  · rw [eraseZip_simple p hlr]
    obtain ⟨hp, hb, _⟩ := balanced_of_fill p _ h1 h2 h3
    exact eraseSimple_colors p hlr hp hb
  · rcases l with _ | ⟨a, ca, al, av, ar⟩
    · exact absurd (Or.inl rfl) hlr
    rcases r with _ | ⟨b, cb, bl, vb, br⟩
    · exact absurd (Or.inr rfl) hlr
    obtain ⟨q, pr, cp, PL, pv, e1, e2, _, _⟩ := maxZip_spec (Tree.node a ca al av ar) [] (by simp)
    rw [List.append_nil] at e1
    rw [eraseZip_two p e1]
    have hfill : Path.fill p (.node n c (.node a ca al av ar) v (.node b cb bl vb br)) =
        Path.fill (q ++ Frame.inL n c v (.node b cb bl vb br) :: p) (.node pr cp PL pv .nil) := by
      rw [fill_append, e2]; rfl
    rw [hfill] at h1 h2 h3
    obtain ⟨hp, hb, _⟩ := balanced_of_fill _ _ h1 h2 h3
    exact eraseSimple_colors _ (Or.inr rfl)
      (balanced_swap q (Frame.inL n c v (.node b cb bl vb br))
        (Frame.inL pr c pv (.node b cb bl vb br)) p rfl rfl _ hp) hb

/-- Erasing a node takes exactly that node out of the in-order sequence of the nodes. -/
theorem eraseZip_cells (p : Path α) (n : Nat) (c : Bool) (l r : Tree α) (v : α) :
    (eraseZip p (.node n c l v r)).cells =
      Path.before p ++ l.cells ++ r.cells ++ Path.after p := by
  by_cases hlr : l = .nil ∨ r = .nil
  · rw [eraseZip_simple p hlr]
    exact eraseSimple_cells p hlr
  · rcases l with _ | ⟨a, ca, al, av, ar⟩
    · exact absurd (Or.inl rfl) hlr
    rcases r with _ | ⟨b, cb, bl, vb, br⟩
    · exact absurd (Or.inr rfl) hlr
    obtain ⟨q, pr, cp, PL, pv, e1, e2, e3, _⟩ :=
      maxZip_spec (Tree.node a ca al av ar) [] (by simp)
    rw [List.append_nil] at e1
    rw [eraseZip_two p e1, eraseSimple_cells _ (Or.inr rfl), ← e2, cells_fill, before_append,
      after_append, e3]
    simp [Path.before, Path.after]

end EraseFunctional

end bulumutka

namespace bulumutka

section EraseSim

variable {α : Type}

theorem blackCount_leaf_black (n : Nat) (v : α) :
    (Tree.node n BLACK .nil v .nil).blackCount = 0 + 1 := rfl

theorem height_node_pos (n : Nat) (c : Bool) (l r : Tree α) (v : α) :
    1 ≤ (Tree.node n c l v r).height := by
  simp [Tree.height]

/-- The inner part of `erase_by_pointer_`: the node has at most one child. -/
theorem erase_simple_sim (fuel depth size : Nat) {h : Heap α} {p : Path α} {n : Nat}
    {c : Bool} {l r : Tree α} {v : α} (hlr : l = .nil ∨ r = .nil)
    (hp : LayPath h (some n) p) (ht : Lay h (Path.ptr p) (.node n c l v r))
    (hn : (Path.addrs p ++ (Tree.node n c l v r).addrs).Nodup)
    (hpb : Path.Balanced p (Tree.node n c l v r).blackCount)
    (hb : (Tree.node n c l v r).Balanced (Tree.node n c l v r).blackCount)
    (hf : p.length < fuel) :
    ∃ h', erase_by_pointer_ fuel (depth + 1) ⟨h, Path.rootPtr p (some n), size⟩ (some n) =
        Except.ok ⟨h', (eraseSimple p (.node n c l v r)).ptr, size⟩ ∧
      Lay h' none (eraseSimple p (.node n c l v r)) ∧ h'.length = h.length ∧
      h'.read n = none ∧
      Heap.AgreeOff (Path.addrs p ++ (Tree.node n c l v r).addrs) h h' ∧
      ∀ a ∈ (eraseSimple p (.node n c l v r)).addrs, a ∈ Path.addrs p ++ l.addrs ++ r.addrs := by
  have hleaf : ∀ (c : Bool), Lay h (Path.ptr p) (.node n c .nil v .nil) →
      (Path.addrs p ++ (Tree.node n c .nil v .nil).addrs).Nodup →
      Path.Balanced p (Tree.node n c .nil v .nil).blackCount →
      ∃ h', erase_by_pointer_ fuel (depth + 1) ⟨h, Path.rootPtr p (some n), size⟩ (some n) =
        Except.ok ⟨h', (eraseSimple p (.node n c .nil v .nil)).ptr, size⟩ ∧
      Lay h' none (eraseSimple p (.node n c .nil v .nil)) ∧ h'.length = h.length ∧
      h'.read n = none ∧
      Heap.AgreeOff (Path.addrs p ++ (Tree.node n c .nil v .nil).addrs) h h' ∧
      ∀ a ∈ (eraseSimple p (.node n c .nil v .nil)).addrs,
        a ∈ Path.addrs p ++ (Tree.nil : Tree α).addrs ++ (Tree.nil : Tree α).addrs := by
    intro c ht hn hpb
    have hok : c = BLACK → ∀ f ∈ p, f.DelOK := by
      rintro rfl
      exact DelOK_of_balanced p 0 hpb
    obtain ⟨h', e, hp', hl', hr', ha'⟩ := erase_by_pointer_leaf fuel depth size hp ht hn hok hf
    rw [eraseSimple_leaf]
    refine ⟨h', ?_, Lay_fill.2 ⟨by simpa using hp', trivial⟩, hl', hr', ha', ?_⟩
    · rw [e, ptr_fill]; rfl
    · intro a ha
      have := (addrs_fill_perm _ _).mem_iff.1 ha
      simp only [addrs_nil, List.append_nil] at this ⊢
      split at this
      · exact (addrs_delFix_perm p).mem_iff.1 this
      · exact this
  rcases hlr with rfl | rfl
  · rcases shape_no_left hb with rfl | ⟨rfl, ch, cl, cv, cr, rfl⟩
    · exact hleaf c ht hn hpb
    · obtain ⟨h', e, hp', ht', hl', hr', ha'⟩ :=
        erase_by_pointer_one_right fuel depth size hp ht hn
      rw [eraseSimple_right]
      refine ⟨h', ?_, Lay_fill.2 ⟨by simpa using hp', ht'⟩, hl', hr', ha', ?_⟩
      · rw [e, ptr_fill]; rfl
      · intro a ha
        have := (addrs_fill_perm _ _).mem_iff.1 ha
        simpa using this
  · rcases shape_no_right hb with rfl | ⟨rfl, ch, cl, cv, cr, rfl⟩
    · exact hleaf c ht hn hpb
    · obtain ⟨h', e, hp', ht', hl', hr', ha'⟩ :=
        erase_by_pointer_one_left fuel depth size hp ht hn
      rw [eraseSimple_left]
      refine ⟨h', ?_, Lay_fill.2 ⟨by simpa using hp', ht'⟩, hl', hr', ha', ?_⟩
      · rw [e, ptr_fill]; rfl
      · intro a ha
        have := (addrs_fill_perm _ _).mem_iff.1 ha
        simpa using this

theorem eraseSimple_addr_irrel (p : Path α) (a b : Nat) (c : Bool) (l : Tree α) (v : α) :
    eraseSimple p (.node a c l v .nil) = eraseSimple p (.node b c l v .nil) := by
  cases l <;> rfl

theorem eraseSimple_addrs (p : Path α) {n : Nat} {c : Bool} {l r : Tree α} {v : α}
    (hlr : l = .nil ∨ r = .nil) :
    ∀ a ∈ (eraseSimple p (.node n c l v r)).addrs, a ∈ Path.addrs p ++ l.addrs ++ r.addrs := by
  intro a ha
  rcases l with _ | ⟨x, cx, xl, xv, xr⟩ <;> rcases r with _ | ⟨y, cy, yl, yv, yr⟩
  · rw [eraseSimple_leaf] at ha
    have := (addrs_fill_perm _ _).mem_iff.1 ha
    simp only [addrs_nil, List.append_nil] at this ⊢
    split at this
    · exact (addrs_delFix_perm p).mem_iff.1 this
    · exact this
  · rw [eraseSimple_right] at ha
    have := (addrs_fill_perm _ _).mem_iff.1 ha
    simpa using this
  · rw [eraseSimple_left] at ha
    have := (addrs_fill_perm _ _).mem_iff.1 ha
    simpa using this
  · simp at hlr

theorem swap_addrs_aux (q p : Path α) (n pr : Nat) (c cp : Bool) (v pv : α) (R PL : Tree α)
    (x : Nat)
    (hn : (Path.addrs (q ++ Frame.inL n c v R :: p) ++ (Tree.node pr cp PL pv .nil).addrs).Nodup)
    (hmem : x ∈ Path.addrs (q ++ Frame.inL pr c pv R :: p) ++ PL.addrs ++
      (Tree.nil : Tree α).addrs) :
    x ∈ Path.addrs (q ++ Frame.inL n c v R :: p) ++ (Tree.node pr cp PL pv .nil).addrs ∧
      x ≠ n := by
  simp only [Path.addrs_append, Path.addrs_cons, Frame.addr_inL, Frame.sibling_inL, addrs_node,
    addrs_nil, List.append_nil, List.mem_append, List.mem_cons] at hmem hn ⊢
  have hc := List.nodup_iff_count_le_one.1 hn n
  simp only [List.count_append, List.count_cons, beq_self_eq_true, ↓reduceIte] at hc
  have c1 := fun (l : List Nat) (hm : n ∈ l) => List.count_pos_iff.2 hm
  have hprn : pr ≠ n := by
    rintro rfl
    simp only [beq_self_eq_true, ↓reduceIte] at hc
    omega
  have hq : n ∉ Path.addrs q := fun hm => by have := c1 _ hm; omega
  have hR : n ∉ R.addrs := fun hm => by have := c1 _ hm; omega
  have hP : n ∉ Path.addrs p := fun hm => by have := c1 _ hm; omega
  have hL : n ∉ PL.addrs := fun hm => by have := c1 _ hm; omega
  constructor
  · tauto
  · rintro rfl
    tauto

theorem erase_by_pointer_depth (fuel depth : Nat) (s : Set α) (node : Ptr) (s' : Set α)
    {h : Heap α} {n : Nat} {m : Node α} (hs : s.heap = h) (hnode : node = some n)
    (hr : h.read n = some m) (hlr : m.left = none ∨ m.right = none)
    (he : erase_by_pointer_ fuel (depth + 1) s node = Except.ok s') :
    erase_by_pointer_ fuel (depth + 2) s node = Except.ok s' := by
  subst hs hnode
  rw [erase_by_pointer_succ] at he ⊢
  simp only [getLeft_some, getRight_some, hr, Option.map_some', ofOption_some, ok_bind] at he ⊢
  rcases hlr with hx | hx
  · rw [hx] at he ⊢
    simp only [ne_eq, not_true_eq_false, false_and, ↓reduceIte, true_and] at he ⊢
    exact he
  · rw [hx] at he ⊢
    simp only [ne_eq, not_true_eq_false, and_false, ↓reduceIte, and_true] at he ⊢
    exact he

/-- The member `erase_by_pointer_` on a red-black tree: called at the node `n`, the root
of the subtree in the hole of `p`, it leaves the tree `eraseZip p _` in the heap, frees the
cell of `n` and the proxy cell, and writes no cell outside the tree but the proxy. -/
theorem erase_zip_sim (fuel depth size : Nat) {h : Heap α} {p : Path α} {n : Nat}
    {c : Bool} {l r : Tree α} {v : α}
    (hl : Lay h none (Path.fill p (.node n c l v r)))
    (hnd : (Path.fill p (.node n c l v r)).addrs.Nodup)
    (h1 : (Path.fill p (.node n c l v r)).isRed = false)
    (h2 : (Path.fill p (.node n c l v r)).NoRedRed)
    (h3 : (Path.fill p (.node n c l v r)).Uniform)
    (hf : (Path.fill p (.node n c l v r)).height < fuel) :
    ∃ h', erase_by_pointer_ fuel (depth + 2)
        ⟨h, (Path.fill p (.node n c l v r)).ptr, size⟩ (some n) =
        Except.ok ⟨h', (eraseZip p (.node n c l v r)).ptr, size⟩ ∧
      Lay h' none (eraseZip p (.node n c l v r)) ∧ h'.read n = none ∧
      (∀ b, h.length ≤ b → h'.read b = none) ∧
      Heap.AgreeOff (h.length :: (Path.fill p (.node n c l v r)).addrs) h h' ∧
      ∀ a ∈ (eraseZip p (.node n c l v r)).addrs, a ∈ (Path.fill p (.node n c l v r)).addrs ∧
        a ≠ n := by
  obtain ⟨hp, ht⟩ := Lay_fill.1 hl
  simp only [ptr_node] at hp
  have hperm := addrs_fill_perm p (Tree.node n c l v r)
  have hn := hperm.nodup_iff.1 hnd
  have hh := height_fill_ge p (Tree.node n c l v r)
  have hh1 := height_node_pos n c l r v
  rw [ptr_fill, ptr_node]
  by_cases hlr : l = .nil ∨ r = .nil
  · obtain ⟨hpb, hb, _⟩ := balanced_of_fill p _ h1 h2 h3
    obtain ⟨h', e, hl', hlen', hr', ha', hsub⟩ := erase_simple_sim fuel depth size hlr hp ht hn
      hpb hb (by omega)
    rw [eraseZip_simple p hlr]
    have hcell : ∃ m, h.read n = some m ∧ (m.left = none ∨ m.right = none) := by
      rw [Lay_node] at ht
      refine ⟨_, ht.1, ?_⟩
      rcases hlr with rfl | rfl
      · exact Or.inl rfl
      · exact Or.inr rfl
    obtain ⟨m, hm, hmlr⟩ := hcell
    refine ⟨h', erase_by_pointer_depth fuel depth _ _ _ rfl rfl hm hmlr e, hl', hr', ?_, ?_, ?_⟩
    · intro b hb
      exact read_ge (by omega)
    · exact AgreeOff_mono ha' (fun a ha => List.mem_cons_of_mem _ (hperm.mem_iff.2 ha))
    · intro a ha
      have hmem := hsub a ha
      obtain ⟨hnp, hnl, hnr⟩ := not_mem_of_nodup_mid (by simpa using hn)
      refine ⟨hperm.mem_iff.2 ?_, ?_⟩
      · simp only [List.mem_append, addrs_node, List.mem_cons] at hmem ⊢
        tauto
      · rintro rfl
        simp only [List.mem_append] at hmem
        tauto
  · rcases l with _ | ⟨a, ca, al, av, ar⟩
    · exact absurd (Or.inl rfl) hlr
    rcases r with _ | ⟨b, cb, bl, vb, br⟩
    · exact absurd (Or.inr rfl) hlr
    obtain ⟨q, pr, cp, PL, pv, e1, e2, e3, e4⟩ :=
      maxZip_spec (Tree.node a ca al av ar) [] (by simp)
    rw [List.append_nil] at e1
    rw [eraseZip_two p e1]
    have hfill : Path.fill p (.node n c (.node a ca al av ar) v (.node b cb bl vb br)) =
        Path.fill (q ++ Frame.inL n c v (.node b cb bl vb br) :: p) (.node pr cp PL pv .nil) := by
      rw [fill_append, e2]; rfl
    have hprev : previous fuel h (some n) = Except.ok (some pr) := by
      rw [previous_zip hp ht hn fuel (by omega), ← e2, cells_fill, e3]
      simp
    rw [hfill] at hl hnd h1 h2 h3 hf ⊢
    obtain ⟨hpb0, hb0, _⟩ := balanced_of_fill _ _ h1 h2 h3
    have hpb1 := balanced_swap q (Frame.inL n c v (.node b cb bl vb br))
      (Frame.inL pr c pv (.node b cb bl vb br)) p rfl rfl _ hpb0
    have hh0 := height_fill_ge (q ++ Frame.inL n c v (.node b cb bl vb br) :: p)
      (Tree.node pr cp PL pv .nil)
    have hh2 := height_node_pos pr cp PL .nil pv
    have hlen1 : (q ++ Frame.inL pr c pv (.node b cb bl vb br) :: p).length < fuel := by
      simp only [List.length_append, List.length_cons] at hh0 ⊢
      omega
    have hirr := eraseSimple_addr_irrel (q ++ Frame.inL pr c pv (.node b cb bl vb br) :: p)
      h.length pr cp PL pv
    obtain ⟨h', e, hl', hlen', hr', hr'', ha'⟩ := erase_by_pointer_two fuel depth size
      (eraseSimple (q ++ Frame.inL pr c pv (.node b cb bl vb br) :: p) (.node pr cp PL pv .nil))
      hl hnd hprev (by simp)
      (fun h3 hp3 ht3 hn3 => by
        obtain ⟨h4, e4, hl4, hlen4, hr4, ha4, hsub4⟩ := erase_simple_sim fuel depth size
          (Or.inr rfl) hp3 ht3 hn3 hpb1 hb0 hlen1
        rw [hirr] at e4 hl4 hsub4
        exact ⟨h4, e4, hl4, hlen4, hr4, ha4, fun x hx => by simpa using hsub4 x hx⟩)
    refine ⟨h', ?_, hl', hr', ?_, ha', ?_⟩
    · exact e
    · intro x hx
      rcases Nat.eq_or_lt_of_le hx with rfl | hlt
      · exact hr''
      · exact read_ge (by omega)
    · intro x hx
      exact swap_addrs_aux q p n pr c cp v pv _ PL x
        ((addrs_fill_perm (q ++ Frame.inL n c v (.node b cb bl vb br) :: p)
          (Tree.node pr cp PL pv .nil)).nodup_iff.1 hnd)
        (eraseSimple_addrs (q ++ Frame.inL pr c pv (.node b cb bl vb br) :: p)
          (Or.inr rfl) x hx) |>.imp_left
        (addrs_fill_perm (q ++ Frame.inL n c v (.node b cb bl vb br) :: p)
          (Tree.node pr cp PL pv .nil)).mem_iff.2

end EraseSim

end bulumutka

namespace bulumutka

section EraseSpec

variable {α : Type}

theorem pairwise_remove_mid [LinearOrder α] {pre post : List (Nat × α)} {a : Nat} {key : α}
    (h : ((pre ++ (a, key) :: post).map Prod.snd).Pairwise (· < ·)) :
    ((pre ++ post).map Prod.snd).Pairwise (· < ·) ∧
      (∀ c ∈ pre, c.2 ≠ key) ∧ (∀ c ∈ post, c.2 ≠ key) := by
  simp only [List.map_append, List.map_cons, List.pairwise_append, List.pairwise_cons,
    List.mem_map, List.mem_cons, forall_exists_index, and_imp, forall_apply_eq_imp_iff₂,
    forall_eq_or_imp] at h ⊢
  obtain ⟨h1, ⟨h2, h3⟩, h4⟩ := h
  refine ⟨⟨h1, h3, fun c hc d hd => (h4 c hc).2 d hd⟩, fun c hc => ?_, fun c hc => ?_⟩
  · exact ne_of_lt (h4 c hc).1
  · exact ne_of_gt (h2 c hc)

/-- What `erase` does to a well-formed set: it returns and the result is well formed.
If the key is not stored nothing changes.  If it is stored in the node at address `a`,
the nodes of the result are those of before without that node, in the same in-order
sequence and with the same values; the cell `a` is freed, every cell from the old end
of the heap on is free, and `size_` is decremented.  Cells outside the tree are not
written, except the cell allocated for the proxy. -/
theorem erase_spec [LinearOrder α] (s : Set α) (t : Tree α) (key : α) (hm : s.Models t)
    (hrb : t.RedBlack) :
    ∃ s' t', s.erase key = Except.ok s' ∧ s'.Models t' ∧ t'.RedBlack ∧
      (key ∉ t.values → s' = s ∧ t' = t) ∧
      (key ∈ t.values → ∃ a pre post, s.find_ key = Except.ok (some a) ∧
        t.cells = pre ++ (a, key) :: post ∧ t'.cells = pre ++ post ∧
        s'.heap.read a = none ∧ (∀ b, s.heap.length ≤ b → s'.heap.read b = none) ∧
        s'.size_ = s.size_ - 1) ∧
      Heap.AgreeOff (s.heap.length :: t.addrs) s.heap s'.heap := by
  obtain ⟨p0, hfind, hin, hout⟩ := find__spec hm hrb.1 key
  by_cases hk : key ∈ t.values
  · obtain ⟨a, n0, rfl, ha, hr0, hv0⟩ := hin hk
    obtain ⟨p, c, l, v, r, rfl⟩ := exists_zipper ha
    obtain ⟨hroot, hl⟩ := hm
    have hnd := hl.nodup_addrs hrb.1
    have hh := hl.height_le hrb.1
    obtain ⟨ho, h1, h2, h3⟩ := hrb
    have hv : v = key := by
      have hcell := (Lay_fill.1 hl).2
      rw [Lay_node] at hcell
      rw [hcell.1] at hr0
      cases hr0
      exact hv0
    subst hv
    obtain ⟨h', e, hl', hra, hfree, hag, hsub⟩ := erase_zip_sim (s.heap.length + 2)
      s.heap.length s.size_ hl hnd h1 h2 h3 (by omega)
    have hs : s = ⟨s.heap, (Path.fill p (.node a c l v r)).ptr, s.size_⟩ := by
      cases s
      simp only at hroot
      subst hroot
      rfl
    have hcells := eraseZip_cells p a c l r v
    have hcells0 : (Path.fill p (.node a c l v r)).cells =
        (Path.before p ++ l.cells) ++ (a, v) :: (r.cells ++ Path.after p) := by
      rw [cells_fill, cells_node]
      simp
    have hpw : ((Path.fill p (.node a c l v r)).cells.map Prod.snd).Pairwise (· < ·) := by
      rw [← values_eq_cells, ← Ordered_iff]
      exact ho
    rw [hcells0] at hpw
    refine ⟨⟨h', (eraseZip p (.node a c l v r)).ptr, s.size_ - 1⟩, eraseZip p (.node a c l v r),
      ?_, ⟨rfl, hl'⟩, ⟨?_, eraseZip_colors p a c l r v h1 h2 h3⟩, fun hno => absurd hk hno,
      fun _ => ⟨a, Path.before p ++ l.cells, r.cells ++ Path.after p, hfind, hcells0, ?_, hra,
        hfree, rfl⟩, hag⟩
    · rw [hs] at hfind ⊢
      simp only [Set.erase, hfind, ok_bind, ne_eq, reduceCtorEq, not_false_eq_true, ↓reduceIte, e]
      rfl
    · rw [Ordered_iff, values_eq_cells, hcells]
      have := (pairwise_remove_mid hpw).1
      simpa using this
    · rw [hcells]
      simp
  · have hp0 := hout hk
    subst hp0
    refine ⟨s, t, ?_, hm, hrb, fun _ => ⟨rfl, rfl⟩, fun hyes => absurd hyes hk,
      AgreeOff_refl _ _⟩
    simp only [Set.erase, hfind, ok_bind, ne_eq, not_true_eq_false, ↓reduceIte]
    rfl

/-- The membership form of `erase_spec`. -/
theorem erase_spec_mem [LinearOrder α] (s : Set α) (t : Tree α) (key : α) (hm : s.Models t)
    (hrb : t.RedBlack) :
    ∃ s' t', s.erase key = Except.ok s' ∧ s'.Models t' ∧ t'.RedBlack ∧
      (∀ c, c ∈ t'.cells ↔ c ∈ t.cells ∧ c.2 ≠ key) ∧
      (∀ x, x ∈ t'.values ↔ x ∈ t.values ∧ x ≠ key) ∧
      (s.size_ = t.size → s'.size_ = t'.size) ∧
      (∀ a, (a, key) ∈ t.cells → s'.heap.read a = none) ∧
      (∀ b, s.heap.length ≤ b → s'.heap.read b = none) ∧
      Heap.AgreeOff (s.heap.length :: t.addrs) s.heap s'.heap := by
  obtain ⟨s', t', he, hm', hrb', habs, hpres, hag⟩ := erase_spec s t key hm hrb
  by_cases hk : key ∈ t.values
  · obtain ⟨a, pre, post, -, hc, hc', hra, hfree, hsz⟩ := hpres hk
    have hpw : ((pre ++ (a, key) :: post).map Prod.snd).Pairwise (· < ·) := by
      rw [← hc, ← values_eq_cells, ← Ordered_iff]
      exact hrb.1
    obtain ⟨-, hpre, hpost⟩ := pairwise_remove_mid hpw
    have hcm : ∀ c, c ∈ t'.cells ↔ c ∈ t.cells ∧ c.2 ≠ key := by
      intro c
      rw [hc, hc']
      simp only [List.mem_append, List.mem_cons]
      constructor
      · rintro (h | h)
        · exact ⟨Or.inl h, hpre c h⟩
        · exact ⟨Or.inr (Or.inr h), hpost c h⟩
      · rintro ⟨h | rfl | h, hne⟩
        · exact Or.inl h
        · exact absurd rfl hne
        · exact Or.inr h
    refine ⟨s', t', he, hm', hrb', hcm, ?_, ?_, ?_, hfree, hag⟩
    · intro x
      rw [values_eq_cells, values_eq_cells, List.mem_map, List.mem_map]
      constructor
      · rintro ⟨c, h1, rfl⟩
        exact ⟨⟨c, ((hcm c).1 h1).1, rfl⟩, ((hcm c).1 h1).2⟩
      · rintro ⟨⟨c, h1, rfl⟩, hne⟩
        exact ⟨c, (hcm c).2 ⟨h1, hne⟩, rfl⟩
    · intro e
      rw [hsz, e, size_eq_cells, size_eq_cells, hc, hc']
      simp only [List.length_append, List.length_cons]
      omega
    · intro b hb
      rw [hc] at hb
      simp only [List.mem_append, List.mem_cons, Prod.mk.injEq] at hb
      rcases hb with h | ⟨rfl, -⟩ | h
      · exact absurd rfl (hpre _ h)
      · exact hra
      · exact absurd rfl (hpost _ h)
  · obtain ⟨rfl, rfl⟩ := habs hk
    have hne : ∀ c ∈ t'.cells, c.2 ≠ key := by
      rintro ⟨a, v⟩ hc rfl
      exact hk (mem_values_of_cell hc)
    refine ⟨s', t', he, hm', hrb', fun c => ⟨fun h => ⟨h, hne c h⟩, fun h => h.1⟩, ?_,
      fun e => e, ?_, fun b hb => read_ge hb, hag⟩
    · intro x
      constructor
      · intro h
        exact ⟨h, fun e => hk (e ▸ h)⟩
      · exact fun h => h.1
    · intro a ha
      exact absurd rfl (hne _ ha)

/-- After any sequence of calls of `insert` and `erase` a well-formed set whose `size_`
is the number of its nodes is again such a set. -/
theorem applyAll_spec [LinearOrder α] (ops : List (Op α)) : ∀ (s : Set α) (t : Tree α),
    s.Models t → t.RedBlack → s.size_ = t.size →
    ∃ s' t', s.applyAll ops = Except.ok s' ∧ s'.Models t' ∧ t'.RedBlack ∧
      s'.size_ = t'.size := by
  induction ops with
  | nil =>
    intro s t hm hrb hs
    exact ⟨s, t, rfl, hm, hrb, hs⟩
  | cons o ops ih =>
    intro s t hm hrb hs
    have step : ∃ s1 t1, s.apply o = Except.ok s1 ∧ s1.Models t1 ∧ t1.RedBlack ∧
        s1.size_ = t1.size := by
      cases o with
      | insert k =>
        obtain ⟨s1, t1, he, hm1, hrb1, -, -, hs1, -⟩ := insert_spec s t k hm hrb
        exact ⟨s1, t1, he, hm1, hrb1, by omega⟩
      | erase k =>
        obtain ⟨s1, t1, he, hm1, hrb1, -, -, hs1, -⟩ := erase_spec_mem s t k hm hrb
        exact ⟨s1, t1, he, hm1, hrb1, hs1 hs⟩
    obtain ⟨s1, t1, he, hm1, hrb1, hs1⟩ := step
    obtain ⟨s2, t2, he2, hm2, hrb2, hs2⟩ := ih s1 t1 hm1 hrb1 hs1
    refine ⟨s2, t2, ?_, hm2, hrb2, hs2⟩
    simp only [Set.applyAll, List.foldlM] at he2 ⊢
    rw [he]
    exact he2

end EraseSpec

end bulumutka

namespace bulumutka

section Shape

variable {α : Type}

/-- A tree with equal black counts has at least `2 ^ blackCount - 1` nodes. -/
theorem pow_blackCount_le_size (t : Tree α) (hu : t.Uniform) : 2 ^ t.blackCount ≤ t.size + 1 := by
  induction t with
  | nil => simp [Tree.blackCount, Tree.size]
  | node a c l v r ihl ihr =>
    obtain ⟨e, hl, hr⟩ := hu
    have h1 := ihl hl
    have h2 := ihr hr
    rw [← e] at h2
    simp only [Tree.blackCount, Tree.size]
    split
    · rw [pow_succ]; omega
    · rw [Nat.add_zero]; omega

/-- A path of a red-black tree is at most twice as long as its black count, plus one
under a red root. -/
theorem height_le_blackCount (t : Tree α) (hn : t.NoRedRed) (hu : t.Uniform) :
    t.height ≤ 2 * t.blackCount + (if t.isRed = true then 1 else 0) := by
  induction t with
  | nil => simp [Tree.height]
  | node a c l v r ihl ihr =>
    obtain ⟨e, hl, hr⟩ := hu
    obtain ⟨hc, nl, nr⟩ := hn
    have h1 := ihl nl hl
    have h2 := ihr nr hr
    rw [← e] at h2
    simp only [Tree.height, Tree.blackCount, Tree.isRed]
    cases c with
    | true =>
      obtain ⟨r1, r2⟩ := hc rfl
      rw [r1] at h1
      rw [r2] at h2
      simp only [Bool.false_eq_true, ↓reduceIte, Nat.add_zero] at h1 h2
      simp [BLACK]
      omega
    | false =>
      have : (if l.isRed = true then 1 else 0) ≤ 1 := by split <;> omega
      have : (if r.isRed = true then 1 else 0) ≤ 1 := by split <;> omega
      simp [BLACK]
      omega

/-- The height of a red-black tree with `n` nodes is at most `2 * log2 (n + 1)`. -/
theorem height_bound (t : Tree α) (h1 : t.isRed = false) (h2 : t.NoRedRed) (h3 : t.Uniform) :
    2 ^ t.height ≤ (t.size + 1) ^ 2 := by
  have hh := height_le_blackCount t h2 h3
  rw [h1] at hh
  simp only [Bool.false_eq_true, ↓reduceIte, Nat.add_zero] at hh
  calc 2 ^ t.height ≤ 2 ^ (2 * t.blackCount) := Nat.pow_le_pow_right (by omega) hh
    _ = (2 ^ t.blackCount) ^ 2 := by rw [pow_mul']
    _ ≤ (t.size + 1) ^ 2 := Nat.pow_le_pow_left (pow_blackCount_le_size t h3) 2

theorem height_log_bound (h n : Nat) (hb : 2 ^ h ≤ (n + 1) ^ 2) :
    (h : ℝ) ≤ 2 * Real.logb 2 ((n : ℝ) + 1) := by
  have h2 : ((2 : ℝ)) ^ h ≤ ((n : ℝ) + 1) ^ 2 := by exact_mod_cast hb
  have hpos : (0 : ℝ) < (n : ℝ) + 1 := by positivity
  have := Real.logb_le_logb_of_le (b := 2) (by norm_num) (by positivity) h2
  rw [← Real.rpow_natCast, ← Real.rpow_natCast, Real.logb_rpow (by norm_num) (by norm_num),
    Real.logb_rpow_eq_mul_logb_of_pos hpos] at this
  simpa using this

/-- The links that a tree laid out in the heap shows at each of its nodes. -/
theorem Lay.links {h : Heap α} {par : Ptr} {t : Tree α} (hl : Lay h par t)
    (hn : t.addrs.Nodup) :
    ∀ a ∈ t.addrs, ∃ n, h.read a = some n ∧
      (t.ptr = some a → n.parent = par) ∧
      (t.ptr ≠ some a → ∃ q, n.parent = some q ∧ q ∈ t.addrs ∧
        ∃ m, h.read q = some m ∧ (m.left = some a ∨ m.right = some a)) ∧
      (∀ c, n.left = some c ∨ n.right = some c →
        c ∈ t.addrs ∧ ∃ m, h.read c = some m ∧ m.parent = some a) := by
  induction t generalizing par with
  | nil => simp
  | node b c l v r ihl ihr =>
    rw [Lay_node] at hl
    obtain ⟨hb, hll, hlr⟩ := hl
    simp only [addrs_node, List.nodup_append, List.nodup_cons, List.mem_cons,
      List.disjoint_cons_right] at hn
    obtain ⟨nl, ⟨nbr, nr⟩, nbl, dlr⟩ := hn
    have sub : ∀ (u : Tree α) (c : Nat), u.ptr = some c →
        Lay h (some b) u → c ∈ u.addrs ∧ ∃ m, h.read c = some m ∧ m.parent = some b := by
      intro u c hu hlu
      cases u with
      | nil => simp at hu
      | node x cx xl xv xr =>
        simp only [ptr_node, Option.some.injEq] at hu
        subst hu
        rw [Lay_node] at hlu
        exact ⟨by simp, _, hlu.1, rfl⟩
    intro a ha
    simp only [addrs_node, List.mem_append, List.mem_cons] at ha
    rcases ha with ha | rfl | ha
    · obtain ⟨n, hr, p1, p2, p3⟩ := ihl hll nl a ha
      have hne : a ≠ b := fun e => nbl (e ▸ ha)
      refine ⟨n, hr, ?_, ?_, ?_⟩
      · intro e
        simp only [ptr_node, Option.some.injEq] at e
        exact absurd e.symm hne
      · intro _
        by_cases hp : l.ptr = some a
        · exact ⟨b, p1 hp, by simp, _, hb, Or.inl hp⟩
        · obtain ⟨q, e1, e2, e3⟩ := p2 hp
          exact ⟨q, e1, by simp [e2], e3⟩
      · intro c hc
        obtain ⟨e1, e2⟩ := p3 c hc
        exact ⟨by simp [e1], e2⟩
    · refine ⟨_, hb, fun _ => rfl, fun hne => absurd rfl hne, ?_⟩
      rintro c (hc | hc)
      · obtain ⟨e1, e2⟩ := sub l c hc hll
        exact ⟨by simp [e1], e2⟩
      · obtain ⟨e1, e2⟩ := sub r c hc hlr
        exact ⟨by simp [e1], e2⟩
    · obtain ⟨n, hr, p1, p2, p3⟩ := ihr hlr nr a ha
      have hne : a ≠ b := fun e => nbr (e ▸ ha)
      refine ⟨n, hr, ?_, ?_, ?_⟩
      · intro e
        simp only [ptr_node, Option.some.injEq] at e
        exact absurd e.symm hne
      · intro _
        by_cases hp : r.ptr = some a
        · exact ⟨b, p1 hp, by simp, _, hb, Or.inr hp⟩
        · obtain ⟨q, e1, e2, e3⟩ := p2 hp
          exact ⟨q, e1, by simp [e2], e3⟩
      · intro c hc
        obtain ⟨e1, e2⟩ := p3 c hc
        exact ⟨by simp [e1], e2⟩

/-- A set whose links draw a tree has consistent parent links. -/
theorem Models.parentLinksOK {s : Set α} {t : Tree α} (hm : s.Models t) (hn : t.addrs.Nodup) :
    s.heap.ParentLinksOK s.root_ t.addrs := by
  obtain ⟨hroot, hl⟩ := hm
  have hk := hl.links hn
  intro a ha
  obtain ⟨n, hr, p1, p2, p3⟩ := hk a ha
  refine ⟨n, hr, ?_, ?_, ?_, p3⟩
  · rw [hroot]
    constructor
    · intro e
      by_contra hne
      obtain ⟨q, e1, _⟩ := p2 hne
      rw [e] at e1
      cases e1
    · exact p1
  · intro q hq
    by_cases hp : t.ptr = some a
    · rw [p1 hp] at hq
      cases hq
    · obtain ⟨q', e1, e2, e3⟩ := p2 hp
      rw [hq] at e1
      cases e1
      exact ⟨e2, e3⟩
  · intro q hq m hm hc
    obtain ⟨m', hr', _, _, q3⟩ := hk q hq
    rw [hm] at hr'
    cases hr'
    obtain ⟨_, m2, hr2, hp2⟩ := q3 a hc
    rw [hr] at hr2
    cases hr2
    exact hp2

end Shape

end bulumutka

namespace bulumutka

section EraseClaims

variable {α : Type}

/-- C2: `erase` preserves the red-black invariants.  On a well-formed set, `erase key`
returns - whether the key is stored or not, and whatever the number of children and the
colour of its node - a set whose links again draw a tree with consistent parent links,
in strict search order, with a root that is not red (the tree may be empty), no red
node with a red child and the same black count on every path. -/
theorem erase_preserves_invariants [LinearOrder α] (s : Set α) (hw : s.WellFormed) (key : α) :
    ∃ s' t', s.erase key = Except.ok s' ∧ s'.Models t' ∧
      t'.Ordered ∧ t'.isRed = false ∧ t'.NoRedRed ∧ t'.Uniform := by
  obtain ⟨t, hm, hrb⟩ := hw
  obtain ⟨s', t', he, hm', hrb', _⟩ := erase_spec s t key hm hrb
  exact ⟨s', t', he, hm', hrb'⟩

theorem erase_preserves_invariants_witness :
    demoSet.WellFormed ∧
    ∃ s' t', demoSet.erase 2 = Except.ok s' ∧ s'.Models t' ∧
      t'.Ordered ∧ t'.isRed = false ∧ t'.NoRedRed ∧ t'.Uniform :=
  ⟨demo_wellFormed, erase_preserves_invariants demoSet demo_wellFormed 2⟩

/-- C5: `erase` removes exactly the key.  On a well-formed set, after `erase k` the
call `find x` returns a non-end iterator if and only if `x` is not equal to `k` and
`find x` returned a non-end iterator before; in particular `find k` is `end()`
afterwards. -/
theorem erase_removes_exactly [LinearOrder α] (s : Set α) (hw : s.WellFormed) (k x : α) :
    ∃ s' it it0 itk, s.erase k = Except.ok s' ∧ s'.find x = Except.ok it ∧
      s.find x = Except.ok it0 ∧
      (it.equal s'.end_ = false ↔ equals x k = false ∧ it0.equal s.end_ = false) ∧
      s'.find k = Except.ok itk ∧ itk.equal s'.end_ = true := by
  obtain ⟨t, hm, hrb⟩ := hw
  obtain ⟨s', t', he, hm', hrb', -, hv, -⟩ := erase_spec_mem s t k hm hrb
  obtain ⟨it, hit, h1⟩ := find_end_iff hm' hrb'.1 x
  obtain ⟨it0, hit0, h0⟩ := find_end_iff hm hrb.1 x
  obtain ⟨itk, hitk, hk⟩ := find_end_iff hm' hrb'.1 k
  refine ⟨s', it, it0, itk, he, hit, hit0, ?_, hitk, ?_⟩
  · rw [h1, h0, hv, equals_false_iff]
    exact and_comm
  · have hno : ¬ (itk.equal s'.end_ = false) := by
      rw [hk, hv]
      exact fun h => h.2 rfl
    simpa using hno

theorem erase_removes_exactly_witness :
    demoSet.WellFormed ∧
    ∃ s' it it0 itk, demoSet.erase 2 = Except.ok s' ∧ s'.find 3 = Except.ok it ∧
      demoSet.find 3 = Except.ok it0 ∧
      (it.equal s'.end_ = false ↔ equals 3 2 = false ∧ it0.equal demoSet.end_ = false) ∧
      s'.find 2 = Except.ok itk ∧ itk.equal s'.end_ = true :=
  ⟨demo_wellFormed, erase_removes_exactly demoSet demo_wellFormed 2 3⟩

/-- C8: `size` tracks the node count.  If `size()` is the number of nodes of the tree of
a well-formed set, then it is so again after `insert key` and after `erase key`; hence
after any sequence of such calls - in particular one that starts from the empty set -
`size()` is the number of nodes of the tree, which is the number of the (pairwise
distinct) values stored, and `empty()` is true exactly when the root is absent. -/
theorem size_tracks_nodes [LinearOrder α] (s : Set α) (t : Tree α) (hm : s.Models t)
    (hrb : t.RedBlack) (hs : s.size = t.size) (key : α) (ops : List (Op α)) :
    (∃ s' t', s.insert key = Except.ok s' ∧ s'.Models t' ∧ s'.size = t'.size) ∧
    (∃ s' t', s.erase key = Except.ok s' ∧ s'.Models t' ∧ s'.size = t'.size) ∧
    (∃ s' t', s.applyAll ops = Except.ok s' ∧ s'.Models t' ∧ s'.size = t'.size ∧
      s'.size = t'.values.length ∧ t'.values.Nodup ∧ (s'.empty = true ↔ s'.root_ = none)) ∧
    (∃ s' t', Set.new.applyAll ops = Except.ok s' ∧ s'.Models t' ∧ s'.size = t'.size ∧
      s'.size = t'.values.length ∧ t'.values.Nodup ∧ (s'.empty = true ↔ s'.root_ = none)) := by
  have all : ∀ (s : Set α) (t : Tree α), s.Models t → t.RedBlack → s.size = t.size →
      ∃ s' t', s.applyAll ops = Except.ok s' ∧ s'.Models t' ∧ s'.size = t'.size ∧
        s'.size = t'.values.length ∧ t'.values.Nodup ∧
        (s'.empty = true ↔ s'.root_ = none) := by
    intro s t hm hrb hs
    obtain ⟨s', t', he, hm', hrb', hs'⟩ := applyAll_spec ops s t hm hrb hs
    refine ⟨s', t', he, hm', hs', by rw [length_values]; exact hs',
      (Ordered_iff.1 hrb'.1).imp (fun h => ne_of_lt h), ?_⟩
    have hz : s'.size_ = 0 ↔ t' = .nil := by
      rw [hs']
      cases t' <;> simp [Tree.size]
    rw [hm'.1, ptr_eq_none, ← hz]
    simp [Set.empty]
  refine ⟨?_, ?_, all s t hm hrb hs, all Set.new .nil new_models nil_redBlack rfl⟩
  · obtain ⟨s', t', he, hm', -, -, -, hs', -⟩ := insert_spec s t key hm hrb
    refine ⟨s', t', he, hm', ?_⟩
    simp only [Set.size] at hs ⊢
    omega
  · obtain ⟨s', t', he, hm', -, -, -, hs', -⟩ := erase_spec_mem s t key hm hrb
    exact ⟨s', t', he, hm', hs' hs⟩

theorem size_tracks_nodes_witness :
    demoSet.Models demoTree ∧ demoTree.RedBlack ∧ demoSet.size = demoTree.size ∧
    (∃ s' t', demoSet.insert 2 = Except.ok s' ∧ s'.Models t' ∧ s'.size = t'.size) ∧
    (∃ s' t', demoSet.erase 2 = Except.ok s' ∧ s'.Models t' ∧ s'.size = t'.size) ∧
    (∃ s' t', demoSet.applyAll [Op.erase 2, Op.insert 5] = Except.ok s' ∧ s'.Models t' ∧
      s'.size = t'.size ∧ s'.size = t'.values.length ∧ t'.values.Nodup ∧
      (s'.empty = true ↔ s'.root_ = none)) ∧
    (∃ s' t', Set.new.applyAll [Op.erase 2, Op.insert 5] = Except.ok s' ∧ s'.Models t' ∧
      s'.size = t'.size ∧ s'.size = t'.values.length ∧ t'.values.Nodup ∧
      (s'.empty = true ↔ s'.root_ = none)) :=
  ⟨demo_models, demo_redBlack, by decide,
    size_tracks_nodes demoSet demoTree demo_models demo_redBlack (by decide) 2
      [Op.erase 2, Op.insert 5]⟩

/-- C11: height is logarithmic.  The set reached from the empty set by any sequence of
`insert` and `erase` calls, holding `n` elements, has a tree of height `h` (the number
of nodes on the longest path from the root to a null link) with `2 ^ h ≤ (n + 1) ^ 2`,
that is `h ≤ 2 * log2 (n + 1)`.  Inserting 1, 2, ..., 7 in ascending order gives a tree
of height 4 with 2 at the root. -/
theorem height_logarithmic [LinearOrder α] (ops : List (Op α)) :
    (∃ s t, Set.new.applyAll ops = Except.ok s ∧ s.Models t ∧ s.size = t.size ∧
      2 ^ t.height ≤ (s.size + 1) ^ 2 ∧
      (t.height : ℝ) ≤ 2 * Real.logb 2 ((s.size : ℝ) + 1)) ∧
    ∃ (s : Set Nat) (t : Tree Nat), Set.ofList [1, 2, 3, 4, 5, 6, 7] = Except.ok s ∧
      s.Models t ∧ t.height = 4 ∧ getValue s.heap s.root_ = Except.ok 2 := by
  refine ⟨?_, ascending_seven⟩
  obtain ⟨s, t, he, hm, hrb, hs⟩ := applyAll_spec ops Set.new .nil new_models nil_redBlack rfl
  have hb := height_bound t hrb.2.1 hrb.2.2.1 hrb.2.2.2
  have hs' : s.size = t.size := hs
  rw [← hs'] at hb
  exact ⟨s, t, he, hm, hs, hb, height_log_bound _ _ hb⟩

/-- C17: parent links stay consistent.  On a well-formed set, after `insert key` and
after `erase key`: the node `root_` points to has no parent; every node of the tree is
live, its parent link is absent exactly when it is the root and otherwise points to a
node of the tree that has it as left or right child, and that is the only node of the
tree with it as a child; every child link points to a node whose parent link points
back.  After `erase` the cell of the erased node and the cell of the proxy are freed,
they are not nodes of the tree, and no link of a node of the tree points to a freed
cell. -/
theorem parent_links_consistent [LinearOrder α] (s : Set α) (t : Tree α) (hm : s.Models t)
    (hrb : t.RedBlack) (key : α) :
    (∃ s' t', s.insert key = Except.ok s' ∧ s'.Models t' ∧
      (∀ r, s'.root_ = some r → ∃ n, s'.heap.read r = some n ∧ n.parent = none) ∧
      s'.heap.ParentLinksOK s'.root_ t'.addrs) ∧
    (∃ s' t', s.erase key = Except.ok s' ∧ s'.Models t' ∧
      (∀ r, s'.root_ = some r → ∃ n, s'.heap.read r = some n ∧ n.parent = none) ∧
      s'.heap.ParentLinksOK s'.root_ t'.addrs ∧
      (∀ a n, a ∈ t.addrs → s.heap.read a = some n → n.value = key →
        s'.heap.read a = none ∧ a ∉ t'.addrs) ∧
      s'.heap.read s.heap.length = none ∧ s.heap.length ∉ t'.addrs ∧
      (∀ a ∈ t'.addrs, ∀ n, s'.heap.read a = some n → ∀ x,
        n.parent = some x ∨ n.left = some x ∨ n.right = some x → s'.heap.read x ≠ none)) := by
  have root : ∀ (s' : Set α) (t' : Tree α), s'.Models t' →
      s'.heap.ParentLinksOK s'.root_ t'.addrs →
      ∀ r, s'.root_ = some r → ∃ n, s'.heap.read r = some n ∧ n.parent = none := by
    intro s' t' hm' hok r hr
    obtain ⟨n, hn, hp, -⟩ := hok r (ptr_mem_addrs (hm'.1 ▸ hr))
    exact ⟨n, hn, hp.2 hr⟩
  constructor
  · obtain ⟨s', t', he, hm', hrb', -⟩ := insert_spec s t key hm hrb
    have hok := Models.parentLinksOK hm' (hm'.2.nodup_addrs hrb'.1)
    exact ⟨s', t', he, hm', root s' t' hm' hok, hok⟩
  · obtain ⟨s', t', he, hm', hrb', hc, -, -, hfr, hfree, -⟩ := erase_spec_mem s t key hm hrb
    have hok := Models.parentLinksOK hm' (hm'.2.nodup_addrs hrb'.1)
    have live : ∀ a ∈ t'.addrs, s'.heap.read a ≠ none := by
      intro a ha e
      obtain ⟨n, hn, -⟩ := hok a ha
      rw [e] at hn
      cases hn
    refine ⟨s', t', he, hm', root s' t' hm' hok, hok, ?_, hfree _ (le_refl _),
      fun hin => live _ hin (hfree _ (le_refl _)), ?_⟩
    · intro a n ha hn hv
      have hcell := hm.2.cell_of_mem ha hn
      rw [hv] at hcell
      have hnone := hfr a hcell
      exact ⟨hnone, fun hin => live a hin hnone⟩
    · intro a ha n hn x hx
      obtain ⟨n', hn', -, hpar, -, hch⟩ := hok a ha
      rw [hn] at hn'
      cases hn'
      rcases hx with hx | hx | hx
      · exact live x (hpar x hx).1
      · exact live x (hch x (Or.inl hx)).1
      · exact live x (hch x (Or.inr hx)).1

theorem parent_links_consistent_witness :
    demoSet.Models demoTree ∧ demoTree.RedBlack ∧
    (∃ s' t', demoSet.insert 4 = Except.ok s' ∧ s'.Models t' ∧
      (∀ r, s'.root_ = some r → ∃ n, s'.heap.read r = some n ∧ n.parent = none) ∧
      s'.heap.ParentLinksOK s'.root_ t'.addrs) ∧
    (∃ s' t', demoSet.erase 2 = Except.ok s' ∧ s'.Models t' ∧
      (∀ r, s'.root_ = some r → ∃ n, s'.heap.read r = some n ∧ n.parent = none) ∧
      s'.heap.ParentLinksOK s'.root_ t'.addrs ∧
      (∀ a n, a ∈ demoTree.addrs → demoSet.heap.read a = some n → n.value = 2 →
        s'.heap.read a = none ∧ a ∉ t'.addrs) ∧
      s'.heap.read demoSet.heap.length = none ∧ demoSet.heap.length ∉ t'.addrs ∧
      (∀ a ∈ t'.addrs, ∀ n, s'.heap.read a = some n → ∀ x,
        n.parent = some x ∨ n.left = some x ∨ n.right = some x → s'.heap.read x ≠ none)) :=
  ⟨demo_models, demo_redBlack, parent_links_consistent demoSet demoTree demo_models demo_redBlack 4 |>.1,
    parent_links_consistent demoSet demoTree demo_models demo_redBlack 2 |>.2⟩

/-- C19: the fix-ups never reach an absent node.  On a well-formed set `insert key` and
`erase key` run to completion: no step reads or writes a field through a null pointer
or a deleted node (which would end the run with `Fault.undefined`), so the grandparent,
the sibling and the nephews that the fix-ups dereference exist whenever they are
reached; and the built-in bound on the number of steps is not hit. -/
theorem fixups_never_fault [LinearOrder α] (s : Set α) (hw : s.WellFormed) (key : α) :
    (∃ s', s.insert key = Except.ok s') ∧ (∃ s', s.erase key = Except.ok s') ∧
    s.insert key ≠ Except.error Fault.undefined ∧
    s.erase key ≠ Except.error Fault.undefined := by
  obtain ⟨t, hm, hrb⟩ := hw
  obtain ⟨s1, -, he1, -⟩ := insert_spec s t key hm hrb
  obtain ⟨s2, -, he2, -⟩ := erase_spec s t key hm hrb
  refine ⟨⟨s1, he1⟩, ⟨s2, he2⟩, ?_, ?_⟩
  · rw [he1]; simp
  · rw [he2]; simp

theorem fixups_never_fault_witness :
    demoSet.WellFormed ∧
    (∃ s', demoSet.insert 4 = Except.ok s') ∧ (∃ s', demoSet.erase 2 = Except.ok s') ∧
    demoSet.insert 4 ≠ Except.error Fault.undefined ∧
    demoSet.erase 2 ≠ Except.error Fault.undefined :=
  ⟨demo_wellFormed, fixups_never_fault demoSet demo_wellFormed 4 |>.1,
    fixups_never_fault demoSet demo_wellFormed 2 |>.2.1,
    fixups_never_fault demoSet demo_wellFormed 4 |>.2.2.1,
    fixups_never_fault demoSet demo_wellFormed 2 |>.2.2.2⟩

/-- C15 as the code has it: on a well-formed set, when the node `a` that stores `key` has
two children, `erase key` frees the node object `a` that held the erased value (and the
proxy cell), while the node object `pr` that held the in-order predecessor's value stays
in the tree with its value, as does every other node; in the in-order sequence it is now
followed by what followed the erased node. -/
theorem erase_frees_erased_node [LinearOrder α] (s : Set α) (t : Tree α) (hm : s.Models t)
    (hrb : t.RedBlack) (key : α) (a : Nat) (n : Node α) (ha : a ∈ t.addrs)
    (hn : s.heap.read a = some n) (hv : n.value = key) (hl : n.left ≠ none)
    (hr : n.right ≠ none) :
    ∃ s' t' pr m, s.erase key = Except.ok s' ∧ s'.Models t' ∧
      previous (s.heap.length + 1) s.heap (some a) = Except.ok (some pr) ∧
      s.heap.read pr = some m ∧
      s'.heap.read a = none ∧ a ∉ t'.addrs ∧ s'.heap.read s.heap.length = none ∧
      pr ∈ t'.addrs ∧ (∃ m', s'.heap.read pr = some m' ∧ m'.value = m.value) ∧
      (∀ b w, b ≠ a → (b, w) ∈ t.cells →
        b ∈ t'.addrs ∧ ∃ m', s'.heap.read b = some m' ∧ m'.value = w) ∧
      ∃ pre post, t.cells = pre ++ (pr, m.value) :: (a, key) :: post ∧
        t'.cells = pre ++ (pr, m.value) :: post := by
  have hnd := hm.2.nodup_addrs hrb.1
  have hcell := hm.2.cell_of_mem ha hn
  rw [hv] at hcell
  have hk : key ∈ t.values := mem_values_of_cell hcell
  obtain ⟨s', t', he, hm', hrb', -, hpres, -⟩ := erase_spec s t key hm hrb
  obtain ⟨a', pre, post, -, hc, hc', hra, hfree, -⟩ := hpres hk
  have hpw : ((pre ++ (a', key) :: post).map Prod.snd).Pairwise (· < ·) := by
    rw [← hc, ← values_eq_cells, ← Ordered_iff]
    exact hrb.1
  obtain ⟨-, hpre, hpost⟩ := pairwise_remove_mid hpw
  have haa : a' = a := by
    rw [hc] at hcell
    simp only [List.mem_append, List.mem_cons, Prod.mk.injEq] at hcell
    rcases hcell with h | ⟨rfl, -⟩ | h
    · exact absurd rfl (hpre _ h)
    · rfl
    · exact absurd rfl (hpost _ h)
  subst haa
  -- the node has a left child, so a node comes before it
  have hpre_ne : pre ≠ [] := by
    obtain ⟨p, c, l, w, r, e⟩ := exists_zipper ha
    subst e
    have hcells := cells_fill p (Tree.node a' c l w r)
    rw [hc, cells_node, List.append_assoc, List.append_assoc, List.cons_append,
      ← List.append_assoc] at hcells
    have hnd2 : ((pre ++ (a', key) :: post).map Prod.fst).Nodup := by
      rw [← hc, ← addrs_eq_cells]; exact hnd
    obtain ⟨e1, -, -⟩ := split_unique hcells hnd2
    have hlay := (Lay_fill.1 hm.2).2
    rw [Lay_node] at hlay
    rw [hlay.1] at hn
    cases hn
    simp only [ne_eq, ptr_eq_none] at hl
    rw [e1]
    intro e
    cases l with
    | nil => exact hl rfl
    | node x cx xl xv xr => simp at e
  obtain ⟨pre0, ⟨pr, pv⟩, rfl⟩ : ∃ pre0 x, pre = pre0 ++ [x] :=
    ⟨pre.dropLast, pre.getLast hpre_ne, (List.dropLast_append_getLast hpre_ne).symm⟩
  have hprev := (next_previous_spec hm.2 hnd hc (s.heap.length + 1)
    (by have := hm.2.height_le hrb.1; omega)).2
  simp only [List.getLast?_append, List.getLast?_singleton, Option.or_some, Option.map_some']
    at hprev
  have hcpr : (pr, pv) ∈ t.cells := by rw [hc]; simp
  obtain ⟨m, hmr, hmv⟩ := hm.2.read_of_cell hcpr
  have hnd' := hm'.2.nodup_addrs hrb'.1
  have keep : ∀ b w, b ≠ a' → (b, w) ∈ t.cells →
      b ∈ t'.addrs ∧ ∃ m', s'.heap.read b = some m' ∧ m'.value = w := by
    intro b w hne hb
    have hb' : (b, w) ∈ t'.cells := by
      rw [hc] at hb
      rw [hc']
      simp only [List.mem_append, List.mem_cons, Prod.mk.injEq] at hb ⊢
      rcases hb with h | ⟨rfl, -⟩ | h
      · exact Or.inl h
      · exact absurd rfl hne
      · exact Or.inr h
    exact ⟨mem_addrs_of_cell hb', hm'.2.read_of_cell hb'⟩
  have hane : pr ≠ a' := by
    rintro rfl
    exact hpre (pr, pv) (by simp) (by
      have hnd2 : ((((pre0 ++ [(pr, pv)]) ++ (pr, key) :: post)).map Prod.fst).Nodup := by
        rw [← hc, ← addrs_eq_cells]; exact hnd
      simp [List.nodup_append] at hnd2)
  have live : ∀ b ∈ t'.addrs, s'.heap.read b ≠ none := by
    intro b hb e
    obtain ⟨x, hx, -⟩ := hm'.2.read_of_mem hb
    rw [e] at hx
    cases hx
  obtain ⟨k1, m', k2, k3⟩ := keep pr pv hane hcpr
  refine ⟨s', t', pr, m, he, hm', hprev, hmr, hra, fun hin => live _ hin hra,
    hfree _ (le_refl _), k1, ⟨m', k2, by rw [k3, hmv]⟩, keep, pre0, post, ?_, ?_⟩
  · rw [hc, hmv]; simp
  · rw [hc', hmv]; simp

theorem erase_frees_erased_node_witness :
    demoSet.Models demoTree ∧ demoTree.RedBlack ∧ 0 ∈ demoTree.addrs ∧
    demoSet.heap.read 0 = some ⟨2, none, some 1, some 2, BLACK⟩ ∧
    ∃ s' t' pr m, demoSet.erase 2 = Except.ok s' ∧ s'.Models t' ∧
      previous (demoSet.heap.length + 1) demoSet.heap (some 0) = Except.ok (some pr) ∧
      demoSet.heap.read pr = some m ∧
      s'.heap.read 0 = none ∧ 0 ∉ t'.addrs ∧ s'.heap.read demoSet.heap.length = none ∧
      pr ∈ t'.addrs ∧ (∃ m', s'.heap.read pr = some m' ∧ m'.value = m.value) ∧
      (∀ b w, b ≠ 0 → (b, w) ∈ demoTree.cells →
        b ∈ t'.addrs ∧ ∃ m', s'.heap.read b = some m' ∧ m'.value = w) ∧
      ∃ pre post, demoTree.cells = pre ++ (pr, m.value) :: (0, 2) :: post ∧
        t'.cells = pre ++ (pr, m.value) :: post :=
  ⟨demo_models, demo_redBlack, demo_root_mem, demo_root_read,
    erase_frees_erased_node demoSet demoTree demo_models demo_redBlack 2 0 _ demo_root_mem
      demo_root_read rfl (by simp) (by simp)⟩

end EraseClaims

end bulumutka

namespace bulumutka

section Clone

variable {α : Type}

theorem Lay_agree {h h' : Heap α} {par : Ptr} {t : Tree α} (hl : Lay h par t)
    (hag : ∀ a ∈ t.addrs, h'.read a = h.read a) : Lay h' par t := by
  induction t generalizing par with
  | nil => trivial
  | node b c l v r ihl ihr =>
    rw [Lay_node] at hl ⊢
    refine ⟨?_, ihl hl.2.1 (fun a ha => hag a (by simp [ha])),
      ihr hl.2.2 (fun a ha => hag a (by simp [ha]))⟩
    rw [hag b (by simp)]
    exact hl.1

@[simp] theorem relabel_nil (a : Nat) : (Tree.nil : Tree α).relabel a = .nil := rfl

@[simp] theorem relabel_node (a b : Nat) (c : Bool) (l r : Tree α) (v : α) :
    (Tree.node b c l v r).relabel a =
      .node a c (l.relabel (a + 1)) v (r.relabel (a + 1 + l.size)) := rfl

theorem size_relabel (t : Tree α) (a : Nat) : (t.relabel a).size = t.size := by
  induction t generalizing a with
  | nil => rfl
  | node b c l v r ihl ihr => simp [Tree.size, ihl, ihr]

theorem strip_relabel (t : Tree α) (a : Nat) : (t.relabel a).strip = t.strip := by
  induction t generalizing a with
  | nil => rfl
  | node b c l v r ihl ihr => simp [Tree.strip, ihl, ihr]

theorem addrs_relabel_range (t : Tree α) (a : Nat) :
    ∀ b ∈ (t.relabel a).addrs, a ≤ b ∧ b < a + t.size := by
  induction t generalizing a with
  | nil => simp
  | node x c l v r ihl ihr =>
    intro b hb
    simp only [relabel_node, addrs_node, List.mem_append, List.mem_cons] at hb
    simp only [Tree.size]
    rcases hb with hb | rfl | hb
    · have := ihl _ b hb; omega
    · omega
    · have := ihr _ b hb; omega

theorem ptr_relabel (t : Tree α) (a : Nat) : (t.relabel a).ptr = t.ptr.map (fun _ => a) := by
  cases t <;> rfl

theorem not_mem_relabel {t : Tree α} {a b : Nat} (hb : b < a) : b ∉ (t.relabel a).addrs :=
  fun hm => by have := addrs_relabel_range t a b hm; omega

/-- The copy of a child in `recursionClone`: the subtree is cloned, if there is one, and
the parent link of the clone is set. -/
theorem clone_child (f : Nat) (h : Heap α) (a : Nat) (u : Tree α)
    (ih : u.ptr ≠ none →
      ∃ h', recursionClone f h u.ptr = Except.ok (h', (u.relabel h.length).ptr) ∧
        Lay h' none (u.relabel h.length) ∧ h'.length = h.length + u.size ∧
        ∀ x, x < h.length → h'.read x = h.read x) :
    ∃ h', (if u.ptr ≠ none then do
          let d ← recursionClone f h u.ptr
          let h1 ← setParent d.1 d.2 (some a)
          pure (h1, d.2)
        else pure (h, none)) = Except.ok (h', (u.relabel h.length).ptr) ∧
      Lay h' (some a) (u.relabel h.length) ∧ h'.length = h.length + u.size ∧
      ∀ x, x < h.length → h'.read x = h.read x := by
  cases u with
  | nil => exact ⟨h, rfl, trivial, rfl, fun _ _ => rfl⟩
  | node x c l v r =>
    obtain ⟨h2, e, hl2, hlen, hag⟩ := ih (by simp)
    simp only [relabel_node, ptr_node, Lay_node] at e hl2 ⊢
    obtain ⟨hr, hll, hlr⟩ := hl2
    have n1 : h.length ∉ (l.relabel (h.length + 1)).addrs := not_mem_relabel (by omega)
    have n2 : h.length ∉ (r.relabel (h.length + 1 + l.size)).addrs := not_mem_relabel (by omega)
    refine ⟨h2.update h.length (fun n => { n with parent := some a }), ?_,
      ⟨?_, (Lay_update _ n1).2 hll, (Lay_update _ n2).2 hlr⟩, ?_, ?_⟩
    · simp only [ne_eq, reduceCtorEq, not_false_eq_true, ↓reduceIte, e, ok_bind, setParent,
        assign_some, hr, Option.map_some', ofOption_some]
      rfl
    · rw [read_update_self, hr]
      rfl
    · rw [length_update, hlen]
    · intro y hy
      rw [read_update_ne _ (by omega), hag y hy]

/-- The function `recursionClone` builds, in new cells at the end of the heap, a copy of
the tree with the same shape, colours and values; the cells of before are not written. -/
theorem recursionClone_sim (t : Tree α) : ∀ (fuel : Nat) (h : Heap α) (par : Ptr),
    Lay h par t → t.height < fuel →
    ∃ h', recursionClone fuel h t.ptr = Except.ok (h', (t.relabel h.length).ptr) ∧
      Lay h' none (t.relabel h.length) ∧ h'.length = h.length + t.size ∧
      ∀ x, x < h.length → h'.read x = h.read x := by
  induction t with
  | nil =>
    intro fuel h par _ hf
    cases fuel with
    | zero => simp [Tree.height] at hf
    | succ f => exact ⟨h, rfl, trivial, rfl, fun _ _ => rfl⟩
  | node b c l v r ihl ihr =>
    intro fuel h par hl hf
    cases fuel with
    | zero => omega
    | succ f =>
      simp only [Tree.height] at hf
      rw [Lay_node] at hl
      obtain ⟨hb, hll, hlr⟩ := hl
      have hlt := read_lt hb
      -- the left child
      have hl1 := Lay_append ⟨v, none, none, none, c⟩ hll
      obtain ⟨h3, e3, hl3, hlen3, hag3⟩ :=
        clone_child f (h ++ [some ⟨v, none, none, none, c⟩]) h.length l
          (fun _ => ihl f _ (some b) hl1 (by omega))
      simp only [List.length_append, List.length_singleton] at e3 hl3 hlen3 hag3
      -- the right child
      have hr3 : Lay h3 (some b) r := Lay_agree hlr (fun x hx => by
        rw [hag3 x (by have := hlr.lt_length hx; omega), read_append_lt _ (hlr.lt_length hx)])
      obtain ⟨h5, e5, hl5, hlen5, hag5⟩ :=
        clone_child f h3 h.length r (fun _ => ihr f _ (some b) hr3 (by omega))
      rw [hlen3] at e5 hl5
      have hl3' : Lay h5 (some h.length) (l.relabel (h.length + 1)) :=
        Lay_agree hl3 (fun x hx => hag5 x (by
          have := addrs_relabel_range l _ x hx; omega))
      have hb3 : h3.read b = some ⟨v, par, l.ptr, r.ptr, c⟩ := by
        rw [hag3 b (by omega), read_append_lt _ hlt, hb]
      have ha5 : h5.read h.length = some ⟨v, none, none, none, c⟩ := by
        rw [hag5 _ (by omega), hag3 _ (by omega), read_append_self]
      have n1 : h.length ∉ (l.relabel (h.length + 1)).addrs := not_mem_relabel (by omega)
      have n2 : h.length ∉ (r.relabel (h.length + 1 + l.size)).addrs :=
        not_mem_relabel (by omega)
      refine ⟨(h5.update h.length (fun n => { n with left := (l.relabel (h.length + 1)).ptr })).update
        h.length (fun n => { n with right := (r.relabel (h.length + 1 + l.size)).ptr }), ?_, ?_, ?_, ?_⟩
      · simp only [recursionClone, ptr_node, reduceCtorEq, ↓reduceIte, getValue_some,
          getColor_some, hb, Option.map_some', ofOption_some, ok_bind, Heap.alloc, getLeft_some,
          getRight_some, read_append_lt _ hlt, e3, hb3, e5, setLeft, setRight, assign_some, ha5,
          read_update_self, relabel_node]
        rfl
      · simp only [relabel_node, Lay_node]
        refine ⟨?_, (Lay_update _ n1).2 ((Lay_update _ n1).2 hl3'),
          (Lay_update _ n2).2 ((Lay_update _ n2).2 hl5)⟩
        rw [read_update_self, read_update_self, ha5]
        rfl
      · simp only [length_update, hlen5, hlen3, Tree.size]
        omega
      · intro x hx
        rw [read_update_ne _ (by omega), read_update_ne _ (by omega), hag5 x (by omega),
          hag3 x (by omega), read_append_lt _ hx]

/-- The function `recursionDelete` frees the cells of the tree and no other. -/
theorem recursionDelete_sim (t : Tree α) : ∀ (fuel : Nat) (h : Heap α) (par : Ptr),
    Lay h par t → t.addrs.Nodup → t.height < fuel →
    ∃ h', recursionDelete fuel h t.ptr = Except.ok h' ∧ h'.length = h.length ∧
      (∀ a ∈ t.addrs, h'.read a = none) ∧ Heap.AgreeOff t.addrs h h' := by
  induction t with
  | nil =>
    intro fuel h par _ _ hf
    cases fuel with
    | zero => simp [Tree.height] at hf
    | succ f => exact ⟨h, rfl, rfl, by simp, AgreeOff_refl _ _⟩
  | node b c l v r ihl ihr =>
    intro fuel h par hl hn hf
    cases fuel with
    | zero => omega
    | succ f =>
      simp only [Tree.height] at hf
      rw [Lay_node] at hl
      obtain ⟨hb, hll, hlr⟩ := hl
      simp only [addrs_node, List.nodup_append, List.nodup_cons, List.mem_cons,
        List.disjoint_cons_right] at hn
      obtain ⟨nl, ⟨nbr, nr⟩, nbl, dlr⟩ := hn
      obtain ⟨h1, e1, len1, fr1, ag1⟩ := ihl f h (some b) hll nl (by omega)
      have hb1 : h1.read b = some ⟨v, par, l.ptr, r.ptr, c⟩ := by rw [ag1 b nbl, hb]
      have hr1 : Lay h1 (some b) r := Lay_agree hlr (fun x hx => ag1 x (fun hm => dlr hm hx))
      obtain ⟨h2, e2, len2, fr2, ag2⟩ := ihr f h1 (some b) hr1 nr (by omega)
      have hb2 : h2.read b = some ⟨v, par, l.ptr, r.ptr, c⟩ := by rw [ag2 b nbr, hb1]
      refine ⟨h2.clear b, ?_, by rw [length_clear, len2, len1], ?_, ?_⟩
      · simp only [recursionDelete, ptr_node, reduceCtorEq, ↓reduceIte, getLeft_some, hb,
          Option.map_some', ofOption_some, ok_bind, e1, getRight_some, hb1, e2, free_some hb2]
      · intro a ha
        simp only [addrs_node, List.mem_append, List.mem_cons] at ha
        by_cases hab : a = b
        · rw [hab, read_clear_self]
        · rw [read_clear_ne hab]
          rcases ha with ha | ha | ha
          · rw [ag2 a (fun hm => dlr ha hm), fr1 a ha]
          · exact absurd ha hab
          · exact fr2 a ha
      · intro x hx
        simp only [addrs_node, List.mem_append, List.mem_cons, not_or] at hx
        rw [read_clear_ne hx.2.1, ag2 x hx.2.2, ag1 x hx.1]

end Clone

end bulumutka

namespace bulumutka

section Copy

variable {α : Type}

theorem values_relabel (t : Tree α) (a : Nat) : (t.relabel a).values = t.values := by
  induction t generalizing a with
  | nil => rfl
  | node b c l v r ihl ihr => simp [ihl, ihr]

theorem blackCount_relabel (t : Tree α) (a : Nat) : (t.relabel a).blackCount = t.blackCount := by
  induction t generalizing a with
  | nil => rfl
  | node b c l v r ihl ihr => simp [Tree.blackCount, ihl]

theorem isRed_relabel (t : Tree α) (a : Nat) : (t.relabel a).isRed = t.isRed := by
  cases t <;> rfl

theorem redBlack_relabel [LinearOrder α] {t : Tree α} (hrb : t.RedBlack) (a : Nat) :
    (t.relabel a).RedBlack := by
  obtain ⟨ho, h1, h2, h3⟩ := hrb
  refine ⟨?_, by rw [isRed_relabel]; exact h1, ?_, ?_⟩
  · rw [Ordered_iff, values_relabel, ← Ordered_iff]
    exact ho
  · clear ho h1 h3
    induction t generalizing a with
    | nil => trivial
    | node b c l v r ihl ihr =>
      obtain ⟨hc, hl, hr⟩ := h2
      exact ⟨by simpa [isRed_relabel] using hc, ihl _ hl, ihr _ hr⟩
  · clear ho h1 h2
    induction t generalizing a with
    | nil => trivial
    | node b c l v r ihl ihr =>
      obtain ⟨hc, hl, hr⟩ := h3
      exact ⟨by simpa [blackCount_relabel] using hc, ihl _ hl, ihr _ hr⟩

theorem nodup_relabel (t : Tree α) (a : Nat) : (t.relabel a).addrs.Nodup := by
  induction t generalizing a with
  | nil => simp
  | node b c l v r ihl ihr =>
    simp only [relabel_node, addrs_node, List.nodup_append, List.nodup_cons]
    refine ⟨ihl _, ⟨fun hm => ?_, ihr _⟩, fun x hx hy => ?_⟩
    · have := addrs_relabel_range r _ a hm; omega
    · have h1 := addrs_relabel_range l _ x hx
      simp only [List.mem_cons] at hy
      rcases hy with rfl | hy
      · omega
      · have := addrs_relabel_range r _ x hy; omega

/-- The copy constructor makes a fresh copy. -/
theorem copy_spec (a : Set α) (t : Tree α) (hm : a.Models t) (hn : t.addrs.Nodup)
    (hs : a.size = t.size) : ∃ b, a.copy = Except.ok b ∧ FreshCopy a b t := by
  obtain ⟨hroot, hl⟩ := hm
  have hh := hl.height_le_of_nodup hn
  cases t with
  | nil =>
    refine ⟨⟨a.heap, none, 0⟩, ?_, rfl, trivial, ?_, fun _ _ => rfl⟩
    · simp only [ptr_nil] at hroot
      simp [Set.copy, hroot]
    · exact hs.symm
  | node x c l v r =>
    obtain ⟨h', e, hl', -, hag⟩ := recursionClone_sim _ (a.heap.length + 1) a.heap none hl
      (by omega)
    refine ⟨⟨h', (Tree.relabel a.heap.length (.node x c l v r)).ptr, a.size_⟩, ?_, rfl, hl', rfl,
      fun y hy => hag y (hl.lt_length hy)⟩
    simp only [ptr_node] at hroot e
    simp only [Set.copy, hroot, ne_eq, reduceCtorEq, not_false_eq_true, ↓reduceIte, e, ok_bind]
    rfl

/-- The assignment `b0 = a` of a set that shares no node with `a` makes a fresh copy. -/
theorem assign_spec (a b0 : Set α) (t u0 : Tree α) (hm : a.Models t) (hn : t.addrs.Nodup)
    (hs : a.size = t.size) (hh : b0.heap = a.heap) (hm0 : b0.Models u0)
    (hn0 : u0.addrs.Nodup) (hs0 : b0.size = u0.size) (hd : ∀ x ∈ u0.addrs, x ∉ t.addrs) :
    ∃ b, b0.assign a = Except.ok b ∧ FreshCopy a b t := by
  obtain ⟨hroot, hl⟩ := hm
  obtain ⟨hroot0, hl0⟩ := hm0
  by_cases hne : b0.root_ = a.root_
  · have ht : t = .nil := by
      cases t with
      | nil => rfl
      | node x c l v r =>
        exfalso
        rw [hroot0, hroot] at hne
        exact hd x (ptr_mem_addrs hne) (by simp)
    subst ht
    have hu : u0 = .nil := by
      rw [hroot0, hroot] at hne
      exact ptr_eq_none.1 hne
    subst hu
    refine ⟨b0, by simp [Set.assign, hne], ?_, trivial, ?_, fun _ _ => by rw [hh]⟩
    · rw [hroot0]; rfl
    · have e1 : b0.size_ = 0 := hs0
      have e2 : a.size_ = 0 := hs
      rw [e1, e2]
  · rw [hh] at hl0
    obtain ⟨h1, e1, len1, -, ag1⟩ := recursionDelete_sim u0 (a.heap.length + 1) a.heap none hl0 hn0
      (by have := hl0.height_le_of_nodup hn0; omega)
    have hl1 : Lay h1 none t := Lay_agree hl (fun x hx => ag1 x (fun hm => hd x hm hx))
    obtain ⟨h2, e2, hl2, -, ag2⟩ := recursionClone_sim t (h1.length + 1) h1 none hl1
      (by have := hl1.height_le_of_nodup hn; omega)
    have hp : (t.relabel h1.length).ptr = (t.relabel a.heap.length).ptr := by rw [len1]
    rw [len1] at hl2
    refine ⟨⟨h2, (t.relabel a.heap.length).ptr, a.size_⟩, ?_, rfl, hl2, rfl, fun y hy => ?_⟩
    · have hne' : ¬ u0.ptr = t.ptr := by rw [← hroot0, ← hroot]; exact hne
      simp only [Set.assign, ne_eq, hh, hroot0, e1, ok_bind, hroot, e2]
      rw [if_pos hne', hp]
      rfl
    · rw [ag2 y (by have := hl.lt_length hy; omega), ag1 y (fun hm => hd y hm hy)]

/-- A call of `insert` or `erase` on a well-formed set leaves alone a tree that lies
elsewhere in the same heap. -/
theorem apply_frame [LinearOrder α] (s : Set α) (t u : Tree α) (hm : s.Models t)
    (hrb : t.RedBlack) (hu : Lay s.heap none u) (hd : ∀ x ∈ t.addrs, x ∉ u.addrs) (o : Op α) :
    ∃ s' t', s.apply o = Except.ok s' ∧ s'.Models t' ∧ t'.RedBlack ∧ Lay s'.heap none u ∧
      ∀ x ∈ t'.addrs, x ∉ u.addrs := by
  have keep : ∀ {h' : Heap α}, Heap.AgreeOff (s.heap.length :: t.addrs) s.heap h' →
      Lay h' none u := by
    intro h' hag
    refine Lay_agree hu (fun y hy => hag y ?_)
    simp only [List.mem_cons, not_or]
    exact ⟨Nat.ne_of_lt (hu.lt_length hy), fun hm => hd y hm hy⟩
  cases o with
  | insert k =>
    obtain ⟨s', t', he, hm', hrb', hc, -, -, hag⟩ := insert_spec s t k hm hrb
    refine ⟨s', t', he, hm', hrb', keep hag, ?_⟩
    intro x hx hxu
    rw [addrs_eq_cells, List.mem_map] at hx
    obtain ⟨⟨y, w⟩, hc1, rfl⟩ := hx
    rcases (hc _).1 hc1 with h1 | ⟨-, h1⟩
    · exact hd _ (mem_addrs_of_cell h1) hxu
    · cases h1
      have := hu.lt_length hxu
      simp at this
  | erase k =>
    obtain ⟨s', t', he, hm', hrb', hc, -, -, -, -, hag⟩ := erase_spec_mem s t k hm hrb
    refine ⟨s', t', he, hm', hrb', keep hag, ?_⟩
    intro x hx hxu
    rw [addrs_eq_cells, List.mem_map] at hx
    obtain ⟨⟨y, w⟩, hc1, rfl⟩ := hx
    exact hd _ (mem_addrs_of_cell ((hc _).1 hc1).1) hxu

theorem applyAll_frame [LinearOrder α] (ops : List (Op α)) : ∀ (s : Set α) (t u : Tree α),
    s.Models t → t.RedBlack → Lay s.heap none u → (∀ x ∈ t.addrs, x ∉ u.addrs) →
    ∃ s' t', s.applyAll ops = Except.ok s' ∧ s'.Models t' ∧ t'.RedBlack ∧ Lay s'.heap none u ∧
      ∀ x ∈ t'.addrs, x ∉ u.addrs := by
  induction ops with
  | nil =>
    intro s t u hm hrb hu hd
    exact ⟨s, t, rfl, hm, hrb, hu, hd⟩
  | cons o ops ih =>
    intro s t u hm hrb hu hd
    obtain ⟨s1, t1, he, hm1, hrb1, hu1, hd1⟩ := apply_frame s t u hm hrb hu hd o
    obtain ⟨s2, t2, he2, hm2, hrb2, hu2, hd2⟩ := ih s1 t1 u hm1 hrb1 hu1 hd1
    refine ⟨s2, t2, ?_, hm2, hrb2, hu2, hd2⟩
    simp only [Set.applyAll, List.foldlM] at he2 ⊢
    rw [he]
    exact he2

/-- In a tree in strict search order a value is stored in one node only. -/
theorem cell_unique [LinearOrder α] {t : Tree α} (ho : t.Ordered) {a b : Nat} {v : α}
    (ha : (a, v) ∈ t.cells) (hb : (b, v) ∈ t.cells) : a = b := by
  obtain ⟨pre, post, hc⟩ := List.append_of_mem ha
  have hpw : ((pre ++ (a, v) :: post).map Prod.snd).Pairwise (· < ·) := by
    rw [← hc, ← values_eq_cells, ← Ordered_iff]
    exact ho
  obtain ⟨-, hpre, hpost⟩ := pairwise_remove_mid hpw
  rw [hc] at hb
  simp only [List.mem_append, List.mem_cons, Prod.mk.injEq] at hb
  rcases hb with h | ⟨rfl, -⟩ | h
  · exact absurd rfl (hpre _ h)
  · rfl
  · exact absurd rfl (hpost _ h)

/-- Two states of the store in which the links of a set draw the same tree give the
same answers to `find` and the same traversal. -/
theorem view_stable [LinearOrder α] {s s' : Set α} {t : Tree α} (hm : s.Models t)
    (hm' : s'.Models t) (ho : t.Ordered) :
    s'.toList = s.toList ∧ ∀ x, s'.find x = s.find x := by
  have hn := hm.2.nodup_addrs ho
  refine ⟨by rw [toList_spec hm hn, toList_spec hm' hn], fun x => ?_⟩
  obtain ⟨p, hp, h1, h2⟩ := find__spec hm ho x
  obtain ⟨p', hp', h1', h2'⟩ := find__spec hm' ho x
  have hroot : s'.root_ = s.root_ := by rw [hm.1, hm'.1]
  have hpp : p' = p := by
    by_cases hx : x ∈ t.values
    · obtain ⟨a, n, rfl, ha, hr, hv⟩ := h1 hx
      obtain ⟨a', n', rfl, ha', hr', hv'⟩ := h1' hx
      have c1 := hm.2.cell_of_mem ha hr
      have c2 := hm'.2.cell_of_mem ha' hr'
      rw [hv] at c1
      rw [hv'] at c2
      rw [cell_unique ho c2 c1]
    · rw [h2 hx, h2' hx]
  simp only [Set.find, hp, hp', hpp, hroot]

end Copy

end bulumutka

namespace bulumutka

section CopyClaims

variable {α : Type}

/-- C12: copy independence.  Let `a` be a well-formed set and `b0` a well-formed set in
the same store that shares no node with `a`.  The copy constructor on `a` and the
assignment `b0 = a` both return; a set `b` that either of them yields has a tree `u` of
the same shape, colours and values as the tree `t` of `a` and the same size, with
consistent parent links, made of cells that `a` does not use and that were allocated by
the call, and `a` still has its tree.  After any sequence of `insert` and `erase` calls
on `b` the traversal of `a` and the result of every `find` on `a` are as before, and
after any such sequence on `a` those of `b` are as before. -/
theorem copy_independence [LinearOrder α] (a b0 : Set α) (t u0 : Tree α)
    (hm : a.Models t) (hrb : t.RedBlack) (hs : a.size = t.size)
    (hh : b0.heap = a.heap) (hm0 : b0.Models u0) (hrb0 : u0.RedBlack) (hs0 : b0.size = u0.size)
    (hd : ∀ x ∈ u0.addrs, x ∉ t.addrs) :
    (∃ b, a.copy = Except.ok b) ∧ (∃ b, b0.assign a = Except.ok b) ∧
    ∀ b, (a.copy = Except.ok b ∨ b0.assign a = Except.ok b) →
      ∃ u, b.Models u ∧ u.strip = t.strip ∧ b.size = a.size ∧
        b.heap.ParentLinksOK b.root_ u.addrs ∧
        (∀ x ∈ u.addrs, x ∉ t.addrs ∧ a.heap.length ≤ x) ∧
        (a.seenIn b.heap).Models t ∧
        (a.seenIn b.heap).toList = a.toList ∧ b.toList = a.toList ∧
        ∀ ops : List (Op α),
          (∃ b', b.applyAll ops = Except.ok b' ∧
            (a.seenIn b'.heap).toList = a.toList ∧
            ∀ x, (a.seenIn b'.heap).find x = a.find x) ∧
          (∃ a', (a.seenIn b.heap).applyAll ops = Except.ok a' ∧
            (b.seenIn a'.heap).toList = b.toList ∧
            ∀ x, (b.seenIn a'.heap).find x = b.find x) := by
  have hn := hm.2.nodup_addrs hrb.1
  have hn0 := hm0.2.nodup_addrs hrb0.1
  obtain ⟨b1, e1, f1⟩ := copy_spec a t hm hn hs
  obtain ⟨b2, e2, f2⟩ := assign_spec a b0 t u0 hm hn hs hh hm0 hn0 hs0 hd
  have main : ∀ b, FreshCopy a b t →
      ∃ u, b.Models u ∧ u.strip = t.strip ∧ b.size = a.size ∧
        b.heap.ParentLinksOK b.root_ u.addrs ∧
        (∀ x ∈ u.addrs, x ∉ t.addrs ∧ a.heap.length ≤ x) ∧
        (a.seenIn b.heap).Models t ∧
        (a.seenIn b.heap).toList = a.toList ∧ b.toList = a.toList ∧
        ∀ ops : List (Op α),
          (∃ b', b.applyAll ops = Except.ok b' ∧
            (a.seenIn b'.heap).toList = a.toList ∧
            ∀ x, (a.seenIn b'.heap).find x = a.find x) ∧
          (∃ a', (a.seenIn b.heap).applyAll ops = Except.ok a' ∧
            (b.seenIn a'.heap).toList = b.toList ∧
            ∀ x, (b.seenIn a'.heap).find x = b.find x) := by
    rintro b ⟨hroot, hl, hsz, hag⟩
    have hmb : b.Models (t.relabel a.heap.length) := ⟨hroot, hl⟩
    have hrbb := redBlack_relabel hrb a.heap.length
    have hnb := nodup_relabel t a.heap.length
    have hma : (a.seenIn b.heap).Models t := ⟨hm.1, Lay_agree hm.2 hag⟩
    have hap : ∀ x ∈ (t.relabel a.heap.length).addrs, x ∉ t.addrs ∧ a.heap.length ≤ x := by
      intro x hx
      have h1 := addrs_relabel_range t _ x hx
      exact ⟨fun hxt => by have := hm.2.lt_length hxt; omega, h1.1⟩
    refine ⟨t.relabel a.heap.length, hmb, strip_relabel t _, hsz, Models.parentLinksOK hmb hnb,
      hap, hma, (view_stable hm hma hrb.1).1, ?_, fun ops => ⟨?_, ?_⟩⟩
    · rw [toList_spec hmb hnb, toList_spec hm hn, values_relabel]
    · obtain ⟨b', u', he, -, -, hlay, -⟩ := applyAll_frame ops b _ t hmb hrbb hma.2
        (fun x hx => (hap x hx).1)
      have hma' : (a.seenIn b'.heap).Models t := ⟨hm.1, hlay⟩
      exact ⟨b', he, (view_stable hm hma' hrb.1).1, (view_stable hm hma' hrb.1).2⟩
    · obtain ⟨a', t', he, -, -, hlay, -⟩ := applyAll_frame ops (a.seenIn b.heap) t _ hma hrb hl
        (fun x hx hxu => (hap x hxu).1 hx)
      have hmb' : (b.seenIn a'.heap).Models (t.relabel a.heap.length) := ⟨hroot, hlay⟩
      exact ⟨a', he, (view_stable hmb hmb' hrbb.1).1, (view_stable hmb hmb' hrbb.1).2⟩
  refine ⟨⟨b1, e1⟩, ⟨b2, e2⟩, ?_⟩
  rintro b (hb | hb)
  · rw [e1] at hb
    cases hb
    exact main b1 f1
  · rw [e2] at hb
    cases hb
    exact main b2 f2

theorem copy_independence_witness :
    duoA.Models demoTree ∧ demoTree.RedBlack ∧ duoA.size = demoTree.size ∧
    duoB.heap = duoA.heap ∧ duoB.Models duoTree ∧ duoTree.RedBlack ∧
    duoB.size = duoTree.size ∧ (∀ x ∈ duoTree.addrs, x ∉ demoTree.addrs) ∧
    (∃ b, duoA.copy = Except.ok b) ∧ (∃ b, duoB.assign duoA = Except.ok b) ∧
    ∀ b, (duoA.copy = Except.ok b ∨ duoB.assign duoA = Except.ok b) →
      ∃ u, b.Models u ∧ u.strip = demoTree.strip ∧ b.size = duoA.size ∧
        b.heap.ParentLinksOK b.root_ u.addrs ∧
        (∀ x ∈ u.addrs, x ∉ demoTree.addrs ∧ duoA.heap.length ≤ x) ∧
        (duoA.seenIn b.heap).Models demoTree ∧
        (duoA.seenIn b.heap).toList = duoA.toList ∧ b.toList = duoA.toList ∧
        ∀ ops : List (Op Nat),
          (∃ b', b.applyAll ops = Except.ok b' ∧
            (duoA.seenIn b'.heap).toList = duoA.toList ∧
            ∀ x, (duoA.seenIn b'.heap).find x = duoA.find x) ∧
          (∃ a', (duoA.seenIn b.heap).applyAll ops = Except.ok a' ∧
            (b.seenIn a'.heap).toList = b.toList ∧
            ∀ x, (b.seenIn a'.heap).find x = b.find x) :=
  ⟨duoA_models, demo_redBlack, by decide, rfl, duoB_models, duoTree_redBlack, by decide,
    duo_apart,
    copy_independence duoA duoB demoTree duoTree duoA_models demo_redBlack (by decide) rfl
      duoB_models duoTree_redBlack (by decide) duo_apart⟩

end CopyClaims

end bulumutka
